import Mathlib

/-! Write-behind translator: per-inode write-back state machine.

Shallow embedding of `xlators/performance/write-behind/src/write-behind.c`.

* Requests live in a store `mem : Nat → wb_request` indexed by their address;
  the intrusive lists of the source (`all`, `todo`, `liability`, `temptation`,
  `winds`, `unwinds`) are lists of addresses, in list order.
* `off_t` is the signed 64-bit type of LP64 Linux and `size_t` the unsigned
  64-bit one; conversions to `off_t` wrap (`to_off_t`), the `size_t`
  subtraction of `__wb_preprocess_winds` wraps (`size_t_sub`).  The counters
  `gen`, `window_current`, `transit` and the payload sizes are unbounded
  integers: they count bytes and events of one run.
* Bit-field flags are booleans.
* The lower layer is asynchronous: `STACK_WIND` of a batch records the head as
  in flight, and its completion is a later call of `wb_fulfill_cbk`.
* The calls the engine makes upward and downward are recorded, in order, in
  the `out` field of the state.
-/

namespace WriteBehind

/-! ## Constants and machine integers -/

def MAX_VECTOR_COUNT : Nat := 8

def WB_AGGREGATE_SIZE : Nat := 131072

def WB_WINDOW_SIZE : Nat := 1048576

/-- The largest `unsigned long long`, from `<limits.h>`. -/
def ULLONG_MAX : Nat := 2 ^ 64 - 1

/-- Conversion of an integer value to `off_t` (signed, 64 bits, two's complement). -/
def to_off_t (x : Int) : Int := (x + 2 ^ 63) % 2 ^ 64 - 2 ^ 63

/-- Subtraction in `size_t` (unsigned, 64 bits). -/
def size_t_sub (a b : Nat) : Nat := (a + 2 ^ 64 - b % 2 ^ 64) % 2 ^ 64

/-- Conversion of an `int32_t` to `size_t`, as done by the usual arithmetic
conversions when the two are compared. -/
def to_size_t (x : Int) : Nat := (x % 2 ^ 64).toNat

/-- Conversion to `int` (signed, 32 bits): what an `int` variable holds after a
`size_t` is assigned to it. -/
def to_int (x : Int) : Int := (x + 2 ^ 31) % 2 ^ 32 - 2 ^ 31

def ENOMEM : Int := 12

def EIO : Int := 5

def EINVAL : Int := 22

/-- Open flags of `<fcntl.h>` (Linux, x86-64). -/
def O_APPEND : Nat := 1024

def O_DSYNC : Nat := 4096

def O_DIRECT : Nat := 16384

def O_SYNC : Nat := 1052672

/-! ## Data model -/

inductive glusterfs_fop_t where
  | GF_FOP_NULL
  | GF_FOP_STAT
  | GF_FOP_TRUNCATE
  | GF_FOP_READ
  | GF_FOP_WRITE
  | GF_FOP_FLUSH
  | GF_FOP_FSYNC
  | GF_FOP_FTRUNCATE
  | GF_FOP_FSTAT
  | GF_FOP_SETATTR
  | GF_FOP_FSETATTR
  deriving DecidableEq, Repr

open glusterfs_fop_t

structure wb_conf where
  aggregate_size : Nat
  window_size : Nat
  flush_behind : Bool
  trickling_writes : Bool
  strict_write_ordering : Bool
  strict_O_DIRECT : Bool
  deriving DecidableEq, Repr

/-- The translator instance: `this->private` and `this->ctx->page_size`. -/
structure xlator_t where
  priv : wb_conf
  page_size : Nat
  deriving DecidableEq, Repr

/-- An open file: its address and its open flags. -/
structure fd_t where
  addr : Nat
  flags : Nat
  deriving DecidableEq, Repr

/-- One `struct iovec`: the bytes found from `iov_base` on, and `iov_len`. -/
structure iovec where
  iov_base : List Nat
  iov_len : Nat
  deriving DecidableEq, Repr

/-- The bytes an iovec designates. -/
def iovec.bytes (v : iovec) : List Nat := v.iov_base.take v.iov_len

/-- Total length of a vector. -/
def iov_length (vector : List iovec) : Nat := (vector.map (fun v => v.iov_len)).sum

/-- The bytes `iov_unload` copies out of a vector. -/
def iov_unload (vector : List iovec) : List Nat := (vector.map iovec.bytes).flatten

/-- A suspended call: the fop, the caller's frame and lock owner, and the
arguments the engine reads. -/
structure call_stub_t where
  fop : glusterfs_fop_t
  frame : Nat
  lk_owner : Nat
  fd : Option fd_t
  vector : List iovec
  off : Int
  size : Nat
  flags : Nat
  deriving DecidableEq, Repr

structure wb_ordering where
  size : Nat
  off : Int
  append : Bool
  tempted : Bool
  lied : Bool
  fulfilled : Bool
  go : Bool
  deriving DecidableEq, Repr

structure wb_request where
  stub : call_stub_t
  write_size : Nat
  orig_size : Nat
  total_size : Nat
  op_ret : Int
  op_errno : Int
  refcount : Int
  fop : glusterfs_fop_t
  lk_owner : Nat
  iobref : Bool
  gen : Nat
  fd : Nat
  ordering : wb_ordering
  winds : List Nat
  deriving DecidableEq, Repr

structure wb_inode where
  window_conf : Int
  window_current : Int
  transit : Int
  op_ret : Int
  op_errno : Int
  all : List Nat
  todo : List Nat
  liability : List Nat
  temptation : List Nat
  gen : Nat
  deriving DecidableEq, Repr

/-- What the engine does to its neighbours. -/
inductive wb_event where
  | unwind (fop : glusterfs_fop_t) (frame : Nat) (op_ret op_errno : Int)
  | wind (stub : call_stub_t)
  | wind_bg (stub : call_stub_t)
  | wind_writev (head : Nat) (fd : Nat) (vector : List iovec) (off : Int) (flags : Nat)
  deriving DecidableEq, Repr

/-- The state of one inode's engine: whether the inode context is set, the
inode context, the request store, the next free address, the batch heads in
flight below, and the calls made so far. -/
structure wb_state where
  ctx : Bool
  inode : wb_inode
  mem : Nat → wb_request
  next : Nat
  inflight : List Nat
  out : List wb_event

/-- Outcome of the allocations the engine attempts during one call into it. -/
structure wb_env where
  inode_calloc : Bool
  fop_stub : Bool
  request_calloc : Bool
  create_frame : Nat → Bool
  copy_frame : Nat → Bool
  iobuf_get : Nat → Bool

/-- Store update at one address. -/
def mem_set (mem : Nat → wb_request) (a : Nat) (r : wb_request) : Nat → wb_request :=
  fun b => if b = a then r else mem b

/-- Unlinking a node from a list, as `list_del_init` does. -/
def list_del (a : Nat) (l : List Nat) : List Nat := l.filter (fun b => b != a)

/-! ## Overlap and conflict oracle -/

/-- End of the byte range of a request, as `wb_requests_overlap` computes it
into an `off_t` variable. -/
def wb_range_end (req : wb_request) : Int :=
  if req.ordering.size ≠ 0 then
    to_off_t (req.ordering.off + req.ordering.size - 1)
  else
    to_off_t ULLONG_MAX

def wb_requests_overlap (req1 req2 : wb_request) : Bool :=
  let r1_start := req1.ordering.off
  let r1_end := wb_range_end req1
  let r2_start := req2.ordering.off
  let r2_end := wb_range_end req2
  decide (r1_end ≥ r2_start) && decide (r2_end ≥ r1_start)

def wb_requests_conflict (xl : xlator_t) (mem : Nat → wb_request) (lie req : Nat) : Bool :=
  if lie = req then false
  else if (mem lie).gen ≥ (mem req).gen then false
  else if (mem lie).ordering.append then true
  else if xl.priv.strict_write_ordering then true
  else wb_requests_overlap (mem lie) (mem req)

/-- Loop of `wb_liability_has_conflict` over the liability list. -/
def wb_liability_has_conflict_loop (xl : xlator_t) (mem : Nat → wb_request) (req : Nat) :
    List Nat → Bool
  | [] => false
  | each :: rest =>
    if wb_requests_conflict xl mem each req then true
    else wb_liability_has_conflict_loop xl mem req rest

def wb_liability_has_conflict (xl : xlator_t) (s : wb_state) (req : Nat) : Bool :=
  wb_liability_has_conflict_loop xl s.mem req s.inode.liability

/-! ## Request lifecycle -/

/-- Body of `__wb_request_unref` for a request whose count reached zero: the
request leaves every list (GF_FREE follows), and an empty `all` resets the
generation and the window. -/
def wb_request_destroy (ino : wb_inode) (req : Nat) : wb_inode :=
  let ino1 := { ino with
    todo := list_del req ino.todo
    liability := list_del req ino.liability
    temptation := list_del req ino.temptation
    all := list_del req ino.all }
  if ino1.all.isEmpty then
    { ino1 with gen := 0, window_current := 0 }
  else ino1

def __wb_request_unref (s : wb_state) (req : Nat) : wb_state :=
  let r := s.mem req
  if r.refcount ≤ 0 then s
  else
    let r1 := { r with refcount := r.refcount - 1 }
    let s1 := { s with mem := mem_set s.mem req r1 }
    if r1.refcount = 0 then
      { s1 with inode := wb_request_destroy s1.inode req }
    else s1

def wb_request_unref (s : wb_state) (req : Nat) : wb_state :=
  __wb_request_unref s req

def __wb_request_ref (s : wb_state) (req : Nat) : wb_state :=
  let r := s.mem req
  if r.refcount < 0 then s
  else { s with mem := mem_set s.mem req { r with refcount := r.refcount + 1 } }

/-- A zeroed request, as GF_CALLOC returns it. -/
def wb_request_zero (stub : call_stub_t) : wb_request :=
  { stub := stub
    write_size := 0
    orig_size := 0
    total_size := 0
    op_ret := 0
    op_errno := 0
    refcount := 0
    fop := GF_FOP_NULL
    lk_owner := 0
    iobref := false
    gen := 0
    fd := 0
    ordering :=
      { size := 0, off := 0, append := false, tempted := false, lied := false,
        fulfilled := false, go := false }
    winds := [] }

/-- Address of the fd of a stub (0 when the fop carries none). -/
def stub_fd_addr (stub : call_stub_t) : Nat :=
  match stub.fd with
  | some fd => fd.addr
  | none => 0

def stub_fd_flags (stub : call_stub_t) : Nat :=
  match stub.fd with
  | some fd => fd.flags
  | none => 0

/-- The request `wb_enqueue_common` builds before it takes the lock. -/
def wb_request_init (stub : call_stub_t) (tempted : Bool) : wb_request :=
  let req := wb_request_zero stub
  let req := { req with fop := stub.fop, ordering := { req.ordering with tempted := tempted } }
  let req :=
    if stub.fop = GF_FOP_WRITE then
      let write_size := iov_length stub.vector
      { req with
        write_size := write_size
        orig_size := write_size
        op_ret := to_int write_size
        op_errno := 0
        ordering := { req.ordering with
          append := decide (Nat.land (stub_fd_flags stub) O_APPEND ≠ 0) } }
    else req
  let req := { req with lk_owner := stub.lk_owner }
  match stub.fop with
  | GF_FOP_WRITE =>
    { req with
      ordering := { req.ordering with off := stub.off, size := req.write_size }
      fd := stub_fd_addr stub }
  | GF_FOP_READ =>
    { req with
      ordering := { req.ordering with off := stub.off, size := stub.size }
      fd := stub_fd_addr stub }
  | GF_FOP_TRUNCATE =>
    { req with ordering := { req.ordering with off := stub.off, size := 0 } }
  | GF_FOP_FTRUNCATE =>
    { req with
      ordering := { req.ordering with off := stub.off, size := 0 }
      fd := stub_fd_addr stub }
  | _ => req

/-- Model of `wb_enqueue_common`.  The new request gets the address `s.next`. -/
def wb_enqueue_common (env : wb_env) (s : wb_state) (stub : call_stub_t) (tempted : Bool) :
    wb_state × Bool :=
  if !env.request_calloc then (s, false)
  else
    let req := s.next
    let r := wb_request_init stub tempted
    let s := { s with next := s.next + 1, mem := mem_set s.mem req r }
    let s := { s with inode := { s.inode with all := s.inode.all ++ [req] } }
    let s := { s with mem := mem_set s.mem req { s.mem req with gen := s.inode.gen } }
    let s := { s with inode := { s.inode with todo := s.inode.todo ++ [req] } }
    let s := __wb_request_ref s req
    let s :=
      if (s.mem req).ordering.tempted then
        let s := { s with inode := { s.inode with temptation := s.inode.temptation ++ [req] } }
        __wb_request_ref s req
      else s
    (s, true)

def wb_enqueue (env : wb_env) (s : wb_state) (stub : call_stub_t) : wb_state × Bool :=
  wb_enqueue_common env s stub false

def wb_enqueue_tempted (env : wb_env) (s : wb_state) (stub : call_stub_t) : wb_state × Bool :=
  wb_enqueue_common env s stub true

/-- The inode context `__wb_inode_create` builds. -/
def wb_inode_zero (xl : xlator_t) : wb_inode :=
  { window_conf := xl.priv.window_size
    window_current := 0
    transit := 0
    op_ret := 0
    op_errno := 0
    all := []
    todo := []
    liability := []
    temptation := []
    gen := 0 }

/-- The engine state of an inode nothing has touched yet: no context. -/
def wb_state_init (xl : xlator_t) : wb_state :=
  { ctx := false
    inode := wb_inode_zero xl
    mem := fun _ => wb_request_zero
      { fop := GF_FOP_NULL, frame := 0, lk_owner := 0, fd := none, vector := [], off := 0,
        size := 0, flags := 0 }
    next := 1
    inflight := []
    out := [] }

def __wb_fulfill_request (s : wb_state) (req : Nat) : wb_state :=
  let r := s.mem req
  let r1 := { r with ordering := { r.ordering with fulfilled := true } }
  let s := { s with mem := mem_set s.mem req r1 }
  let s := { s with inode := { s.inode with
    window_current := s.inode.window_current - r.total_size } }
  let s := { s with inode := { s.inode with transit := s.inode.transit - r.total_size } }
  __wb_request_unref s req

/-- Loop of `wb_head_done` over the members linked on the head. -/
def wb_head_done_loop : List Nat → wb_state → wb_state
  | [], s => s
  | req :: rest, s => wb_head_done_loop rest (__wb_fulfill_request s req)

def wb_head_done (s : wb_state) (head : Nat) : wb_state :=
  let s := wb_head_done_loop (s.mem head).winds s
  __wb_fulfill_request s head

def wb_inode_err (s : wb_state) (op_errno : Int) : wb_state :=
  { s with inode := { s.inode with op_ret := -1, op_errno := op_errno } }

/-- Model of `wb_inode_create`: the context is created on first use; `none`
when its allocation fails. -/
def wb_inode_create (xl : xlator_t) (env : wb_env) (s : wb_state) : Option wb_state :=
  if s.ctx then some s
  else if !env.inode_calloc then none
  else some { s with ctx := true, inode := wb_inode_zero xl }

/-! ## Fulfiller -/

/-- Model of `WB_IOV_LOAD (vec, cnt, req, head)`: the iovecs of `req` are copied
behind those already in `vec`, and `head->total_size` grows by `req->write_size`. -/
def WB_IOV_LOAD (s : wb_state) (vec : List iovec) (req head : Nat) : wb_state × List iovec :=
  let vec := vec ++ (s.mem req).stub.vector
  let h := s.mem head
  let h1 := { h with total_size := h.total_size + (s.mem req).write_size }
  ({ s with mem := mem_set s.mem head h1 }, vec)

/-- Loop of `wb_fulfill_head` over the members linked on the head. -/
def wb_fulfill_head_loop (head : Nat) : List Nat → wb_state → List iovec → wb_state × List iovec
  | [], s, vec => (s, vec)
  | req :: rest, s, vec =>
    let sv := WB_IOV_LOAD s vec req head
    wb_fulfill_head_loop head rest sv.1 sv.2

def wb_fulfill_head (env : wb_env) (s : wb_state) (head : Nat) : wb_state :=
  if !env.create_frame head then
    wb_head_done (wb_inode_err s ENOMEM) head
  else
    let sv := WB_IOV_LOAD s [] head head
    let sv := wb_fulfill_head_loop head (sv.1.mem head).winds sv.1 sv.2
    let s := sv.1
    let s := { s with inode := { s.inode with
      transit := s.inode.transit + (s.mem head).total_size } }
    { s with
      inflight := s.inflight ++ [head]
      out := s.out ++ [wb_event.wind_writev head (s.mem head).fd sv.2 (s.mem head).stub.off
        (s.mem head).stub.flags] }

/-- Local variables of `wb_fulfill`. -/
structure wb_fulfill_locals where
  head : Option Nat
  expected_offset : Int
  curr_aggregate : Nat
  vector_count : Nat
  deriving DecidableEq, Repr

def NEXT_HEAD (env : wb_env) (s : wb_state) (l : wb_fulfill_locals) (req : Nat) :
    wb_state × wb_fulfill_locals :=
  let s := match l.head with
    | some head => wb_fulfill_head env s head
    | none => s
  (s, { head := some req
        expected_offset := to_off_t ((s.mem req).stub.off + (s.mem req).write_size)
        curr_aggregate := 0
        vector_count := 0 })

/-- The five tests of `wb_fulfill` that start a new head, in source order. -/
def wb_fulfill_breaks (xl : xlator_t) (s : wb_state) (l : wb_fulfill_locals) (head req : Nat) :
    Bool :=
  decide ((s.mem req).fd ≠ (s.mem head).fd)
  || decide ((s.mem req).lk_owner ≠ (s.mem head).lk_owner)
  || decide (l.expected_offset ≠ (s.mem req).stub.off)
  || decide (l.curr_aggregate + (s.mem req).write_size > xl.priv.aggregate_size)
  || decide (l.vector_count + (s.mem req).stub.vector.length > MAX_VECTOR_COUNT)

/-- Loop of `wb_fulfill` over the picked liabilities. -/
def wb_fulfill_loop (xl : xlator_t) (env : wb_env) :
    List Nat → wb_state → wb_fulfill_locals → wb_state × wb_fulfill_locals
  | [], s, l => (s, l)
  | req :: rest, s, l =>
    match l.head with
    | none =>
      let sl := NEXT_HEAD env s l req
      wb_fulfill_loop xl env rest sl.1 sl.2
    | some head =>
      if wb_fulfill_breaks xl s l head req then
        let sl := NEXT_HEAD env s l req
        wb_fulfill_loop xl env rest sl.1 sl.2
      else
        let h := s.mem head
        let s1 := { s with mem := mem_set s.mem head { h with winds := h.winds ++ [req] } }
        wb_fulfill_loop xl env rest s1
          { l with
            curr_aggregate := l.curr_aggregate + (s.mem req).write_size
            vector_count := l.vector_count + (s.mem req).stub.vector.length }

def wb_fulfill (xl : xlator_t) (env : wb_env) (s : wb_state) (liabilities : List Nat) :
    wb_state :=
  let sl := wb_fulfill_loop xl env liabilities s
    { head := none, expected_offset := 0, curr_aggregate := 0, vector_count := 0 }
  match sl.2.head with
  | some head => wb_fulfill_head env sl.1 head
  | none => sl.1

/-! ## Unwinder -/

def wb_do_unwinds : wb_state → List Nat → wb_state
  | s, [] => s
  | s, req :: rest =>
    let r := s.mem req
    let s1 := { s with
      out := s.out ++ [wb_event.unwind GF_FOP_WRITE r.stub.frame r.op_ret r.op_errno] }
    wb_do_unwinds (wb_request_unref s1 req) rest

/-- Loop of `__wb_pick_unwinds` over the temptation list. -/
def __wb_pick_unwinds_loop : List Nat → wb_state → List Nat → wb_state × List Nat
  | [], s, lies => (s, lies)
  | req :: rest, s, lies =>
    let r := s.mem req
    if !r.ordering.fulfilled && decide (s.inode.window_current > s.inode.window_conf) then
      __wb_pick_unwinds_loop rest s lies
    else
      let s1 := { s with inode := { s.inode with
        temptation := list_del req s.inode.temptation } }
      let lies1 := lies ++ [req]
      let s2 := { s1 with inode := { s1.inode with
        window_current := s1.inode.window_current + r.orig_size } }
      if !r.ordering.fulfilled then
        let s3 := { s2 with inode := { s2.inode with liability := s2.inode.liability ++ [req] } }
        let s4 := { s3 with
          mem := mem_set s3.mem req { r with ordering := { r.ordering with lied := true } } }
        let s5 := { s4 with inode := { s4.inode with gen := s4.inode.gen + 1 } }
        __wb_pick_unwinds_loop rest s5 lies1
      else
        __wb_pick_unwinds_loop rest s2 lies1

def __wb_pick_unwinds (s : wb_state) (lies : List Nat) : wb_state × List Nat :=
  __wb_pick_unwinds_loop s.inode.temptation s lies

/-! ## Preprocessor -/

/-- First iovec of a vector (`vector[0]`). -/
def iov_first (vector : List iovec) : iovec :=
  vector.headD { iov_base := [], iov_len := 0 }

/-- The buffer found at `base` after `bytes` are copied to `base + at`. -/
def buf_store (base : List Nat) (pos : Nat) (bytes : List Nat) : List Nat :=
  base.take pos ++ List.replicate (pos - base.length) 0 ++ bytes

/-- First half of `__wb_collapse_small_writes`: a holder without a buffer of
its own gets one; its bytes are copied there, `vector[0].iov_base` points to
it and `count` becomes 1. -/
def wb_holder_buffered (h : wb_request) : wb_request :=
  if !h.iobref then
    let v0 := iov_first h.stub.vector
    { h with
      stub := { h.stub with
        vector := [{ iov_base := iov_unload h.stub.vector, iov_len := v0.iov_len }] }
      iobref := true }
  else h

/-- Second half of `__wb_collapse_small_writes`: the bytes of `r` are copied
behind the `write_size` bytes of the holder and the sizes grow. -/
def wb_holder_append (h r : wb_request) : wb_request :=
  let v0 := iov_first h.stub.vector
  let v1 : iovec :=
    { iov_base := buf_store v0.iov_base h.write_size (iov_unload r.stub.vector)
      iov_len := v0.iov_len + r.write_size }
  { h with
    stub := { h.stub with vector := v1 :: h.stub.vector.tail }
    write_size := h.write_size + r.write_size
    ordering := { h.ordering with size := h.ordering.size + r.write_size } }

/-- Model of `__wb_collapse_small_writes`; the second component is `ret`. -/
def __wb_collapse_small_writes (env : wb_env) (s : wb_state) (holder req : Nat) :
    wb_state × Int :=
  let h := s.mem holder
  if !h.iobref && !env.iobuf_get holder then (s, -1)
  else
    let h1 := wb_holder_buffered h
    let s1 := { s with mem := mem_set s.mem holder h1 }
    let r := s1.mem req
    ({ s1 with mem := mem_set s1.mem holder (wb_holder_append h1 r) }, 0)

/-- Assignment `req->ordering.go = 1`. -/
def wb_set_go (s : wb_state) (req : Nat) : wb_state :=
  let r := s.mem req
  { s with mem := mem_set s.mem req { r with ordering := { r.ordering with go := true } } }

/-- Loop of `__wb_preprocess_winds` over the todo list; `holder` is the local variable. -/
def __wb_preprocess_winds_loop (xl : xlator_t) (env : wb_env) :
    List Nat → wb_state → Option Nat → wb_state × Option Nat
  | [], s, holder => (s, holder)
  | req :: rest, s, holder =>
    if !(s.mem req).ordering.tempted then
      match holder with
      | some h =>
        if wb_requests_conflict xl s.mem h req then
          __wb_preprocess_winds_loop xl env rest (wb_set_go s h) holder
        else
          __wb_preprocess_winds_loop xl env rest s holder
      | none => __wb_preprocess_winds_loop xl env rest s holder
    else
      match holder with
      | none => __wb_preprocess_winds_loop xl env rest s (some req)
      | some h =>
        let offset_expected := to_off_t ((s.mem h).stub.off + (s.mem h).write_size)
        if (s.mem req).stub.off ≠ offset_expected then
          __wb_preprocess_winds_loop xl env rest (wb_set_go s h) (some req)
        else if (s.mem req).lk_owner ≠ (s.mem h).lk_owner then
          __wb_preprocess_winds_loop xl env rest (wb_set_go s h) (some req)
        else
          let space_left := size_t_sub xl.page_size (s.mem h).write_size
          if space_left < (s.mem req).write_size then
            __wb_preprocess_winds_loop xl env rest (wb_set_go s h) (some req)
          else
            let sr := __wb_collapse_small_writes env s h req
            if sr.2 ≠ 0 then
              __wb_preprocess_winds_loop xl env rest sr.1 holder
            else
              let s1 := { sr.1 with inode := { sr.1.inode with
                todo := list_del req sr.1.inode.todo } }
              __wb_preprocess_winds_loop xl env rest (__wb_fulfill_request s1 req) holder

def __wb_preprocess_winds (xl : xlator_t) (env : wb_env) (s : wb_state) : wb_state :=
  let sh := __wb_preprocess_winds_loop xl env s.inode.todo s none
  match sh.2 with
  | some holder =>
    if xl.priv.trickling_writes && decide (sh.1.inode.transit = 0) then wb_set_go sh.1 holder
    else sh.1
  | none => sh.1

/-! ## Picker -/

/-- Loop of `__wb_pick_winds` over the todo list. -/
def __wb_pick_winds_loop (xl : xlator_t) :
    List Nat → wb_state → List Nat → List Nat → wb_state × List Nat × List Nat
  | [], s, tasks, liabilities => (s, tasks, liabilities)
  | req :: rest, s, tasks, liabilities =>
    if wb_liability_has_conflict xl s req then
      __wb_pick_winds_loop xl rest s tasks liabilities
    else if (s.mem req).ordering.tempted && !(s.mem req).ordering.go then
      __wb_pick_winds_loop xl rest s tasks liabilities
    else
      let s1 := { s with inode := { s.inode with todo := list_del req s.inode.todo } }
      if (s.mem req).ordering.tempted then
        __wb_pick_winds_loop xl rest s1 tasks (liabilities ++ [req])
      else
        __wb_pick_winds_loop xl rest s1 (tasks ++ [req]) liabilities

def __wb_pick_winds (xl : xlator_t) (s : wb_state) (tasks liabilities : List Nat) :
    wb_state × List Nat × List Nat :=
  __wb_pick_winds_loop xl s.inode.todo s tasks liabilities

/-! ## Task resumption -/

/-- Model of `wb_flush_helper`.  Without an inode context (`wb_inode_ctx_get`
returns NULL) the caller is answered -1 with EINVAL. -/
def wb_flush_helper (xl : xlator_t) (env : wb_env) (s : wb_state) (stub : call_stub_t) :
    wb_state :=
  if !s.ctx then
    { s with out := s.out ++ [wb_event.unwind GF_FOP_FLUSH stub.frame (-1) EINVAL] }
  else
    let op_ret : Int := if s.inode.op_ret < 0 then -1 else 0
    let op_errno : Int := if s.inode.op_ret < 0 then s.inode.op_errno else 0
    let s := { s with inode := { s.inode with op_ret := 0 } }
    if op_errno ≠ 0 then
      { s with out := s.out ++ [wb_event.unwind GF_FOP_FLUSH stub.frame op_ret op_errno] }
    else if xl.priv.flush_behind then
      if !env.copy_frame stub.frame then
        { s with out := s.out ++ [wb_event.unwind GF_FOP_FLUSH stub.frame (-1) ENOMEM] }
      else
        { s with out := s.out ++
            [wb_event.wind_bg stub, wb_event.unwind GF_FOP_FLUSH stub.frame op_ret op_errno] }
    else
      { s with out := s.out ++ [wb_event.wind stub] }

/-- Model of `call_resume` on the stub of a queued request: the helper of its
fop runs.  Every helper but the flush one just winds the call down. -/
def call_resume (xl : xlator_t) (env : wb_env) (s : wb_state) (stub : call_stub_t) :
    wb_state :=
  match stub.fop with
  | GF_FOP_FLUSH => wb_flush_helper xl env s stub
  | _ => { s with out := s.out ++ [wb_event.wind stub] }

def wb_do_winds (xl : xlator_t) (env : wb_env) : wb_state → List Nat → wb_state
  | s, [] => s
  | s, req :: rest =>
    let s1 := call_resume xl env s (s.mem req).stub
    wb_do_winds xl env (wb_request_unref s1 req) rest

/-! ## The queue processor and the completion callback -/

/-- The part of `wb_process_queue` that runs under the inode lock; the result
lists are `tasks`, `lies` and `liabilities`. -/
def wb_process_queue_locked (xl : xlator_t) (env : wb_env) (s : wb_state) :
    wb_state × List Nat × List Nat × List Nat :=
  let s1 := __wb_preprocess_winds xl env s
  let w := __wb_pick_winds xl s1 [] []
  let u := __wb_pick_unwinds w.1 []
  (u.1, w.2.1, u.2, w.2.2)

def wb_process_queue (xl : xlator_t) (env : wb_env) (s : wb_state) : wb_state :=
  let q := wb_process_queue_locked xl env s
  let s1 := wb_do_unwinds q.1 q.2.2.1
  let s2 := wb_do_winds xl env s1 q.2.1
  wb_fulfill xl env s2 q.2.2.2

def wb_fulfill_cbk (xl : xlator_t) (env : wb_env) (s : wb_state) (head : Nat)
    (op_ret op_errno : Int) : wb_state :=
  let s := { s with inflight := list_del head s.inflight }
  let s :=
    if op_ret = -1 then wb_inode_err s op_errno
    else if to_size_t op_ret < (s.mem head).total_size then wb_inode_err s EIO
    else s
  let s := wb_head_done s head
  wb_process_queue xl env s

/-! ## Entry points -/

/-- The `unwind:` label of an entry point: the call fails upward. -/
def wb_unwind (s : wb_state) (fop : glusterfs_fop_t) (frame : Nat) (op_errno : Int) :
    wb_state :=
  { s with out := s.out ++ [wb_event.unwind fop frame (-1) op_errno] }

/-- The `noqueue:` label of an entry point: the call is wound down directly. -/
def wb_noqueue (s : wb_state) (stub : call_stub_t) : wb_state :=
  { s with out := s.out ++ [wb_event.wind stub] }

def wb_writev (xl : xlator_t) (env : wb_env) (s : wb_state) (frame lk_owner : Nat)
    (fd : fd_t) (vector : List iovec) (offset : Int) (flags : Nat) : wb_state :=
  match wb_inode_create xl env s with
  | none => wb_unwind s GF_FOP_WRITE frame ENOMEM
  | some s =>
    let o_direct := if !xl.priv.strict_O_DIRECT then 0 else O_DIRECT
    let wb_disabled :=
      decide (Nat.land fd.flags (Nat.lor (Nat.lor O_SYNC O_DSYNC) o_direct) ≠ 0)
      || decide (Nat.land flags (Nat.lor (Nat.lor O_SYNC O_DSYNC) O_DIRECT) ≠ 0)
    let op_errno : Int := if s.inode.op_ret < 0 then s.inode.op_errno else 0
    let s := { s with inode := { s.inode with op_ret := 0 } }
    if op_errno ≠ 0 then wb_unwind s GF_FOP_WRITE frame op_errno
    else if !env.fop_stub then wb_unwind s GF_FOP_WRITE frame ENOMEM
    else
      let stub : call_stub_t :=
        { fop := GF_FOP_WRITE, frame := frame, lk_owner := lk_owner, fd := some fd,
          vector := vector, off := offset, size := 0, flags := flags }
      let sr := if wb_disabled then wb_enqueue env s stub else wb_enqueue_tempted env s stub
      if !sr.2 then wb_unwind sr.1 GF_FOP_WRITE frame ENOMEM
      else wb_process_queue xl env sr.1

/-- Common body of the entry points that queue an operation only when the
inode already has a context (`wb_inode_ctx_get`). -/
def wb_queue_if_ctx (xl : xlator_t) (env : wb_env) (s : wb_state) (stub : call_stub_t) :
    wb_state :=
  if !s.ctx then wb_noqueue s stub
  else if !env.fop_stub then wb_unwind s stub.fop stub.frame ENOMEM
  else
    let sr := wb_enqueue env s stub
    if !sr.2 then wb_unwind sr.1 stub.fop stub.frame ENOMEM
    else wb_process_queue xl env sr.1

/-- Common body of `wb_truncate` and `wb_ftruncate`, which create the context
(`wb_inode_create`). -/
def wb_queue_create_ctx (xl : xlator_t) (env : wb_env) (s : wb_state) (stub : call_stub_t) :
    wb_state :=
  match wb_inode_create xl env s with
  | none => wb_unwind s stub.fop stub.frame ENOMEM
  | some s =>
    if !env.fop_stub then wb_unwind s stub.fop stub.frame ENOMEM
    else
      let sr := wb_enqueue env s stub
      if !sr.2 then wb_unwind sr.1 stub.fop stub.frame ENOMEM
      else wb_process_queue xl env sr.1

/-- Stub of a fop that carries neither payload nor offset. -/
def wb_plain_stub (fop : glusterfs_fop_t) (frame lk_owner : Nat) (fd : Option fd_t) :
    call_stub_t :=
  { fop := fop, frame := frame, lk_owner := lk_owner, fd := fd, vector := [], off := 0,
    size := 0, flags := 0 }

def wb_readv (xl : xlator_t) (env : wb_env) (s : wb_state) (frame lk_owner : Nat)
    (fd : fd_t) (size : Nat) (offset : Int) (flags : Nat) : wb_state :=
  wb_queue_if_ctx xl env s
    { fop := GF_FOP_READ, frame := frame, lk_owner := lk_owner, fd := some fd, vector := [],
      off := offset, size := size, flags := flags }

def wb_flush (xl : xlator_t) (env : wb_env) (s : wb_state) (frame lk_owner : Nat)
    (fd : fd_t) : wb_state :=
  wb_queue_if_ctx xl env s (wb_plain_stub GF_FOP_FLUSH frame lk_owner (some fd))

def wb_fsync (xl : xlator_t) (env : wb_env) (s : wb_state) (frame lk_owner : Nat)
    (fd : fd_t) : wb_state :=
  wb_queue_if_ctx xl env s (wb_plain_stub GF_FOP_FSYNC frame lk_owner (some fd))

def wb_stat (xl : xlator_t) (env : wb_env) (s : wb_state) (frame lk_owner : Nat) : wb_state :=
  wb_queue_if_ctx xl env s (wb_plain_stub GF_FOP_STAT frame lk_owner none)

def wb_fstat (xl : xlator_t) (env : wb_env) (s : wb_state) (frame lk_owner : Nat)
    (fd : fd_t) : wb_state :=
  wb_queue_if_ctx xl env s (wb_plain_stub GF_FOP_FSTAT frame lk_owner (some fd))

def wb_truncate (xl : xlator_t) (env : wb_env) (s : wb_state) (frame lk_owner : Nat)
    (offset : Int) : wb_state :=
  wb_queue_create_ctx xl env s
    { fop := GF_FOP_TRUNCATE, frame := frame, lk_owner := lk_owner, fd := none, vector := [],
      off := offset, size := 0, flags := 0 }

def wb_ftruncate (xl : xlator_t) (env : wb_env) (s : wb_state) (frame lk_owner : Nat)
    (fd : fd_t) (offset : Int) : wb_state :=
  wb_queue_create_ctx xl env s
    { fop := GF_FOP_FTRUNCATE, frame := frame, lk_owner := lk_owner, fd := some fd,
      vector := [], off := offset, size := 0, flags := 0 }

def wb_setattr (xl : xlator_t) (env : wb_env) (s : wb_state) (frame lk_owner : Nat) :
    wb_state :=
  wb_queue_if_ctx xl env s (wb_plain_stub GF_FOP_SETATTR frame lk_owner none)

def wb_fsetattr (xl : xlator_t) (env : wb_env) (s : wb_state) (frame lk_owner : Nat)
    (fd : fd_t) : wb_state :=
  wb_queue_if_ctx xl env s (wb_plain_stub GF_FOP_FSETATTR frame lk_owner (some fd))

/-! ## Runs of the engine -/

/-- A call into the engine: one of the ten operations from above, or the
completion of a batch from below. -/
inductive wb_call where
  | writev (frame lk_owner : Nat) (fd : fd_t) (vector : List iovec) (offset : Int)
      (flags : Nat)
  | readv (frame lk_owner : Nat) (fd : fd_t) (size : Nat) (offset : Int) (flags : Nat)
  | flush (frame lk_owner : Nat) (fd : fd_t)
  | fsync (frame lk_owner : Nat) (fd : fd_t)
  | stat (frame lk_owner : Nat)
  | fstat (frame lk_owner : Nat) (fd : fd_t)
  | truncate (frame lk_owner : Nat) (offset : Int)
  | ftruncate (frame lk_owner : Nat) (fd : fd_t) (offset : Int)
  | setattr (frame lk_owner : Nat)
  | fsetattr (frame lk_owner : Nat) (fd : fd_t)
  | fulfill_cbk (head : Nat) (op_ret op_errno : Int)

/-- One complete call, from entry to return. -/
def wb_step (xl : xlator_t) (env : wb_env) (s : wb_state) : wb_call → wb_state
  | .writev frame lk_owner fd vector offset flags =>
    wb_writev xl env s frame lk_owner fd vector offset flags
  | .readv frame lk_owner fd size offset flags =>
    wb_readv xl env s frame lk_owner fd size offset flags
  | .flush frame lk_owner fd => wb_flush xl env s frame lk_owner fd
  | .fsync frame lk_owner fd => wb_fsync xl env s frame lk_owner fd
  | .stat frame lk_owner => wb_stat xl env s frame lk_owner
  | .fstat frame lk_owner fd => wb_fstat xl env s frame lk_owner fd
  | .truncate frame lk_owner offset => wb_truncate xl env s frame lk_owner offset
  | .ftruncate frame lk_owner fd offset => wb_ftruncate xl env s frame lk_owner fd offset
  | .setattr frame lk_owner => wb_setattr xl env s frame lk_owner
  | .fsetattr frame lk_owner fd => wb_fsetattr xl env s frame lk_owner fd
  | .fulfill_cbk head op_ret op_errno => wb_fulfill_cbk xl env s head op_ret op_errno

/-- An offset the type `off_t` can hold. -/
@[reducible]
def off_t_ok (x : Int) : Prop := -(2 ^ 63) ≤ x ∧ x < 2 ^ 63

/-- A call the engine can receive in state `s`: arguments fit their C types,
fds are real, and a completion is for a batch in flight. -/
def wb_call_ok (s : wb_state) : wb_call → Prop
  | .writev _ _ fd vector offset _ =>
    fd.addr ≠ 0 ∧ off_t_ok offset ∧ iov_length vector < 2 ^ 64
  | .readv _ _ fd size offset _ => fd.addr ≠ 0 ∧ off_t_ok offset ∧ size < 2 ^ 64
  | .flush _ _ fd => fd.addr ≠ 0
  | .fsync _ _ fd => fd.addr ≠ 0
  | .stat _ _ => True
  | .fstat _ _ fd => fd.addr ≠ 0
  | .truncate _ _ offset => off_t_ok offset
  | .ftruncate _ _ fd offset => fd.addr ≠ 0 ∧ off_t_ok offset
  | .setattr _ _ => True
  | .fsetattr _ _ fd => fd.addr ≠ 0
  | .fulfill_cbk head _ _ => head ∈ s.inflight

instance wb_call_ok_decidable (s : wb_state) (c : wb_call) : Decidable (wb_call_ok s c) :=
  match c with
  | .writev _ _ fd vector offset _ =>
    inferInstanceAs (Decidable (fd.addr ≠ 0 ∧ off_t_ok offset ∧ iov_length vector < 2 ^ 64))
  | .readv _ _ fd size offset _ =>
    inferInstanceAs (Decidable (fd.addr ≠ 0 ∧ off_t_ok offset ∧ size < 2 ^ 64))
  | .flush _ _ fd => inferInstanceAs (Decidable (fd.addr ≠ 0))
  | .fsync _ _ fd => inferInstanceAs (Decidable (fd.addr ≠ 0))
  | .stat _ _ => inferInstanceAs (Decidable True)
  | .fstat _ _ fd => inferInstanceAs (Decidable (fd.addr ≠ 0))
  | .truncate _ _ offset => inferInstanceAs (Decidable (off_t_ok offset))
  | .ftruncate _ _ fd offset => inferInstanceAs (Decidable (fd.addr ≠ 0 ∧ off_t_ok offset))
  | .setattr _ _ => inferInstanceAs (Decidable True)
  | .fsetattr _ _ fd => inferInstanceAs (Decidable (fd.addr ≠ 0))
  | .fulfill_cbk head _ _ => inferInstanceAs (Decidable (head ∈ s.inflight))

/-- The states the engine reaches from a fresh inode, observed between calls. -/
inductive Reachable (xl : xlator_t) : wb_state → Prop where
  | init : Reachable xl (wb_state_init xl)
  | step (env : wb_env) (s : wb_state) (c : wb_call) :
      Reachable xl s → wb_call_ok s c → Reachable xl (wb_step xl env s c)

/-- Runs a list of calls, each with its allocation outcomes. -/
def wb_run (xl : xlator_t) : wb_state → List (wb_env × wb_call) → wb_state
  | s, [] => s
  | s, (env, c) :: rest => wb_run xl (wb_step xl env s c) rest

/-- Every call of the list can be received in the state it meets. -/
def wb_calls_ok (xl : xlator_t) : wb_state → List (wb_env × wb_call) → Prop
  | _, [] => True
  | s, (env, c) :: rest => wb_call_ok s c ∧ wb_calls_ok xl (wb_step xl env s c) rest

instance wb_calls_ok_decidable (xl : xlator_t) :
    (s : wb_state) → (calls : List (wb_env × wb_call)) → Decidable (wb_calls_ok xl s calls)
  | _, [] => inferInstanceAs (Decidable True)
  | s, (env, c) :: rest =>
    @instDecidableAnd _ _ (wb_call_ok_decidable s c)
      (wb_calls_ok_decidable xl (wb_step xl env s c) rest)

/-- Allocation outcomes of a call during which every allocation succeeds. -/
def wb_env_ok : wb_env :=
  { inode_calloc := true, fop_stub := true, request_calloc := true,
    create_frame := fun _ => true, copy_frame := fun _ => true, iobuf_get := fun _ => true }

/-! ## Specification-level notions and concrete runs used by the theorems -/

/-- Overlap as the specification words it: the half-open ranges
`[off1, off1 + size1)` and `[off2, off2 + size2)` intersect, a size of 0
standing for a range without upper end. -/
def spec_overlap (req1 req2 : wb_request) : Bool :=
  (decide (req2.ordering.size = 0)
    || decide (req1.ordering.off < req2.ordering.off + req2.ordering.size))
  && (decide (req1.ordering.size = 0)
    || decide (req2.ordering.off < req1.ordering.off + req1.ordering.size))

/-- The default configuration: window 1 MiB, aggregate 128 KiB, flush-behind
and trickling-writes on, the strict options off; page size 128 KiB. -/
def xl_default : xlator_t :=
  { priv :=
      { aggregate_size := WB_AGGREGATE_SIZE, window_size := WB_WINDOW_SIZE,
        flush_behind := true, trickling_writes := true, strict_write_ordering := false,
        strict_O_DIRECT := false }
    page_size := 131072 }

/-- An fd opened without any of the flags the engine looks at. -/
def fd_plain : fd_t := { addr := 100, flags := 0 }

/-- A payload of `n` bytes of value `b` in one iovec. -/
def iov_fill (n b : Nat) : List iovec := [{ iov_base := List.replicate n b, iov_len := n }]

/-- Stub of a buffered write of 10 bytes at offset 0. -/
def stub_write_0_10 : call_stub_t :=
  { fop := GF_FOP_WRITE, frame := 1, lk_owner := 7, fd := some fd_plain,
    vector := iov_fill 10 65, off := 0, size := 0, flags := 0 }

/-- Stub of a truncate to offset 5. -/
def stub_truncate_5 : call_stub_t :=
  { fop := GF_FOP_TRUNCATE, frame := 2, lk_owner := 7, fd := none, vector := [], off := 5,
    size := 0, flags := 0 }

/-- A buffered write of 4 bytes at offset 0. -/
def call_write_0_4 : wb_call := .writev 1 7 fd_plain (iov_fill 4 65) 0 0

/-- The state after `call_write_0_4` on a fresh inode: the write is lied about,
sits on liability, and is in flight below. -/
def state_written : wb_state :=
  wb_step xl_default wb_env_ok (wb_state_init xl_default) call_write_0_4

/-- Stub of a flush on the same fd. -/
def stub_flush : call_stub_t := wb_plain_stub GF_FOP_FLUSH 2 7 (some fd_plain)

/-- The state `wb_flush` hands to `wb_process_queue` after `state_written`. -/
def state_flush_queued : wb_state := (wb_enqueue wb_env_ok state_written stub_flush).1

/-- What `__wb_pick_winds` checks before it detaches a request: no conflict
with any entry on liability, and not a tempted request still aggregating. -/
def wb_detachable (xl : xlator_t) (s : wb_state) (req : Nat) : Bool :=
  s.inode.liability.all (fun lie => !wb_requests_conflict xl s.mem lie req)
  && (!(s.mem req).ordering.tempted || (s.mem req).ordering.go)

/-- The unwinder as the specification words it, first half: walking the
entries in order with the running value `w` of `window_current`, the entries
that are taken off temptation (an entry is left iff it is not fulfilled and
`w > window_conf`; a taken entry adds its `orig_size` to `w`). -/
def spec_unwind_taken (mem : Nat → wb_request) (window_conf : Int) : Int → List Nat → List Nat
  | _, [] => []
  | w, req :: rest =>
    if (mem req).ordering.fulfilled = false ∧ w > window_conf then
      spec_unwind_taken mem window_conf w rest
    else
      req :: spec_unwind_taken mem window_conf (w + (mem req).orig_size) rest

/-- The unwinder as the specification words it, second half: the entries that
are left on temptation. -/
def spec_unwind_left (mem : Nat → wb_request) (window_conf : Int) : Int → List Nat → List Nat
  | _, [] => []
  | w, req :: rest =>
    if (mem req).ordering.fulfilled = false ∧ w > window_conf then
      req :: spec_unwind_left mem window_conf w rest
    else
      spec_unwind_left mem window_conf (w + (mem req).orig_size) rest

/-- Sum of `orig_size` over a list of requests. -/
def sum_orig_size (mem : Nat → wb_request) (l : List Nat) : Int :=
  (l.map (fun a => ((mem a).orig_size : Int))).sum

/-- A request with its `lied` flag set. -/
def wb_set_lied (r : wb_request) : wb_request :=
  { r with ordering := { r.ordering with lied := true } }

/-- The state and the lies list the specification's unwinder ends with: taken
entries go to `lies` and credit the window; those of them that are not
fulfilled go to liability, get `lied` set and bump `gen` by one each. -/
def spec_pick_unwinds (s : wb_state) (lies : List Nat) : wb_state × List Nat :=
  let taken := spec_unwind_taken s.mem s.inode.window_conf s.inode.window_current
    s.inode.temptation
  let lied_now := taken.filter (fun a => !(s.mem a).ordering.fulfilled)
  ({ s with
      inode := { s.inode with
        temptation := spec_unwind_left s.mem s.inode.window_conf s.inode.window_current
          s.inode.temptation
        liability := s.inode.liability ++ lied_now
        window_current := s.inode.window_current + sum_orig_size s.mem taken
        gen := s.inode.gen + lied_now.length }
      mem := fun a => if a ∈ lied_now then wb_set_lied (s.mem a) else s.mem a },
   lies ++ taken)

/-- A configuration with a window of 16 bytes (the window of scenario S5),
otherwise the default one. -/
def xl_window16 : xlator_t :=
  { priv := { xl_default.priv with window_size := 16 }, page_size := 131072 }

/-- A buffered write of `n` bytes of value `b` at offset `off`, on `fd_plain`,
by lock owner 7. -/
def call_write (frame n b : Nat) (off : Int) : wb_call :=
  .writev frame 7 fd_plain (iov_fill n b) off 0

/-- Stub of the write `call_write frame n b off`. -/
def stub_write (frame n b : Nat) (off : Int) : call_stub_t :=
  { fop := GF_FOP_WRITE, frame := frame, lk_owner := 7, fd := some fd_plain,
    vector := iov_fill n b, off := off, size := 0, flags := 0 }

/-- Two buffered writes of 8 bytes each, at offsets 0 and 100, with a window
of 16: both are lied about and `window_current` is 16. -/
def state_two_lies : wb_state :=
  wb_run xl_window16 (wb_state_init xl_window16)
    [(wb_env_ok, call_write 1 8 65 0), (wb_env_ok, call_write 2 8 66 100)]

/-- The state in which `wb_process_queue` calls `__wb_pick_unwinds` when a
third write of 8 bytes (offset 200) arrives in `state_two_lies`. -/
def state_third_write : wb_state :=
  (__wb_pick_winds xl_window16
    (__wb_preprocess_winds xl_window16 wb_env_ok
      (wb_enqueue_tempted wb_env_ok state_two_lies (stub_write 3 8 67 200)).1) [] []).1

/-- A state with four entries on temptation: 1 and 4 fulfilled (sizes 8 and 2),
2 and 3 not (sizes 8 and 4); window 16, `window_current` 5. -/
def state_mixed_temptation : wb_state :=
  let s0 : wb_state := { wb_state_init xl_window16 with ctx := true }
  let s1 := (wb_enqueue_tempted wb_env_ok s0 (stub_write 1 8 65 0)).1
  let s2 := (wb_enqueue_tempted wb_env_ok s1 (stub_write 2 8 66 100)).1
  let s3 := (wb_enqueue_tempted wb_env_ok s2 (stub_write 3 4 67 200)).1
  let s4 := (wb_enqueue_tempted wb_env_ok s3 (stub_write 4 2 68 300)).1
  let f := fun (r : wb_request) => { r with ordering := { r.ordering with fulfilled := true } }
  { s4 with
    inode := { s4.inode with window_current := 5 }
    mem := mem_set (mem_set s4.mem 1 (f (s4.mem 1))) 4 (f (s4.mem 4)) }

/-- Sum of `orig_size` over the fulfilled requests of a list. -/
def sum_orig_fulfilled (mem : Nat → wb_request) (l : List Nat) : Int :=
  sum_orig_size mem (l.filter (fun a => (mem a).ordering.fulfilled))

/-- A configuration with a window of 16 bytes and a page size of 4 bytes,
otherwise the default one. -/
def xl_page4 : xlator_t :=
  { priv := { xl_default.priv with window_size := 16 }, page_size := 4 }

/-- A 20-byte write at offset 100 (lied about, in flight), then three 4-byte
writes at offsets 100, 104 and 104 that wait on todo behind it. -/
def state_three_waiting : wb_state :=
  wb_run xl_page4 (wb_state_init xl_page4)
    [(wb_env_ok, call_write 1 20 65 100), (wb_env_ok, call_write 2 4 66 100),
     (wb_env_ok, call_write 3 4 67 104), (wb_env_ok, call_write 4 4 68 104)]

/-- The state `wb_process_queue` hands to `wb_fulfill`, with the list of
picked liabilities, when the 20-byte write completes in `state_three_waiting`. -/
def state_three_picked : wb_state × List Nat :=
  let s := { state_three_waiting with inflight := list_del 1 state_three_waiting.inflight }
  let q := wb_process_queue_locked xl_page4 wb_env_ok (wb_head_done s 1)
  (wb_do_winds xl_page4 wb_env_ok (wb_do_unwinds q.1 q.2.2.1) q.2.1, q.2.2.2)

/-- The property claimed of one round of `wb_process_queue` started in `s`:
when the lock is released, no request picked into `tasks` or `liabilities`
conflicts with an entry that sits on liability. -/
def wb_round_conflict_free (xl : xlator_t) (env : wb_env) (s : wb_state) : Prop :=
  ∀ a, a ∈ (wb_process_queue_locked xl env s).2.1
      ∨ a ∈ (wb_process_queue_locked xl env s).2.2.2 →
    ∀ l ∈ (wb_process_queue_locked xl env s).1.inode.liability,
      wb_requests_conflict xl (wb_process_queue_locked xl env s).1.mem l a = false

/-- A read of `size` bytes at `off` on `fd_plain`. -/
def call_read (frame size : Nat) (off : Int) : wb_call := .readv frame 7 fd_plain size off 0

/-- The calls that lead to `state_read_waiting`. -/
def calls_read_waiting : List (wb_env × wb_call) :=
  [(wb_env_ok, call_write 1 20 65 0), (wb_env_ok, call_write 2 20 66 100),
   (wb_env_ok, call_write 3 4 67 200), (wb_env_ok, .fulfill_cbk 1 20 0),
   (wb_env_ok, call_read 4 200 100)]

/-- Window 16.  Writes 1 (20 bytes at 0), 2 (20 bytes at 100) and 3 (4 bytes at
200) arrive; write 1 completes, so that write 2 is lied about (gen becomes 2)
while write 3 (gen 1) stays on temptation; then a read of [100, 300) arrives
(request 4, gen 2) and waits on todo behind write 2. -/
def state_read_waiting : wb_state :=
  wb_run xl_window16 (wb_state_init xl_window16) calls_read_waiting

/-- The state in which `wb_fulfill_cbk` calls `wb_process_queue` when write 2
completes in `state_read_waiting`. -/
def state_read_round : wb_state :=
  wb_head_done { state_read_waiting with inflight := list_del 2 state_read_waiting.inflight } 2

/-- The invariant behind C9: liability entries are lied and older than the
inode's generation; attached requests are not newer than it and live below
the next free address; liability and temptation are parts of `all`. -/
structure wb_liability_inv (s : wb_state) : Prop where
  lied : ∀ a ∈ s.inode.liability, (s.mem a).ordering.lied = true ∧ (s.mem a).gen < s.inode.gen
  gen_le : ∀ a ∈ s.inode.all, (s.mem a).gen ≤ s.inode.gen ∧ a < s.next
  liability_all : ∀ a ∈ s.inode.liability, a ∈ s.inode.all
  temptation_all : ∀ a ∈ s.inode.temptation, a ∈ s.inode.all

/-- Two states that differ at most in the latched error and in the record of
calls made. -/
structure wb_same_queue (s s1 : wb_state) : Prop where
  ctx : s1.ctx = s.ctx
  mem : s1.mem = s.mem
  next : s1.next = s.next
  inflight : s1.inflight = s.inflight
  window_conf : s1.inode.window_conf = s.inode.window_conf
  window_current : s1.inode.window_current = s.inode.window_current
  transit : s1.inode.transit = s.inode.transit
  all : s1.inode.all = s.inode.all
  todo : s1.inode.todo = s.inode.todo
  liability : s1.inode.liability = s.inode.liability
  temptation : s1.inode.temptation = s.inode.temptation
  gen : s1.inode.gen = s.inode.gen

/-- The batch anchored at a head: the members linked on it, then the head. -/
def wb_batch (mem : Nat → wb_request) (head : Nat) : List Nat := (mem head).winds ++ [head]

/-- Sum over a list of requests of a quantity of each request. -/
def sum_over (f : wb_request → Int) (mem : Nat → wb_request) (l : List Nat) : Int :=
  (l.map (fun a => f (mem a))).sum

/-- The credit a fulfilled request still on temptation will get when the
unwinder releases it. -/
def wb_pending_credit (r : wb_request) : Int :=
  if r.ordering.fulfilled then r.orig_size else 0

/-- The bytes an unfulfilled request holds beyond those it arrived with: the
bytes coalesced into it. -/
def wb_excess (r : wb_request) : Int :=
  if r.ordering.fulfilled then 0 else (r.write_size : Int) - r.orig_size

/-- The requests that hold their wind reference: those on todo, those picked
in the current round (`tasks`, `liabilities`), those of a batch being opened
or closed (`X`), and those of the batches in flight. -/
def wb_wind_list (s : wb_state) (tasks liabilities X : List Nat) : List Nat :=
  s.inode.todo ++ (tasks ++ (liabilities ++ (X ++ s.inflight.flatMap (wb_batch s.mem))))

/-- The invariant behind the window accounting.  `U` are the requests taken
off temptation whose unwind reference is still held (the `lies` of the round),
`tasks` and `liabilities` the requests picked in the round, `X` the batch being
opened or closed, `D` the part of a batch's payload already handled while it
is closed, and `q` tells that no fulfilled request waits on temptation. -/
structure wb_acct_inv (s : wb_state) (U tasks liabilities X : List Nat) (D : Int) (q : Bool) :
    Prop where
  ctx : s.ctx = true
  all_nodup : s.inode.all.Nodup
  all_lt : ∀ a ∈ s.inode.all, a < s.next
  liab_nodup : s.inode.liability.Nodup
  tempt_nodup : s.inode.temptation.Nodup
  U_nodup : U.Nodup
  wind_nodup : (wb_wind_list s tasks liabilities X).Nodup
  wind_all : ∀ a ∈ wb_wind_list s tasks liabilities X,
    a ∈ s.inode.all ∧ (s.mem a).ordering.fulfilled = false
  wind_tempted : ∀ a ∈ liabilities ++ (X ++ s.inflight.flatMap (wb_batch s.mem)),
    (s.mem a).ordering.tempted = true
  tasks_plain : ∀ a ∈ tasks, (s.mem a).ordering.tempted = false
  liab : ∀ a ∈ s.inode.liability, a ∈ s.inode.all ∧ (s.mem a).ordering.tempted = true
    ∧ (s.mem a).ordering.fulfilled = false ∧ a ∉ s.inode.temptation
  tempt : ∀ a ∈ s.inode.temptation, a ∈ s.inode.all ∧ (s.mem a).ordering.tempted = true
    ∧ a ∉ U
  U_all : ∀ a ∈ U, a ∈ s.inode.all
  tempted_held : ∀ a ∈ s.inode.all, (s.mem a).ordering.tempted = true →
    (s.mem a).ordering.fulfilled = false → a ∈ s.inode.temptation ∨ a ∈ s.inode.liability
  ful_held : ∀ a ∈ s.inode.all, (s.mem a).ordering.fulfilled = true →
    a ∈ s.inode.temptation ∨ a ∈ U
  plain : ∀ a ∈ s.inode.all, (s.mem a).ordering.tempted = false →
    (s.mem a).write_size = (s.mem a).orig_size ∧ a ∉ s.inode.temptation
    ∧ a ∉ s.inode.liability ∧ a ∉ U
  refcount : ∀ a ∈ s.inode.all, (s.mem a).refcount
    = (if (s.mem a).ordering.fulfilled then 0 else 1)
      + (if a ∈ s.inode.temptation ∨ a ∈ U then 1 else 0)
  fresh : ∀ a ∈ s.inode.todo ++ (tasks ++ liabilities),
    (s.mem a).total_size = 0 ∧ (s.mem a).winds = []
  batch : ∀ h ∈ s.inflight,
    ((s.mem h).total_size : Int) = sum_over (fun r => r.write_size) s.mem (wb_batch s.mem h)
    ∧ ∀ m ∈ (s.mem h).winds, (s.mem m).total_size = 0
  acct : s.inode.window_current + sum_over wb_pending_credit s.mem s.inode.temptation
    = sum_over (fun r => r.orig_size) s.mem s.inode.liability
      + sum_over wb_excess s.mem s.inode.all + D
  settled : q = true → ∀ a ∈ s.inode.temptation, (s.mem a).ordering.fulfilled = false

/-- The fields of a request the accounting invariant reads. -/
structure wb_req_same (r r1 : wb_request) : Prop where
  tempted : r1.ordering.tempted = r.ordering.tempted
  fulfilled : r1.ordering.fulfilled = r.ordering.fulfilled
  refcount : r1.refcount = r.refcount
  orig_size : r1.orig_size = r.orig_size
  write_size : r1.write_size = r.write_size
  total_size : r1.total_size = r.total_size
  winds : r1.winds = r.winds

/-- What holds between calls: either the inode has no context yet and nothing
is queued or in flight, or the accounting invariant holds with no round in
progress. -/
def wb_quiescent (s : wb_state) : Prop :=
  (s.ctx = false ∧ s.inflight = [] ∧ s.inode.window_current = 0 ∧ s.inode.liability = []
    ∧ s.inode.all = [])
  ∨ wb_acct_inv s [] [] [] [] 0 true

/-- Three buffered writes of 4 bytes, at offsets 0, 100 and 104: the first is
sent at once, the second waits on todo as the holder, the third is coalesced
into it. -/
def calls_coalesced : List (wb_env × wb_call) :=
  [(wb_env_ok, call_write 1 4 65 0), (wb_env_ok, call_write 2 4 66 100),
   (wb_env_ok, call_write 3 4 67 104)]

/-- The state after `calls_coalesced` on a fresh inode, default configuration. -/
def state_coalesced : wb_state :=
  wb_run xl_default (wb_state_init xl_default) calls_coalesced

/-! ## Notions used for the fulfiller -/

/-- The calls `wb_fulfill` makes to `wb_fulfill_head` from inside its loop, in
order, each with the state it is made in and the head it passes.  The walk is
the one of `wb_fulfill_loop`: a call is made whenever `NEXT_HEAD` runs with a
head at hand. -/
def wb_fulfill_loop_calls (xl : xlator_t) (env : wb_env) :
    List Nat → wb_state → wb_fulfill_locals → List (wb_state × Nat)
  | [], _, _ => []
  | req :: rest, s, l =>
    match l.head with
    | none =>
      wb_fulfill_loop_calls xl env rest (NEXT_HEAD env s l req).1 (NEXT_HEAD env s l req).2
    | some head =>
      if wb_fulfill_breaks xl s l head req then
        (s, head) ::
          wb_fulfill_loop_calls xl env rest (NEXT_HEAD env s l req).1 (NEXT_HEAD env s l req).2
      else
        wb_fulfill_loop_calls xl env rest
          { s with mem := (mem_set s.mem head
              { s.mem head with winds := (s.mem head).winds ++ [req] }) }
          { l with
            curr_aggregate := l.curr_aggregate + (s.mem req).write_size
            vector_count := l.vector_count + (s.mem req).stub.vector.length }

/-- All the calls `wb_fulfill` makes to `wb_fulfill_head`: those of the loop,
then the one for the head left at the end. -/
def wb_fulfill_calls (xl : xlator_t) (env : wb_env) (s : wb_state) (liabilities : List Nat) :
    List (wb_state × Nat) :=
  let l0 : wb_fulfill_locals :=
    { head := none, expected_offset := 0, curr_aggregate := 0, vector_count := 0 }
  wb_fulfill_loop_calls xl env liabilities s l0
    ++ (match (wb_fulfill_loop xl env liabilities s l0).2.head with
        | some head => [((wb_fulfill_loop xl env liabilities s l0).1, head)]
        | none => [])

/-- The batch a call of `wb_fulfill_head` is made for: the head, then the
members linked on it, in order. -/
def wb_call_batch (c : wb_state × Nat) : List Nat := c.2 :: (c.1.mem c.2).winds

/-- Combined payload of a batch: the sum of `write_size` of its requests. -/
def wb_call_payload (c : wb_state × Nat) : Nat :=
  ((wb_call_batch c).map (fun a => (c.1.mem a).write_size)).sum

/-- Number of iovecs of a batch: the sum of the `count` of its requests. -/
def wb_call_iovecs (c : wb_state × Nat) : Nat :=
  ((wb_call_batch c).map (fun a => (c.1.mem a).stub.vector.length)).sum

/-- The head and the number of iovecs of a writev the engine sends down. -/
def wb_event.writev_count : wb_event → Option (Nat × Nat)
  | .wind_writev head _ vector _ _ => some (head, vector.length)
  | _ => none

/-- A payload of 131072 bytes in 8 iovecs of 16384 bytes each. -/
def iov_eight : List iovec :=
  (List.range 8).map (fun i => { iov_base := List.replicate 16384 (65 + i), iov_len := 16384 })

/-- Default configuration (aggregate size and page size 131072).  A write of
131072 bytes at offset 0 (lied about, in flight), then a write of 131072
bytes at offset 0 with the payload `vector` and a write of 131072 bytes at
offset 131072: both wait on todo, too large to be merged. -/
def state_pair_waiting (vector : List iovec) : wb_state :=
  wb_run xl_default (wb_state_init xl_default)
    [(wb_env_ok, call_write 1 131072 65 0), (wb_env_ok, .writev 2 7 fd_plain vector 0 0),
     (wb_env_ok, call_write 3 131072 67 131072)]

/-- The state `wb_process_queue` hands to `wb_fulfill`, with the list of
picked liabilities, when the first write completes in `state_pair_waiting`. -/
def state_pair_picked (vector : List iovec) : wb_state × List Nat :=
  let s := { state_pair_waiting vector with
    inflight := list_del 1 (state_pair_waiting vector).inflight }
  let q := wb_process_queue_locked xl_default wb_env_ok (wb_head_done s 1)
  (wb_do_winds xl_default wb_env_ok (wb_do_unwinds q.1 q.2.2.1) q.2.1, q.2.2.2)

/-- The state in which `wb_fulfill` makes its call of `wb_fulfill_head` for
the batch of the writes 2 and 3 of `state_pair_picked`. -/
def state_pair_formed (vector : List iovec) : wb_state :=
  (wb_fulfill_loop xl_default wb_env_ok (state_pair_picked vector).2 (state_pair_picked vector).1
    { head := none, expected_offset := 0, curr_aggregate := 0, vector_count := 0 }).1

/-- The fields of a request that the fulfiller reads and does not write, and
the members linked on it. -/
structure wb_req_static (r r1 : wb_request) : Prop where
  stub : r1.stub = r.stub
  write_size : r1.write_size = r.write_size
  lk_owner : r1.lk_owner = r.lk_owner
  fd : r1.fd = r.fd
  winds : r1.winds = r.winds

/-- What the tests of `wb_fulfill` ensure of the batch of a call of
`wb_fulfill_head`: every member has the fd and the lock owner of the head and
starts where the head ends; the members together carry at most
`aggregate_size` bytes in at most `MAX_VECTOR_COUNT` iovecs. -/
def wb_batch_sound (xl : xlator_t) (c : wb_state × Nat) : Prop :=
  (∀ m ∈ (c.1.mem c.2).winds,
    (c.1.mem m).fd = (c.1.mem c.2).fd ∧ (c.1.mem m).lk_owner = (c.1.mem c.2).lk_owner
    ∧ (c.1.mem m).stub.off
        = to_off_t ((c.1.mem c.2).stub.off + (c.1.mem c.2).write_size))
  ∧ (((c.1.mem c.2).winds).map (fun a => (c.1.mem a).write_size)).sum
      ≤ xl.priv.aggregate_size
  ∧ (((c.1.mem c.2).winds).map (fun a => (c.1.mem a).stub.vector.length)).sum
      ≤ MAX_VECTOR_COUNT

/-- The batch `wb_fulfill` is forming, as its local variables describe it. -/
def wb_open_batch (s : wb_state) (l : wb_fulfill_locals) : List Nat :=
  match l.head with
  | some head => head :: (s.mem head).winds
  | none => []

/-- What holds of the local variables of `wb_fulfill` between two iterations. -/
def wb_fulfill_inv (xl : xlator_t) (s : wb_state) (l : wb_fulfill_locals) : Prop :=
  ∀ head, l.head = some head →
    wb_batch_sound xl (s, head)
    ∧ head ∉ (s.mem head).winds
    ∧ l.expected_offset = to_off_t ((s.mem head).stub.off + (s.mem head).write_size)
    ∧ l.curr_aggregate = (((s.mem head).winds).map (fun a => (s.mem a).write_size)).sum
    ∧ l.vector_count = (((s.mem head).winds).map (fun a => (s.mem a).stub.vector.length)).sum

/-- The vector `wb_fulfill_head` loads for a batch: the iovecs of the head,
then those of each member, in order. -/
def wb_call_vector (c : wb_state × Nat) : List iovec :=
  ((wb_call_batch c).map (fun a => (c.1.mem a).stub.vector)).flatten

/-! ## Concrete runs for the round trip and the merge -/

/-- The default configuration with flush-behind off. -/
def xl_flush_sync : xlator_t :=
  { xl_default with priv := { xl_default.priv with flush_behind := false } }

/-- A buffered write of 4 bytes at offset 0, then a flush on the same fd. -/
def calls_write_flush : List (wb_env × wb_call) :=
  [(wb_env_ok, call_write 1 4 65 0), (wb_env_ok, .flush 2 7 fd_plain)]

/-- The state after `calls_write_flush` on a fresh inode, flush-behind off. -/
def state_write_flush : wb_state :=
  wb_run xl_flush_sync (wb_state_init xl_flush_sync) calls_write_flush

/-- Default configuration (page size 131072).  A 4-byte write at offset 0 (lied
about, in flight), then a write of 131073 bytes at offset 100 that waits on
todo as the holder. -/
def state_big_holder : wb_state :=
  wb_run xl_default (wb_state_init xl_default)
    [(wb_env_ok, call_write 1 4 65 0), (wb_env_ok, call_write 2 131073 66 100)]

/-- The state `wb_writev` hands to `wb_process_queue` when a 4-byte write at
offset 131173 arrives in `state_big_holder`. -/
def state_big_holder_queued : wb_state :=
  (wb_enqueue_tempted wb_env_ok
    { state_big_holder with inode := { state_big_holder.inode with op_ret := 0 } }
    (stub_write 3 4 67 131173)).1

/-- A payload of 4 bytes in two iovecs of 2 bytes each: 65 65, then 66 66. -/
def iov_split : List iovec :=
  [{ iov_base := [65, 65], iov_len := 2 }, { iov_base := [66, 66], iov_len := 2 }]

/-- Default configuration.  A 4-byte write at offset 0 (lied about, in flight),
then the 4-byte write `iov_split` at offset 100, which waits on todo as the
holder. -/
def state_split_holder : wb_state :=
  wb_run xl_default (wb_state_init xl_default)
    [(wb_env_ok, call_write 1 4 64 0), (wb_env_ok, .writev 2 7 fd_plain iov_split 100 0)]

/-- The state `wb_writev` hands to `wb_process_queue` when a 4-byte write at
offset 104 (one iovec, bytes 67) arrives in `state_split_holder`. -/
def state_split_holder_queued : wb_state :=
  (wb_enqueue_tempted wb_env_ok
    { state_split_holder with inode := { state_split_holder.inode with op_ret := 0 } }
    (stub_write 3 4 67 104)).1

/-! ## Notions used for the calls the engine makes -/

/-- From `s` to `s1` the engine made further calls, each of which satisfies `P`. -/
def wb_out_grows (P : wb_event → Prop) (s s1 : wb_state) : Prop :=
  ∃ new, s1.out = s.out ++ new ∧ ∀ ev ∈ new, P ev

/-- The calls a round of `wb_process_queue` can make, `todo` being the requests
on todo when the round starts: a caller's write or flush is answered, a queued
call is wound down, or a writev is sent for a batch whose head was on todo. -/
def wb_round_event (todo : List Nat) : wb_event → Prop
  | .unwind fop _ _ _ => fop = GF_FOP_WRITE ∨ fop = GF_FOP_FLUSH
  | .wind _ => True
  | .wind_bg _ => True
  | .wind_writev head _ _ _ _ => head ∈ todo

/-- The value of `wb_disabled` in `wb_writev`. -/
def wb_writev_disabled (xl : xlator_t) (fd : fd_t) (flags : Nat) : Bool :=
  let o_direct := if !xl.priv.strict_O_DIRECT then 0 else O_DIRECT
  decide (Nat.land fd.flags (Nat.lor (Nat.lor O_SYNC O_DSYNC) o_direct) ≠ 0)
    || decide (Nat.land flags (Nat.lor (Nat.lor O_SYNC O_DSYNC) O_DIRECT) ≠ 0)

/-- Default configuration.  A buffered write of 4 bytes at offset 0 whose
writev fails below with ENOSPC (28): the error is latched on the inode. -/
def state_latched : wb_state :=
  wb_run xl_default (wb_state_init xl_default)
    [(wb_env_ok, call_write 1 4 65 0), (wb_env_ok, .fulfill_cbk 1 (-1) 28)]

/-- The writes the lower layer receives, in order: offset and bytes of each
writev the engine sends down. -/
def wb_written (out : List wb_event) : List (Int × List Nat) :=
  out.filterMap (fun ev =>
    match ev with
    | .wind_writev _ _ vector off _ => some (off, iov_unload vector)
    | _ => none)

/-- The writes the caller submits, in order: offset and bytes of each writev
among the calls. -/
def spec_submitted (calls : List (wb_env × wb_call)) : List (Int × List Nat) :=
  calls.filterMap (fun ec =>
    match ec.2 with
    | .writev _ _ _ vector offset _ => some (offset, iov_unload vector)
    | _ => none)

/-- A file after one more write: the bytes land at `off`, `off + 1`, ... -/
def spec_file_write (f : Int → Option Nat) (off : Int) (bytes : List Nat) : Int → Option Nat :=
  fun x => if off ≤ x ∧ x < off + bytes.length then bytes.get? (x - off).toNat else f x

/-- The content of an empty file after the writes are applied in order. -/
def spec_file_of (writes : List (Int × List Nat)) : Int → Option Nat :=
  writes.foldl (fun f w => spec_file_write f w.1 w.2) (fun _ => none)

/-- Writes of 4 bytes at offsets 0, 100 (in two iovecs) and 104 on one fd; the
lower layer completes the two writevs it receives in full (4 and 6 bytes);
then a flush. -/
def calls_split_flush : List (wb_env × wb_call) :=
  [(wb_env_ok, call_write 1 4 64 0), (wb_env_ok, .writev 2 7 fd_plain iov_split 100 0),
   (wb_env_ok, call_write 3 4 67 104), (wb_env_ok, .fulfill_cbk 1 4 0),
   (wb_env_ok, .fulfill_cbk 2 6 0), (wb_env_ok, .flush 4 7 fd_plain)]

/-- The state after `calls_split_flush` on a fresh inode, flush-behind off. -/
def state_split_flush : wb_state :=
  wb_run xl_flush_sync (wb_state_init xl_flush_sync) calls_split_flush

/-! ## Notions used for the entry points -/

/-- The request a successful `wb_enqueue_common` leaves in the store: it sits
at the address `s.next`. -/
def wb_enqueued (env : wb_env) (s : wb_state) (stub : call_stub_t) (tempted : Bool) :
    wb_request :=
  (wb_enqueue_common env s stub tempted).1.mem s.next

/-- An fd opened with O_DIRECT and nothing else. -/
def fd_direct : fd_t := { addr := 100, flags := O_DIRECT }

/-- An fd opened with O_APPEND and nothing else. -/
def fd_append : fd_t := { addr := 100, flags := O_APPEND }

/-- Stub of a write of 4 bytes at offset 8 on `fd_append`. -/
def stub_write_append : call_stub_t :=
  { fop := GF_FOP_WRITE, frame := 1, lk_owner := 7, fd := some fd_append,
    vector := iov_fill 4 65, off := 8, size := 0, flags := 0 }

/-- Default configuration.  The state `wb_writev` hands to `wb_process_queue`
for the first write on an inode: 4 bytes at offset 0, tempted, alone on todo. -/
def state_first_queued : wb_state :=
  (wb_enqueue_tempted wb_env_ok { wb_state_init xl_default with ctx := true }
    (stub_write 1 4 65 0)).1

/-! ## Scenario runs -/

/-- From `s` to `s1` the inode context stays, the latch is left as it was, no
request changes its kind, and nothing is put on todo. -/
structure wb_latch_kept (s s1 : wb_state) : Prop where
  ctx : s1.ctx = s.ctx
  op_ret : s1.inode.op_ret = s.inode.op_ret
  op_errno : s1.inode.op_errno = s.inode.op_errno
  fop : ∀ a, (s1.mem a).stub.fop = (s.mem a).stub.fop
  todo : ∀ a ∈ s1.inode.todo, a ∈ s.inode.todo

/-- Default configuration.  Writes of 4 bytes at offsets 0, 100 and 300: the
first two are in flight as two batches, the third waits on todo. -/
def calls_two_inflight : List (wb_env × wb_call) :=
  [(wb_env_ok, call_write 1 4 65 0), (wb_env_ok, call_write 2 4 66 100),
   (wb_env_ok, call_write 3 4 67 300)]

/-- The state after `calls_two_inflight` on a fresh inode. -/
def state_two_inflight : wb_state :=
  wb_run xl_default (wb_state_init xl_default) calls_two_inflight

/-! ## Notions used for the completion of a batch -/

/-- A request once `__wb_fulfill_request` has marked it fulfilled and released
one reference of it. -/
def wb_fulfilled_unref (r : wb_request) : wb_request :=
  { r with ordering := { r.ordering with fulfilled := true }, refcount := r.refcount - 1 }

/-- The requests of `l` that hold a single reference: releasing it destroys
them. -/
def wb_released (mem : Nat → wb_request) (l : List Nat) (a : Nat) : Bool :=
  decide (a ∈ l) && decide ((mem a).refcount = 1)

/-- Default configuration.  After `state_pair_waiting` the first write
completes, so that writes 2 and 3 (131072 bytes each) are in flight as one
batch with head 2 and member 3; then a write of 4 bytes arrives and waits on
todo. -/
def state_batch_inflight : wb_state :=
  wb_run xl_default (state_pair_waiting (iov_fill 131072 66))
    [(wb_env_ok, .fulfill_cbk 1 131072 0), (wb_env_ok, call_write 4 4 68 999999)]

/-! ## Notions used for the reference counts -/

/-- The reference count as a census: `W` are the requests that hold their wind
reference and `T` those that hold their unwind reference; no request occurs
twice in either; the count of every request is the number of references it
holds; and the requests on `all` are those that hold a reference. -/
structure wb_ref_core (s : wb_state) (W T : List Nat) : Prop where
  W_nodup : W.Nodup
  T_nodup : T.Nodup
  refs : ∀ a, (s.mem a).refcount = (if a ∈ W then 1 else 0) + (if a ∈ T then 1 else 0)
  all_iff : ∀ a, a ∈ s.inode.all ↔ a ∈ W ∨ a ∈ T
  all_lt : ∀ a ∈ s.inode.all, a < s.next

/-- The invariant behind the reference counts.  The wind reference is held by
the requests of `wb_wind_list`; the unwind reference by those on temptation
and by those taken off temptation and not yet answered (`U`).  Requests that
wait on todo or were picked in the round have no members linked on them. -/
structure wb_ref_inv (s : wb_state) (U tasks liabilities X : List Nat) : Prop where
  ctx : s.ctx = true
  core : wb_ref_core s (wb_wind_list s tasks liabilities X) (s.inode.temptation ++ U)
  fresh : ∀ a ∈ s.inode.todo ++ (tasks ++ liabilities), (s.mem a).winds = []

/-- What holds of the reference counts between calls: either the inode has no
context yet, nothing is queued or in flight and no request holds a reference,
or the invariant holds with no round in progress. -/
def wb_ref_quiet (s : wb_state) : Prop :=
  (s.ctx = false ∧ s.inflight = [] ∧ s.inode.all = [] ∧ s.inode.todo = []
    ∧ s.inode.temptation = [] ∧ ∀ a, (s.mem a).refcount = 0)
  ∨ wb_ref_inv s [] [] [] []

/-! ## Scenario S6 -/

/-- Allocation outcomes of a call during which no frame can be created and
every other allocation succeeds. -/
def wb_env_noframe : wb_env := { wb_env_ok with create_frame := fun _ => false }

/-! ## Notions used for the partition of the picked writes -/

/-- The writev `wb_fulfill_head` sends for a call made in state `c.1` for the
head `c.2`: on the head's fd, with the vector of the batch, at the head's
offset and with the head's flags. -/
def wb_call_event (c : wb_state × Nat) : wb_event :=
  wb_event.wind_writev c.2 (c.1.mem c.2).fd (wb_call_vector c) (c.1.mem c.2).stub.off
    (c.1.mem c.2).stub.flags

/-- The calls of `wb_fulfill_head` for which the frame can be created: those
that submit their batch. -/
def wb_calls_submitted (env : wb_env) (calls : List (wb_state × Nat)) : List (wb_state × Nat) :=
  calls.filter (fun c => env.create_frame c.2)

/-- Window 16, page size 4.  A 20-byte write at offset 100 (lied about, in
flight), then three 4-byte writes at offsets 100, 104 and 200 that wait on
todo behind it. -/
def state_gap_waiting : wb_state :=
  wb_run xl_page4 (wb_state_init xl_page4)
    [(wb_env_ok, call_write 1 20 65 100), (wb_env_ok, call_write 2 4 66 100),
     (wb_env_ok, call_write 3 4 67 104), (wb_env_ok, call_write 4 4 68 200)]

/-- The state `wb_process_queue` hands to `wb_fulfill`, with the list of
picked liabilities, when the 20-byte write completes in `state_gap_waiting`. -/
def state_gap_picked : wb_state × List Nat :=
  let s := { state_gap_waiting with inflight := list_del 1 state_gap_waiting.inflight }
  let q := wb_process_queue_locked xl_page4 wb_env_ok (wb_head_done s 1)
  (wb_do_winds xl_page4 wb_env_ok (wb_do_unwinds q.1 q.2.2.1) q.2.1, q.2.2.2)

/-! ## A merge into an older holder -/

/-- Default configuration.  Write 1 (4 bytes at 100) is sent at once.  Write 2
(4 bytes at 100) overlaps it and waits on todo.  Write 3 (4 bytes at 105) waits
behind it.  A read of [105, 109) then seals write 3, which is sent while write
2 still waits: writes 1 and 3 are in flight, write 2 and the read are on todo,
and writes 1, 2 and 3 are on liability. -/
def calls_overtake : List (wb_env × wb_call) :=
  [(wb_env_ok, call_write 1 4 65 100), (wb_env_ok, call_write 2 4 66 100),
   (wb_env_ok, call_write 3 4 67 105), (wb_env_ok, call_read 4 4 105)]

/-- The state after `calls_overtake` on a fresh inode. -/
def state_overtake : wb_state := wb_run xl_default (wb_state_init xl_default) calls_overtake

/-- The state `wb_writev` hands to `wb_process_queue` when write 5 (4 bytes of
value 69 at offset 104) arrives in `state_overtake`. -/
def state_overtake_queued : wb_state :=
  (wb_enqueue_tempted wb_env_ok state_overtake (stub_write 5 4 69 104)).1

/-- The state after write 5 has arrived in `state_overtake` and the writev of
write 1 has then completed. -/
def state_overtake_sent : wb_state :=
  wb_run xl_default state_overtake
    [(wb_env_ok, call_write 5 4 69 104), (wb_env_ok, .fulfill_cbk 1 4 0)]

/-! ## Notions used for the bytes in transit and the two slots of a request -/

/-- The fields of a request the ledger reads: its sizes, the members linked on
it, and the flags `fulfilled` and `tempted`. -/
structure wb_req_kept (r r1 : wb_request) : Prop where
  total_size : r1.total_size = r.total_size
  write_size : r1.write_size = r.write_size
  winds : r1.winds = r.winds
  fulfilled : r1.ordering.fulfilled = r.ordering.fulfilled
  tempted : r1.ordering.tempted = r.ordering.tempted

/-- The ledger of an inode, on top of the reference census.  `transit` is the
sum of `total_size` over the batch heads in flight and over the batch being
closed (`X`); requests that wait or were picked, and members of batches in
flight, have `total_size` 0; the `total_size` of a head in flight is the sum of
`write_size` over its batch.  A request that holds its wind reference is not
fulfilled; one that holds only its unwind reference is; the unwind reference
is held by tempted requests only, and the picked tasks are not tempted. -/
structure wb_ledger_inv (s : wb_state) (U tasks liabilities X : List Nat) : Prop where
  ref : wb_ref_inv s U tasks liabilities X
  transit : s.inode.transit
    = sum_over (fun r => (r.total_size : Int)) s.mem s.inflight
      + sum_over (fun r => (r.total_size : Int)) s.mem X
  zero : ∀ a ∈ s.inode.todo ++ (tasks ++ liabilities), (s.mem a).total_size = 0
  members : ∀ h ∈ s.inflight, ∀ m ∈ (s.mem h).winds, (s.mem m).total_size = 0
  batch : ∀ h ∈ s.inflight, ((s.mem h).total_size : Int)
    = sum_over (fun r => (r.write_size : Int)) s.mem (wb_batch s.mem h)
  unful : ∀ a ∈ wb_wind_list s tasks liabilities X, (s.mem a).ordering.fulfilled = false
  ful : ∀ a ∈ s.inode.temptation ++ U, a ∉ wb_wind_list s tasks liabilities X →
    (s.mem a).ordering.fulfilled = true
  tempted : ∀ a ∈ s.inode.temptation ++ U, (s.mem a).ordering.tempted = true
  plain : ∀ a ∈ tasks, (s.mem a).ordering.tempted = false

/-- What holds of the ledger between calls: either the inode has no context
yet, nothing is queued or in flight, no request holds a reference and nothing
is in transit, or the ledger invariant holds with no round in progress. -/
def wb_ledger_quiet (s : wb_state) : Prop :=
  (s.ctx = false ∧ s.inflight = [] ∧ s.inode.all = [] ∧ s.inode.todo = []
    ∧ s.inode.temptation = [] ∧ (∀ a, (s.mem a).refcount = 0) ∧ s.inode.transit = 0)
  ∨ wb_ledger_inv s [] [] [] []


/-- Window 16.  A write of 20 bytes at offset 0 is acknowledged and sent; a
write of 4 bytes at offset 100 waits on temptation and todo (the window is
full); a third write of 4 bytes at offset 200 seals the second, and the frame
for the second cannot be created. -/
def calls_noframe : List (wb_env × wb_call) :=
  [(wb_env_ok, call_write 1 20 65 0), (wb_env_ok, call_write 2 4 66 100),
   (wb_env_noframe, call_write 3 4 67 200)]

/-- The state after `calls_noframe` on a fresh inode: write 1 is in flight,
write 2 is fulfilled without having been sent and still on temptation, write 3
waits on temptation and todo, and (-1, ENOMEM) is latched. -/
def state_noframe : wb_state := wb_run xl_window16 (wb_state_init xl_window16) calls_noframe

/-! ## Notions used for the size ledger of coalesced writes -/

/-- Conflict as the specification words it: `L` is not `R`, `L.gen < R.gen`,
and `L` is an append, or strict-write-ordering is configured, or the ranges of
`L` and `R` overlap (`spec_overlap`, a size of 0 reaching to infinity). -/
def spec_conflict (xl : xlator_t) (mem : Nat → wb_request) (L R : Nat) : Bool :=
  decide (L ≠ R) && decide ((mem L).gen < (mem R).gen)
    && ((mem L).ordering.append || xl.priv.strict_write_ordering
        || spec_overlap (mem L) (mem R))

/-- Default configuration.  A buffered write of 10 bytes at offset 0 on a fresh
inode (lied about, on liability, in flight), then a truncate to offset 5 put
on the queue by `wb_truncate`. -/
def state_truncate_queued : wb_state :=
  (wb_enqueue wb_env_ok
    (wb_step xl_default wb_env_ok (wb_state_init xl_default)
      (.writev 1 7 fd_plain (iov_fill 10 65) 0 0))
    stub_truncate_5).1

/-- Default configuration (window 1 MiB): nine buffered writes of 128 KiB
each, at offsets 200000 apart, none of them completed below. -/
def calls_window_full : List (wb_env × wb_call) :=
  [(wb_env_ok, call_write 1 131072 65 0), (wb_env_ok, call_write 2 131072 65 200000),
   (wb_env_ok, call_write 3 131072 65 400000), (wb_env_ok, call_write 4 131072 65 600000),
   (wb_env_ok, call_write 5 131072 65 800000), (wb_env_ok, call_write 6 131072 65 1000000),
   (wb_env_ok, call_write 7 131072 65 1200000), (wb_env_ok, call_write 8 131072 65 1400000),
   (wb_env_ok, call_write 9 131072 65 1600000)]

/-- The state after `calls_window_full` on a fresh inode. -/
def state_window_full : wb_state :=
  wb_run xl_default (wb_state_init xl_default) calls_window_full

/-! # Properties -/

/-! ## Machine integers -/

theorem to_off_t_of_range (x : Int) (h1 : -(2 ^ 63) ≤ x) (h2 : x < 2 ^ 63) : to_off_t x = x := by
  unfold to_off_t
  have h : (x + 2 ^ 63) % 2 ^ 64 = x + 2 ^ 63 := Int.emod_eq_of_lt (by omega) (by omega)
  omega

theorem to_off_t_ULLONG_MAX : to_off_t ULLONG_MAX = -1 := by decide

theorem to_int_of_range (x : Int) (h0 : -(2 ^ 31) ≤ x) (h1 : x < 2 ^ 31) : to_int x = x := by
  unfold to_int
  omega

/-! ## Overlap and conflict oracle -/

/-- When both sizes are non-zero and neither range end leaves `off_t`,
`wb_requests_overlap` decides whether the two ranges intersect. -/
theorem wb_requests_overlap_sized (req1 req2 : wb_request)
    (h1 : req1.ordering.size ≠ 0) (h2 : req2.ordering.size ≠ 0)
    (o1 : 0 ≤ req1.ordering.off) (o2 : 0 ≤ req2.ordering.off)
    (e1 : req1.ordering.off + req1.ordering.size ≤ 2 ^ 63)
    (e2 : req2.ordering.off + req2.ordering.size ≤ 2 ^ 63) :
    wb_requests_overlap req1 req2 = spec_overlap req1 req2 := by
  have hs1 : (0 : Int) < req1.ordering.size := by omega
  have hs2 : (0 : Int) < req2.ordering.size := by omega
  have t1 : to_off_t (req1.ordering.off + req1.ordering.size - 1)
      = req1.ordering.off + req1.ordering.size - 1 :=
    to_off_t_of_range _ (by omega) (by omega)
  have t2 : to_off_t (req2.ordering.off + req2.ordering.size - 1)
      = req2.ordering.off + req2.ordering.size - 1 :=
    to_off_t_of_range _ (by omega) (by omega)
  simp only [wb_requests_overlap, wb_range_end, spec_overlap, h1, h2, t1, t2, if_true,
    ne_eq, not_false_eq_true, decide_False, Bool.false_or]
  rw [Bool.and_comm]
  congr 1 <;> rw [decide_eq_decide] <;> constructor <;> intro h <;> omega

/-- C1, evaluated on the code: a buffered write of bytes [0, 10) and a truncate
at offset 5 (ordering key (5, 0), "till infinity") intersect, yet
`wb_requests_overlap` answers false in both argument orders, because the end
of the size-0 range is stored in an `off_t` as -1. -/
theorem C1_overlap_misses_size_zero :
    (wb_request_init stub_truncate_5 false).ordering.off = 5
    ∧ (wb_request_init stub_truncate_5 false).ordering.size = 0
    ∧ wb_range_end (wb_request_init stub_truncate_5 false) = -1
    ∧ spec_overlap (wb_request_init stub_write_0_10 true)
        (wb_request_init stub_truncate_5 false) = true
    ∧ wb_requests_overlap (wb_request_init stub_write_0_10 true)
        (wb_request_init stub_truncate_5 false) = false
    ∧ wb_requests_overlap (wb_request_init stub_truncate_5 false)
        (wb_request_init stub_write_0_10 true) = false := by
  decide

/-- The tests of `wb_requests_conflict` in terms of the code's own overlap
test: it holds iff L is not R, L.gen < R.gen, and L is an append, or
strict-write-ordering is set, or `wb_requests_overlap (L, R)` holds; R never
conflicts with itself nor with an entry of equal or higher gen. -/
theorem wb_requests_conflict_iff (xl : xlator_t) (mem : Nat → wb_request) (L R : Nat) :
    (wb_requests_conflict xl mem L R = true ↔
      L ≠ R ∧ (mem L).gen < (mem R).gen
      ∧ ((mem L).ordering.append = true ∨ xl.priv.strict_write_ordering = true
          ∨ wb_requests_overlap (mem L) (mem R) = true))
    ∧ wb_requests_conflict xl mem R R = false
    ∧ ¬ ((mem R).gen ≤ (mem L).gen ∧ wb_requests_conflict xl mem L R = true) := by
  unfold wb_requests_conflict
  refine ⟨?_, by simp, ?_⟩
  · by_cases h1 : L = R
    · simp [h1]
    · by_cases h2 : (mem L).gen ≥ (mem R).gen
      · have : ¬ (mem L).gen < (mem R).gen := by omega
        simp [h1, h2, this]
      · have h3 : (mem L).gen < (mem R).gen := by omega
        by_cases h4 : (mem L).ordering.append = true
        · simp [h1, h2, h3, h4]
        · by_cases h5 : xl.priv.strict_write_ordering = true
          · simp [h1, h2, h3, h4, h5]
          · simp [h1, h2, h3, h4, h5]
  · rintro ⟨hg, hc⟩
    by_cases h1 : L = R
    · simp [h1] at hc
    · have h2 : (mem L).gen ≥ (mem R).gen := hg
      simp [h1, h2] at hc

/-- For two requests with non-zero sizes whose ranges stay inside `off_t`,
`wb_requests_conflict` is the conflict of the specification. -/
theorem wb_requests_conflict_sized (xl : xlator_t) (mem : Nat → wb_request) (L R : Nat)
    (h1 : (mem L).ordering.size ≠ 0) (h2 : (mem R).ordering.size ≠ 0)
    (o1 : 0 ≤ (mem L).ordering.off) (o2 : 0 ≤ (mem R).ordering.off)
    (e1 : (mem L).ordering.off + (mem L).ordering.size ≤ 2 ^ 63)
    (e2 : (mem R).ordering.off + (mem R).ordering.size ≤ 2 ^ 63) :
    wb_requests_conflict xl mem L R = spec_conflict xl mem L R := by
  unfold wb_requests_conflict spec_conflict
  rw [wb_requests_overlap_sized (mem L) (mem R) h1 h2 o1 o2 e1 e2]
  by_cases h3 : L = R
  · simp [h3]
  · by_cases h4 : (mem L).gen ≥ (mem R).gen
    · have : ¬ (mem L).gen < (mem R).gen := by omega
      simp [h3, h4, this]
    · have h5 : (mem L).gen < (mem R).gen := by omega
      cases h6 : (mem L).ordering.append <;> cases h7 : xl.priv.strict_write_ordering <;>
        simp [h3, h4, h5]

/-- C2, evaluated on the code in the default configuration, with the overlap
of the specification (a size of 0 reaches to infinity).  A write of bytes
[0, 4) is on liability with gen 0 and a flush with key (0, 0) and gen 1 is
queued; a write of bytes [0, 10) is on liability with gen 0 and a truncate to
offset 5, key (5, 0) and gen 1, is queued.  In both cases L is not R,
L.gen < R.gen and the ranges overlap, so the two conflict as the specification
words it, yet `wb_requests_conflict` answers false: `wb_requests_overlap`
stores the end of the size-0 range in an `off_t` as -1. -/
theorem C2_conflict_misses_size_zero :
    state_flush_queued.inode.liability = [1]
    ∧ (state_flush_queued.mem 1).ordering.off = 0
    ∧ (state_flush_queued.mem 1).ordering.size = 4
    ∧ (state_flush_queued.mem 2).ordering.off = 0
    ∧ (state_flush_queued.mem 2).ordering.size = 0
    ∧ (state_flush_queued.mem 1).gen < (state_flush_queued.mem 2).gen
    ∧ spec_overlap (state_flush_queued.mem 1) (state_flush_queued.mem 2) = true
    ∧ spec_conflict xl_default state_flush_queued.mem 1 2 = true
    ∧ wb_range_end (state_flush_queued.mem 2) = -1
    ∧ wb_requests_overlap (state_flush_queued.mem 1) (state_flush_queued.mem 2) = false
    ∧ wb_requests_conflict xl_default state_flush_queued.mem 1 2 = false
    ∧ state_truncate_queued.inode.liability = [1]
    ∧ (state_truncate_queued.mem 1).ordering.off = 0
    ∧ (state_truncate_queued.mem 1).ordering.size = 10
    ∧ (state_truncate_queued.mem 2).fop = GF_FOP_TRUNCATE
    ∧ (state_truncate_queued.mem 2).ordering.off = 5
    ∧ (state_truncate_queued.mem 2).ordering.size = 0
    ∧ (state_truncate_queued.mem 1).gen < (state_truncate_queued.mem 2).gen
    ∧ spec_conflict xl_default state_truncate_queued.mem 1 2 = true
    ∧ wb_requests_conflict xl_default state_truncate_queued.mem 1 2 = false := by
  decide!

theorem wb_liability_has_conflict_loop_eq_any (xl : xlator_t) (mem : Nat → wb_request)
    (req : Nat) (l : List Nat) :
    wb_liability_has_conflict_loop xl mem req l
      = l.any (fun lie => wb_requests_conflict xl mem lie req) := by
  induction l with
  | nil => rfl
  | cons a l ih =>
    simp only [wb_liability_has_conflict_loop, List.any_cons, ih]
    cases wb_requests_conflict xl mem a req <;> simp

/-- C3, evaluated on the code: after a buffered write of bytes [0, 4) (lied
about, on liability with gen 0, in flight and not fulfilled) a flush arrives
with gen 1 and ordering key (0, 0); `wb_requests_conflict` answers false,
`__wb_pick_winds` detaches the flush into tasks, and `wb_flush` winds it down
and completes it to the caller while the write is still on liability. -/
theorem C3_flush_not_held :
    state_written.inode.liability = [1]
    ∧ state_written.inflight = [1]
    ∧ (state_written.mem 1).ordering.fulfilled = false
    ∧ state_flush_queued.inode.todo = [2]
    ∧ (state_flush_queued.mem 2).fop = GF_FOP_FLUSH
    ∧ (state_flush_queued.mem 2).ordering.off = 0
    ∧ (state_flush_queued.mem 2).ordering.size = 0
    ∧ (state_flush_queued.mem 1).gen < (state_flush_queued.mem 2).gen
    ∧ wb_requests_conflict xl_default state_flush_queued.mem 1 2 = false
    ∧ (__wb_pick_winds xl_default
        (__wb_preprocess_winds xl_default wb_env_ok state_flush_queued) [] []).2.1 = [2]
    ∧ (wb_flush xl_default wb_env_ok state_written 2 7 fd_plain).out
        = state_written.out
          ++ [wb_event.wind_bg stub_flush, wb_event.unwind GF_FOP_FLUSH 2 0 0]
    ∧ (wb_flush xl_default wb_env_ok state_written 2 7 fd_plain).inode.liability = [1] := by
  decide

/-! ## Picker -/

theorem wb_detachable_eq (xl : xlator_t) (s : wb_state) (req : Nat) :
    wb_detachable xl s req
      = (!wb_liability_has_conflict xl s req
          && !((s.mem req).ordering.tempted && !(s.mem req).ordering.go)) := by
  unfold wb_detachable wb_liability_has_conflict
  rw [wb_liability_has_conflict_loop_eq_any]
  congr 1
  · induction s.inode.liability with
    | nil => rfl
    | cons a l ih => simp only [List.all_cons, List.any_cons, ih, Bool.not_or]
  · cases (s.mem req).ordering.tempted <;> cases (s.mem req).ordering.go <;> rfl

theorem wb_detachable_congr (xl : xlator_t) (s s1 : wb_state) (req : Nat)
    (hm : s1.mem = s.mem) (hl : s1.inode.liability = s.inode.liability) :
    wb_detachable xl s1 req = wb_detachable xl s req := by
  unfold wb_detachable
  rw [hm, hl]

/-- The picker loop over any list `l` of requests, from any state. -/
theorem __wb_pick_winds_loop_eq (xl : xlator_t) (l : List Nat) :
    ∀ (s : wb_state) (tasks liabilities : List Nat),
    __wb_pick_winds_loop xl l s tasks liabilities
      = ({ s with inode := { s.inode with
            todo := s.inode.todo.filter
              (fun a => !(decide (a ∈ l) && wb_detachable xl s a)) } },
         tasks ++ l.filter (fun a => wb_detachable xl s a && !(s.mem a).ordering.tempted),
         liabilities ++ l.filter
           (fun a => wb_detachable xl s a && (s.mem a).ordering.tempted)) := by
  induction l with
  | nil =>
    intro s tasks liabilities
    simp [__wb_pick_winds_loop]
  | cons req rest ih =>
    intro s tasks liabilities
    have hd := wb_detachable_eq xl s req
    unfold __wb_pick_winds_loop
    by_cases hc : wb_liability_has_conflict xl s req = true
    · have hdf : wb_detachable xl s req = false := by rw [hd, hc]; rfl
      rw [if_pos hc, ih]
      simp only [List.filter_cons, hdf, Bool.false_and, Bool.false_eq_true, if_false]
      congr 3
      apply List.filter_congr
      intro a _
      by_cases ha : a = req
      · subst ha; simp [hdf]
      · simp [ha]
    · rw [if_neg hc]
      have hc1 : wb_liability_has_conflict xl s req = false := by
        simpa using hc
      by_cases hg : ((s.mem req).ordering.tempted && !(s.mem req).ordering.go) = true
      · have hdf : wb_detachable xl s req = false := by rw [hd, hg]; simp
        rw [if_pos hg, ih]
        simp only [List.filter_cons, hdf, Bool.false_and, Bool.false_eq_true, if_false]
        congr 3
        apply List.filter_congr
        intro a _
        by_cases ha : a = req
        · subst ha; simp [hdf]
        · simp [ha]
      · rw [if_neg hg]
        have hg1 : ((s.mem req).ordering.tempted && !(s.mem req).ordering.go) = false := by
          simpa using hg
        have hdt : wb_detachable xl s req = true := by rw [hd, hc1, hg1]; rfl
        have hcg : ∀ a, wb_detachable xl
            { s with inode := { s.inode with todo := list_del req s.inode.todo } } a
            = wb_detachable xl s a := fun a => wb_detachable_congr xl _ s a rfl rfl
        by_cases ht : (s.mem req).ordering.tempted = true
        · rw [if_pos ht, ih]
          simp only [hcg]
          simp only [List.filter_cons, hdt, ht, Bool.true_and, Bool.not_true,
            Bool.false_eq_true, if_false, if_true, List.append_assoc, List.singleton_append,
            list_del, List.filter_filter]
          congr 3
          apply List.filter_congr
          intro a _
          by_cases ha : a = req
          · subst ha; simp [hdt]
          · simp [ha]
        · rw [if_neg ht, ih]
          have ht1 : (s.mem req).ordering.tempted = false := by simpa using ht
          simp only [hcg]
          simp only [List.filter_cons, hdt, ht1, Bool.true_and, Bool.not_false,
            Bool.false_eq_true, if_false, if_true, List.append_assoc, List.singleton_append,
            list_del, List.filter_filter]
          congr 3
          apply List.filter_congr
          intro a _
          by_cases ha : a = req
          · subst ha; simp [hdt]
          · simp [ha]

/-- The picker from any state, as a partition of todo. -/
theorem __wb_pick_winds_eq (xl : xlator_t) (s : wb_state) (tasks liabilities : List Nat) :
    __wb_pick_winds xl s tasks liabilities
      = ({ s with inode := { s.inode with
            todo := s.inode.todo.filter (fun a => !wb_detachable xl s a) } },
         tasks ++ s.inode.todo.filter
           (fun a => wb_detachable xl s a && !(s.mem a).ordering.tempted),
         liabilities ++ s.inode.todo.filter
           (fun a => wb_detachable xl s a && (s.mem a).ordering.tempted)) := by
  unfold __wb_pick_winds
  rw [__wb_pick_winds_loop_eq]
  have hf : s.inode.todo.filter
        (fun a => !(decide (a ∈ s.inode.todo) && wb_detachable xl s a))
      = s.inode.todo.filter (fun a => !wb_detachable xl s a) := by
    apply List.filter_congr
    intro a ha
    simp [ha]
  rw [hf]

/-- C4: `__wb_pick_winds` detaches exactly the todo requests that conflict with
no liability entry and are non-tempted or have `go` set; the detached tempted
ones are appended to `liabilities` and the detached non-tempted ones to
`tasks`, in todo order; the others stay on todo in their order; nothing else
in the state changes. -/
theorem C4_pick_winds (xl : xlator_t) (s : wb_state) (tasks liabilities : List Nat) :
    __wb_pick_winds xl s tasks liabilities
      = ({ s with inode := { s.inode with
            todo := s.inode.todo.filter (fun a => !wb_detachable xl s a) } },
         tasks ++ s.inode.todo.filter
           (fun a => wb_detachable xl s a && !(s.mem a).ordering.tempted),
         liabilities ++ s.inode.todo.filter
           (fun a => wb_detachable xl s a && (s.mem a).ordering.tempted)) :=
  __wb_pick_winds_eq xl s tasks liabilities

/-! ## Unwinder -/

theorem spec_unwind_taken_congr (mem1 mem2 : Nat → wb_request) (c : Int)
    (h : ∀ a, (mem1 a).ordering.fulfilled = (mem2 a).ordering.fulfilled
      ∧ (mem1 a).orig_size = (mem2 a).orig_size) (l : List Nat) :
    ∀ w, spec_unwind_taken mem1 c w l = spec_unwind_taken mem2 c w l := by
  induction l with
  | nil => intro w; rfl
  | cons a l ih =>
    intro w
    simp only [spec_unwind_taken, (h a).1, (h a).2, ih]

theorem spec_unwind_taken_subset (mem : Nat → wb_request) (c : Int) (l : List Nat) :
    ∀ w a, a ∈ spec_unwind_taken mem c w l → a ∈ l := by
  induction l with
  | nil => intro w a h; simp [spec_unwind_taken] at h
  | cons b l ih =>
    intro w a h
    simp only [spec_unwind_taken] at h
    split at h
    · exact List.mem_cons_of_mem _ (ih _ _ h)
    · rcases List.mem_cons.1 h with h | h
      · rw [h]; exact List.mem_cons_self _ _
      · exact List.mem_cons_of_mem _ (ih _ _ h)

theorem spec_unwind_left_eq_filter (mem : Nat → wb_request) (c : Int) (l : List Nat) :
    ∀ w, l.Nodup →
      l.filter (fun a => decide (a ∉ spec_unwind_taken mem c w l))
        = spec_unwind_left mem c w l := by
  induction l with
  | nil => intro w _; rfl
  | cons b l ih =>
    intro w hnd
    have hb : b ∉ l := (List.nodup_cons.1 hnd).1
    have hl : l.Nodup := (List.nodup_cons.1 hnd).2
    simp only [spec_unwind_taken, spec_unwind_left]
    split
    · have hbt : b ∉ spec_unwind_taken mem c w l :=
        fun h => hb (spec_unwind_taken_subset mem c l w b h)
      rw [List.filter_cons, if_pos (by simpa using hbt), ih w hl]
    · rw [List.filter_cons, if_neg (by simp)]
      rw [← ih _ hl]
      apply List.filter_congr
      intro a ha
      have : a ≠ b := fun h => hb (h ▸ ha)
      simp [this]

theorem __wb_pick_unwinds_loop_release (req : Nat) (rest : List Nat) (s : wb_state)
    (lies : List Nat) (hf : (s.mem req).ordering.fulfilled = true) :
    __wb_pick_unwinds_loop (req :: rest) s lies
      = __wb_pick_unwinds_loop rest
          { s with inode := { s.inode with
              temptation := list_del req s.inode.temptation
              window_current := s.inode.window_current + (s.mem req).orig_size } }
          (lies ++ [req]) := by
  have h1 : (!(s.mem req).ordering.fulfilled
      && decide (s.inode.window_current > s.inode.window_conf)) = false := by rw [hf]; rfl
  have h2 : (!(s.mem req).ordering.fulfilled) = false := by rw [hf]; rfl
  rw [__wb_pick_unwinds_loop]
  simp only [h1]
  simp only [h2, Bool.false_eq_true, if_false]

theorem __wb_pick_unwinds_loop_skip (req : Nat) (rest : List Nat) (s : wb_state)
    (lies : List Nat) (hf : (s.mem req).ordering.fulfilled = false)
    (hw : s.inode.window_current > s.inode.window_conf) :
    __wb_pick_unwinds_loop (req :: rest) s lies = __wb_pick_unwinds_loop rest s lies := by
  have h1 : (!(s.mem req).ordering.fulfilled
      && decide (s.inode.window_current > s.inode.window_conf)) = true := by
    rw [hf, decide_eq_true hw]; rfl
  rw [__wb_pick_unwinds_loop]
  simp only [h1, if_true]

theorem __wb_pick_unwinds_loop_lie (req : Nat) (rest : List Nat) (s : wb_state)
    (lies : List Nat) (hf : (s.mem req).ordering.fulfilled = false)
    (hw : ¬ s.inode.window_current > s.inode.window_conf) :
    __wb_pick_unwinds_loop (req :: rest) s lies
      = __wb_pick_unwinds_loop rest
          { s with
            inode := { s.inode with
              temptation := list_del req s.inode.temptation
              window_current := s.inode.window_current + (s.mem req).orig_size
              liability := s.inode.liability ++ [req]
              gen := s.inode.gen + 1 }
            mem := mem_set s.mem req (wb_set_lied (s.mem req)) }
          (lies ++ [req]) := by
  have h1 : (!(s.mem req).ordering.fulfilled
      && decide (s.inode.window_current > s.inode.window_conf)) = false := by
    rw [hf, decide_eq_false hw]; rfl
  have h2 : (!(s.mem req).ordering.fulfilled) = true := by rw [hf]; rfl
  rw [__wb_pick_unwinds_loop]
  simp only [h1]
  simp only [h2, Bool.false_eq_true, if_false, if_true]
  rfl

theorem mem_set_lied_same (mem : Nat → wb_request) (req a : Nat) :
    (mem_set mem req (wb_set_lied (mem req)) a).ordering.fulfilled = (mem a).ordering.fulfilled
    ∧ (mem_set mem req (wb_set_lied (mem req)) a).orig_size = (mem a).orig_size := by
  unfold mem_set
  by_cases ha : a = req
  · subst ha; simp [wb_set_lied]
  · simp [ha]

/-- The unwinder loop over any list `l` of requests, from any state. -/
theorem __wb_pick_unwinds_loop_eq (l : List Nat) :
    ∀ (s : wb_state) (lies : List Nat),
    __wb_pick_unwinds_loop l s lies
      = ({ s with
            inode := { s.inode with
              temptation := s.inode.temptation.filter (fun a => decide
                (a ∉ spec_unwind_taken s.mem s.inode.window_conf s.inode.window_current l))
              liability := s.inode.liability
                ++ (spec_unwind_taken s.mem s.inode.window_conf s.inode.window_current l).filter
                    (fun a => !(s.mem a).ordering.fulfilled)
              window_current := s.inode.window_current + sum_orig_size s.mem
                (spec_unwind_taken s.mem s.inode.window_conf s.inode.window_current l)
              gen := s.inode.gen
                + ((spec_unwind_taken s.mem s.inode.window_conf s.inode.window_current l).filter
                    (fun a => !(s.mem a).ordering.fulfilled)).length }
            mem := fun a =>
              if a ∈ (spec_unwind_taken s.mem s.inode.window_conf s.inode.window_current l).filter
                  (fun a => !(s.mem a).ordering.fulfilled)
              then wb_set_lied (s.mem a) else s.mem a },
         lies ++ spec_unwind_taken s.mem s.inode.window_conf s.inode.window_current l) := by
  induction l with
  | nil =>
    intro s lies
    simp [__wb_pick_unwinds_loop, spec_unwind_taken, sum_orig_size]
  | cons req rest ih =>
    intro s lies
    by_cases hf : (s.mem req).ordering.fulfilled = true
    · -- a fulfilled entry is released whatever the window
      have hst : spec_unwind_taken s.mem s.inode.window_conf s.inode.window_current (req :: rest)
          = req :: spec_unwind_taken s.mem s.inode.window_conf
              (s.inode.window_current + (s.mem req).orig_size) rest := by
        simp [spec_unwind_taken, hf]
      have hfl : (!(s.mem req).ordering.fulfilled) = false := by rw [hf]; rfl
      rw [hst, __wb_pick_unwinds_loop_release req rest s lies hf, ih]
      simp only [List.filter_cons, hfl, Bool.false_eq_true, if_false, sum_orig_size,
        List.map_cons, List.sum_cons, List.append_assoc, List.singleton_append, list_del,
        List.filter_filter]
      refine Prod.ext ?_ rfl
      simp only [wb_state.mk.injEq, wb_inode.mk.injEq, true_and, and_true]
      refine ⟨by ring, ?_⟩
      apply List.filter_congr
      intro a _
      by_cases ha : a = req <;> simp [ha]
    · have hf1 : (s.mem req).ordering.fulfilled = false := by simpa using hf
      by_cases hw : s.inode.window_current > s.inode.window_conf
      · -- at capacity: the entry is left
        have hst : spec_unwind_taken s.mem s.inode.window_conf s.inode.window_current
            (req :: rest)
            = spec_unwind_taken s.mem s.inode.window_conf s.inode.window_current rest := by
          simp [spec_unwind_taken, hf1, hw]
        rw [hst, __wb_pick_unwinds_loop_skip req rest s lies hf1 hw, ih]
      · -- a new lie
        have hst : spec_unwind_taken s.mem s.inode.window_conf s.inode.window_current
            (req :: rest)
            = req :: spec_unwind_taken s.mem s.inode.window_conf
                (s.inode.window_current + (s.mem req).orig_size) rest := by
          simp [spec_unwind_taken, hf1, hw]
        have hfl : (!(s.mem req).ordering.fulfilled) = true := by rw [hf1]; rfl
        have hm := mem_set_lied_same s.mem req
        have ht := spec_unwind_taken_congr _ s.mem s.inode.window_conf hm rest
        rw [hst, __wb_pick_unwinds_loop_lie req rest s lies hf1 hw, ih]
        simp only [ht, (hm _).1, (hm _).2, sum_orig_size,
          List.filter_cons, hfl, if_true, List.map_cons, List.sum_cons,
          List.append_assoc, List.singleton_append, list_del, List.filter_filter,
          List.length_cons]
        refine Prod.ext ?_ rfl
        simp only [wb_state.mk.injEq, wb_inode.mk.injEq, true_and, and_true]
        refine ⟨⟨by ring, ?_, by omega⟩, ?_⟩
        · apply List.filter_congr
          intro a _
          by_cases ha : a = req <;> simp [ha]
        · funext a
          unfold mem_set
          by_cases ha : a = req
          · subst ha
            simp [wb_set_lied]
          · simp [ha]

/-- C6: on a temptation list without repeated nodes, `__wb_pick_unwinds` does
what the specification's walk says: entries are decided in order with the
running `window_current`; an unfulfilled entry met while
`window_current > window_conf` stays on temptation; every other entry leaves
temptation, is appended to `lies` and credits its `orig_size`; and exactly the
taken unfulfilled entries are appended to liability, get `lied` set and raise
`gen` by one each.  Nothing else changes. -/
theorem C6_pick_unwinds (s : wb_state) (lies : List Nat) (hnd : s.inode.temptation.Nodup) :
    __wb_pick_unwinds s lies = spec_pick_unwinds s lies := by
  unfold __wb_pick_unwinds spec_pick_unwinds
  rw [__wb_pick_unwinds_loop_eq, spec_unwind_left_eq_filter _ _ _ _ hnd]

/-- Witness of C6 on a temptation list with fulfilled and unfulfilled entries:
1 is released, 2 is lied about, 3 is left, 4 is released. -/
theorem C6_pick_unwinds_witness :
    state_mixed_temptation.inode.temptation.Nodup
    ∧ __wb_pick_unwinds state_mixed_temptation []
        = spec_pick_unwinds state_mixed_temptation []
    ∧ (spec_pick_unwinds state_mixed_temptation []).2 = [1, 2, 4]
    ∧ (spec_pick_unwinds state_mixed_temptation []).1.inode.temptation = [3]
    ∧ (spec_pick_unwinds state_mixed_temptation []).1.inode.liability = [2]
    ∧ (spec_pick_unwinds state_mixed_temptation []).1.inode.window_current = 23 :=
  ⟨by decide, C6_pick_unwinds state_mixed_temptation [] (by decide), by decide, by decide,
    by decide, by decide⟩

/-- C7, evaluated on the code: with a window of 16 and two lies of 8 bytes
outstanding, `window_current` is 16 when `__wb_pick_unwinds` runs for a third
write of 8 bytes; the write is lied about and `window_current` is 24 when the
function returns, and still 24 when the call returns: liability then holds
three writes whose `write_size` sum is 24, above the window of 16.  In the
default configuration (window 1048576) eight unfulfilled writes of 131072
bytes fill the window exactly; the ninth is acknowledged all the same, and
liability holds nine writes whose `write_size` sum is 1179648. -/
theorem C7_window_exceeded :
    state_third_write.inode.window_current ≤ state_third_write.inode.window_conf
    ∧ ¬ ((__wb_pick_unwinds state_third_write []).1.inode.window_current
          ≤ (__wb_pick_unwinds state_third_write []).1.inode.window_conf)
    ∧ (__wb_pick_unwinds state_third_write []).1.inode.liability = [1, 2, 3]
    ∧ (wb_step xl_window16 wb_env_ok state_two_lies
        (call_write 3 8 67 200)).inode.window_current = 24
    ∧ (wb_step xl_window16 wb_env_ok state_two_lies
        (call_write 3 8 67 200)).inode.window_conf = 16
    ∧ (wb_step xl_window16 wb_env_ok state_two_lies
        (call_write 3 8 67 200)).inode.liability = [1, 2, 3]
    ∧ sum_over (fun r => (r.write_size : Int))
        (wb_step xl_window16 wb_env_ok state_two_lies (call_write 3 8 67 200)).mem
        (wb_step xl_window16 wb_env_ok state_two_lies (call_write 3 8 67 200)).inode.liability
        = 24
    ∧ wb_calls_ok xl_default (wb_state_init xl_default) calls_window_full
    ∧ (wb_run xl_default (wb_state_init xl_default)
        (calls_window_full.take 8)).inode.window_current = 1048576
    ∧ state_window_full.inode.window_conf = 1048576
    ∧ state_window_full.inode.window_current = 1179648
    ∧ state_window_full.inode.liability = [1, 2, 3, 4, 5, 6, 7, 8, 9]
    ∧ (∀ a ∈ state_window_full.inode.liability,
        (state_window_full.mem a).ordering.fulfilled = false)
    ∧ sum_over (fun r => (r.write_size : Int)) state_window_full.mem
        state_window_full.inode.liability = 1179648
    ∧ state_window_full.out.filter (fun ev => ev matches wb_event.unwind _ _ _ _)
        = [wb_event.unwind GF_FOP_WRITE 1 131072 0, wb_event.unwind GF_FOP_WRITE 2 131072 0,
           wb_event.unwind GF_FOP_WRITE 3 131072 0, wb_event.unwind GF_FOP_WRITE 4 131072 0,
           wb_event.unwind GF_FOP_WRITE 5 131072 0, wb_event.unwind GF_FOP_WRITE 6 131072 0,
           wb_event.unwind GF_FOP_WRITE 7 131072 0, wb_event.unwind GF_FOP_WRITE 8 131072 0,
           wb_event.unwind GF_FOP_WRITE 9 131072 0] := by
  decide!

theorem spec_unwind_taken_bound (mem : Nat → wb_request) (c : Int) (B : Nat) (l : List Nat) :
    ∀ w, (∀ a ∈ l, (mem a).ordering.fulfilled = false → (mem a).orig_size ≤ B) →
      w + sum_orig_size mem (spec_unwind_taken mem c w l)
        ≤ max w (c + B) + sum_orig_fulfilled mem l := by
  induction l with
  | nil =>
    intro w _
    simp [spec_unwind_taken, sum_orig_size, sum_orig_fulfilled]
  | cons a l ih =>
    intro w hB
    have hB1 : ∀ b ∈ l, (mem b).ordering.fulfilled = false → (mem b).orig_size ≤ B :=
      fun b hb => hB b (List.mem_cons_of_mem _ hb)
    by_cases hf : (mem a).ordering.fulfilled = true
    · have hst : spec_unwind_taken mem c w (a :: l)
          = a :: spec_unwind_taken mem c (w + (mem a).orig_size) l := by
        simp [spec_unwind_taken, hf]
      have h1 := ih (w + (mem a).orig_size) hB1
      have h2 : sum_orig_fulfilled mem (a :: l)
          = (mem a).orig_size + sum_orig_fulfilled mem l := by
        simp [sum_orig_fulfilled, sum_orig_size, List.filter_cons, hf]
      have h3 : sum_orig_size mem (a :: spec_unwind_taken mem c (w + (mem a).orig_size) l)
          = (mem a).orig_size
            + sum_orig_size mem (spec_unwind_taken mem c (w + (mem a).orig_size) l) := by
        simp [sum_orig_size]
      rw [hst, h2, h3]
      have h4 : max (w + ((mem a).orig_size : Int)) (c + B)
          ≤ max w (c + B) + (mem a).orig_size := by
        have : (0 : Int) ≤ (mem a).orig_size := Int.ofNat_nonneg _
        rcases le_total w (c + B) with h | h
        · rw [max_eq_right h]
          exact max_le (by omega) (by omega)
        · rw [max_eq_left h]
          exact max_le (by omega) (by omega)
      omega
    · have hf1 : (mem a).ordering.fulfilled = false := by simpa using hf
      have h2 : sum_orig_fulfilled mem (a :: l) = sum_orig_fulfilled mem l := by
        simp [sum_orig_fulfilled, List.filter_cons, hf1]
      by_cases hw : w > c
      · have hst : spec_unwind_taken mem c w (a :: l) = spec_unwind_taken mem c w l := by
          simp [spec_unwind_taken, hf1, hw]
        rw [hst, h2]
        exact ih w hB1
      · have hst : spec_unwind_taken mem c w (a :: l)
            = a :: spec_unwind_taken mem c (w + (mem a).orig_size) l := by
          simp [spec_unwind_taken, hf1, hw]
        have h1 := ih (w + (mem a).orig_size) hB1
        have h3 : sum_orig_size mem (a :: spec_unwind_taken mem c (w + (mem a).orig_size) l)
            = (mem a).orig_size
              + sum_orig_size mem (spec_unwind_taken mem c (w + (mem a).orig_size) l) := by
          simp [sum_orig_size]
        have hb : ((mem a).orig_size : Int) ≤ B := by
          exact_mod_cast hB a (List.mem_cons_self _ _) hf1
        have h4 : max (w + ((mem a).orig_size : Int)) (c + B) = c + B :=
          max_eq_right (by omega)
        have h5 : c + (B : Int) ≤ max w (c + B) := le_max_right _ _
        rw [hst, h2, h3]
        rw [h4] at h1
        omega

/-- How far `__wb_pick_unwinds` lets the window grow: it checks the window
before it credits a lie, not after.  From a state with
`window_current ≤ window_conf` it returns with `window_current` at most
`window_conf` plus the largest `orig_size` of an unfulfilled temptation entry
(bounded by `B`) plus the `orig_size` of the fulfilled entries it releases;
`window_conf` itself is unchanged. -/
theorem __wb_pick_unwinds_overshoot_bound (s : wb_state) (lies : List Nat) (B : Nat)
    (h0 : s.inode.window_current ≤ s.inode.window_conf)
    (hB : ∀ a ∈ s.inode.temptation,
      (s.mem a).ordering.fulfilled = false → (s.mem a).orig_size ≤ B) :
    (__wb_pick_unwinds s lies).1.inode.window_current
      ≤ s.inode.window_conf + B + sum_orig_fulfilled s.mem s.inode.temptation
    ∧ (__wb_pick_unwinds s lies).1.inode.window_conf = s.inode.window_conf := by
  unfold __wb_pick_unwinds
  rw [__wb_pick_unwinds_loop_eq]
  refine ⟨?_, rfl⟩
  have h := spec_unwind_taken_bound s.mem s.inode.window_conf B s.inode.temptation
    s.inode.window_current hB
  have hm : max s.inode.window_current (s.inode.window_conf + B) = s.inode.window_conf + B :=
    max_eq_right (by have : (0 : Int) ≤ B := Int.ofNat_nonneg _; omega)
  rw [hm] at h
  exact h

/-- The bound on `state_third_write` with `B = 8`: the window of 16 ends at
24. -/
theorem __wb_pick_unwinds_overshoot_example :
    state_third_write.inode.window_current ≤ state_third_write.inode.window_conf
    ∧ (∀ a ∈ state_third_write.inode.temptation,
        (state_third_write.mem a).ordering.fulfilled = false
          → (state_third_write.mem a).orig_size ≤ 8)
    ∧ (__wb_pick_unwinds state_third_write []).1.inode.window_current
        ≤ state_third_write.inode.window_conf + (8 : Nat)
          + sum_orig_fulfilled state_third_write.mem state_third_write.inode.temptation
    ∧ (__wb_pick_unwinds state_third_write []).1.inode.window_conf
        = state_third_write.inode.window_conf :=
  ⟨by decide!, by decide!,
    (__wb_pick_unwinds_overshoot_bound state_third_write [] 8 (by decide!) (by decide!)).1,
    (__wb_pick_unwinds_overshoot_bound state_third_write [] 8 (by decide!) (by decide!)).2⟩

/-! ## Fulfiller -/

/-- C10, evaluated on the code: `wb_fulfill` receives the picked writes 2, 3, 4
(4 bytes each, at offsets 100, 104 and 104, same fd and lock owner) and puts
all three in one batch, because `expected_offset` is set when the head is
chosen and not advanced when a member is added.  Request 4 has offset 104,
while the head's offset plus the sizes before it is 108; the single writev at
offset 100 carries its bytes to [108, 112). -/
theorem C10_batch_not_contiguous :
    state_three_picked.2 = [2, 3, 4]
    ∧ (state_three_picked.1.mem 2).stub.off = 100
    ∧ (state_three_picked.1.mem 3).stub.off = 104
    ∧ (state_three_picked.1.mem 4).stub.off = 104
    ∧ (state_three_picked.1.mem 2).write_size = 4
    ∧ (state_three_picked.1.mem 3).write_size = 4
    ∧ ((wb_fulfill xl_page4 wb_env_ok state_three_picked.1 state_three_picked.2).mem 2).winds
        = [3, 4]
    ∧ (wb_fulfill xl_page4 wb_env_ok state_three_picked.1 state_three_picked.2).inflight = [2]
    ∧ (wb_fulfill xl_page4 wb_env_ok state_three_picked.1 state_three_picked.2).out
        = state_three_picked.1.out
          ++ [wb_event.wind_writev 2 100 (iov_fill 4 66 ++ iov_fill 4 67 ++ iov_fill 4 68) 100 0]
    ∧ wb_step xl_page4 wb_env_ok state_three_waiting (.fulfill_cbk 1 20 0)
        = wb_fulfill xl_page4 wb_env_ok state_three_picked.1 state_three_picked.2 := by
  refine ⟨by decide!, by decide!, by decide!, by decide!, by decide!, by decide!, by decide!,
    by decide!, by decide!, rfl⟩

/-! ## Runs -/

theorem Reachable.run (xl : xlator_t) (calls : List (wb_env × wb_call)) :
    ∀ s, Reachable xl s → wb_calls_ok xl s calls → Reachable xl (wb_run xl s calls) := by
  induction calls with
  | nil => intro s h _; exact h
  | cons ec rest ih =>
    intro s h hok
    obtain ⟨env, c⟩ := ec
    exact ih _ (Reachable.step env s c h hok.1) hok.2

/-! ## The queue processor -/

theorem wb_requests_conflict_congr (xl : xlator_t) (mem1 mem2 : Nat → wb_request)
    (h : ∀ a, (mem1 a).gen = (mem2 a).gen ∧ (mem1 a).ordering.append = (mem2 a).ordering.append
      ∧ (mem1 a).ordering.off = (mem2 a).ordering.off
      ∧ (mem1 a).ordering.size = (mem2 a).ordering.size) (l a : Nat) :
    wb_requests_conflict xl mem1 l a = wb_requests_conflict xl mem2 l a := by
  unfold wb_requests_conflict wb_requests_overlap wb_range_end
  rw [(h l).1, (h a).1, (h l).2.1, (h l).2.2.1, (h l).2.2.2, (h a).2.2.1, (h a).2.2.2]

theorem __wb_pick_unwinds_mem (s : wb_state) (lies : List Nat) (a : Nat) :
    (__wb_pick_unwinds s lies).1.mem a = s.mem a
    ∨ (__wb_pick_unwinds s lies).1.mem a = wb_set_lied (s.mem a) := by
  unfold __wb_pick_unwinds
  rw [__wb_pick_unwinds_loop_eq]
  simp only
  split
  · exact Or.inr rfl
  · exact Or.inl rfl

theorem __wb_pick_unwinds_conflict (xl : xlator_t) (s : wb_state) (lies : List Nat)
    (l a : Nat) :
    wb_requests_conflict xl (__wb_pick_unwinds s lies).1.mem l a
      = wb_requests_conflict xl s.mem l a := by
  apply wb_requests_conflict_congr
  intro b
  rcases __wb_pick_unwinds_mem s lies b with h | h <;> rw [h] <;> simp [wb_set_lied]

theorem wb_detachable_no_conflict (xl : xlator_t) (s : wb_state) (a : Nat)
    (h : wb_detachable xl s a = true) :
    ∀ l ∈ s.inode.liability, wb_requests_conflict xl s.mem l a = false := by
  intro l hl
  unfold wb_detachable at h
  simp only [Bool.and_eq_true, List.all_eq_true] at h
  simpa using h.1 l hl

theorem __wb_pick_winds_picked (xl : xlator_t) (s : wb_state) (a : Nat)
    (h : a ∈ (__wb_pick_winds xl s [] []).2.1 ∨ a ∈ (__wb_pick_winds xl s [] []).2.2) :
    wb_detachable xl s a = true := by
  rw [__wb_pick_winds_eq] at h
  simp only [List.nil_append, List.mem_filter, Bool.and_eq_true] at h
  rcases h with h | h
  · exact h.2.1
  · exact h.2.1

/-- C5 as stated fails.  In the reachable state `state_read_waiting` write 2
is in flight; when it completes, the round of `wb_process_queue` picks the
read (request 4, gen 2, bytes [100, 300)) into `tasks`, and then
`__wb_pick_unwinds` puts write 3 (gen 1, bytes [200, 204)) on liability in the
same round: the read is resumed while a conflicting entry sits on liability. -/
theorem C5_round_not_conflict_free :
    Reachable xl_window16 state_read_waiting
    ∧ 2 ∈ state_read_waiting.inflight
    ∧ wb_step xl_window16 wb_env_ok state_read_waiting (.fulfill_cbk 2 20 0)
        = wb_process_queue xl_window16 wb_env_ok state_read_round
    ∧ (wb_process_queue_locked xl_window16 wb_env_ok state_read_round).2.1 = [4]
    ∧ (wb_process_queue_locked xl_window16 wb_env_ok state_read_round).1.inode.liability = [3]
    ∧ wb_requests_conflict xl_window16
        (wb_process_queue_locked xl_window16 wb_env_ok state_read_round).1.mem 3 4 = true
    ∧ ¬ wb_round_conflict_free xl_window16 wb_env_ok state_read_round := by
  refine ⟨Reachable.run _ _ _ Reachable.init (by decide!), by decide!, rfl, by decide!,
    by decide!, by decide!, ?_⟩
  intro h
  have h1 := h 4 (Or.inl (by decide!)) 3 (by decide!)
  revert h1
  decide!

/-- C5, amended: in every round of `wb_process_queue`, from any state, a
request picked into `tasks` or `liabilities` conflicts with no entry that was
on liability when `__wb_pick_winds` ran; such entries are still on liability
when the lock is released, and the entries `__wb_pick_unwinds` appends behind
them in the same round are not checked. -/
theorem C5_picked_clear_of_earlier_liability (xl : xlator_t) (env : wb_env) (s : wb_state)
    (a : Nat)
    (ha : a ∈ (wb_process_queue_locked xl env s).2.1
      ∨ a ∈ (wb_process_queue_locked xl env s).2.2.2) :
    (∃ added, (wb_process_queue_locked xl env s).1.inode.liability
        = (__wb_preprocess_winds xl env s).inode.liability ++ added)
    ∧ ∀ l ∈ (__wb_preprocess_winds xl env s).inode.liability,
        wb_requests_conflict xl (wb_process_queue_locked xl env s).1.mem l a = false := by
  unfold wb_process_queue_locked at ha ⊢
  simp only at ha ⊢
  have hd := __wb_pick_winds_picked xl (__wb_preprocess_winds xl env s) a ha
  have hw : (__wb_pick_winds xl (__wb_preprocess_winds xl env s) [] []).1.mem
        = (__wb_preprocess_winds xl env s).mem
      ∧ (__wb_pick_winds xl (__wb_preprocess_winds xl env s) [] []).1.inode.liability
        = (__wb_preprocess_winds xl env s).inode.liability := by
    rw [__wb_pick_winds_eq]
    exact ⟨rfl, rfl⟩
  constructor
  · unfold __wb_pick_unwinds
    rw [__wb_pick_unwinds_loop_eq]
    simp only
    rw [hw.2]
    exact ⟨_, rfl⟩
  · intro l hl
    rw [__wb_pick_unwinds_conflict, hw.1]
    exact wb_detachable_no_conflict xl _ a hd l hl

/-- Witness of the amended C5 on the round of `state_read_round`: the read is
picked, nothing was on liability when it was picked, and write 3 is appended
behind. -/
theorem C5_picked_clear_of_earlier_liability_witness :
    (4 ∈ (wb_process_queue_locked xl_window16 wb_env_ok state_read_round).2.1
      ∨ 4 ∈ (wb_process_queue_locked xl_window16 wb_env_ok state_read_round).2.2.2)
    ∧ (∃ added,
        (wb_process_queue_locked xl_window16 wb_env_ok state_read_round).1.inode.liability
          = (__wb_preprocess_winds xl_window16 wb_env_ok state_read_round).inode.liability
            ++ added)
    ∧ ∀ l ∈ (__wb_preprocess_winds xl_window16 wb_env_ok state_read_round).inode.liability,
        wb_requests_conflict xl_window16
          (wb_process_queue_locked xl_window16 wb_env_ok state_read_round).1.mem l 4 = false :=
  ⟨Or.inl (by decide!),
    C5_picked_clear_of_earlier_liability xl_window16 wb_env_ok state_read_round 4
      (Or.inl (by decide!))⟩

/-! ## Liability entries are lied and older than the inode generation -/

theorem list_del_subset (a b : Nat) (l : List Nat) (h : b ∈ list_del a l) : b ∈ l ∧ b ≠ a := by
  unfold list_del at h
  simpa using h

theorem mem_list_del (a b : Nat) (l : List Nat) (h : b ∈ l) (hne : b ≠ a) : b ∈ list_del a l := by
  unfold list_del
  simpa using ⟨h, hne⟩

/-- A step that keeps the lists, the generation and the next address, and in
the store keeps every `gen` and never clears a `lied` flag, keeps the invariant. -/
theorem wb_liability_inv.frame {s s1 : wb_state} (h : wb_liability_inv s)
    (hg : s1.inode.gen = s.inode.gen) (ha : s1.inode.all = s.inode.all)
    (hl : s1.inode.liability = s.inode.liability)
    (ht : s1.inode.temptation = s.inode.temptation) (hn : s1.next = s.next)
    (hm : ∀ a, (s1.mem a).gen = (s.mem a).gen
      ∧ ((s.mem a).ordering.lied = true → (s1.mem a).ordering.lied = true)) :
    wb_liability_inv s1 := by
  constructor
  · intro a hal
    rw [hl] at hal
    rw [(hm a).1, hg]
    exact ⟨(hm a).2 (h.lied a hal).1, (h.lied a hal).2⟩
  · intro a haa
    rw [ha] at haa
    rw [(hm a).1, hg, hn]
    exact h.gen_le a haa
  · intro a hal
    rw [hl] at hal
    rw [ha]
    exact h.liability_all a hal
  · intro a hat
    rw [ht] at hat
    rw [ha]
    exact h.temptation_all a hat

theorem mem_set_same_gen_lied (mem : Nat → wb_request) (req : Nat) (r : wb_request)
    (hg : r.gen = (mem req).gen)
    (hl : (mem req).ordering.lied = true → r.ordering.lied = true) (a : Nat) :
    (mem_set mem req r a).gen = (mem a).gen
    ∧ ((mem a).ordering.lied = true → (mem_set mem req r a).ordering.lied = true) := by
  unfold mem_set
  by_cases h : a = req
  · subst h
    rw [if_pos rfl]
    exact ⟨hg, hl⟩
  · rw [if_neg h]
    exact ⟨rfl, fun x => x⟩

theorem wb_liability_inv.destroy {s : wb_state} (h : wb_liability_inv s) (req : Nat) :
    wb_liability_inv { s with inode := wb_request_destroy s.inode req } := by
  unfold wb_request_destroy
  simp only
  split
  · rename_i he
    have hall : ∀ a, a ∉ list_del req s.inode.all := by
      intro a ha
      simp only [List.isEmpty_iff] at he
      rw [he] at ha
      exact List.not_mem_nil _ ha
    constructor
    · intro a ha
      exact absurd (mem_list_del req a _ (h.liability_all a (list_del_subset _ _ _ ha).1)
        (list_del_subset _ _ _ ha).2) (hall a)
    · intro a ha
      exact absurd ha (hall a)
    · intro a ha
      exact absurd (mem_list_del req a _ (h.liability_all a (list_del_subset _ _ _ ha).1)
        (list_del_subset _ _ _ ha).2) (hall a)
    · intro a ha
      exact absurd (mem_list_del req a _ (h.temptation_all a (list_del_subset _ _ _ ha).1)
        (list_del_subset _ _ _ ha).2) (hall a)
  · constructor
    · intro a ha
      exact h.lied a (list_del_subset _ _ _ ha).1
    · intro a ha
      exact h.gen_le a (list_del_subset _ _ _ ha).1
    · intro a ha
      exact mem_list_del req a _ (h.liability_all a (list_del_subset _ _ _ ha).1)
        (list_del_subset _ _ _ ha).2
    · intro a ha
      exact mem_list_del req a _ (h.temptation_all a (list_del_subset _ _ _ ha).1)
        (list_del_subset _ _ _ ha).2

theorem wb_liability_inv.unref {s : wb_state} (h : wb_liability_inv s) (req : Nat) :
    wb_liability_inv (__wb_request_unref s req) := by
  unfold __wb_request_unref
  simp only
  have h1 : wb_liability_inv
      { s with mem := mem_set s.mem req ({ s.mem req with refcount := (s.mem req).refcount - 1 }) } :=
    h.frame rfl rfl rfl rfl rfl (mem_set_same_gen_lied _ _ _ rfl (fun x => x))
  split
  · exact h
  · split
    · exact h1.destroy req
    · exact h1

theorem wb_liability_inv.fulfill_request {s : wb_state} (h : wb_liability_inv s) (req : Nat) :
    wb_liability_inv (__wb_fulfill_request s req) := by
  unfold __wb_fulfill_request
  apply wb_liability_inv.unref
  exact h.frame rfl rfl rfl rfl rfl (mem_set_same_gen_lied _ _ _ rfl (fun x => x))

theorem wb_liability_inv.head_done_loop (l : List Nat) :
    ∀ {s : wb_state}, wb_liability_inv s → wb_liability_inv (wb_head_done_loop l s) := by
  induction l with
  | nil => intro s h; exact h
  | cons a l ih => intro s h; exact ih (h.fulfill_request a)

theorem wb_liability_inv.head_done {s : wb_state} (h : wb_liability_inv s) (head : Nat) :
    wb_liability_inv (wb_head_done s head) := by
  unfold wb_head_done
  exact (wb_liability_inv.head_done_loop _ h).fulfill_request head

theorem wb_liability_inv.inode_err {s : wb_state} (h : wb_liability_inv s) (e : Int) :
    wb_liability_inv (wb_inode_err s e) :=
  h.frame rfl rfl rfl rfl rfl (fun _ => ⟨rfl, fun x => x⟩)

theorem wb_liability_inv.iov_load {s : wb_state} (h : wb_liability_inv s) (vec : List iovec)
    (req head : Nat) : wb_liability_inv (WB_IOV_LOAD s vec req head).1 := by
  unfold WB_IOV_LOAD
  exact h.frame rfl rfl rfl rfl rfl (mem_set_same_gen_lied _ _ _ rfl (fun x => x))

theorem wb_liability_inv.fulfill_head_loop (head : Nat) (l : List Nat) :
    ∀ {s : wb_state} (vec : List iovec), wb_liability_inv s →
      wb_liability_inv (wb_fulfill_head_loop head l s vec).1 := by
  induction l with
  | nil => intro s vec h; exact h
  | cons a l ih => intro s vec h; exact ih _ (h.iov_load vec a head)

theorem wb_liability_inv.fulfill_head {s : wb_state} (h : wb_liability_inv s) (env : wb_env)
    (head : Nat) : wb_liability_inv (wb_fulfill_head env s head) := by
  unfold wb_fulfill_head
  split
  · exact (h.inode_err _).head_done head
  · simp only
    exact (wb_liability_inv.fulfill_head_loop head _ _ (h.iov_load [] head head)).frame
      rfl rfl rfl rfl rfl (fun _ => ⟨rfl, fun x => x⟩)

theorem wb_liability_inv.next_head {s : wb_state} (h : wb_liability_inv s) (env : wb_env)
    (l : wb_fulfill_locals) (req : Nat) : wb_liability_inv (NEXT_HEAD env s l req).1 := by
  unfold NEXT_HEAD
  simp only
  split
  · exact h.fulfill_head env _
  · exact h

theorem wb_liability_inv.fulfill_loop (xl : xlator_t) (env : wb_env) (liabilities : List Nat) :
    ∀ {s : wb_state} (l : wb_fulfill_locals), wb_liability_inv s →
      wb_liability_inv (wb_fulfill_loop xl env liabilities s l).1 := by
  induction liabilities with
  | nil => intro s l h; exact h
  | cons req rest ih =>
    intro s l h
    unfold wb_fulfill_loop
    split
    · exact ih _ (h.next_head env l req)
    · split
      · exact ih _ (h.next_head env l req)
      · exact ih _ (h.frame rfl rfl rfl rfl rfl (mem_set_same_gen_lied _ _ _ rfl (fun x => x)))

theorem wb_liability_inv.fulfill {s : wb_state} (h : wb_liability_inv s) (xl : xlator_t)
    (env : wb_env) (liabilities : List Nat) :
    wb_liability_inv (wb_fulfill xl env s liabilities) := by
  unfold wb_fulfill
  simp only
  split
  · exact (wb_liability_inv.fulfill_loop xl env liabilities _ h).fulfill_head env _
  · exact wb_liability_inv.fulfill_loop xl env liabilities _ h

theorem wb_liability_inv.do_unwinds (lies : List Nat) :
    ∀ {s : wb_state}, wb_liability_inv s → wb_liability_inv (wb_do_unwinds s lies) := by
  induction lies with
  | nil => intro s h; exact h
  | cons a l ih =>
    intro s h
    unfold wb_do_unwinds
    apply ih
    unfold wb_request_unref
    apply wb_liability_inv.unref
    exact h.frame rfl rfl rfl rfl rfl (fun _ => ⟨rfl, fun x => x⟩)

theorem wb_liability_inv.pick_unwinds {s : wb_state} (h : wb_liability_inv s)
    (lies : List Nat) : wb_liability_inv (__wb_pick_unwinds s lies).1 := by
  unfold __wb_pick_unwinds
  rw [__wb_pick_unwinds_loop_eq]
  simp only
  have htk : ∀ a, a ∈ (spec_unwind_taken s.mem s.inode.window_conf s.inode.window_current
      s.inode.temptation).filter (fun a => !(s.mem a).ordering.fulfilled) →
      a ∈ s.inode.all := by
    intro a ha
    exact h.temptation_all a (spec_unwind_taken_subset _ _ _ _ _ (List.mem_filter.1 ha).1)
  constructor
  · intro a ha
    simp only [List.mem_append] at ha
    simp only
    split
    · rename_i hin
      have hpos : 0 < ((spec_unwind_taken s.mem s.inode.window_conf s.inode.window_current
          s.inode.temptation).filter (fun a => !(s.mem a).ordering.fulfilled)).length :=
        List.length_pos_of_mem hin
      have hg := (h.gen_le a (htk a hin)).1
      exact ⟨rfl, by simp only [wb_set_lied]; omega⟩
    · rename_i hin
      rcases ha with ha | ha
      · have := h.lied a ha
        exact ⟨this.1, by omega⟩
      · exact absurd ha hin
  · intro a ha
    simp only at ha ⊢
    have := h.gen_le a ha
    split
    · simp only [wb_set_lied]
      exact ⟨by omega, this.2⟩
    · exact ⟨by omega, this.2⟩
  · intro a ha
    simp only [List.mem_append] at ha
    rcases ha with ha | ha
    · exact h.liability_all a ha
    · exact htk a ha
  · intro a ha
    simp only at ha ⊢
    exact h.temptation_all a (List.mem_filter.1 ha).1

theorem wb_liability_inv.set_go {s : wb_state} (h : wb_liability_inv s) (req : Nat) :
    wb_liability_inv (wb_set_go s req) := by
  unfold wb_set_go
  exact h.frame rfl rfl rfl rfl rfl (mem_set_same_gen_lied _ _ _ rfl (fun x => x))

theorem wb_holder_buffered_same (h : wb_request) :
    (wb_holder_buffered h).gen = h.gen
    ∧ (wb_holder_buffered h).ordering = h.ordering
    ∧ (wb_holder_buffered h).write_size = h.write_size
    ∧ (wb_holder_buffered h).orig_size = h.orig_size
    ∧ (wb_holder_buffered h).total_size = h.total_size
    ∧ (wb_holder_buffered h).refcount = h.refcount
    ∧ (wb_holder_buffered h).winds = h.winds
    ∧ (wb_holder_buffered h).fd = h.fd
    ∧ (wb_holder_buffered h).lk_owner = h.lk_owner
    ∧ (wb_holder_buffered h).stub.off = h.stub.off := by
  unfold wb_holder_buffered
  split <;> simp

theorem mem_set_mem_set (mem : Nat → wb_request) (a : Nat) (x y : wb_request) :
    mem_set (mem_set mem a x) a y = mem_set mem a y := by
  funext b
  unfold mem_set
  by_cases h : b = a <;> simp [h]

theorem mem_set_eq (mem : Nat → wb_request) (a : Nat) (x : wb_request) :
    mem_set mem a x a = x := by
  unfold mem_set
  rw [if_pos rfl]

theorem mem_set_ne (mem : Nat → wb_request) (a b : Nat) (x : wb_request) (h : b ≠ a) :
    mem_set mem a x b = mem b := by
  unfold mem_set
  rw [if_neg h]

/-- What `__wb_collapse_small_writes` does to the state: nothing when the
buffer cannot be had, else only the holder changes. -/
theorem __wb_collapse_small_writes_eq (env : wb_env) (s : wb_state) (holder req : Nat) :
    (__wb_collapse_small_writes env s holder req
      = (s, -1))
    ∨ (__wb_collapse_small_writes env s holder req
      = ({ s with mem := (mem_set s.mem holder
            (wb_holder_append (wb_holder_buffered (s.mem holder))
              (mem_set s.mem holder (wb_holder_buffered (s.mem holder)) req))) }, 0)) := by
  unfold __wb_collapse_small_writes
  simp only
  split
  · exact Or.inl rfl
  · right
    rw [mem_set_mem_set]

theorem wb_liability_inv.collapse {s : wb_state} (h : wb_liability_inv s) (env : wb_env)
    (holder req : Nat) : wb_liability_inv (__wb_collapse_small_writes env s holder req).1 := by
  rcases __wb_collapse_small_writes_eq env s holder req with he | he
  · rw [he]; exact h
  · rw [he]
    refine h.frame rfl rfl rfl rfl rfl ?_
    apply mem_set_same_gen_lied
    · exact (wb_holder_buffered_same _).1
    · intro hl
      show (wb_holder_buffered (s.mem holder)).ordering.lied = true
      rw [(wb_holder_buffered_same _).2.1]
      exact hl

theorem wb_liability_inv.preprocess_loop (xl : xlator_t) (env : wb_env) (l : List Nat) :
    ∀ {s : wb_state} (holder : Option Nat), wb_liability_inv s →
      wb_liability_inv (__wb_preprocess_winds_loop xl env l s holder).1 := by
  induction l with
  | nil => intro s holder h; exact h
  | cons req rest ih =>
    intro s holder h
    unfold __wb_preprocess_winds_loop
    split
    · split
      · split
        · exact ih _ (h.set_go _)
        · exact ih _ h
      · exact ih _ h
    · split
      · exact ih _ h
      · simp only
        split
        · exact ih _ (h.set_go _)
        · split
          · exact ih _ (h.set_go _)
          · split
            · exact ih _ (h.set_go _)
            · split
              · exact ih _ (h.collapse env _ _)
              · apply ih
                apply wb_liability_inv.fulfill_request
                exact (h.collapse env _ _).frame rfl rfl rfl rfl rfl
                  (fun _ => ⟨rfl, fun x => x⟩)

theorem wb_liability_inv.preprocess {s : wb_state} (h : wb_liability_inv s) (xl : xlator_t)
    (env : wb_env) : wb_liability_inv (__wb_preprocess_winds xl env s) := by
  unfold __wb_preprocess_winds
  simp only
  have h1 := wb_liability_inv.preprocess_loop xl env s.inode.todo none h
  split
  · split
    · exact h1.set_go _
    · exact h1
  · exact h1

theorem wb_liability_inv.pick_winds {s : wb_state} (h : wb_liability_inv s) (xl : xlator_t)
    (tasks liabilities : List Nat) :
    wb_liability_inv (__wb_pick_winds xl s tasks liabilities).1 := by
  rw [__wb_pick_winds_eq]
  exact h.frame rfl rfl rfl rfl rfl (fun _ => ⟨rfl, fun x => x⟩)

theorem wb_flush_helper_same (xl : xlator_t) (env : wb_env) (s : wb_state)
    (stub : call_stub_t) : wb_same_queue s (wb_flush_helper xl env s stub) := by
  unfold wb_flush_helper
  simp only
  split_ifs <;> exact ⟨rfl, rfl, rfl, rfl, rfl, rfl, rfl, rfl, rfl, rfl, rfl, rfl⟩

theorem call_resume_same (xl : xlator_t) (env : wb_env) (s : wb_state) (stub : call_stub_t) :
    wb_same_queue s (call_resume xl env s stub) := by
  unfold call_resume
  split
  · exact wb_flush_helper_same xl env s stub
  · exact ⟨rfl, rfl, rfl, rfl, rfl, rfl, rfl, rfl, rfl, rfl, rfl, rfl⟩

theorem wb_liability_inv.same {s s1 : wb_state} (h : wb_liability_inv s)
    (hs : wb_same_queue s s1) : wb_liability_inv s1 :=
  h.frame hs.gen hs.all hs.liability hs.temptation hs.next
    (fun a => by rw [hs.mem]; exact ⟨rfl, fun x => x⟩)

theorem wb_liability_inv.resume {s : wb_state} (h : wb_liability_inv s) (xl : xlator_t)
    (env : wb_env) (stub : call_stub_t) : wb_liability_inv (call_resume xl env s stub) :=
  h.same (call_resume_same xl env s stub)

theorem wb_liability_inv.do_winds (xl : xlator_t) (env : wb_env) (tasks : List Nat) :
    ∀ {s : wb_state}, wb_liability_inv s → wb_liability_inv (wb_do_winds xl env s tasks) := by
  induction tasks with
  | nil => intro s h; exact h
  | cons a l ih =>
    intro s h
    unfold wb_do_winds
    apply ih
    unfold wb_request_unref
    exact (h.resume xl env _).unref a

theorem wb_liability_inv.process_queue {s : wb_state} (h : wb_liability_inv s) (xl : xlator_t)
    (env : wb_env) : wb_liability_inv (wb_process_queue xl env s) := by
  unfold wb_process_queue wb_process_queue_locked
  simp only
  apply wb_liability_inv.fulfill
  apply wb_liability_inv.do_winds
  apply wb_liability_inv.do_unwinds
  apply wb_liability_inv.pick_unwinds
  apply wb_liability_inv.pick_winds
  exact h.preprocess xl env

theorem wb_liability_inv.fulfill_cbk {s : wb_state} (h : wb_liability_inv s) (xl : xlator_t)
    (env : wb_env) (head : Nat) (op_ret op_errno : Int) :
    wb_liability_inv (wb_fulfill_cbk xl env s head op_ret op_errno) := by
  unfold wb_fulfill_cbk
  simp only
  apply wb_liability_inv.process_queue
  apply wb_liability_inv.head_done
  have h1 : wb_liability_inv { s with inflight := list_del head s.inflight } :=
    h.frame rfl rfl rfl rfl rfl (fun _ => ⟨rfl, fun x => x⟩)
  split
  · exact h1.inode_err _
  · split
    · exact h1.inode_err _
    · exact h1

/-- What a successful `wb_enqueue_common` does to the state. -/
theorem wb_enqueue_common_eq (env : wb_env) (s : wb_state) (stub : call_stub_t)
    (tempted : Bool) (hc : env.request_calloc = true) :
    wb_enqueue_common env s stub tempted
      = ({ s with
            next := s.next + 1
            mem := mem_set s.mem s.next
              { wb_request_init stub tempted with
                gen := s.inode.gen
                refcount := if tempted then 2 else 1 }
            inode := { s.inode with
              all := s.inode.all ++ [s.next]
              todo := s.inode.todo ++ [s.next]
              temptation := if tempted then s.inode.temptation ++ [s.next]
                else s.inode.temptation } }, true) := by
  have hi : ∀ t, (wb_request_init stub t).refcount = 0
      ∧ (wb_request_init stub t).ordering.tempted = t := by
    intro t
    unfold wb_request_init
    simp only [wb_request_zero]
    split <;> split <;> simp
  unfold wb_enqueue_common
  cases tempted <;>
    simp [hc, __wb_request_ref, mem_set_eq, mem_set_mem_set, (hi _).1, (hi _).2]

theorem wb_liability_inv.enqueue {s : wb_state} (h : wb_liability_inv s) (env : wb_env)
    (stub : call_stub_t) (tempted : Bool) :
    wb_liability_inv (wb_enqueue_common env s stub tempted).1 := by
  by_cases hc : env.request_calloc = true
  · rw [wb_enqueue_common_eq env s stub tempted hc]
    simp only
    have hne : ∀ a ∈ s.inode.all, a ≠ s.next := fun a ha => by
      have := (h.gen_le a ha).2
      omega
    constructor
    · intro a ha
      have haa := h.liability_all a ha
      simp only [mem_set_ne _ _ _ _ (hne a haa)]
      exact h.lied a ha
    · intro a ha
      simp only [List.mem_append, List.mem_singleton] at ha
      rcases ha with ha | ha
      · simp only [mem_set_ne _ _ _ _ (hne a ha)]
        have := h.gen_le a ha
        exact ⟨this.1, by omega⟩
      · subst ha
        simp only [mem_set_eq]
        exact ⟨le_refl _, by omega⟩
    · intro a ha
      simp only [List.mem_append]
      exact Or.inl (h.liability_all a ha)
    · intro a ha
      simp only [List.mem_append, List.mem_singleton]
      cases tempted
      · exact Or.inl (h.temptation_all a ha)
      · simp only [if_true, List.mem_append, List.mem_singleton] at ha
        rcases ha with ha | ha
        · exact Or.inl (h.temptation_all a ha)
        · exact Or.inr ha
  · unfold wb_enqueue_common
    simp only [hc, Bool.not_false, if_true]
    exact h

theorem wb_liability_inv.inode_create {s s1 : wb_state} (h : wb_liability_inv s)
    (xl : xlator_t) (env : wb_env) (hs : wb_inode_create xl env s = some s1) :
    wb_liability_inv s1 := by
  unfold wb_inode_create at hs
  split at hs
  · cases hs; exact h
  · split at hs
    · cases hs
    · cases hs
      constructor <;> intro a ha <;> simp [wb_inode_zero] at ha

theorem wb_liability_inv.unwind {s : wb_state} (h : wb_liability_inv s)
    (fop : glusterfs_fop_t) (frame : Nat) (e : Int) :
    wb_liability_inv (wb_unwind s fop frame e) :=
  h.same ⟨rfl, rfl, rfl, rfl, rfl, rfl, rfl, rfl, rfl, rfl, rfl, rfl⟩

theorem wb_liability_inv.queue_if_ctx {s : wb_state} (h : wb_liability_inv s) (xl : xlator_t)
    (env : wb_env) (stub : call_stub_t) : wb_liability_inv (wb_queue_if_ctx xl env s stub) := by
  unfold wb_queue_if_ctx
  split
  · exact h.same ⟨rfl, rfl, rfl, rfl, rfl, rfl, rfl, rfl, rfl, rfl, rfl, rfl⟩
  · split
    · exact h.unwind _ _ _
    · simp only
      split
      · exact (h.enqueue env stub false).unwind _ _ _
      · exact (h.enqueue env stub false).process_queue xl env

theorem wb_liability_inv.queue_create_ctx {s : wb_state} (h : wb_liability_inv s)
    (xl : xlator_t) (env : wb_env) (stub : call_stub_t) :
    wb_liability_inv (wb_queue_create_ctx xl env s stub) := by
  unfold wb_queue_create_ctx
  split
  · exact h.unwind _ _ _
  · rename_i s1 hs
    have h1 := h.inode_create xl env hs
    split
    · exact h1.unwind _ _ _
    · simp only
      split
      · exact (h1.enqueue env stub false).unwind _ _ _
      · exact (h1.enqueue env stub false).process_queue xl env

theorem ite_ind {α : Type} (P : α → Prop) (c : Prop) [Decidable c] (a b : α) (ha : P a)
    (hb : P b) : P (if c then a else b) := by
  split
  · exact ha
  · exact hb

theorem wb_liability_inv.writev {s : wb_state} (h : wb_liability_inv s) (xl : xlator_t)
    (env : wb_env) (frame lk_owner : Nat) (fd : fd_t) (vector : List iovec) (offset : Int)
    (flags : Nat) :
    wb_liability_inv (wb_writev xl env s frame lk_owner fd vector offset flags) := by
  unfold wb_writev
  split
  · exact h.unwind _ _ _
  · rename_i s1 hs
    have h1 := h.inode_create xl env hs
    have h2 : wb_liability_inv { s1 with inode := { s1.inode with op_ret := 0 } } :=
      h1.same ⟨rfl, rfl, rfl, rfl, rfl, rfl, rfl, rfl, rfl, rfl, rfl, rfl⟩
    have hsr : ∀ (d : Bool) (stub : call_stub_t), wb_liability_inv
        (if d = true then wb_enqueue env { s1 with inode := { s1.inode with op_ret := 0 } } stub
          else wb_enqueue_tempted env
            { s1 with inode := { s1.inode with op_ret := 0 } } stub).1 := by
      intro d stub
      split
      · exact h2.enqueue env _ false
      · exact h2.enqueue env _ true
    simp only
    apply ite_ind wb_liability_inv
    · exact h2.unwind _ _ _
    · apply ite_ind wb_liability_inv
      · exact h2.unwind _ _ _
      · apply ite_ind wb_liability_inv
        · exact (hsr _ _).unwind _ _ _
        · exact (hsr _ _).process_queue xl env

theorem wb_liability_inv.step {s : wb_state} (h : wb_liability_inv s) (xl : xlator_t)
    (env : wb_env) (c : wb_call) : wb_liability_inv (wb_step xl env s c) := by
  cases c with
  | writev frame lk_owner fd vector offset flags => exact h.writev xl env _ _ _ _ _ _
  | readv frame lk_owner fd size offset flags => exact h.queue_if_ctx xl env _
  | flush frame lk_owner fd => exact h.queue_if_ctx xl env _
  | fsync frame lk_owner fd => exact h.queue_if_ctx xl env _
  | stat frame lk_owner => exact h.queue_if_ctx xl env _
  | fstat frame lk_owner fd => exact h.queue_if_ctx xl env _
  | truncate frame lk_owner offset => exact h.queue_create_ctx xl env _
  | ftruncate frame lk_owner fd offset => exact h.queue_create_ctx xl env _
  | setattr frame lk_owner => exact h.queue_if_ctx xl env _
  | fsetattr frame lk_owner fd => exact h.queue_if_ctx xl env _
  | fulfill_cbk head op_ret op_errno => exact h.fulfill_cbk xl env head op_ret op_errno

theorem wb_liability_inv.reachable (xl : xlator_t) (s : wb_state) (h : Reachable xl s) :
    wb_liability_inv s := by
  induction h with
  | init => constructor <;> intro a ha <;> simp [wb_state_init, wb_inode_zero] at ha
  | step env s c _ _ ih => exact ih.step xl env c

/-- C9: in every reachable state every request on liability has its `lied`
flag set and a `gen` strictly below the inode's `gen`. -/
theorem C9_liability_lied_and_older (xl : xlator_t) (s : wb_state) (h : Reachable xl s)
    (a : Nat) (ha : a ∈ s.inode.liability) :
    (s.mem a).ordering.lied = true ∧ (s.mem a).gen < s.inode.gen :=
  (wb_liability_inv.reachable xl s h).lied a ha

/-- Witness of C9 on the reachable state `state_read_waiting`, whose liability
list holds write 2. -/
theorem C9_liability_lied_and_older_witness :
    Reachable xl_window16 state_read_waiting
    ∧ 2 ∈ state_read_waiting.inode.liability
    ∧ (state_read_waiting.mem 2).ordering.lied = true
    ∧ (state_read_waiting.mem 2).gen < state_read_waiting.inode.gen :=
  ⟨Reachable.run _ _ _ Reachable.init (by decide!), by decide!,
    C9_liability_lied_and_older xl_window16 state_read_waiting
      (Reachable.run _ _ _ Reachable.init (by decide!)) 2 (by decide!)⟩

/-! ## Window accounting -/

theorem list_del_of_not_mem (a : Nat) (l : List Nat) (h : a ∉ l) : list_del a l = l := by
  unfold list_del
  rw [List.filter_eq_self]
  intro b hb
  have : b ≠ a := fun e => h (e ▸ hb)
  simpa using this

theorem mem_list_del_iff (a b : Nat) (l : List Nat) : b ∈ list_del a l ↔ b ∈ l ∧ b ≠ a := by
  unfold list_del
  simp

theorem list_del_nodup (a : Nat) (l : List Nat) (h : l.Nodup) : (list_del a l).Nodup :=
  List.Nodup.filter _ h

theorem list_del_perm (a : Nat) (l : List Nat) (h : l.Nodup) (ha : a ∈ l) :
    l.Perm (a :: list_del a l) := by
  unfold list_del
  rw [← List.Nodup.erase_eq_filter h a]
  exact List.perm_cons_erase ha

theorem sum_over_nil (f : wb_request → Int) (mem : Nat → wb_request) : sum_over f mem [] = 0 :=
  rfl

theorem sum_over_cons (f : wb_request → Int) (mem : Nat → wb_request) (a : Nat) (l : List Nat) :
    sum_over f mem (a :: l) = f (mem a) + sum_over f mem l := by
  simp [sum_over]

theorem sum_over_append (f : wb_request → Int) (mem : Nat → wb_request) (l1 l2 : List Nat) :
    sum_over f mem (l1 ++ l2) = sum_over f mem l1 + sum_over f mem l2 := by
  simp [sum_over]

theorem sum_over_perm (f : wb_request → Int) (mem : Nat → wb_request) {l1 l2 : List Nat}
    (h : l1.Perm l2) : sum_over f mem l1 = sum_over f mem l2 := by
  unfold sum_over
  exact (h.map _).sum_eq

theorem sum_over_congr (f : wb_request → Int) (mem mem1 : Nat → wb_request) (l : List Nat)
    (h : ∀ a ∈ l, f (mem1 a) = f (mem a)) : sum_over f mem1 l = sum_over f mem l := by
  unfold sum_over
  congr 1
  apply List.map_congr_left
  exact h

theorem sum_over_list_del (f : wb_request → Int) (mem : Nat → wb_request) (x : Nat)
    (l : List Nat) (hn : l.Nodup) (hx : x ∈ l) :
    sum_over f mem (list_del x l) = sum_over f mem l - f (mem x) := by
  rw [sum_over_perm f mem (list_del_perm x l hn hx), sum_over_cons]
  ring

/-- A store change at one address moves a sum over a duplicate-free list by the
change at that address, when the address is on the list. -/
theorem sum_over_update (f : wb_request → Int) (mem mem1 : Nat → wb_request) (x : Nat)
    (l : List Nat) (hn : l.Nodup) (hx : x ∈ l) (hm : ∀ a, a ≠ x → mem1 a = mem a) :
    sum_over f mem1 l = sum_over f mem l - f (mem x) + f (mem1 x) := by
  rw [sum_over_perm f mem1 (list_del_perm x l hn hx),
    sum_over_perm f mem (list_del_perm x l hn hx), sum_over_cons, sum_over_cons]
  have : sum_over f mem1 (list_del x l) = sum_over f mem (list_del x l) := by
    apply sum_over_congr
    intro a ha
    rw [hm a ((mem_list_del_iff _ _ _).1 ha).2]
  rw [this]
  ring

theorem sum_over_update_not_mem (f : wb_request → Int) (mem mem1 : Nat → wb_request) (x : Nat)
    (l : List Nat) (hx : x ∉ l) (hm : ∀ a, a ≠ x → mem1 a = mem a) :
    sum_over f mem1 l = sum_over f mem l := by
  apply sum_over_congr
  intro a ha
  rw [hm a (fun e => hx (e ▸ ha))]

theorem wb_batch_congr (mem mem1 : Nat → wb_request) (h : ∀ a, (mem1 a).winds = (mem a).winds) :
    wb_batch mem1 = wb_batch mem := by
  funext a
  unfold wb_batch
  rw [h a]

theorem wb_wind_list_congr {s s1 : wb_state} (tasks liabilities X : List Nat)
    (hF : s1.inflight = s.inflight) (ht : s1.inode.todo = s.inode.todo)
    (hm : ∀ a, (s1.mem a).winds = (s.mem a).winds) :
    wb_wind_list s1 tasks liabilities X = wb_wind_list s tasks liabilities X := by
  unfold wb_wind_list
  rw [hF, ht, wb_batch_congr s.mem s1.mem hm]

/-- A step that keeps the lists, the window, the batches in flight and, in the
store, the fields the invariant reads, keeps the invariant. -/
theorem wb_acct_inv.acct_frame {s s1 : wb_state} {U tasks liabilities X : List Nat} {D : Int}
    {q : Bool} (h : wb_acct_inv s U tasks liabilities X D q)
    (hctx : s1.ctx = s.ctx) (hn : s1.next = s.next) (hF : s1.inflight = s.inflight)
    (ha : s1.inode.all = s.inode.all) (ht : s1.inode.todo = s.inode.todo)
    (hl : s1.inode.liability = s.inode.liability)
    (hp : s1.inode.temptation = s.inode.temptation)
    (hw : s1.inode.window_current = s.inode.window_current)
    (hm : ∀ a, wb_req_same (s.mem a) (s1.mem a)) :
    wb_acct_inv s1 U tasks liabilities X D q := by
  have hwl := @wb_wind_list_congr s s1 tasks liabilities X hF ht
    (fun a => (hm a).winds)
  have hb := wb_batch_congr s.mem s1.mem (fun a => (hm a).winds)
  have hs : ∀ (f : wb_request → Int), (∀ r r1, wb_req_same r r1 → f r1 = f r) →
      ∀ l, sum_over f s1.mem l = sum_over f s.mem l :=
    fun f hf l => sum_over_congr f s.mem s1.mem l (fun a _ => hf _ _ (hm a))
  have hpc : ∀ r r1, wb_req_same r r1 → wb_pending_credit r1 = wb_pending_credit r := by
    intro r r1 hr
    unfold wb_pending_credit
    rw [hr.fulfilled, hr.orig_size]
  have hex : ∀ r r1, wb_req_same r r1 → wb_excess r1 = wb_excess r := by
    intro r r1 hr
    unfold wb_excess
    rw [hr.fulfilled, hr.orig_size, hr.write_size]
  constructor
  · rw [hctx]; exact h.ctx
  · rw [ha]; exact h.all_nodup
  · rw [ha, hn]; exact h.all_lt
  · rw [hl]; exact h.liab_nodup
  · rw [hp]; exact h.tempt_nodup
  · exact h.U_nodup
  · rw [hwl]; exact h.wind_nodup
  · rw [hwl, ha]
    intro a haw
    rw [(hm a).fulfilled]
    exact h.wind_all a haw
  · rw [hF, hb]
    intro a haw
    rw [(hm a).tempted]
    exact h.wind_tempted a haw
  · intro a haw
    rw [(hm a).tempted]
    exact h.tasks_plain a haw
  · rw [hl, ha, hp]
    intro a haw
    rw [(hm a).tempted, (hm a).fulfilled]
    exact h.liab a haw
  · rw [hp, ha]
    intro a haw
    rw [(hm a).tempted]
    exact h.tempt a haw
  · rw [ha]; exact h.U_all
  · rw [ha, hp, hl]
    intro a haw
    rw [(hm a).tempted, (hm a).fulfilled]
    exact h.tempted_held a haw
  · rw [ha, hp]
    intro a haw
    rw [(hm a).fulfilled]
    exact h.ful_held a haw
  · rw [ha, hp, hl]
    intro a haw
    rw [(hm a).tempted, (hm a).write_size, (hm a).orig_size]
    exact h.plain a haw
  · rw [ha, hp]
    intro a haw
    rw [(hm a).refcount, (hm a).fulfilled]
    exact h.refcount a haw
  · rw [ht]
    intro a haw
    rw [(hm a).total_size, (hm a).winds]
    exact h.fresh a haw
  · rw [hF, hb]
    intro x hx
    rw [(hm x).total_size, (hm x).winds,
      hs (fun r => (r.write_size : Int)) (fun r r1 hr => by simp only [hr.write_size])]
    refine ⟨(h.batch x hx).1, ?_⟩
    intro m hmw
    rw [(hm m).total_size]
    exact (h.batch x hx).2 m hmw
  · rw [hw, hp, hl, ha, hs _ hpc, hs _ hex,
      hs (fun r => (r.orig_size : Int)) (fun r r1 hr => by simp only [hr.orig_size])]
    exact h.acct
  · rw [hp]
    intro hq a haw
    rw [(hm a).fulfilled]
    exact h.settled hq a haw

theorem wb_req_same.rfl (r : wb_request) : wb_req_same r r :=
  ⟨by rfl, by rfl, by rfl, by rfl, by rfl, by rfl, by rfl⟩

theorem wb_acct_inv.acct_same {s s1 : wb_state} {U tasks liabilities X : List Nat} {D : Int}
    {q : Bool} (h : wb_acct_inv s U tasks liabilities X D q) (hs : wb_same_queue s s1) :
    wb_acct_inv s1 U tasks liabilities X D q :=
  h.acct_frame hs.ctx hs.next hs.inflight hs.all hs.todo hs.liability hs.temptation
    hs.window_current (fun a => by rw [hs.mem]; exact wb_req_same.rfl _)

theorem wb_acct_inv.weaken {s : wb_state} {U tasks liabilities X : List Nat} {D : Int}
    {q : Bool} (h : wb_acct_inv s U tasks liabilities X D q) :
    wb_acct_inv s U tasks liabilities X D false :=
  { h with settled := fun hq => by cases hq }

theorem mem_set_req_same (mem : Nat → wb_request) (x : Nat) (r : wb_request)
    (h : wb_req_same (mem x) r) (a : Nat) : wb_req_same (mem a) (mem_set mem x r a) := by
  unfold mem_set
  by_cases hax : a = x
  · subst hax
    rw [if_pos rfl]
    exact h
  · rw [if_neg hax]
    exact wb_req_same.rfl _

theorem wb_acct_inv.acct_set_go {s : wb_state} {U tasks liabilities X : List Nat} {D : Int}
    {q : Bool} (h : wb_acct_inv s U tasks liabilities X D q) (req : Nat) :
    wb_acct_inv (wb_set_go s req) U tasks liabilities X D q := by
  unfold wb_set_go
  exact h.acct_frame rfl rfl rfl rfl rfl rfl rfl rfl
    (mem_set_req_same _ _ _ ⟨rfl, rfl, rfl, rfl, rfl, rfl, rfl⟩)

theorem wb_wind_list_cons_X (s : wb_state) (tasks liabilities X : List Nat) (x : Nat) :
    (wb_wind_list s tasks liabilities (x :: X)).Perm (x :: wb_wind_list s tasks liabilities X) := by
  unfold wb_wind_list
  have h1 : (liabilities ++ (x :: X ++ s.inflight.flatMap (wb_batch s.mem))).Perm
      (x :: (liabilities ++ (X ++ s.inflight.flatMap (wb_batch s.mem)))) := by
    simp
  have h2 : (tasks ++ (liabilities ++ (x :: X ++ s.inflight.flatMap (wb_batch s.mem)))).Perm
      (x :: (tasks ++ (liabilities ++ (X ++ s.inflight.flatMap (wb_batch s.mem))))) :=
    ((List.Perm.append_left tasks h1).trans List.perm_middle)
  exact (List.Perm.append_left s.inode.todo h2).trans List.perm_middle

theorem wb_wind_list_cons_tasks (s : wb_state) (tasks liabilities X : List Nat) (x : Nat) :
    (wb_wind_list s (x :: tasks) liabilities X).Perm (x :: wb_wind_list s tasks liabilities X) := by
  unfold wb_wind_list
  exact List.perm_middle

theorem wb_wind_list_cons_liabilities (s : wb_state) (tasks liabilities X : List Nat) (x : Nat) :
    (wb_wind_list s tasks (x :: liabilities) X).Perm
      (x :: wb_wind_list s tasks liabilities X) := by
  unfold wb_wind_list
  have h2 : (tasks ++ (x :: liabilities ++ (X ++ s.inflight.flatMap (wb_batch s.mem)))).Perm
      (x :: (tasks ++ (liabilities ++ (X ++ s.inflight.flatMap (wb_batch s.mem))))) :=
    List.perm_middle
  exact (List.Perm.append_left s.inode.todo h2).trans List.perm_middle

theorem __wb_fulfill_request_eq (s : wb_state) (x : Nat) :
    __wb_fulfill_request s x
      = if (s.mem x).refcount ≤ 0 then
          { s with
            mem := mem_set s.mem x
              { s.mem x with ordering := { (s.mem x).ordering with fulfilled := true } }
            inode := { s.inode with
              window_current := s.inode.window_current - (s.mem x).total_size
              transit := s.inode.transit - (s.mem x).total_size } }
        else if (s.mem x).refcount - 1 = 0 then
          { s with
            mem := mem_set s.mem x
              { s.mem x with
                ordering := { (s.mem x).ordering with fulfilled := true }
                refcount := (s.mem x).refcount - 1 }
            inode := wb_request_destroy { s.inode with
              window_current := s.inode.window_current - (s.mem x).total_size
              transit := s.inode.transit - (s.mem x).total_size } x }
        else
          { s with
            mem := mem_set s.mem x
              { s.mem x with
                ordering := { (s.mem x).ordering with fulfilled := true }
                refcount := (s.mem x).refcount - 1 }
            inode := { s.inode with
              window_current := s.inode.window_current - (s.mem x).total_size
              transit := s.inode.transit - (s.mem x).total_size } } := by
  unfold __wb_fulfill_request __wb_request_unref
  simp only [mem_set_eq, mem_set_mem_set]
theorem wb_wind_list_sub (s : wb_state) (tasks liabilities X : List Nat) (a : Nat) :
    (a ∈ s.inode.todo ++ (tasks ++ liabilities) → a ∈ wb_wind_list s tasks liabilities X)
    ∧ (a ∈ liabilities ++ (X ++ s.inflight.flatMap (wb_batch s.mem)) →
        a ∈ wb_wind_list s tasks liabilities X) := by
  unfold wb_wind_list
  simp only [List.mem_append]
  constructor
  · rintro (h | h | h)
    · exact Or.inl h
    · exact Or.inr (Or.inl h)
    · exact Or.inr (Or.inr (Or.inl h))
  · rintro (h | h | h)
    · exact Or.inr (Or.inr (Or.inl h))
    · exact Or.inr (Or.inr (Or.inr (Or.inl h)))
    · exact Or.inr (Or.inr (Or.inr (Or.inr h)))

theorem wb_batch_mem_wind (s : wb_state) (tasks liabilities X : List Nat) (h a : Nat)
    (hh : h ∈ s.inflight) (ha : a ∈ wb_batch s.mem h) :
    a ∈ wb_wind_list s tasks liabilities X := by
  apply (wb_wind_list_sub s tasks liabilities X a).2
  simp only [List.mem_append, List.mem_flatMap]
  exact Or.inr (Or.inr ⟨h, hh, ha⟩)

/-- A request of the batch being closed is fulfilled and stays attached, because
its caller has not been answered yet: it waits on temptation, fulfilled. -/
theorem wb_acct_inv.fulfilled_stays {s s1 : wb_state} {tasks liabilities X : List Nat}
    {x : Nat} {D : Int} {q : Bool}
    (h : wb_acct_inv s [] tasks liabilities (x :: X) D q) (hxP : x ∈ s.inode.temptation)
    (hctx : s1.ctx = s.ctx) (hn : s1.next = s.next) (hF : s1.inflight = s.inflight)
    (ha : s1.inode.all = s.inode.all) (ht : s1.inode.todo = s.inode.todo)
    (hl : s1.inode.liability = s.inode.liability)
    (hp : s1.inode.temptation = s.inode.temptation)
    (hw : s1.inode.window_current = s.inode.window_current - (s.mem x).total_size)
    (hm : ∀ a, a ≠ x → s1.mem a = s.mem a)
    (hx1 : (s1.mem x).ordering.tempted = (s.mem x).ordering.tempted)
    (hx2 : (s1.mem x).ordering.fulfilled = true)
    (hx3 : (s1.mem x).refcount = (s.mem x).refcount - 1)
    (hx4 : (s1.mem x).orig_size = (s.mem x).orig_size)
    (hx5 : (s1.mem x).write_size = (s.mem x).write_size)
    (hx6 : (s1.mem x).total_size = (s.mem x).total_size)
    (hx7 : (s1.mem x).winds = (s.mem x).winds) :
    wb_acct_inv s1 [] tasks liabilities X
      (D + (s.mem x).write_size - (s.mem x).total_size) false := by
  have hperm := wb_wind_list_cons_X s tasks liabilities X x
  have hnd0 := hperm.nodup_iff.1 h.wind_nodup
  have hxnew : x ∉ wb_wind_list s tasks liabilities X := (List.nodup_cons.1 hnd0).1
  have hndnew : (wb_wind_list s tasks liabilities X).Nodup := (List.nodup_cons.1 hnd0).2
  have hold : ∀ a ∈ wb_wind_list s tasks liabilities X,
      a ∈ wb_wind_list s tasks liabilities (x :: X) :=
    fun a ha => hperm.mem_iff.2 (List.mem_cons_of_mem _ ha)
  have hxold : x ∈ wb_wind_list s tasks liabilities (x :: X) :=
    hperm.mem_iff.2 (List.mem_cons_self _ _)
  have hxA := (h.wind_all x hxold).1
  have hxf := (h.wind_all x hxold).2
  have hxt : (s.mem x).ordering.tempted = true :=
    h.wind_tempted x (by simp)
  have hxL : x ∉ s.inode.liability := fun hx => (h.liab x hx).2.2.2 hxP
  have hrc : (s.mem x).refcount = 2 := by
    have := h.refcount x hxA
    rw [hxf, if_pos (Or.inl hxP)] at this
    simpa using this
  have hwinds : ∀ a, (s1.mem a).winds = (s.mem a).winds := by
    intro a
    by_cases hax : a = x
    · rw [hax]; exact hx7
    · rw [hm a hax]
  have htemp : ∀ a, (s1.mem a).ordering.tempted = (s.mem a).ordering.tempted := by
    intro a
    by_cases hax : a = x
    · rw [hax]; exact hx1
    · rw [hm a hax]
  have hws : ∀ a, (s1.mem a).write_size = (s.mem a).write_size := by
    intro a
    by_cases hax : a = x
    · rw [hax]; exact hx5
    · rw [hm a hax]
  have hos : ∀ a, (s1.mem a).orig_size = (s.mem a).orig_size := by
    intro a
    by_cases hax : a = x
    · rw [hax]; exact hx4
    · rw [hm a hax]
  have hts : ∀ a, (s1.mem a).total_size = (s.mem a).total_size := by
    intro a
    by_cases hax : a = x
    · rw [hax]; exact hx6
    · rw [hm a hax]
  have hwl1 : wb_wind_list s1 tasks liabilities X = wb_wind_list s tasks liabilities X :=
    wb_wind_list_congr tasks liabilities X hF ht hwinds
  have hb := wb_batch_congr s.mem s1.mem hwinds
  constructor
  · rw [hctx]; exact h.ctx
  · rw [ha]; exact h.all_nodup
  · rw [ha, hn]; exact h.all_lt
  · rw [hl]; exact h.liab_nodup
  · rw [hp]; exact h.tempt_nodup
  · exact List.nodup_nil
  · rw [hwl1]; exact hndnew
  · rw [hwl1, ha]
    intro a haw
    have hax : a ≠ x := fun e => hxnew (e ▸ haw)
    rw [hm a hax]
    exact h.wind_all a (hold a haw)
  · rw [hF, hb]
    intro a haw
    rw [htemp]
    apply h.wind_tempted a
    simp only [List.mem_append, List.mem_cons] at haw ⊢
    rcases haw with h1 | h1 | h1
    · exact Or.inl h1
    · exact Or.inr (Or.inl (Or.inr h1))
    · exact Or.inr (Or.inr h1)
  · intro a haw
    rw [htemp]
    exact h.tasks_plain a haw
  · rw [hl, ha, hp]
    intro a haw
    have hax : a ≠ x := fun e => hxL (e ▸ haw)
    rw [hm a hax]
    exact h.liab a haw
  · rw [hp, ha]
    intro a haw
    rw [htemp]
    exact h.tempt a haw
  · intro a haw
    exact absurd haw (List.not_mem_nil _)
  · rw [ha, hp, hl]
    intro a haw h1 h2
    by_cases hax : a = x
    · rw [hax, hx2] at h2
      cases h2
    · rw [hm a hax] at h1 h2
      exact h.tempted_held a haw h1 h2
  · rw [ha, hp]
    intro a haw h1
    by_cases hax : a = x
    · rw [hax]; exact Or.inl hxP
    · rw [hm a hax] at h1
      exact h.ful_held a haw h1
  · rw [ha, hp, hl]
    intro a haw h1
    by_cases hax : a = x
    · rw [hax, hx1, hxt] at h1
      cases h1
    · rw [hm a hax] at h1 ⊢
      exact h.plain a haw h1
  · rw [ha, hp]
    intro a haw
    by_cases hax : a = x
    · rw [hax, hx3, hrc, hx2, if_pos (Or.inl hxP)]
      rfl
    · rw [hm a hax]
      exact h.refcount a haw
  · rw [ht]
    intro a haw
    have hax : a ≠ x :=
      fun e => hxnew (e ▸ (wb_wind_list_sub s tasks liabilities X a).1 haw)
    rw [hm a hax]
    exact h.fresh a haw
  · rw [hF, hb]
    intro hh hhF
    rw [hts, sum_over_congr (fun r => (r.write_size : Int)) s.mem s1.mem _
      (fun a _ => by simp only [hws])]
    refine ⟨(h.batch hh hhF).1, ?_⟩
    intro m hmw
    rw [hwinds] at hmw
    rw [hts]
    exact (h.batch hh hhF).2 m hmw
  · have e1 := sum_over_update wb_pending_credit s.mem s1.mem x s.inode.temptation
      h.tempt_nodup hxP hm
    have e2 := sum_over_update wb_excess s.mem s1.mem x s.inode.all h.all_nodup hxA hm
    have e3 : sum_over (fun r => (r.orig_size : Int)) s1.mem s.inode.liability
        = sum_over (fun r => (r.orig_size : Int)) s.mem s.inode.liability :=
      sum_over_congr _ _ _ _ (fun a _ => by simp only [hos])
    have p0 : wb_pending_credit (s.mem x) = 0 := by simp [wb_pending_credit, hxf]
    have p1 : wb_pending_credit (s1.mem x) = (s.mem x).orig_size := by
      simp [wb_pending_credit, hx2, hx4]
    have x0 : wb_excess (s.mem x) = (s.mem x).write_size - (s.mem x).orig_size := by
      simp [wb_excess, hxf]
    have x1 : wb_excess (s1.mem x) = 0 := by simp [wb_excess, hx2]
    have hacct := h.acct
    rw [hw, hp, hl, ha, e1, e2, e3, p0, p1, x0, x1]
    linarith
  · intro hq
    cases hq
theorem sum_over_list_del_update (f : wb_request → Int) (mem mem1 : Nat → wb_request)
    (x : Nat) (l : List Nat) (hm : ∀ a, a ≠ x → mem1 a = mem a) :
    sum_over f mem1 (list_del x l) = sum_over f mem (list_del x l) := by
  apply sum_over_congr
  intro a ha
  rw [hm a ((mem_list_del_iff _ _ _).1 ha).2]

/-- A request of the batch being closed is fulfilled and destroyed, because its
caller was answered before: it leaves liability and `all`. -/
theorem wb_acct_inv.fulfilled_destroyed {s s1 : wb_state} {tasks liabilities X : List Nat}
    {x : Nat} {D : Int} {q : Bool}
    (h : wb_acct_inv s [] tasks liabilities (x :: X) D q) (hxP : x ∉ s.inode.temptation)
    (he : list_del x s.inode.all = [] →
      D + (s.mem x).write_size - (s.mem x).total_size = 0)
    (hctx : s1.ctx = s.ctx) (hn : s1.next = s.next) (hF : s1.inflight = s.inflight)
    (ha : s1.inode.all = list_del x s.inode.all)
    (ht : s1.inode.todo = list_del x s.inode.todo)
    (hl : s1.inode.liability = list_del x s.inode.liability)
    (hp : s1.inode.temptation = list_del x s.inode.temptation)
    (hw : s1.inode.window_current = if list_del x s.inode.all = [] then 0
      else s.inode.window_current - (s.mem x).total_size)
    (hm : ∀ a, a ≠ x → s1.mem a = s.mem a)
    (hx7 : (s1.mem x).winds = (s.mem x).winds) :
    wb_acct_inv s1 [] tasks liabilities X
      (D + (s.mem x).write_size - (s.mem x).total_size) false := by
  have hperm := wb_wind_list_cons_X s tasks liabilities X x
  have hnd0 := hperm.nodup_iff.1 h.wind_nodup
  have hxnew : x ∉ wb_wind_list s tasks liabilities X := (List.nodup_cons.1 hnd0).1
  have hndnew : (wb_wind_list s tasks liabilities X).Nodup := (List.nodup_cons.1 hnd0).2
  have hold : ∀ a ∈ wb_wind_list s tasks liabilities X,
      a ∈ wb_wind_list s tasks liabilities (x :: X) :=
    fun a ha => hperm.mem_iff.2 (List.mem_cons_of_mem _ ha)
  have hxold : x ∈ wb_wind_list s tasks liabilities (x :: X) :=
    hperm.mem_iff.2 (List.mem_cons_self _ _)
  have hxA := (h.wind_all x hxold).1
  have hxf := (h.wind_all x hxold).2
  have hxt : (s.mem x).ordering.tempted = true :=
    h.wind_tempted x (by simp)
  have hxL : x ∈ s.inode.liability := by
    rcases h.tempted_held x hxA hxt hxf with h1 | h1
    · exact absurd h1 hxP
    · exact h1
  have hxT : x ∉ s.inode.todo :=
    fun hx => hxnew ((wb_wind_list_sub s tasks liabilities X x).1 (List.mem_append_left _ hx))
  have hT : list_del x s.inode.todo = s.inode.todo := list_del_of_not_mem _ _ hxT
  have hP : list_del x s.inode.temptation = s.inode.temptation := list_del_of_not_mem _ _ hxP
  rw [hT] at ht
  rw [hP] at hp
  have hwinds : ∀ a, (s1.mem a).winds = (s.mem a).winds := by
    intro a
    by_cases hax : a = x
    · rw [hax]; exact hx7
    · rw [hm a hax]
  have hwl1 : wb_wind_list s1 tasks liabilities X = wb_wind_list s tasks liabilities X :=
    wb_wind_list_congr tasks liabilities X hF ht hwinds
  have hb := wb_batch_congr s.mem s1.mem hwinds
  have hnew_ne : ∀ a ∈ wb_wind_list s tasks liabilities X, a ≠ x :=
    fun a haw e => hxnew (e ▸ haw)
  constructor
  · rw [hctx]; exact h.ctx
  · rw [ha]; exact list_del_nodup _ _ h.all_nodup
  · rw [ha, hn]
    intro a haw
    exact h.all_lt a ((mem_list_del_iff _ _ _).1 haw).1
  · rw [hl]; exact list_del_nodup _ _ h.liab_nodup
  · rw [hp]; exact h.tempt_nodup
  · exact List.nodup_nil
  · rw [hwl1]; exact hndnew
  · rw [hwl1, ha]
    intro a haw
    rw [hm a (hnew_ne a haw)]
    exact ⟨(mem_list_del_iff _ _ _).2 ⟨(h.wind_all a (hold a haw)).1, hnew_ne a haw⟩,
      (h.wind_all a (hold a haw)).2⟩
  · rw [hF, hb]
    intro a haw
    rw [hm a (hnew_ne a ((wb_wind_list_sub s tasks liabilities X a).2 haw))]
    apply h.wind_tempted a
    simp only [List.mem_append, List.mem_cons] at haw ⊢
    rcases haw with h1 | h1 | h1
    · exact Or.inl h1
    · exact Or.inr (Or.inl (Or.inr h1))
    · exact Or.inr (Or.inr h1)
  · intro a haw
    have hax : a ≠ x := hnew_ne a ((wb_wind_list_sub s tasks liabilities X a).1
      (List.mem_append_right _ (List.mem_append_left _ haw)))
    rw [hm a hax]
    exact h.tasks_plain a haw
  · rw [hl, ha, hp]
    intro a haw
    have h1 := (mem_list_del_iff _ _ _).1 haw
    rw [hm a h1.2]
    have h2 := h.liab a h1.1
    exact ⟨(mem_list_del_iff _ _ _).2 ⟨h2.1, h1.2⟩, h2.2⟩
  · rw [hp, ha]
    intro a haw
    have hax : a ≠ x := fun e => hxP (e ▸ haw)
    rw [hm a hax]
    have h2 := h.tempt a haw
    exact ⟨(mem_list_del_iff _ _ _).2 ⟨h2.1, hax⟩, h2.2⟩
  · intro a haw
    exact absurd haw (List.not_mem_nil _)
  · rw [ha, hp, hl]
    intro a haw
    have h1 := (mem_list_del_iff _ _ _).1 haw
    rw [hm a h1.2]
    intro h2 h3
    rcases h.tempted_held a h1.1 h2 h3 with h4 | h4
    · exact Or.inl h4
    · exact Or.inr ((mem_list_del_iff _ _ _).2 ⟨h4, h1.2⟩)
  · rw [ha, hp]
    intro a haw
    have h1 := (mem_list_del_iff _ _ _).1 haw
    rw [hm a h1.2]
    exact h.ful_held a h1.1
  · rw [ha, hp, hl]
    intro a haw
    have h1 := (mem_list_del_iff _ _ _).1 haw
    rw [hm a h1.2]
    intro h2
    have h3 := h.plain a h1.1 h2
    exact ⟨h3.1, h3.2.1, fun h4 => h3.2.2.1 ((mem_list_del_iff _ _ _).1 h4).1, h3.2.2.2⟩
  · rw [ha, hp]
    intro a haw
    have h1 := (mem_list_del_iff _ _ _).1 haw
    rw [hm a h1.2]
    exact h.refcount a h1.1
  · rw [ht]
    intro a haw
    rw [hm a (hnew_ne a ((wb_wind_list_sub s tasks liabilities X a).1 haw))]
    exact h.fresh a haw
  · rw [hF, hb]
    intro hh hhF
    have hbm : ∀ a ∈ wb_batch s.mem hh, a ≠ x :=
      fun a hab => hnew_ne a (wb_batch_mem_wind s tasks liabilities X hh a hhF hab)
    have hhx : hh ≠ x := hbm hh (by simp [wb_batch])
    rw [hm hh hhx, sum_over_congr (fun r => (r.write_size : Int)) s.mem s1.mem _
      (fun a hab => by simp only [hm a (hbm a hab)])]
    refine ⟨(h.batch hh hhF).1, ?_⟩
    intro m hmw
    rw [hm m (hbm m (by simp [wb_batch, hmw]))]
    exact (h.batch hh hhF).2 m hmw
  · rw [hw, hp, hl, ha]
    by_cases hA : list_del x s.inode.all = []
    · have hLe : list_del x s.inode.liability = [] := by
        apply List.eq_nil_iff_forall_not_mem.2
        intro a haw
        have h1 := (mem_list_del_iff _ _ _).1 haw
        have : a ∈ list_del x s.inode.all :=
          (mem_list_del_iff _ _ _).2 ⟨(h.liab a h1.1).1, h1.2⟩
        rw [hA] at this
        exact List.not_mem_nil _ this
      have hPe : s.inode.temptation = [] := by
        apply List.eq_nil_iff_forall_not_mem.2
        intro a haw
        have hax : a ≠ x := fun e => hxP (e ▸ haw)
        have : a ∈ list_del x s.inode.all :=
          (mem_list_del_iff _ _ _).2 ⟨(h.tempt a haw).1, hax⟩
        rw [hA] at this
        exact List.not_mem_nil _ this
      rw [if_pos hA, hA, hLe, hPe, he hA]
      simp [sum_over]
    · rw [if_neg hA]
      have e1 : sum_over wb_pending_credit s1.mem s.inode.temptation
          = sum_over wb_pending_credit s.mem s.inode.temptation :=
        sum_over_update_not_mem _ _ _ x _ hxP hm
      have e2 : sum_over wb_excess s1.mem (list_del x s.inode.all)
          = sum_over wb_excess s.mem s.inode.all - wb_excess (s.mem x) := by
        rw [sum_over_list_del_update _ _ _ _ _ hm, sum_over_list_del _ _ _ _ h.all_nodup hxA]
      have e3 : sum_over (fun r => (r.orig_size : Int)) s1.mem (list_del x s.inode.liability)
          = sum_over (fun r => (r.orig_size : Int)) s.mem s.inode.liability
            - (s.mem x).orig_size := by
        rw [sum_over_list_del_update _ _ _ _ _ hm,
          sum_over_list_del _ _ _ _ h.liab_nodup hxL]
      have x0 : wb_excess (s.mem x) = (s.mem x).write_size - (s.mem x).orig_size := by
        simp [wb_excess, hxf]
      have hacct := h.acct
      rw [e1, e2, e3, x0]
      linarith
  · intro hq
    cases hq
theorem wb_request_destroy_fields (ino : wb_inode) (x : Nat) :
    (wb_request_destroy ino x).all = list_del x ino.all
    ∧ (wb_request_destroy ino x).todo = list_del x ino.todo
    ∧ (wb_request_destroy ino x).liability = list_del x ino.liability
    ∧ (wb_request_destroy ino x).temptation = list_del x ino.temptation
    ∧ (wb_request_destroy ino x).window_current
        = (if list_del x ino.all = [] then 0 else ino.window_current)
    ∧ (wb_request_destroy ino x).window_conf = ino.window_conf
    ∧ (wb_request_destroy ino x).transit = ino.transit := by
  unfold wb_request_destroy
  simp only [List.isEmpty_iff]
  split <;> simp [*]

theorem wb_acct_inv.head_facts {s : wb_state} {U tasks liabilities X : List Nat} {x : Nat}
    {D : Int} {q : Bool} (h : wb_acct_inv s U tasks liabilities (x :: X) D q) :
    x ∈ s.inode.all ∧ (s.mem x).ordering.fulfilled = false
    ∧ (s.mem x).ordering.tempted = true := by
  have hxold : x ∈ wb_wind_list s tasks liabilities (x :: X) :=
    (wb_wind_list_cons_X s tasks liabilities X x).mem_iff.2 (List.mem_cons_self _ _)
  exact ⟨(h.wind_all x hxold).1, (h.wind_all x hxold).2, h.wind_tempted x (by simp)⟩

/-- `__wb_fulfill_request` on the first request of the batch being closed. -/
theorem wb_acct_inv.acct_fulfill_request {s : wb_state} {tasks liabilities X : List Nat}
    {x : Nat} {D : Int} {q : Bool}
    (h : wb_acct_inv s [] tasks liabilities (x :: X) D q)
    (he : list_del x s.inode.all = [] →
      D + (s.mem x).write_size - (s.mem x).total_size = 0) :
    wb_acct_inv (__wb_fulfill_request s x) [] tasks liabilities X
      (D + (s.mem x).write_size - (s.mem x).total_size) false := by
  obtain ⟨hxA, hxf, _⟩ := h.head_facts
  have hrc := h.refcount x hxA
  rw [hxf] at hrc
  rw [__wb_fulfill_request_eq]
  by_cases hxP : x ∈ s.inode.temptation
  · rw [if_pos (Or.inl hxP)] at hrc
    have hrc2 : (s.mem x).refcount = 2 := by simpa using hrc
    rw [if_neg (by rw [hrc2]; decide), if_neg (by rw [hrc2]; decide)]
    refine h.fulfilled_stays hxP rfl rfl rfl rfl rfl rfl rfl rfl ?_ ?_ ?_ ?_ ?_ ?_ ?_ ?_
    · intro a hax
      exact mem_set_ne _ _ _ _ hax
    all_goals simp only [mem_set_eq]
  · have hn : ¬ (x ∈ s.inode.temptation ∨ x ∈ ([] : List Nat)) := by simpa using hxP
    rw [if_neg hn] at hrc
    have hrc1 : (s.mem x).refcount = 1 := by simpa using hrc
    rw [if_neg (by rw [hrc1]; decide), if_pos (by rw [hrc1]; decide)]
    have hd := wb_request_destroy_fields
      { s.inode with
        window_current := s.inode.window_current - (s.mem x).total_size
        transit := s.inode.transit - (s.mem x).total_size } x
    refine h.fulfilled_destroyed hxP he rfl rfl rfl hd.1 hd.2.1 hd.2.2.1 hd.2.2.2.1
      hd.2.2.2.2.1 ?_ ?_
    · intro a hax
      exact mem_set_ne _ _ _ _ hax
    · simp only [mem_set_eq]

theorem wb_acct_inv.cast {s : wb_state} {U tasks liabilities X : List Nat} {D D1 : Int}
    {q : Bool} (h : wb_acct_inv s U tasks liabilities X D q) (hD : D = D1) :
    wb_acct_inv s U tasks liabilities X D1 q := by
  rw [← hD]; exact h

theorem wb_acct_inv.X_facts {s : wb_state} {U tasks liabilities X : List Nat} {D : Int}
    {q : Bool} (h : wb_acct_inv s U tasks liabilities X D q) :
    X.Nodup ∧ ∀ a ∈ X, a ∈ s.inode.all ∧ (s.mem a).ordering.fulfilled = false := by
  have h1 := h.wind_nodup
  unfold wb_wind_list at h1
  have h2 := (h1.of_append_right.of_append_right.of_append_right).of_append_left
  refine ⟨h2, ?_⟩
  intro a ha
  apply h.wind_all a
  unfold wb_wind_list
  simp only [List.mem_append]
  exact Or.inr (Or.inr (Or.inr (Or.inl ha)))

theorem __wb_fulfill_request_mem_ne (s : wb_state) (x a : Nat) (h : a ≠ x) :
    (__wb_fulfill_request s x).mem a = s.mem a := by
  rw [__wb_fulfill_request_eq]
  split
  · exact mem_set_ne _ _ _ _ h
  · split
    · exact mem_set_ne _ _ _ _ h
    · exact mem_set_ne _ _ _ _ h

/-- The loop of `wb_head_done` over the members of the batch being closed:
each member's payload is added to the part already handled. -/
theorem wb_acct_inv.acct_head_done_loop {tasks liabilities : List Nat} {head : Nat}
    (l : List Nat) :
    ∀ {s : wb_state} {D : Int} {q : Bool},
      wb_acct_inv s [] tasks liabilities (l ++ [head]) D q →
      (∀ m ∈ l, (s.mem m).total_size = 0) →
      wb_acct_inv (wb_head_done_loop l s) [] tasks liabilities [head]
        (D + sum_over (fun r => (r.write_size : Int)) s.mem l) false
      ∧ (wb_head_done_loop l s).mem head = s.mem head := by
  induction l with
  | nil =>
    intro s D q h _
    exact ⟨(h.weaken).cast (by simp [sum_over]), rfl⟩
  | cons m l ih =>
    intro s D q h ht
    have hX := h.X_facts
    have hnd : (m :: (l ++ [head])).Nodup := hX.1
    have hmh : head ≠ m := by
      intro e
      have := (List.nodup_cons.1 hnd).1
      rw [← e] at this
      exact this (by simp)
    have hml : ∀ a ∈ l, a ≠ m := by
      intro a ha e
      have := (List.nodup_cons.1 hnd).1
      rw [← e] at this
      exact this (List.mem_append_left _ ha)
    have hhA : head ∈ s.inode.all := (hX.2 head (by simp)).1
    have h1 : wb_acct_inv (__wb_fulfill_request s m) [] tasks liabilities (l ++ [head])
        (D + (s.mem m).write_size - (s.mem m).total_size) false := by
      apply wb_acct_inv.acct_fulfill_request h
      intro he
      have : head ∈ list_del m s.inode.all := (mem_list_del_iff _ _ _).2 ⟨hhA, hmh⟩
      rw [he] at this
      exact absurd this (List.not_mem_nil _)
    have h2 := ih h1 (fun a ha => by
      rw [__wb_fulfill_request_mem_ne s m a (hml a ha)]
      exact ht a (List.mem_cons_of_mem _ ha))
    have h3 : sum_over (fun r => (r.write_size : Int)) (__wb_fulfill_request s m).mem l
        = sum_over (fun r => (r.write_size : Int)) s.mem l :=
      sum_over_congr _ _ _ _ (fun a ha => by
        simp only [__wb_fulfill_request_mem_ne s m a (hml a ha)])
    refine ⟨?_, ?_⟩
    · show wb_acct_inv (wb_head_done_loop l (__wb_fulfill_request s m)) [] tasks liabilities
        [head] _ false
      apply h2.1.cast
      rw [h3, sum_over_cons, ht m (List.mem_cons_self _ _)]
      simp only [Nat.cast_zero]
      ring
    · show (wb_head_done_loop l (__wb_fulfill_request s m)).mem head = s.mem head
      rw [h2.2, __wb_fulfill_request_mem_ne s m head hmh]

/-- `wb_head_done` on a batch taken out of flight: its payload leaves the
window, and each of its requests is destroyed or waits, fulfilled, for the
unwinder. -/
theorem wb_acct_inv.acct_head_done {s : wb_state} {tasks liabilities : List Nat} {head : Nat}
    {q : Bool} (h : wb_acct_inv s [] tasks liabilities (wb_batch s.mem head) 0 q)
    (hb : ((s.mem head).total_size : Int)
      = sum_over (fun r => r.write_size) s.mem (wb_batch s.mem head))
    (hm : ∀ m ∈ (s.mem head).winds, (s.mem m).total_size = 0) :
    wb_acct_inv (wb_head_done s head) [] tasks liabilities [] 0 false := by
  unfold wb_head_done
  have h1 := wb_acct_inv.acct_head_done_loop (s.mem head).winds h hm
  have h2 := wb_acct_inv.acct_fulfill_request h1.1 (by
    intro _
    rw [h1.2]
    unfold wb_batch at hb
    rw [sum_over_append, sum_over_cons, sum_over_nil] at hb
    linarith)
  apply h2.cast
  rw [h1.2]
  unfold wb_batch at hb
  rw [sum_over_append, sum_over_cons, sum_over_nil] at hb
  linarith

theorem wb_batch_head_mem (mem : Nat → wb_request) (h : Nat) : h ∈ wb_batch mem h := by
  simp [wb_batch]

theorem wb_acct_inv.inflight_nodup {s : wb_state} {U tasks liabilities X : List Nat} {D : Int}
    {q : Bool} (h : wb_acct_inv s U tasks liabilities X D q) : s.inflight.Nodup := by
  have h1 := h.wind_nodup
  unfold wb_wind_list at h1
  have h2 := h1.of_append_right.of_append_right.of_append_right.of_append_right
  have h3 := (List.nodup_flatMap.1 h2).2
  apply List.Pairwise.imp _ h3
  intro a b hd e
  subst e
  exact hd (wb_batch_head_mem s.mem a) (wb_batch_head_mem s.mem a)

/-- Taking a batch out of flight, as `wb_fulfill_cbk` does on entry: the batch
becomes the one being closed. -/
theorem wb_acct_inv.take_batch {s : wb_state} {q : Bool} {head : Nat}
    (h : wb_acct_inv s [] [] [] [] 0 q) (hh : head ∈ s.inflight) :
    wb_acct_inv { s with inflight := list_del head s.inflight } [] [] []
      (wb_batch s.mem head) 0 q := by
  have hperm : (wb_wind_list { s with inflight := list_del head s.inflight } [] []
      (wb_batch s.mem head)).Perm (wb_wind_list s [] [] []) := by
    unfold wb_wind_list
    simp only [List.nil_append]
    apply List.Perm.append_left
    have := (list_del_perm head s.inflight h.inflight_nodup hh).flatMap_right (wb_batch s.mem)
    rw [List.flatMap_cons] at this
    exact this.symm
  exact
    { h with
      wind_nodup := hperm.nodup_iff.2 h.wind_nodup
      wind_all := fun a ha => h.wind_all a (hperm.mem_iff.1 ha)
      wind_tempted := fun a ha => by
        apply h.wind_tempted a
        have h1 : a ∈ wb_wind_list { s with inflight := list_del head s.inflight } [] []
            (wb_batch s.mem head) := by
          unfold wb_wind_list
          simp only [List.nil_append] at ha ⊢
          exact List.mem_append_right _ ha
        have h2 := hperm.mem_iff.1 h1
        have h3 := h.wind_nodup
        unfold wb_wind_list at h2 h3
        simp only [List.nil_append] at h2 h3 ⊢
        rcases List.mem_append.1 h2 with h4 | h4
        · -- on todo: impossible, the lists are disjoint
          exfalso
          have hd := (List.nodup_append.1 (hperm.nodup_iff.2 h.wind_nodup)).2.2
          unfold wb_wind_list at hd
          simp only [List.nil_append] at hd
          exact hd h4 ha
        · exact h4
      batch := fun x hx => h.batch x ((mem_list_del_iff _ _ _).1 hx).1 }

theorem __wb_request_unref_eq (s : wb_state) (x : Nat) :
    __wb_request_unref s x
      = if (s.mem x).refcount ≤ 0 then s
        else if (s.mem x).refcount - 1 = 0 then
          { s with
            mem := mem_set s.mem x { s.mem x with refcount := (s.mem x).refcount - 1 }
            inode := wb_request_destroy s.inode x }
        else
          { s with
            mem := mem_set s.mem x { s.mem x with refcount := (s.mem x).refcount - 1 } } := by
  unfold __wb_request_unref
  simp only

/-- Destruction of a request that holds no wind reference any more and whose
payload is settled: a fulfilled one whose caller has just been answered, or a
resumed task.  It is on no list but `all`. -/
theorem wb_acct_inv.destroyed {s s1 : wb_state} {U tasks liabilities U1 tasks1 : List Nat}
    {x : Nat} {q : Bool}
    (h : wb_acct_inv s U tasks liabilities [] 0 q)
    (hxA : x ∈ s.inode.all)
    (hU : ∀ a, a ∈ U1 ↔ a ∈ U ∧ a ≠ x) (hUn : U1.Nodup)
    (hwl : (wb_wind_list s tasks liabilities []).Perm (wb_wind_list s tasks1 liabilities [])
      ∧ x ∉ wb_wind_list s tasks1 liabilities []
      ∨ (wb_wind_list s tasks liabilities []).Perm
        (x :: wb_wind_list s tasks1 liabilities []))
    (htk : ∀ a ∈ tasks1, a ∈ tasks)
    (hxP : x ∉ s.inode.temptation) (hxL : x ∉ s.inode.liability)
    (hxe : wb_excess (s.mem x) = 0)
    (hctx : s1.ctx = s.ctx) (hn : s1.next = s.next) (hF : s1.inflight = s.inflight)
    (ha : s1.inode.all = list_del x s.inode.all)
    (ht : s1.inode.todo = list_del x s.inode.todo)
    (hl : s1.inode.liability = list_del x s.inode.liability)
    (hp : s1.inode.temptation = list_del x s.inode.temptation)
    (hw : s1.inode.window_current = if list_del x s.inode.all = [] then 0
      else s.inode.window_current)
    (hm : ∀ a, a ≠ x → s1.mem a = s.mem a)
    (hx7 : (s1.mem x).winds = (s.mem x).winds) :
    wb_acct_inv s1 U1 tasks1 liabilities [] 0 q := by
  have hndnew : (wb_wind_list s tasks1 liabilities []).Nodup := by
    rcases hwl with h1 | h1
    · exact h1.1.nodup_iff.1 h.wind_nodup
    · exact (List.nodup_cons.1 (h1.nodup_iff.1 h.wind_nodup)).2
  have hxnew : x ∉ wb_wind_list s tasks1 liabilities [] := by
    rcases hwl with h1 | h1
    · exact h1.2
    · exact (List.nodup_cons.1 (h1.nodup_iff.1 h.wind_nodup)).1
  have hold : ∀ a ∈ wb_wind_list s tasks1 liabilities [],
      a ∈ wb_wind_list s tasks liabilities [] := by
    intro a ha
    rcases hwl with h1 | h1
    · exact h1.1.mem_iff.2 ha
    · exact h1.mem_iff.2 (List.mem_cons_of_mem _ ha)
  have hxT : x ∉ s.inode.todo :=
    fun hx => hxnew ((wb_wind_list_sub s tasks1 liabilities [] x).1
      (List.mem_append_left _ hx))
  have hT : list_del x s.inode.todo = s.inode.todo := list_del_of_not_mem _ _ hxT
  have hP : list_del x s.inode.temptation = s.inode.temptation := list_del_of_not_mem _ _ hxP
  have hL : list_del x s.inode.liability = s.inode.liability := list_del_of_not_mem _ _ hxL
  rw [hT] at ht
  rw [hP] at hp
  rw [hL] at hl
  have hwinds : ∀ a, (s1.mem a).winds = (s.mem a).winds := by
    intro a
    by_cases hax : a = x
    · rw [hax]; exact hx7
    · rw [hm a hax]
  have hwl1 : wb_wind_list s1 tasks1 liabilities [] = wb_wind_list s tasks1 liabilities [] :=
    wb_wind_list_congr tasks1 liabilities [] hF ht hwinds
  have hb := wb_batch_congr s.mem s1.mem hwinds
  have hnew_ne : ∀ a ∈ wb_wind_list s tasks1 liabilities [], a ≠ x :=
    fun a haw e => hxnew (e ▸ haw)
  constructor
  · rw [hctx]; exact h.ctx
  · rw [ha]; exact list_del_nodup _ _ h.all_nodup
  · rw [ha, hn]
    intro a haw
    exact h.all_lt a ((mem_list_del_iff _ _ _).1 haw).1
  · rw [hl]; exact h.liab_nodup
  · rw [hp]; exact h.tempt_nodup
  · exact hUn
  · rw [hwl1]; exact hndnew
  · rw [hwl1, ha]
    intro a haw
    rw [hm a (hnew_ne a haw)]
    exact ⟨(mem_list_del_iff _ _ _).2 ⟨(h.wind_all a (hold a haw)).1, hnew_ne a haw⟩,
      (h.wind_all a (hold a haw)).2⟩
  · rw [hF, hb]
    intro a haw
    rw [hm a (hnew_ne a ((wb_wind_list_sub s tasks1 liabilities [] a).2 haw))]
    exact h.wind_tempted a haw
  · intro a haw
    have hax : a ≠ x := hnew_ne a ((wb_wind_list_sub s tasks1 liabilities [] a).1
      (List.mem_append_right _ (List.mem_append_left _ haw)))
    rw [hm a hax]
    exact h.tasks_plain a (htk a haw)
  · rw [hl, ha, hp]
    intro a haw
    have hax : a ≠ x := fun e => hxL (e ▸ haw)
    rw [hm a hax]
    have h2 := h.liab a haw
    exact ⟨(mem_list_del_iff _ _ _).2 ⟨h2.1, hax⟩, h2.2⟩
  · rw [hp, ha]
    intro a haw
    have hax : a ≠ x := fun e => hxP (e ▸ haw)
    rw [hm a hax]
    have h2 := h.tempt a haw
    exact ⟨(mem_list_del_iff _ _ _).2 ⟨h2.1, hax⟩, h2.2.1,
      fun h3 => h2.2.2 ((hU a).1 h3).1⟩
  · rw [ha]
    intro a haw
    have h1 := (hU a).1 haw
    exact (mem_list_del_iff _ _ _).2 ⟨h.U_all a h1.1, h1.2⟩
  · rw [ha, hp, hl]
    intro a haw
    have h1 := (mem_list_del_iff _ _ _).1 haw
    rw [hm a h1.2]
    exact h.tempted_held a h1.1
  · rw [ha, hp]
    intro a haw
    have h1 := (mem_list_del_iff _ _ _).1 haw
    rw [hm a h1.2]
    intro h2
    rcases h.ful_held a h1.1 h2 with h3 | h3
    · exact Or.inl h3
    · exact Or.inr ((hU a).2 ⟨h3, h1.2⟩)
  · rw [ha, hp, hl]
    intro a haw
    have h1 := (mem_list_del_iff _ _ _).1 haw
    rw [hm a h1.2]
    intro h2
    have h3 := h.plain a h1.1 h2
    exact ⟨h3.1, h3.2.1, h3.2.2.1, fun h4 => h3.2.2.2 ((hU a).1 h4).1⟩
  · rw [ha, hp]
    intro a haw
    have h1 := (mem_list_del_iff _ _ _).1 haw
    rw [hm a h1.2, h.refcount a h1.1]
    have : (a ∈ s.inode.temptation ∨ a ∈ U1) ↔ (a ∈ s.inode.temptation ∨ a ∈ U) := by
      rw [hU a]
      constructor
      · rintro (h2 | h2)
        · exact Or.inl h2
        · exact Or.inr h2.1
      · rintro (h2 | h2)
        · exact Or.inl h2
        · exact Or.inr ⟨h2, h1.2⟩
    simp only [this]
  · rw [ht]
    intro a haw
    have haw1 : a ∈ s.inode.todo ++ (tasks ++ liabilities) := by
      simp only [List.mem_append] at haw ⊢
      rcases haw with h1 | h1 | h1
      · exact Or.inl h1
      · exact Or.inr (Or.inl (htk a h1))
      · exact Or.inr (Or.inr h1)
    rw [hm a (hnew_ne a ((wb_wind_list_sub s tasks1 liabilities [] a).1 haw))]
    exact h.fresh a haw1
  · rw [hF, hb]
    intro hh hhF
    have hbm : ∀ a ∈ wb_batch s.mem hh, a ≠ x :=
      fun a hab => hnew_ne a (wb_batch_mem_wind s tasks1 liabilities [] hh a hhF hab)
    have hhx : hh ≠ x := hbm hh (wb_batch_head_mem _ _)
    rw [hm hh hhx, sum_over_congr (fun r => (r.write_size : Int)) s.mem s1.mem _
      (fun a hab => by simp only [hm a (hbm a hab)])]
    refine ⟨(h.batch hh hhF).1, ?_⟩
    intro m hmw
    rw [hm m (hbm m (by simp [wb_batch, hmw]))]
    exact (h.batch hh hhF).2 m hmw
  · rw [hw, hp, hl, ha]
    have e1 : sum_over wb_pending_credit s1.mem s.inode.temptation
        = sum_over wb_pending_credit s.mem s.inode.temptation :=
      sum_over_update_not_mem _ _ _ x _ hxP hm
    have e2 : sum_over wb_excess s1.mem (list_del x s.inode.all)
        = sum_over wb_excess s.mem s.inode.all - wb_excess (s.mem x) := by
      rw [sum_over_list_del_update _ _ _ _ _ hm, sum_over_list_del _ _ _ _ h.all_nodup hxA]
    have e3 : sum_over (fun r => (r.orig_size : Int)) s1.mem s.inode.liability
        = sum_over (fun r => (r.orig_size : Int)) s.mem s.inode.liability :=
      sum_over_update_not_mem _ _ _ x _ hxL hm
    by_cases hA : list_del x s.inode.all = []
    · have hLe : s.inode.liability = [] := by
        apply List.eq_nil_iff_forall_not_mem.2
        intro a haw
        have hax : a ≠ x := fun e => hxL (e ▸ haw)
        have : a ∈ list_del x s.inode.all :=
          (mem_list_del_iff _ _ _).2 ⟨(h.liab a haw).1, hax⟩
        rw [hA] at this
        exact List.not_mem_nil _ this
      have hPe : s.inode.temptation = [] := by
        apply List.eq_nil_iff_forall_not_mem.2
        intro a haw
        have hax : a ≠ x := fun e => hxP (e ▸ haw)
        have : a ∈ list_del x s.inode.all :=
          (mem_list_del_iff _ _ _).2 ⟨(h.tempt a haw).1, hax⟩
        rw [hA] at this
        exact List.not_mem_nil _ this
      rw [if_pos hA, hA, hLe, hPe]
      simp [sum_over]
    · rw [if_neg hA]
      have hacct := h.acct
      rw [e1, e2, e3, hxe]
      linarith
  · rw [hp]
    intro hq a haw
    have hax : a ≠ x := fun e => hxP (e ▸ haw)
    rw [hm a hax]
    exact h.settled hq a haw

/-- The unwind reference of a lied request is released: the request stays,
on liability, with one reference less. -/
theorem wb_acct_inv.unwound_stays {s s1 : wb_state} {U tasks liabilities : List Nat}
    {x : Nat} {q : Bool}
    (h : wb_acct_inv s (x :: U) tasks liabilities [] 0 q)
    (hxf : (s.mem x).ordering.fulfilled = false)
    (hctx : s1.ctx = s.ctx) (hn : s1.next = s.next) (hF : s1.inflight = s.inflight)
    (hi : s1.inode = s.inode)
    (hm : ∀ a, a ≠ x → s1.mem a = s.mem a)
    (hx : s1.mem x = { s.mem x with refcount := (s.mem x).refcount - 1 }) :
    wb_acct_inv s1 U tasks liabilities [] 0 q := by
  have hxA : x ∈ s.inode.all := h.U_all x (List.mem_cons_self _ _)
  have hxU : x ∉ U := (List.nodup_cons.1 h.U_nodup).1
  have hxP : x ∉ s.inode.temptation :=
    fun hx => (h.tempt x hx).2.2 (List.mem_cons_self _ _)
  have hsame : ∀ a, (s1.mem a).ordering = (s.mem a).ordering
      ∧ (s1.mem a).orig_size = (s.mem a).orig_size
      ∧ (s1.mem a).write_size = (s.mem a).write_size
      ∧ (s1.mem a).total_size = (s.mem a).total_size
      ∧ (s1.mem a).winds = (s.mem a).winds := by
    intro a
    by_cases hax : a = x
    · rw [hax, hx]
      exact ⟨rfl, rfl, rfl, rfl, rfl⟩
    · rw [hm a hax]
      exact ⟨rfl, rfl, rfl, rfl, rfl⟩
  have hwl1 : wb_wind_list s1 tasks liabilities [] = wb_wind_list s tasks liabilities [] :=
    wb_wind_list_congr tasks liabilities [] hF (by rw [hi]) (fun a => (hsame a).2.2.2.2)
  have hb := wb_batch_congr s.mem s1.mem (fun a => (hsame a).2.2.2.2)
  have hs : ∀ (f : wb_request → Int),
      (∀ a, f (s1.mem a) = f (s.mem a)) →
      ∀ l, sum_over f s1.mem l = sum_over f s.mem l :=
    fun f hf l => sum_over_congr f s.mem s1.mem l (fun a _ => hf a)
  constructor
  · rw [hctx]; exact h.ctx
  · rw [hi]; exact h.all_nodup
  · rw [hi, hn]; exact h.all_lt
  · rw [hi]; exact h.liab_nodup
  · rw [hi]; exact h.tempt_nodup
  · exact (List.nodup_cons.1 h.U_nodup).2
  · rw [hwl1]; exact h.wind_nodup
  · rw [hwl1, hi]
    intro a haw
    rw [(hsame a).1]
    exact h.wind_all a haw
  · rw [hF, hb]
    intro a haw
    rw [(hsame a).1]
    exact h.wind_tempted a haw
  · intro a haw
    rw [(hsame a).1]
    exact h.tasks_plain a haw
  · rw [hi]
    intro a haw
    rw [(hsame a).1]
    exact h.liab a haw
  · rw [hi]
    intro a haw
    rw [(hsame a).1]
    have := h.tempt a haw
    exact ⟨this.1, this.2.1, fun h1 => this.2.2 (List.mem_cons_of_mem _ h1)⟩
  · rw [hi]
    intro a haw
    exact h.U_all a (List.mem_cons_of_mem _ haw)
  · rw [hi]
    intro a haw
    rw [(hsame a).1]
    exact h.tempted_held a haw
  · rw [hi]
    intro a haw
    rw [(hsame a).1]
    intro h1
    rcases h.ful_held a haw h1 with h2 | h2
    · exact Or.inl h2
    · rcases List.mem_cons.1 h2 with h3 | h3
      · rw [h3, hxf] at h1
        cases h1
      · exact Or.inr h3
  · rw [hi]
    intro a haw
    rw [(hsame a).1, (hsame a).2.1, (hsame a).2.2.1]
    intro h1
    have := h.plain a haw h1
    exact ⟨this.1, this.2.1, this.2.2.1, fun h2 => this.2.2.2 (List.mem_cons_of_mem _ h2)⟩
  · rw [hi]
    intro a haw
    rw [(hsame a).1]
    by_cases hax : a = x
    · have h0 := h.refcount x hxA
      rw [hxf, if_pos (Or.inr (List.mem_cons_self _ _))] at h0
      have hn0 : ¬ (x ∈ s.inode.temptation ∨ x ∈ U) := by
        rintro (h1 | h1)
        · exact hxP h1
        · exact hxU h1
      rw [hax, hx, hxf, if_neg hn0]
      simp only [h0]
      rfl
    · rw [hm a hax, h.refcount a haw]
      have : (a ∈ s.inode.temptation ∨ a ∈ x :: U) ↔ (a ∈ s.inode.temptation ∨ a ∈ U) := by
        simp only [List.mem_cons, hax, false_or]
      simp only [this]
  · rw [hi]
    intro a haw
    rw [(hsame a).2.2.2.1, (hsame a).2.2.2.2]
    exact h.fresh a haw
  · rw [hF, hb]
    intro hh hhF
    rw [(hsame hh).2.2.2.1, (hsame hh).2.2.2.2,
      hs (fun r => (r.write_size : Int)) (fun a => by simp only [(hsame a).2.2.1])]
    refine ⟨(h.batch hh hhF).1, ?_⟩
    intro m hmw
    rw [(hsame m).2.2.2.1]
    exact (h.batch hh hhF).2 m hmw
  · rw [hi, hs wb_pending_credit (fun a => by
        simp only [wb_pending_credit, (hsame a).1, (hsame a).2.1]),
      hs wb_excess (fun a => by
        simp only [wb_excess, (hsame a).1, (hsame a).2.1, (hsame a).2.2.1]),
      hs (fun r => (r.orig_size : Int)) (fun a => by simp only [(hsame a).2.1])]
    exact h.acct
  · rw [hi]
    intro hq a haw
    rw [(hsame a).1]
    exact h.settled hq a haw

/-- One turn of the loop of `wb_do_unwinds`: the unwind reference of the first
lie is released. -/
theorem wb_acct_inv.unwind_unref {s : wb_state} {U tasks liabilities : List Nat}
    {x : Nat} {q : Bool} (h : wb_acct_inv s (x :: U) tasks liabilities [] 0 q) :
    wb_acct_inv (__wb_request_unref s x) U tasks liabilities [] 0 q := by
  have hxA : x ∈ s.inode.all := h.U_all x (List.mem_cons_self _ _)
  have hxU : x ∉ U := (List.nodup_cons.1 h.U_nodup).1
  have hxP : x ∉ s.inode.temptation :=
    fun hx => (h.tempt x hx).2.2 (List.mem_cons_self _ _)
  have hrc := h.refcount x hxA
  rw [if_pos (Or.inr (List.mem_cons_self _ _))] at hrc
  rw [__wb_request_unref_eq]
  by_cases hxf : (s.mem x).ordering.fulfilled = true
  · rw [hxf] at hrc
    have hrc1 : (s.mem x).refcount = 1 := by simpa using hrc
    rw [if_neg (by rw [hrc1]; decide), if_pos (by rw [hrc1]; decide)]
    have hd := wb_request_destroy_fields s.inode x
    have hxL : x ∉ s.inode.liability := by
      intro hx
      have := (h.liab x hx).2.2.1
      rw [hxf] at this
      cases this
    have hxW : x ∉ wb_wind_list s tasks liabilities [] := by
      intro hx
      have := (h.wind_all x hx).2
      rw [hxf] at this
      cases this
    refine @wb_acct_inv.destroyed _ _ _ _ _ U tasks _ _ h hxA ?_ (List.nodup_cons.1 h.U_nodup).2
      (Or.inl ⟨List.Perm.refl _, hxW⟩) (fun a ha => ha) hxP hxL ?_ rfl rfl rfl hd.1 hd.2.1
      hd.2.2.1 hd.2.2.2.1 hd.2.2.2.2.1 ?_ ?_
    · intro a
      constructor
      · intro ha
        exact ⟨List.mem_cons_of_mem _ ha, fun e => hxU (e ▸ ha)⟩
      · rintro ⟨ha, hne⟩
        rcases List.mem_cons.1 ha with h1 | h1
        · exact absurd h1 hne
        · exact h1
    · simp [wb_excess, hxf]
    · intro a hax
      exact mem_set_ne _ _ _ _ hax
    · simp only [mem_set_eq]
  · have hxf0 : (s.mem x).ordering.fulfilled = false := by simpa using hxf
    rw [hxf0] at hrc
    have hrc2 : (s.mem x).refcount = 2 := by simpa using hrc
    rw [if_neg (by rw [hrc2]; decide), if_neg (by rw [hrc2]; decide)]
    refine h.unwound_stays hxf0 rfl rfl rfl rfl ?_ ?_
    · intro a hax
      exact mem_set_ne _ _ _ _ hax
    · simp only [mem_set_eq]

theorem wb_acct_inv.acct_do_unwinds {tasks liabilities : List Nat} {q : Bool} (lies : List Nat) :
    ∀ {s : wb_state}, wb_acct_inv s lies tasks liabilities [] 0 q →
      wb_acct_inv (wb_do_unwinds s lies) [] tasks liabilities [] 0 q := by
  induction lies with
  | nil => intro s h; exact h
  | cons x U ih =>
    intro s h
    unfold wb_do_unwinds
    apply ih
    unfold wb_request_unref
    apply wb_acct_inv.unwind_unref
    exact h.acct_same ⟨rfl, rfl, rfl, rfl, rfl, rfl, rfl, rfl, rfl, rfl, rfl, rfl⟩

/-- One turn of the loop of `wb_do_winds`: the first task, resumed, is destroyed. -/
theorem wb_acct_inv.wind_unref {s : wb_state} {tasks liabilities : List Nat}
    {x : Nat} {q : Bool} (h : wb_acct_inv s [] (x :: tasks) liabilities [] 0 q) :
    wb_acct_inv (__wb_request_unref s x) [] tasks liabilities [] 0 q := by
  have hperm := wb_wind_list_cons_tasks s tasks liabilities [] x
  have hxold : x ∈ wb_wind_list s (x :: tasks) liabilities [] :=
    hperm.mem_iff.2 (List.mem_cons_self _ _)
  have hxA := (h.wind_all x hxold).1
  have hxf := (h.wind_all x hxold).2
  have hxt := h.tasks_plain x (List.mem_cons_self _ _)
  have hpl := h.plain x hxA hxt
  have hrc := h.refcount x hxA
  have hn0 : ¬ (x ∈ s.inode.temptation ∨ x ∈ ([] : List Nat)) := by
    rintro (h1 | h1)
    · exact hpl.2.1 h1
    · exact absurd h1 (List.not_mem_nil _)
  rw [hxf, if_neg hn0] at hrc
  have hrc1 : (s.mem x).refcount = 1 := by simpa using hrc
  rw [__wb_request_unref_eq, if_neg (by rw [hrc1]; decide), if_pos (by rw [hrc1]; decide)]
  have hd := wb_request_destroy_fields s.inode x
  refine @wb_acct_inv.destroyed _ _ _ _ _ [] tasks _ _ h hxA ?_ List.nodup_nil (Or.inr hperm)
    (fun a ha => List.mem_cons_of_mem _ ha) hpl.2.1 hpl.2.2.1 ?_ rfl rfl rfl hd.1 hd.2.1
    hd.2.2.1 hd.2.2.2.1 hd.2.2.2.2.1 ?_ ?_
  · intro a
    simp
  · simp [wb_excess, hxf, hpl.1]
  · intro a hax
    exact mem_set_ne _ _ _ _ hax
  · simp only [mem_set_eq]

theorem wb_acct_inv.acct_do_winds {liabilities : List Nat} {q : Bool} (xl : xlator_t)
    (env : wb_env) (tasks : List Nat) :
    ∀ {s : wb_state}, wb_acct_inv s [] tasks liabilities [] 0 q →
      wb_acct_inv (wb_do_winds xl env s tasks) [] [] liabilities [] 0 q := by
  induction tasks with
  | nil => intro s h; exact h
  | cons x l ih =>
    intro s h
    unfold wb_do_winds
    apply ih
    unfold wb_request_unref
    have h1 := h.acct_same (call_resume_same xl env s (s.mem x).stub)
    exact h1.wind_unref

/-- One entry taken off temptation by the unwinder: it joins the lies of the
round, its `orig_size` is credited, and it joins liability unless fulfilled. -/
theorem wb_acct_inv.taken {s s1 : wb_state} {U tasks liabilities : List Nat} {x : Nat}
    {q : Bool} (h : wb_acct_inv s U tasks liabilities [] 0 q) (hxP : x ∈ s.inode.temptation)
    (hctx : s1.ctx = s.ctx) (hn : s1.next = s.next) (hF : s1.inflight = s.inflight)
    (ha : s1.inode.all = s.inode.all) (ht : s1.inode.todo = s.inode.todo)
    (hl : s1.inode.liability = if (s.mem x).ordering.fulfilled = true then s.inode.liability
      else s.inode.liability ++ [x])
    (hp : s1.inode.temptation = list_del x s.inode.temptation)
    (hw : s1.inode.window_current = s.inode.window_current + (s.mem x).orig_size)
    (hm : ∀ a, wb_req_same (s.mem a) (s1.mem a)) :
    wb_acct_inv s1 (U ++ [x]) tasks liabilities [] 0 q := by
  have hxA := (h.tempt x hxP).1
  have hxt := (h.tempt x hxP).2.1
  have hxU := (h.tempt x hxP).2.2
  have hxL : x ∉ s.inode.liability := fun hx => (h.liab x hx).2.2.2 hxP
  have hwl := @wb_wind_list_congr s s1 tasks liabilities [] hF ht
    (fun a => (hm a).winds)
  have hb := wb_batch_congr s.mem s1.mem (fun a => (hm a).winds)
  have hs : ∀ (f : wb_request → Int), (∀ r r1, wb_req_same r r1 → f r1 = f r) →
      ∀ l, sum_over f s1.mem l = sum_over f s.mem l :=
    fun f hf l => sum_over_congr f s.mem s1.mem l (fun a _ => hf _ _ (hm a))
  have hpc : ∀ r r1, wb_req_same r r1 → wb_pending_credit r1 = wb_pending_credit r := by
    intro r r1 hr
    unfold wb_pending_credit
    rw [hr.fulfilled, hr.orig_size]
  have hex : ∀ r r1, wb_req_same r r1 → wb_excess r1 = wb_excess r := by
    intro r r1 hr
    unfold wb_excess
    rw [hr.fulfilled, hr.orig_size, hr.write_size]
  have hL1 : ∀ a, a ∈ s1.inode.liability →
      a ∈ s.inode.liability ∨ (a = x ∧ (s.mem x).ordering.fulfilled = false) := by
    intro a haw
    rw [hl] at haw
    split at haw
    · exact Or.inl haw
    · rename_i hf
      rcases List.mem_append.1 haw with h1 | h1
      · exact Or.inl h1
      · exact Or.inr ⟨List.mem_singleton.1 h1, by simpa using hf⟩
  have hL2 : ∀ a, a ∈ s.inode.liability → a ∈ s1.inode.liability := by
    intro a haw
    rw [hl]
    split
    · exact haw
    · exact List.mem_append_left _ haw
  have hUx : ∀ a, (a ∈ list_del x s.inode.temptation ∨ a ∈ U ++ [x])
      ↔ (a ∈ s.inode.temptation ∨ a ∈ U) := by
    intro a
    simp only [mem_list_del_iff, List.mem_append, List.mem_singleton]
    constructor
    · rintro (h1 | h1 | h1)
      · exact Or.inl h1.1
      · exact Or.inr h1
      · exact Or.inl (h1 ▸ hxP)
    · rintro (h1 | h1)
      · by_cases hax : a = x
        · exact Or.inr (Or.inr hax)
        · exact Or.inl ⟨h1, hax⟩
      · exact Or.inr (Or.inl h1)
  constructor
  · rw [hctx]; exact h.ctx
  · rw [ha]; exact h.all_nodup
  · rw [ha, hn]; exact h.all_lt
  · rw [hl]
    split
    · exact h.liab_nodup
    · apply List.Nodup.append h.liab_nodup (List.nodup_singleton _)
      intro a h1 h2
      rw [List.mem_singleton.1 h2] at h1
      exact hxL h1
  · rw [hp]; exact list_del_nodup _ _ h.tempt_nodup
  · apply List.Nodup.append h.U_nodup (List.nodup_singleton _)
    intro a h1 h2
    rw [List.mem_singleton.1 h2] at h1
    exact hxU h1
  · rw [hwl]; exact h.wind_nodup
  · rw [hwl, ha]
    intro a haw
    rw [(hm a).fulfilled]
    exact h.wind_all a haw
  · rw [hF, hb]
    intro a haw
    rw [(hm a).tempted]
    exact h.wind_tempted a haw
  · intro a haw
    rw [(hm a).tempted]
    exact h.tasks_plain a haw
  · rw [ha, hp]
    intro a haw
    rw [(hm a).tempted, (hm a).fulfilled]
    rcases hL1 a haw with h1 | h1
    · have := h.liab a h1
      exact ⟨this.1, this.2.1, this.2.2.1,
        fun h2 => this.2.2.2 ((mem_list_del_iff _ _ _).1 h2).1⟩
    · rw [h1.1]
      exact ⟨hxA, hxt, h1.2, fun h2 => ((mem_list_del_iff _ _ _).1 h2).2 rfl⟩
  · rw [hp, ha]
    intro a haw
    rw [(hm a).tempted]
    have h1 := (mem_list_del_iff _ _ _).1 haw
    have := h.tempt a h1.1
    refine ⟨this.1, this.2.1, ?_⟩
    intro h2
    rcases List.mem_append.1 h2 with h3 | h3
    · exact this.2.2 h3
    · exact h1.2 (List.mem_singleton.1 h3)
  · rw [ha]
    intro a haw
    rcases List.mem_append.1 haw with h3 | h3
    · exact h.U_all a h3
    · rw [List.mem_singleton.1 h3]; exact hxA
  · rw [ha, hp]
    intro a haw
    rw [(hm a).tempted, (hm a).fulfilled]
    intro h1 h2
    rcases h.tempted_held a haw h1 h2 with h3 | h3
    · by_cases hax : a = x
      · right
        rw [hl, if_neg (by rw [← hax, h2]; decide)]
        exact List.mem_append_right _ (List.mem_singleton.2 hax)
      · exact Or.inl ((mem_list_del_iff _ _ _).2 ⟨h3, hax⟩)
    · exact Or.inr (hL2 a h3)
  · rw [ha, hp]
    intro a haw
    rw [(hm a).fulfilled]
    intro h1
    exact (hUx a).2 (h.ful_held a haw h1)
  · rw [ha, hp]
    intro a haw
    rw [(hm a).tempted, (hm a).write_size, (hm a).orig_size]
    intro h1
    have := h.plain a haw h1
    have hax : a ≠ x := by
      intro e
      rw [e, hxt] at h1
      cases h1
    refine ⟨this.1, fun h2 => this.2.1 ((mem_list_del_iff _ _ _).1 h2).1, ?_, ?_⟩
    · intro h2
      rcases hL1 a h2 with h3 | h3
      · exact this.2.2.1 h3
      · exact hax h3.1
    · intro h2
      rcases List.mem_append.1 h2 with h3 | h3
      · exact this.2.2.2 h3
      · exact hax (List.mem_singleton.1 h3)
  · rw [ha, hp]
    intro a haw
    rw [(hm a).refcount, (hm a).fulfilled, h.refcount a haw]
    simp only [hUx a]
  · rw [ht]
    intro a haw
    rw [(hm a).total_size, (hm a).winds]
    exact h.fresh a haw
  · rw [hF, hb]
    intro hh hhF
    rw [(hm hh).total_size, (hm hh).winds,
      hs (fun r => (r.write_size : Int)) (fun r r1 hr => by simp only [hr.write_size])]
    refine ⟨(h.batch hh hhF).1, ?_⟩
    intro m hmw
    rw [(hm m).total_size]
    exact (h.batch hh hhF).2 m hmw
  · rw [hw, hp, ha, hs _ hpc, hs _ hex,
      hs (fun r => (r.orig_size : Int)) (fun r r1 hr => by simp only [hr.orig_size]),
      sum_over_list_del _ _ _ _ h.tempt_nodup hxP]
    have hacct := h.acct
    by_cases hf : (s.mem x).ordering.fulfilled = true
    · rw [hl, if_pos hf]
      have : wb_pending_credit (s.mem x) = (s.mem x).orig_size := by
        simp [wb_pending_credit, hf]
      rw [this]
      linarith
    · rw [hl, if_neg hf, sum_over_append, sum_over_cons, sum_over_nil]
      have : wb_pending_credit (s.mem x) = 0 := by
        simp [wb_pending_credit, hf]
      rw [this]
      linarith
  · rw [hp]
    intro hq a haw
    rw [(hm a).fulfilled]
    exact h.settled hq a ((mem_list_del_iff _ _ _).1 haw).1

theorem wb_acct_inv.pick_unwinds_loop {tasks liabilities : List Nat} {q : Bool}
    (l : List Nat) :
    ∀ {s : wb_state} {U : List Nat}, wb_acct_inv s U tasks liabilities [] 0 q → l.Nodup →
      (∀ a ∈ l, a ∈ s.inode.temptation) →
      wb_acct_inv (__wb_pick_unwinds_loop l s U).1 (__wb_pick_unwinds_loop l s U).2
        tasks liabilities [] 0 q := by
  induction l with
  | nil => intro s U h _ _; exact h
  | cons x l ih =>
    intro s U h hnd hsub
    have hxP := hsub x (List.mem_cons_self _ _)
    have hxl : x ∉ l := (List.nodup_cons.1 hnd).1
    have hl : l.Nodup := (List.nodup_cons.1 hnd).2
    have hrest : ∀ a ∈ l, a ∈ list_del x s.inode.temptation := fun a ha =>
      (mem_list_del_iff _ _ _).2 ⟨hsub a (List.mem_cons_of_mem _ ha), fun e => hxl (e ▸ ha)⟩
    by_cases hf : (s.mem x).ordering.fulfilled = true
    · rw [__wb_pick_unwinds_loop_release x l s U hf]
      apply ih _ hl hrest
      refine h.taken hxP rfl rfl rfl rfl rfl ?_ rfl rfl (fun a => wb_req_same.rfl _)
      rw [if_pos hf]
    · have hf0 : (s.mem x).ordering.fulfilled = false := by simpa using hf
      by_cases hw : s.inode.window_current > s.inode.window_conf
      · rw [__wb_pick_unwinds_loop_skip x l s U hf0 hw]
        exact ih h hl (fun a ha => hsub a (List.mem_cons_of_mem _ ha))
      · rw [__wb_pick_unwinds_loop_lie x l s U hf0 hw]
        apply ih _ hl hrest
        refine h.taken hxP rfl rfl rfl rfl rfl ?_ rfl rfl ?_
        · rw [if_neg hf]
        · exact mem_set_req_same _ _ _ ⟨rfl, rfl, rfl, rfl, rfl, rfl, rfl⟩

theorem spec_unwind_taken_of_fulfilled (mem : Nat → wb_request) (c : Int) (l : List Nat) :
    ∀ w a, a ∈ l → (mem a).ordering.fulfilled = true → a ∈ spec_unwind_taken mem c w l := by
  induction l with
  | nil => intro w a h _; exact absurd h (List.not_mem_nil _)
  | cons b l ih =>
    intro w a ha hf
    simp only [spec_unwind_taken]
    rcases List.mem_cons.1 ha with h1 | h1
    · subst h1
      rw [if_neg (by simp [hf])]
      exact List.mem_cons_self _ _
    · split
      · exact ih _ a h1 hf
      · exact List.mem_cons_of_mem _ (ih _ a h1 hf)

/-- `__wb_pick_unwinds` in a round: afterwards no fulfilled request waits on
temptation. -/
theorem wb_acct_inv.acct_pick_unwinds {s : wb_state} {tasks liabilities : List Nat} {q : Bool}
    (h : wb_acct_inv s [] tasks liabilities [] 0 q) :
    wb_acct_inv (__wb_pick_unwinds s []).1 (__wb_pick_unwinds s []).2
      tasks liabilities [] 0 true := by
  have h1 : wb_acct_inv (__wb_pick_unwinds s []).1 (__wb_pick_unwinds s []).2
      tasks liabilities [] 0 q :=
    wb_acct_inv.pick_unwinds_loop s.inode.temptation h h.tempt_nodup (fun a ha => ha)
  refine { h1 with settled := ?_ }
  intro _ a ha
  unfold __wb_pick_unwinds at ha ⊢
  rw [__wb_pick_unwinds_loop_eq] at ha ⊢
  simp only at ha ⊢
  have h2 := List.mem_filter.1 ha
  have h3 : a ∉ spec_unwind_taken s.mem s.inode.window_conf s.inode.window_current
      s.inode.temptation := by simpa using h2.2
  have h4 : (s.mem a).ordering.fulfilled = false := by
    by_contra hc
    exact h3 (spec_unwind_taken_of_fulfilled _ _ _ _ a h2.1 (by simpa using hc))
  split
  · simp only [wb_set_lied]
    exact h4
  · exact h4

/-- Moving requests between todo and the lists of the round in progress. -/
theorem wb_acct_inv.relabel {s : wb_state} {U tasks liabilities X : List Nat} {D : Int}
    {q : Bool} (h : wb_acct_inv s U tasks liabilities X D q)
    (todo1 tasks1 liabilities1 X1 : List Nat)
    (hperm : (wb_wind_list { s with inode := { s.inode with todo := todo1 } }
      tasks1 liabilities1 X1).Perm (wb_wind_list s tasks liabilities X))
    (htp : ∀ a ∈ tasks1, (s.mem a).ordering.tempted = false)
    (hlt : ∀ a ∈ liabilities1 ++ X1, (s.mem a).ordering.tempted = true)
    (hfr : ∀ a ∈ todo1 ++ (tasks1 ++ liabilities1), a ∈ s.inode.todo ++ (tasks ++ liabilities)) :
    wb_acct_inv { s with inode := { s.inode with todo := todo1 } } U tasks1 liabilities1 X1
      D q :=
  { h with
    wind_nodup := hperm.nodup_iff.2 h.wind_nodup
    wind_all := fun a ha => h.wind_all a (hperm.mem_iff.1 ha)
    wind_tempted := by
      intro a ha
      rw [← List.append_assoc] at ha
      rcases List.mem_append.1 ha with h1 | h1
      · exact hlt a h1
      · exact h.wind_tempted a
          (List.mem_append_right _ (List.mem_append_right _ h1))
    tasks_plain := htp
    fresh := fun a ha => h.fresh a (hfr a ha) }

theorem filter_three_perm (l : List Nat) (d t : Nat → Bool) :
    (l.filter (fun a => !d a) ++ (l.filter (fun a => d a && !t a)
      ++ l.filter (fun a => d a && t a))).Perm l := by
  induction l with
  | nil => simp
  | cons x l ih =>
    cases hd : d x <;> cases ht : t x
    · simp only [List.filter_cons, hd, ht, Bool.not_false, Bool.false_and, if_true,
        Bool.false_eq_true, if_false, List.cons_append]
      exact List.Perm.cons _ ih
    · simp only [List.filter_cons, hd, ht, Bool.not_false, Bool.false_and, if_true,
        Bool.false_eq_true, if_false, List.cons_append]
      exact List.Perm.cons _ ih
    · simp only [List.filter_cons, hd, ht, Bool.not_true, Bool.not_false, Bool.true_and,
        if_true, Bool.false_eq_true, if_false, List.cons_append]
      exact (List.perm_middle).trans (List.Perm.cons _ ih)
    · simp only [List.filter_cons, hd, ht, Bool.not_true, Bool.not_false, Bool.true_and,
        if_true, Bool.false_eq_true, if_false, List.cons_append]
      refine List.Perm.trans ?_ (List.Perm.cons _ ih)
      rw [← List.append_assoc, ← List.append_assoc]
      exact List.perm_middle

/-- `__wb_pick_winds` at the start of a round. -/
theorem wb_acct_inv.acct_pick_winds {s : wb_state} {q : Bool} (xl : xlator_t)
    (h : wb_acct_inv s [] [] [] [] 0 q) :
    wb_acct_inv (__wb_pick_winds xl s [] []).1 [] (__wb_pick_winds xl s [] []).2.1
      (__wb_pick_winds xl s [] []).2.2 [] 0 q := by
  rw [__wb_pick_winds_eq]
  simp only [List.nil_append]
  apply h.relabel
  · unfold wb_wind_list
    simp only [List.nil_append]
    rw [← List.append_assoc, ← List.append_assoc]
    apply List.Perm.append_right
    rw [List.append_assoc]
    exact filter_three_perm _ _ _
  · intro a ha
    have := (List.mem_filter.1 ha).2
    simp only [Bool.and_eq_true, Bool.not_eq_true'] at this
    exact this.2
  · intro a ha
    rw [List.append_nil] at ha
    have := (List.mem_filter.1 ha).2
    simp only [Bool.and_eq_true] at this
    exact this.2
  · intro a ha
    simp only [List.append_nil]
    simp only [List.mem_append, List.mem_filter] at ha
    rcases ha with h1 | h1 | h1 <;> exact h1.1

/-- A waiting tempted request whose `write_size` grows by `k` while everything
else the invariant reads stays: the balance moves by `k`. -/
theorem wb_acct_inv.grow {s : wb_state} {U tasks liabilities X : List Nat} {D : Int}
    {q : Bool} (h : wb_acct_inv s U tasks liabilities X D q) (x : Nat) (r1 : wb_request)
    (k : Int) (hxT : x ∈ s.inode.todo) (hxt : (s.mem x).ordering.tempted = true)
    (h1 : r1.ordering.tempted = (s.mem x).ordering.tempted)
    (h2 : r1.ordering.fulfilled = (s.mem x).ordering.fulfilled)
    (h3 : r1.refcount = (s.mem x).refcount)
    (h4 : r1.orig_size = (s.mem x).orig_size)
    (h5 : (r1.write_size : Int) = (s.mem x).write_size + k)
    (h6 : r1.total_size = (s.mem x).total_size)
    (h7 : r1.winds = (s.mem x).winds) :
    wb_acct_inv { s with mem := mem_set s.mem x r1 } U tasks liabilities X (D - k) q := by
  have hne : ∀ a, a ≠ x → mem_set s.mem x r1 a = s.mem a := fun a ha => mem_set_ne _ _ _ _ ha
  have hv : ∀ a, (mem_set s.mem x r1 a).ordering.tempted = (s.mem a).ordering.tempted
      ∧ (mem_set s.mem x r1 a).ordering.fulfilled = (s.mem a).ordering.fulfilled
      ∧ (mem_set s.mem x r1 a).refcount = (s.mem a).refcount
      ∧ (mem_set s.mem x r1 a).orig_size = (s.mem a).orig_size
      ∧ (mem_set s.mem x r1 a).total_size = (s.mem a).total_size
      ∧ (mem_set s.mem x r1 a).winds = (s.mem a).winds := by
    intro a
    by_cases hax : a = x
    · subst hax
      rw [mem_set_eq]
      exact ⟨h1, h2, h3, h4, h6, h7⟩
    · rw [hne a hax]
      exact ⟨rfl, rfl, rfl, rfl, rfl, rfl⟩
  have hwl : wb_wind_list { s with mem := mem_set s.mem x r1 } tasks liabilities X
      = wb_wind_list s tasks liabilities X :=
    wb_wind_list_congr tasks liabilities X rfl rfl (fun a => (hv a).2.2.2.2.2)
  have hb : wb_batch (mem_set s.mem x r1) = wb_batch s.mem :=
    wb_batch_congr _ _ (fun a => (hv a).2.2.2.2.2)
  have hxW : x ∈ wb_wind_list s tasks liabilities X :=
    (wb_wind_list_sub s tasks liabilities X x).1 (List.mem_append_left _ hxT)
  have hxA := (h.wind_all x hxW).1
  have hxf := (h.wind_all x hxW).2
  have hxB : ∀ hd ∈ s.inflight, x ∉ wb_batch s.mem hd := by
    intro hd hhd hxb
    have hnd := h.wind_nodup
    unfold wb_wind_list at hnd
    have := (List.nodup_append.1 hnd).2.2
    apply this hxT
    simp only [List.mem_append, List.mem_flatMap]
    exact Or.inr (Or.inr (Or.inr ⟨hd, hhd, hxb⟩))
  constructor
  · exact h.ctx
  · exact h.all_nodup
  · exact h.all_lt
  · exact h.liab_nodup
  · exact h.tempt_nodup
  · exact h.U_nodup
  · rw [hwl]; exact h.wind_nodup
  · rw [hwl]
    intro a haw
    simp only
    rw [(hv a).2.1]
    exact h.wind_all a haw
  · simp only
    rw [hb]
    intro a haw
    rw [(hv a).1]
    exact h.wind_tempted a haw
  · intro a haw
    simp only
    rw [(hv a).1]
    exact h.tasks_plain a haw
  · intro a haw
    simp only
    rw [(hv a).1, (hv a).2.1]
    exact h.liab a haw
  · intro a haw
    simp only
    rw [(hv a).1]
    exact h.tempt a haw
  · exact h.U_all
  · intro a haw
    simp only
    rw [(hv a).1, (hv a).2.1]
    exact h.tempted_held a haw
  · intro a haw
    simp only
    rw [(hv a).2.1]
    exact h.ful_held a haw
  · intro a haw
    simp only
    rw [(hv a).1, (hv a).2.2.2.1]
    intro ht
    have hax : a ≠ x := by
      intro e
      rw [e, hxt] at ht
      cases ht
    rw [hne a hax]
    exact h.plain a haw ht
  · intro a haw
    simp only
    rw [(hv a).2.2.1, (hv a).2.1]
    exact h.refcount a haw
  · intro a haw
    simp only
    rw [(hv a).2.2.2.2.1, (hv a).2.2.2.2.2]
    exact h.fresh a haw
  · simp only
    rw [hb]
    intro hd hhd
    rw [(hv hd).2.2.2.2.1, (hv hd).2.2.2.2.2,
      sum_over_update_not_mem _ _ _ x _ (hxB hd hhd) hne]
    refine ⟨(h.batch hd hhd).1, ?_⟩
    intro m hmw
    rw [(hv m).2.2.2.2.1]
    exact (h.batch hd hhd).2 m hmw
  · simp only
    have e1 : sum_over wb_pending_credit (mem_set s.mem x r1) s.inode.temptation
        = sum_over wb_pending_credit s.mem s.inode.temptation := by
      apply sum_over_congr
      intro a _
      unfold wb_pending_credit
      rw [(hv a).2.1, (hv a).2.2.2.1]
    have e2 : sum_over (fun r => (r.orig_size : Int)) (mem_set s.mem x r1) s.inode.liability
        = sum_over (fun r => (r.orig_size : Int)) s.mem s.inode.liability := by
      apply sum_over_congr
      intro a _
      show ((mem_set s.mem x r1 a).orig_size : Int) = (s.mem a).orig_size
      rw [(hv a).2.2.2.1]
    have e3 := sum_over_update wb_excess s.mem (mem_set s.mem x r1) x s.inode.all
      h.all_nodup hxA hne
    have e4 : wb_excess (mem_set s.mem x r1 x) = wb_excess (s.mem x) + k := by
      rw [mem_set_eq]
      unfold wb_excess
      rw [h2, hxf, h4]
      simp only [Bool.false_eq_true, if_false]
      rw [h5]
      ring
    rw [e1, e2, e3, e4]
    have := h.acct
    linarith
  · intro hq a haw
    simp only
    rw [(hv a).2.1]
    exact h.settled hq a haw

theorem __wb_fulfill_request_todo (s : wb_state) (x a : Nat) (h : a ≠ x) :
    a ∈ (__wb_fulfill_request s x).inode.todo ↔ a ∈ s.inode.todo := by
  rw [__wb_fulfill_request_eq]
  split
  · exact Iff.rfl
  · split
    · unfold wb_request_destroy
      simp only
      split
      · simp only [mem_list_del_iff]
        exact ⟨fun h1 => h1.1, fun h1 => ⟨h1, h⟩⟩
      · simp only [mem_list_del_iff]
        exact ⟨fun h1 => h1.1, fun h1 => ⟨h1, h⟩⟩
    · exact Iff.rfl

theorem wb_holder_append_fields (h r : wb_request) :
    (wb_holder_append h r).ordering.tempted = h.ordering.tempted
    ∧ (wb_holder_append h r).ordering.fulfilled = h.ordering.fulfilled
    ∧ (wb_holder_append h r).refcount = h.refcount
    ∧ (wb_holder_append h r).orig_size = h.orig_size
    ∧ (wb_holder_append h r).write_size = h.write_size + r.write_size
    ∧ (wb_holder_append h r).total_size = h.total_size
    ∧ (wb_holder_append h r).winds = h.winds :=
  ⟨rfl, rfl, rfl, rfl, rfl, rfl, rfl⟩

/-- A write merged into the holder by `__wb_preprocess_winds`: the holder grows
by the write's `write_size`, the write leaves todo and is fulfilled. -/
theorem wb_acct_inv.merge {s : wb_state} {q : Bool} (env : wb_env) (holder req : Nat)
    (h : wb_acct_inv s [] [] [] [] 0 q)
    (hhT : holder ∈ s.inode.todo) (hht : (s.mem holder).ordering.tempted = true)
    (hrT : req ∈ s.inode.todo) (hrt : (s.mem req).ordering.tempted = true)
    (hne : req ≠ holder) (hret : (__wb_collapse_small_writes env s holder req).2 = 0) :
    wb_acct_inv (__wb_fulfill_request
      { (__wb_collapse_small_writes env s holder req).1 with
        inode := { (__wb_collapse_small_writes env s holder req).1.inode with
          todo := list_del req (__wb_collapse_small_writes env s holder req).1.inode.todo } }
      req) [] [] [] [] 0 false := by
  rcases __wb_collapse_small_writes_eq env s holder req with he | he
  · rw [he] at hret
    cases hret
  · rw [he]
    simp only
    rw [mem_set_ne _ _ _ _ hne]
    have hb := wb_holder_buffered_same (s.mem holder)
    have hf := wb_holder_append_fields (wb_holder_buffered (s.mem holder)) (s.mem req)
    have hfr := h.fresh req (List.mem_append_left _ hrT)
    have hnd : s.inode.todo.Nodup := by
      have := h.wind_nodup
      unfold wb_wind_list at this
      exact this.of_append_left
    have g := h.grow holder
      (wb_holder_append (wb_holder_buffered (s.mem holder)) (s.mem req))
      ((s.mem req).write_size : Int) hhT hht
      (by rw [hf.1, hb.2.1]) (by rw [hf.2.1, hb.2.1]) (by rw [hf.2.2.1, hb.2.2.2.2.2.1])
      (by rw [hf.2.2.2.1, hb.2.2.2.1])
      (by rw [hf.2.2.2.2.1, hb.2.2.1]; push_cast; ring)
      (by rw [hf.2.2.2.2.2.1, hb.2.2.2.2.1]) (by rw [hf.2.2.2.2.2.2, hb.2.2.2.2.2.2.1])
    have g2 := g.relabel (list_del req s.inode.todo) [] [] [req]
      (by
        unfold wb_wind_list
        simp only [List.nil_append]
        have := (list_del_perm req s.inode.todo hnd hrT).symm
        exact List.perm_middle.trans (List.Perm.append_right _ this))
      (by intro a ha; cases ha)
      (by
        intro a ha
        simp only [List.nil_append, List.mem_singleton] at ha
        subst ha
        simp only
        rw [mem_set_ne _ _ _ _ hne]
        exact hrt)
      (by
        intro a ha
        simp only [List.append_nil] at ha ⊢
        exact ((mem_list_del_iff _ _ _).1 ha).1)
    have g3 := g2.acct_fulfill_request (by
      intro _
      simp only
      rw [mem_set_ne _ _ _ _ hne, hfr.1]
      simp)
    apply g3.cast
    simp only
    rw [mem_set_ne _ _ _ _ hne, hfr.1]
    simp

theorem wb_set_go_tempted (s : wb_state) (hd a : Nat) :
    ((wb_set_go s hd).mem a).ordering.tempted = (s.mem a).ordering.tempted := by
  unfold wb_set_go
  simp only
  by_cases hax : a = hd
  · subst hax
    rw [mem_set_eq]
  · rw [mem_set_ne _ _ _ _ hax]

theorem wb_acct_inv.acct_preprocess_loop (xl : xlator_t) (env : wb_env) (l : List Nat) :
    ∀ {s : wb_state} {holder : Option Nat}, wb_acct_inv s [] [] [] [] 0 false → l.Nodup →
      (∀ a ∈ l, a ∈ s.inode.todo) →
      (∀ hd, holder = some hd →
        hd ∈ s.inode.todo ∧ hd ∉ l ∧ (s.mem hd).ordering.tempted = true) →
      wb_acct_inv (__wb_preprocess_winds_loop xl env l s holder).1 [] [] [] [] 0 false := by
  induction l with
  | nil => intro s holder h _ _ _; exact h
  | cons req l ih =>
    intro s holder h hnd hsub hh
    have hrl : req ∉ l := (List.nodup_cons.1 hnd).1
    have hl : l.Nodup := (List.nodup_cons.1 hnd).2
    have hrT := hsub req (List.mem_cons_self _ _)
    have hsub1 : ∀ a ∈ l, a ∈ s.inode.todo := fun a ha => hsub a (List.mem_cons_of_mem _ ha)
    have hgo : ∀ (hd : Nat), (∀ a ∈ l, a ∈ (wb_set_go s hd).inode.todo) := fun _ => hsub1
    have hkeep : ∀ hd0 hd, holder = some hd →
        hd ∈ (wb_set_go s hd0).inode.todo ∧ hd ∉ l
          ∧ ((wb_set_go s hd0).mem hd).ordering.tempted = true := by
      intro hd0 hd e
      have := hh hd e
      refine ⟨this.1, fun hx => this.2.1 (List.mem_cons_of_mem _ hx), ?_⟩
      rw [wb_set_go_tempted]
      exact this.2.2
    have hnew : ∀ (s1 : wb_state), s1.inode.todo = s.inode.todo →
        (s1.mem req).ordering.tempted = (s.mem req).ordering.tempted →
        (s.mem req).ordering.tempted = true →
        ∀ hd, some req = some hd →
          hd ∈ s1.inode.todo ∧ hd ∉ l ∧ (s1.mem hd).ordering.tempted = true := by
      intro s1 e1 e2 ht hd e
      cases e
      exact ⟨e1 ▸ hrT, hrl, e2 ▸ ht⟩
    have hgot : ∀ hd0, ((wb_set_go s hd0).mem req).ordering.tempted
        = (s.mem req).ordering.tempted := fun hd0 => wb_set_go_tempted s hd0 req
    unfold __wb_preprocess_winds_loop
    by_cases ht : (s.mem req).ordering.tempted = true
    · rw [if_neg (by simp [ht])]
      cases holder with
      | none =>
        simp only
        exact ih h hl hsub1 (hnew s rfl rfl ht)
      | some hd =>
        simp only
        have hhd := hh hd rfl
        have hne : req ≠ hd := fun e => hhd.2.1 (e ▸ List.mem_cons_self _ _)
        split
        · exact ih (h.acct_set_go hd) hl (hgo hd) (hnew _ rfl (hgot hd) ht)
        · split
          · exact ih (h.acct_set_go hd) hl (hgo hd) (hnew _ rfl (hgot hd) ht)
          · split
            · exact ih (h.acct_set_go hd) hl (hgo hd) (hnew _ rfl (hgot hd) ht)
            · split
              · rename_i hret
                rcases __wb_collapse_small_writes_eq env s hd req with he | he
                · rw [he]
                  exact ih h hl hsub1
                    (fun x e => by
                      have := hh x e
                      exact ⟨this.1, fun hx => this.2.1 (List.mem_cons_of_mem _ hx), this.2.2⟩)
                · rw [he] at hret
                  exact absurd rfl hret
              · rename_i hret
                have hret0 : (__wb_collapse_small_writes env s hd req).2 = 0 := by
                  by_contra hc
                  exact hret hc
                have hm := h.merge env hd req hhd.1 hhd.2.2 hrT ht hne hret0
                apply ih hm hl
                · intro a ha
                  have hane : a ≠ req := fun e => hrl (e ▸ ha)
                  rw [__wb_fulfill_request_todo _ _ _ hane]
                  rcases __wb_collapse_small_writes_eq env s hd req with he | he
                  · rw [he] at hret0; cases hret0
                  · rw [he]
                    exact (mem_list_del_iff _ _ _).2 ⟨hsub1 a ha, hane⟩
                · intro x e
                  cases e
                  have hxne : hd ≠ req := fun e => hne e.symm
                  refine ⟨?_, fun hx => hhd.2.1 (List.mem_cons_of_mem _ hx), ?_⟩
                  · rw [__wb_fulfill_request_todo _ _ _ hxne]
                    rcases __wb_collapse_small_writes_eq env s hd req with he | he
                    · rw [he] at hret0; cases hret0
                    · rw [he]
                      exact (mem_list_del_iff _ _ _).2 ⟨hhd.1, hxne⟩
                  · rw [__wb_fulfill_request_mem_ne _ _ _ hxne]
                    rcases __wb_collapse_small_writes_eq env s hd req with he | he
                    · rw [he] at hret0; cases hret0
                    · rw [he]
                      simp only
                      rw [mem_set_eq]
                      rw [(wb_holder_append_fields _ _).1,
                        (wb_holder_buffered_same _).2.1]
                      exact hhd.2.2
    · rw [if_pos (by simpa using ht)]
      cases holder with
      | none =>
        simp only
        exact ih h hl hsub1 (fun x e => by cases e)
      | some hd =>
        simp only
        split
        · exact ih (h.acct_set_go hd) hl (hgo hd) (hkeep hd)
        · exact ih h hl hsub1
            (fun x e => by
              have := hh x e
              exact ⟨this.1, fun hx => this.2.1 (List.mem_cons_of_mem _ hx), this.2.2⟩)

/-- `__wb_preprocess_winds` at the start of a round. -/
theorem wb_acct_inv.acct_preprocess {s : wb_state} {q : Bool} (xl : xlator_t) (env : wb_env)
    (h : wb_acct_inv s [] [] [] [] 0 q) :
    wb_acct_inv (__wb_preprocess_winds xl env s) [] [] [] [] 0 false := by
  have hnd : s.inode.todo.Nodup := by
    have := h.wind_nodup
    unfold wb_wind_list at this
    exact this.of_append_left
  have h1 := @wb_acct_inv.acct_preprocess_loop xl env s.inode.todo s none h.weaken hnd
    (fun a ha => ha) (fun x e => by cases e)
  unfold __wb_preprocess_winds
  simp only
  split
  · split
    · exact h1.acct_set_go _
    · exact h1
  · exact h1

theorem flatMap_congr_mem (f g : Nat → List Nat) (l : List Nat) (h : ∀ a ∈ l, f a = g a) :
    l.flatMap f = l.flatMap g := by
  induction l with
  | nil => rfl
  | cons x l ih =>
    rw [List.flatMap_cons, List.flatMap_cons, h x (List.mem_cons_self _ _),
      ih (fun a ha => h a (List.mem_cons_of_mem _ ha))]

/-- A store change that touches, of the fields the invariant reads, only
`total_size` and `winds` of requests of the batch being formed. -/
theorem wb_acct_inv.frame_X {s : wb_state} {U tasks liabilities X : List Nat} {D : Int}
    {q : Bool} (h : wb_acct_inv s U tasks liabilities X D q) (mem1 : Nat → wb_request)
    (hv : ∀ a, (mem1 a).ordering.tempted = (s.mem a).ordering.tempted
      ∧ (mem1 a).ordering.fulfilled = (s.mem a).ordering.fulfilled
      ∧ (mem1 a).refcount = (s.mem a).refcount
      ∧ (mem1 a).orig_size = (s.mem a).orig_size
      ∧ (mem1 a).write_size = (s.mem a).write_size)
    (hx : ∀ a, a ∉ X → (mem1 a).total_size = (s.mem a).total_size
      ∧ (mem1 a).winds = (s.mem a).winds) :
    wb_acct_inv { s with mem := mem1 } U tasks liabilities X D q := by
  have hnd := h.wind_nodup
  have hXt : ∀ a, a ∈ s.inode.todo ++ (tasks ++ liabilities) → a ∉ X := by
    intro a ha haX
    unfold wb_wind_list at hnd
    simp only [List.mem_append] at ha
    rcases ha with h1 | h1 | h1
    · exact (List.nodup_append.1 hnd).2.2 h1 (by simp [haX]) 
    · exact (List.nodup_append.1 hnd.of_append_right).2.2 h1 (by simp [haX])
    · exact (List.nodup_append.1 hnd.of_append_right.of_append_right).2.2 h1 (by simp [haX])
  have hXb : ∀ hd ∈ s.inflight, ∀ a ∈ wb_batch s.mem hd, a ∉ X := by
    intro hd hhd a ha haX
    unfold wb_wind_list at hnd
    exact (List.nodup_append.1 hnd.of_append_right.of_append_right.of_append_right).2.2 haX
      (List.mem_flatMap.2 ⟨hd, hhd, ha⟩)
  have hbF : ∀ hd ∈ s.inflight, wb_batch mem1 hd = wb_batch s.mem hd := by
    intro hd hhd
    unfold wb_batch
    rw [(hx hd (hXb hd hhd hd (wb_batch_head_mem s.mem hd))).2]
  have hfm : s.inflight.flatMap (wb_batch mem1) = s.inflight.flatMap (wb_batch s.mem) := by
    exact flatMap_congr_mem _ _ _ hbF
  have hwl : wb_wind_list { s with mem := mem1 } tasks liabilities X
      = wb_wind_list s tasks liabilities X := by
    unfold wb_wind_list
    simp only
    rw [hfm]
  constructor
  · exact h.ctx
  · exact h.all_nodup
  · exact h.all_lt
  · exact h.liab_nodup
  · exact h.tempt_nodup
  · exact h.U_nodup
  · rw [hwl]; exact h.wind_nodup
  · rw [hwl]
    intro a haw
    simp only
    rw [(hv a).2.1]
    exact h.wind_all a haw
  · simp only
    rw [hfm]
    intro a haw
    rw [(hv a).1]
    exact h.wind_tempted a haw
  · intro a haw
    simp only
    rw [(hv a).1]
    exact h.tasks_plain a haw
  · intro a haw
    simp only
    rw [(hv a).1, (hv a).2.1]
    exact h.liab a haw
  · intro a haw
    simp only
    rw [(hv a).1]
    exact h.tempt a haw
  · exact h.U_all
  · intro a haw
    simp only
    rw [(hv a).1, (hv a).2.1]
    exact h.tempted_held a haw
  · intro a haw
    simp only
    rw [(hv a).2.1]
    exact h.ful_held a haw
  · intro a haw
    simp only
    rw [(hv a).1, (hv a).2.2.2.1, (hv a).2.2.2.2]
    exact h.plain a haw
  · intro a haw
    simp only
    rw [(hv a).2.2.1, (hv a).2.1]
    exact h.refcount a haw
  · intro a haw
    simp only
    rw [(hx a (hXt a haw)).1, (hx a (hXt a haw)).2]
    exact h.fresh a haw
  · simp only
    intro hd hhd
    rw [hbF hd hhd, (hx hd (hXb hd hhd hd (wb_batch_head_mem s.mem hd))).1,
      (hx hd (hXb hd hhd hd (wb_batch_head_mem s.mem hd))).2]
    have e : sum_over (fun r => (r.write_size : Int)) mem1 (wb_batch s.mem hd)
        = sum_over (fun r => (r.write_size : Int)) s.mem (wb_batch s.mem hd) := by
      apply sum_over_congr
      intro a _
      show ((mem1 a).write_size : Int) = (s.mem a).write_size
      rw [(hv a).2.2.2.2]
    rw [e]
    refine ⟨(h.batch hd hhd).1, ?_⟩
    intro m hmw
    have hmb : m ∈ wb_batch s.mem hd := by
      unfold wb_batch
      exact List.mem_append_left _ hmw
    rw [(hx m (hXb hd hhd m hmb)).1]
    exact (h.batch hd hhd).2 m hmw
  · simp only
    have e1 : sum_over wb_pending_credit mem1 s.inode.temptation
        = sum_over wb_pending_credit s.mem s.inode.temptation := by
      apply sum_over_congr
      intro a _
      unfold wb_pending_credit
      rw [(hv a).2.1, (hv a).2.2.2.1]
    have e2 : sum_over (fun r => (r.orig_size : Int)) mem1 s.inode.liability
        = sum_over (fun r => (r.orig_size : Int)) s.mem s.inode.liability := by
      apply sum_over_congr
      intro a _
      show ((mem1 a).orig_size : Int) = (s.mem a).orig_size
      rw [(hv a).2.2.2.1]
    have e3 : sum_over wb_excess mem1 s.inode.all = sum_over wb_excess s.mem s.inode.all := by
      apply sum_over_congr
      intro a _
      unfold wb_excess
      rw [(hv a).2.1, (hv a).2.2.2.1, (hv a).2.2.2.2]
    rw [e1, e2, e3]
    exact h.acct
  · intro hq a haw
    simp only
    rw [(hv a).2.1]
    exact h.settled hq a haw

/-- Sum of `write_size` over a list of requests, as `WB_IOV_LOAD` adds it up. -/
theorem sum_write_size_cast (mem : Nat → wb_request) (l : List Nat) :
    (((l.map (fun a => (mem a).write_size)).sum : Nat) : Int)
      = sum_over (fun r => (r.write_size : Int)) mem l := by
  induction l with
  | nil => rfl
  | cons x l ih =>
    rw [sum_over_cons, ← ih]
    simp

theorem wb_fulfill_head_loop_eq (hd : Nat) (l : List Nat) :
    ∀ (s : wb_state) (vec : List iovec), hd ∉ l →
      (wb_fulfill_head_loop hd l s vec).1
        = { s with mem := mem_set s.mem hd { s.mem hd with
              total_size := (s.mem hd).total_size
                + (l.map (fun a => (s.mem a).write_size)).sum } } := by
  induction l with
  | nil =>
    intro s vec _
    simp only [wb_fulfill_head_loop, List.map_nil, List.sum_nil, Nat.add_zero]
    have : mem_set s.mem hd (s.mem hd) = s.mem := by
      funext a
      unfold mem_set
      split
      · rename_i e; rw [e]
      · rfl
    rw [this]
  | cons x l ih =>
    intro s vec hn
    have hx : x ≠ hd := fun e => hn (e ▸ List.mem_cons_self _ _)
    have hl : hd ∉ l := fun e => hn (List.mem_cons_of_mem _ e)
    simp only [wb_fulfill_head_loop, WB_IOV_LOAD]
    rw [ih _ _ hl]
    simp only [mem_set_eq, mem_set_mem_set]
    have e : l.map (fun a => (mem_set s.mem hd { s.mem hd with
          total_size := (s.mem hd).total_size + (s.mem x).write_size } a).write_size)
        = l.map (fun a => (s.mem a).write_size) := by
      apply List.map_congr_left
      intro a ha
      rw [mem_set_ne _ _ _ _ (fun (e : a = hd) => hl (e ▸ ha))]
    rw [e, List.map_cons, List.sum_cons, Nat.add_assoc]

/-- A formed batch is sent: its head joins the batches in flight. -/
theorem wb_acct_inv.launch {s : wb_state} {liabilities : List Nat} {q : Bool} {hd : Nat}
    (h : wb_acct_inv s [] [] liabilities (wb_batch s.mem hd) 0 q)
    (hb : ((s.mem hd).total_size : Int)
      = sum_over (fun r => (r.write_size : Int)) s.mem (wb_batch s.mem hd))
    (hm : ∀ m ∈ (s.mem hd).winds, (s.mem m).total_size = 0) (tr : Int) (o : List wb_event) :
    wb_acct_inv { s with
      inode := { s.inode with transit := tr }
      inflight := s.inflight ++ [hd]
      out := o } [] [] liabilities [] 0 q := by
  have hperm : (wb_wind_list { s with
      inode := { s.inode with transit := tr }
      inflight := s.inflight ++ [hd]
      out := o } [] liabilities []).Perm
      (wb_wind_list s [] liabilities (wb_batch s.mem hd)) := by
    unfold wb_wind_list
    simp only [List.nil_append, List.flatMap_append, List.flatMap_cons, List.flatMap_nil,
      List.append_nil]
    exact List.Perm.append_left _ (List.Perm.append_left _ List.perm_append_comm)
  have hbm : ∀ a, a ∈ wb_batch s.mem hd → a ∈ wb_wind_list s [] liabilities (wb_batch s.mem hd) :=
    fun a ha => (wb_wind_list_sub s [] liabilities (wb_batch s.mem hd) a).2
      (List.mem_append_right _ (List.mem_append_left _ ha))
  exact
    { h with
      wind_nodup := hperm.nodup_iff.2 h.wind_nodup
      wind_all := fun a ha => h.wind_all a (hperm.mem_iff.1 ha)
      wind_tempted := by
        intro a ha
        apply h.wind_tempted a
        simp only [List.nil_append, List.flatMap_append, List.flatMap_cons, List.flatMap_nil,
          List.append_nil, List.mem_append] at ha ⊢
        rcases ha with h1 | h1 | h1
        · exact Or.inl h1
        · exact Or.inr (Or.inr h1)
        · exact Or.inr (Or.inl h1)
      batch := by
        intro x hx
        rcases List.mem_append.1 hx with h1 | h1
        · exact h.batch x h1
        · rw [List.mem_singleton.1 h1]
          exact ⟨hb, hm⟩ }

/-- What `wb_fulfill_head` does when the frame can be had: the head's
`total_size` grows by the payload of the batch, and the batch is in flight. -/
theorem wb_fulfill_head_eq (env : wb_env) (s : wb_state) (hd : Nat)
    (hcf : env.create_frame hd = true) (hn : hd ∉ (s.mem hd).winds) :
    ∃ tr o, wb_fulfill_head env s hd
      = { s with
          mem := mem_set s.mem hd { s.mem hd with
            total_size := (s.mem hd).total_size + (s.mem hd).write_size
              + (((s.mem hd).winds).map (fun a => (s.mem a).write_size)).sum }
          inode := { s.inode with transit := tr }
          inflight := s.inflight ++ [hd]
          out := o } := by
  unfold wb_fulfill_head
  rw [if_neg (by simp [hcf])]
  simp only [WB_IOV_LOAD, mem_set_eq]
  rw [wb_fulfill_head_loop_eq _ _ _ _ hn]
  simp only [mem_set_eq, mem_set_mem_set]
  have e : ((s.mem hd).winds).map (fun a => (mem_set s.mem hd { s.mem hd with
        total_size := (s.mem hd).total_size + (s.mem hd).write_size } a).write_size)
      = ((s.mem hd).winds).map (fun a => (s.mem a).write_size) := by
    apply List.map_congr_left
    intro a ha
    rw [mem_set_ne _ _ _ _ (fun (e : a = hd) => hn (e ▸ ha))]
  rw [e]
  exact ⟨_, _, rfl⟩

/-- `wb_fulfill_head` on a formed batch, when the frame can be had. -/
theorem wb_acct_inv.fulfill_head_sent {s : wb_state} {liabilities : List Nat} {q : Bool}
    {hd : Nat} (env : wb_env) (hcf : env.create_frame hd = true)
    (h : wb_acct_inv s [] [] liabilities (wb_batch s.mem hd) 0 q)
    (h0 : ∀ a ∈ wb_batch s.mem hd, (s.mem a).total_size = 0) :
    wb_acct_inv (wb_fulfill_head env s hd) [] [] liabilities [] 0 q := by
  have hX := h.X_facts.1
  have hn : hd ∉ (s.mem hd).winds := by
    unfold wb_batch at hX
    intro hc
    exact (List.nodup_append.1 hX).2.2 hc (List.mem_singleton.2 rfl)
  obtain ⟨tr, o, e⟩ := wb_fulfill_head_eq env s hd hcf hn
  rw [e]
  have hb1 : wb_batch (mem_set s.mem hd { s.mem hd with
        total_size := (s.mem hd).total_size + (s.mem hd).write_size
          + (((s.mem hd).winds).map (fun a => (s.mem a).write_size)).sum }) hd
      = wb_batch s.mem hd := by
    unfold wb_batch
    rw [mem_set_eq]
  have g := h.frame_X (mem_set s.mem hd { s.mem hd with
        total_size := (s.mem hd).total_size + (s.mem hd).write_size
          + (((s.mem hd).winds).map (fun a => (s.mem a).write_size)).sum })
    (by
      intro a
      by_cases hax : a = hd
      · subst hax
        rw [mem_set_eq]
        exact ⟨rfl, rfl, rfl, rfl, rfl⟩
      · rw [mem_set_ne _ _ _ _ hax]
        exact ⟨rfl, rfl, rfl, rfl, rfl⟩)
    (by
      intro a ha
      have hax : a ≠ hd := fun e => ha (e ▸ wb_batch_head_mem s.mem hd)
      rw [mem_set_ne _ _ _ _ hax]
      exact ⟨rfl, rfl⟩)
  rw [← hb1] at g
  refine g.launch ?_ ?_ tr o
  · simp only
    rw [hb1, mem_set_eq]
    simp only
    have e2 : sum_over (fun r => (r.write_size : Int)) (mem_set s.mem hd { s.mem hd with
          total_size := (s.mem hd).total_size + (s.mem hd).write_size
            + (((s.mem hd).winds).map (fun a => (s.mem a).write_size)).sum })
          (wb_batch s.mem hd)
        = sum_over (fun r => (r.write_size : Int)) s.mem (wb_batch s.mem hd) := by
      apply sum_over_congr
      intro a _
      by_cases hax : a = hd
      · subst hax
        rw [mem_set_eq]
      · rw [mem_set_ne _ _ _ _ hax]
    rw [e2]
    unfold wb_batch
    rw [sum_over_append, sum_over_cons, sum_over_nil, ← sum_write_size_cast,
      h0 hd (wb_batch_head_mem s.mem hd)]
    push_cast
    ring
  · simp only
    rw [mem_set_eq]
    simp only
    intro m hm
    have hmx : m ≠ hd := fun e => hn (e ▸ hm)
    rw [mem_set_ne _ _ _ _ hmx]
    apply h0
    unfold wb_batch
    exact List.mem_append_left _ hm

theorem perm_move_member (rest w B : List Nat) (req hd : Nat) :
    (rest ++ (w ++ [req] ++ [hd] ++ B)).Perm ((req :: rest) ++ (w ++ [hd] ++ B)) := by
  have h := @List.perm_middle _ req (rest ++ w) (hd :: B)
  simpa [List.append_assoc] using h

/-- `NEXT_HEAD` without a batch to close: the request opens a batch. -/
theorem wb_acct_inv.open_head {s : wb_state} {rest : List Nat} {q : Bool} {req : Nat}
    (h : wb_acct_inv s [] [] (req :: rest) [] 0 q) :
    wb_acct_inv s [] [] rest (wb_batch s.mem req) 0 q
    ∧ ∀ a ∈ wb_batch s.mem req, (s.mem a).total_size = 0 := by
  have hfr := h.fresh req (by simp)
  have hb : wb_batch s.mem req = [req] := by
    unfold wb_batch
    rw [hfr.2]
    rfl
  rw [hb]
  constructor
  · refine h.relabel s.inode.todo [] rest [req] ?_ (fun a ha => by cases ha) ?_ ?_
    · unfold wb_wind_list
      simp only [List.nil_append]
      apply List.Perm.append_left
      show (rest ++ ([req] ++ s.inflight.flatMap (wb_batch s.mem))).Perm
        ((req :: rest) ++ s.inflight.flatMap (wb_batch s.mem))
      rw [← List.append_assoc]
      exact List.Perm.append_right _ (List.perm_append_singleton req rest)
    · intro a ha
      apply h.wind_tempted a
      simp only [List.mem_append, List.mem_cons, List.mem_singleton, List.not_mem_nil,
        or_false] at ha ⊢
      rcases ha with h1 | h1
      · exact Or.inl (Or.inr h1)
      · exact Or.inl (Or.inl h1)
    · intro a ha
      simp only [List.mem_append, List.mem_cons, List.not_mem_nil, false_or] at ha ⊢
      rcases ha with h1 | h1
      · exact Or.inl h1
      · exact Or.inr (Or.inr h1)
  · intro a ha
    rw [List.mem_singleton.1 ha]
    exact hfr.1

/-- The request joins the batch being formed: it is linked on the head. -/
theorem wb_acct_inv.member_add {s : wb_state} {rest : List Nat} {q : Bool} {hd req : Nat}
    (h : wb_acct_inv s [] [] (req :: rest) (wb_batch s.mem hd) 0 q)
    (h0 : ∀ a ∈ wb_batch s.mem hd, (s.mem a).total_size = 0) :
    wb_acct_inv { s with mem := (mem_set s.mem hd
        { s.mem hd with winds := (s.mem hd).winds ++ [req] }) } [] [] rest
      (wb_batch (mem_set s.mem hd { s.mem hd with winds := (s.mem hd).winds ++ [req] }) hd) 0 q
    ∧ ∀ a ∈ wb_batch (mem_set s.mem hd { s.mem hd with winds := (s.mem hd).winds ++ [req] }) hd,
        (mem_set s.mem hd { s.mem hd with winds := (s.mem hd).winds ++ [req] } a).total_size
          = 0 := by
  have hfr := h.fresh req (by simp)
  have hb : wb_batch (mem_set s.mem hd { s.mem hd with winds := (s.mem hd).winds ++ [req] }) hd
      = (s.mem hd).winds ++ [req] ++ [hd] := by
    unfold wb_batch
    rw [mem_set_eq]
  have ht : ∀ a, (mem_set s.mem hd { s.mem hd with winds := (s.mem hd).winds ++ [req] }
      a).total_size = (s.mem a).total_size := by
    intro a
    by_cases hax : a = hd
    · subst hax
      rw [mem_set_eq]
    · rw [mem_set_ne _ _ _ _ hax]
  have g := h.frame_X (mem_set s.mem hd { s.mem hd with winds := (s.mem hd).winds ++ [req] })
    (by
      intro a
      by_cases hax : a = hd
      · subst hax
        rw [mem_set_eq]
        exact ⟨rfl, rfl, rfl, rfl, rfl⟩
      · rw [mem_set_ne _ _ _ _ hax]
        exact ⟨rfl, rfl, rfl, rfl, rfl⟩)
    (by
      intro a ha
      have hax : a ≠ hd := fun e => ha (e ▸ wb_batch_head_mem s.mem hd)
      rw [mem_set_ne _ _ _ _ hax]
      exact ⟨rfl, rfl⟩)
  rw [hb]
  constructor
  · refine g.relabel s.inode.todo [] rest ((s.mem hd).winds ++ [req] ++ [hd]) ?_
      (fun a ha => by cases ha) ?_ ?_
    · unfold wb_wind_list wb_batch
      simp only [List.nil_append]
      apply List.Perm.append_left
      generalize s.inflight.flatMap (fun head => (mem_set s.mem hd
        { s.mem hd with winds := (s.mem hd).winds ++ [req] } head).winds ++ [head]) = B
      show (rest ++ ((s.mem hd).winds ++ [req] ++ [hd] ++ B)).Perm
        ((req :: rest) ++ ((s.mem hd).winds ++ [hd] ++ B))
      exact perm_move_member rest (s.mem hd).winds B req hd
    · intro a ha
      apply g.wind_tempted a
      unfold wb_batch
      simp only [List.mem_append, List.mem_cons, List.mem_singleton, List.not_mem_nil,
        or_false] at ha ⊢
      rcases ha with h1 | (h1 | h1) | h1
      · exact Or.inl (Or.inr h1)
      · exact Or.inr (Or.inl (Or.inl h1))
      · exact Or.inl (Or.inl h1)
      · exact Or.inr (Or.inl (Or.inr h1))
    · intro a ha
      simp only [List.mem_append, List.mem_cons, List.not_mem_nil, false_or] at ha ⊢
      rcases ha with h1 | h1
      · exact Or.inl h1
      · exact Or.inr (Or.inr h1)
  · intro a ha
    rw [ht]
    simp only [List.mem_append, List.mem_singleton] at ha
    rcases ha with (h1 | h1) | h1
    · apply h0
      unfold wb_batch
      exact List.mem_append_left _ h1
    · rw [h1]; exact hfr.1
    · rw [h1]; exact h0 hd (wb_batch_head_mem s.mem hd)

theorem wb_acct_inv.acct_fulfill_loop {q : Bool} (xl : xlator_t) (env : wb_env)
    (hcf : ∀ hd, env.create_frame hd = true) (l : List Nat) :
    ∀ {s : wb_state} {loc : wb_fulfill_locals},
      (loc.head = none → wb_acct_inv s [] [] l [] 0 q) →
      (∀ hd, loc.head = some hd → wb_acct_inv s [] [] l (wb_batch s.mem hd) 0 q
        ∧ ∀ a ∈ wb_batch s.mem hd, (s.mem a).total_size = 0) →
      ((wb_fulfill_loop xl env l s loc).2.head = none →
        wb_acct_inv (wb_fulfill_loop xl env l s loc).1 [] [] [] [] 0 q)
      ∧ (∀ hd, (wb_fulfill_loop xl env l s loc).2.head = some hd →
        wb_acct_inv (wb_fulfill_loop xl env l s loc).1 [] [] []
          (wb_batch (wb_fulfill_loop xl env l s loc).1.mem hd) 0 q
        ∧ ∀ a ∈ wb_batch (wb_fulfill_loop xl env l s loc).1.mem hd,
            ((wb_fulfill_loop xl env l s loc).1.mem a).total_size = 0) := by
  induction l with
  | nil =>
    intro s loc h1 h2
    exact ⟨h1, h2⟩
  | cons req rest ih =>
    intro s loc h1 h2
    unfold wb_fulfill_loop
    cases hh : loc.head with
    | none =>
      simp only
      have g := (h1 hh).open_head
      apply ih
      · intro e
        simp [NEXT_HEAD] at e
      · intro hd e
        simp only [NEXT_HEAD, hh, Option.some.injEq] at e ⊢
        subst e
        exact g
    | some hd0 =>
      simp only
      have g0 := h2 hd0 hh
      split
      · have g1 := g0.1.fulfill_head_sent env (hcf hd0) g0.2
        have g := g1.open_head
        apply ih
        · intro e
          simp [NEXT_HEAD] at e
        · intro hd e
          simp only [NEXT_HEAD, hh, Option.some.injEq] at e ⊢
          subst e
          exact g
      · have g := g0.1.member_add g0.2
        apply ih
        · intro e
          have e1 : some hd0 = none := e
          cases e1
        · intro hd e
          have e1 : some hd0 = some hd := e
          cases e1
          exact g

/-- `wb_fulfill` on the liabilities picked in a round, when every frame can be
had: every picked request ends in a batch in flight. -/
theorem wb_acct_inv.acct_fulfill {s : wb_state} {liabilities : List Nat} {q : Bool}
    (xl : xlator_t) (env : wb_env) (hcf : ∀ hd, env.create_frame hd = true)
    (h : wb_acct_inv s [] [] liabilities [] 0 q) :
    wb_acct_inv (wb_fulfill xl env s liabilities) [] [] [] [] 0 q := by
  have g := @wb_acct_inv.acct_fulfill_loop q xl env hcf liabilities s
    { head := none, expected_offset := 0, curr_aggregate := 0, vector_count := 0 }
    (fun _ => h) (fun hd e => by cases e)
  unfold wb_fulfill
  simp only
  split
  · rename_i hd e
    have g2 := g.2 hd e
    exact g2.1.fulfill_head_sent env (hcf hd) g2.2
  · rename_i e
    exact g.1 e

/-- A new request is attached at the fresh address `s.next`, as
`wb_enqueue_common` does. -/
theorem wb_acct_inv.attach {s : wb_state} {q : Bool} (h : wb_acct_inv s [] [] [] [] 0 q)
    (r : wb_request) (hr1 : r.ordering.fulfilled = false) (hr2 : r.total_size = 0)
    (hr3 : r.winds = []) (hr4 : r.write_size = r.orig_size)
    (hr5 : r.refcount = if r.ordering.tempted then 2 else 1) :
    wb_acct_inv { s with
      next := s.next + 1
      mem := mem_set s.mem s.next r
      inode := { s.inode with
        all := s.inode.all ++ [s.next]
        todo := s.inode.todo ++ [s.next]
        temptation := if r.ordering.tempted then s.inode.temptation ++ [s.next]
          else s.inode.temptation } } [] [] [] [] 0 q := by
  have hnA : s.next ∉ s.inode.all := fun hc => by
    have := h.all_lt _ hc
    omega
  have hne : ∀ a ∈ s.inode.all, a ≠ s.next := fun a ha e => hnA (e ▸ ha)
  have hm : ∀ a ∈ s.inode.all, mem_set s.mem s.next r a = s.mem a :=
    fun a ha => mem_set_ne _ _ _ _ (hne a ha)
  have hW : ∀ a ∈ wb_wind_list s [] [] [], a ∈ s.inode.all := fun a ha => (h.wind_all a ha).1
  have hP : ∀ a ∈ s.inode.temptation, a ∈ s.inode.all := fun a ha => (h.tempt a ha).1
  have hL : ∀ a ∈ s.inode.liability, a ∈ s.inode.all := fun a ha => (h.liab a ha).1
  have hB : ∀ hd ∈ s.inflight, ∀ a ∈ wb_batch s.mem hd, a ∈ s.inode.all :=
    fun hd hhd a ha => hW a (wb_batch_mem_wind s [] [] [] hd a hhd ha)
  have hbF : ∀ hd ∈ s.inflight, wb_batch (mem_set s.mem s.next r) hd = wb_batch s.mem hd := by
    intro hd hhd
    unfold wb_batch
    rw [hm hd (hB hd hhd hd (wb_batch_head_mem s.mem hd))]
  have hfm : s.inflight.flatMap (wb_batch (mem_set s.mem s.next r))
      = s.inflight.flatMap (wb_batch s.mem) := flatMap_congr_mem _ _ _ hbF
  have hP1 : ∀ a, a ∈ (if r.ordering.tempted then s.inode.temptation ++ [s.next]
      else s.inode.temptation) ↔
      (a ∈ s.inode.temptation ∨ (a = s.next ∧ r.ordering.tempted = true)) := by
    intro a
    split
    · rename_i ht
      simp [ht]
    · rename_i ht
      simp [ht]
  have hsum : ∀ (f : wb_request → Int) (l : List Nat), (∀ a ∈ l, a ∈ s.inode.all) →
      sum_over f (mem_set s.mem s.next r) l = sum_over f s.mem l := by
    intro f l hl
    apply sum_over_congr
    intro a ha
    rw [hm a (hl a ha)]
  have hwl : (wb_wind_list { s with
      next := s.next + 1
      mem := mem_set s.mem s.next r
      inode := { s.inode with
        all := s.inode.all ++ [s.next]
        todo := s.inode.todo ++ [s.next]
        temptation := if r.ordering.tempted then s.inode.temptation ++ [s.next]
          else s.inode.temptation } } [] [] []).Perm (s.next :: wb_wind_list s [] [] []) := by
    unfold wb_wind_list
    simp only [List.nil_append]
    rw [hfm, List.append_assoc]
    exact List.perm_middle
  constructor
  · exact h.ctx
  · show (s.inode.all ++ [s.next]).Nodup
    apply List.Nodup.append h.all_nodup (List.nodup_singleton _)
    intro a h1 h2
    exact hne a h1 (List.mem_singleton.1 h2)
  · show ∀ a ∈ s.inode.all ++ [s.next], a < s.next + 1
    intro a ha
    rcases List.mem_append.1 ha with h1 | h1
    · have := h.all_lt a h1
      omega
    · rw [List.mem_singleton.1 h1]
      omega
  · exact h.liab_nodup
  · show (if r.ordering.tempted then s.inode.temptation ++ [s.next]
      else s.inode.temptation).Nodup
    split
    · apply List.Nodup.append h.tempt_nodup (List.nodup_singleton _)
      intro a h1 h2
      exact hne a (hP a h1) (List.mem_singleton.1 h2)
    · exact h.tempt_nodup
  · exact List.nodup_nil
  · rw [hwl.nodup_iff]
    exact List.nodup_cons.2 ⟨fun hc => hnA (hW _ hc), h.wind_nodup⟩
  · intro a ha
    rcases List.mem_cons.1 (hwl.mem_iff.1 ha) with h1 | h1
    · subst h1
      refine ⟨List.mem_append_right _ (List.mem_singleton.2 rfl), ?_⟩
      show (mem_set s.mem s.next r s.next).ordering.fulfilled = false
      rw [mem_set_eq]
      exact hr1
    · refine ⟨List.mem_append_left _ (hW a h1), ?_⟩
      show (mem_set s.mem s.next r a).ordering.fulfilled = false
      rw [hm a (hW a h1)]
      exact (h.wind_all a h1).2
  · intro a ha
    simp only [List.nil_append] at ha
    rw [hfm] at ha
    have h1 := h.wind_tempted a (by simpa using ha)
    obtain ⟨hd, hhd, hab⟩ := List.mem_flatMap.1 ha
    show (mem_set s.mem s.next r a).ordering.tempted = true
    rw [hm a (hB hd hhd a hab)]
    exact h1
  · intro a ha
    cases ha
  · intro a ha
    have ha0 : a ∈ s.inode.liability := ha
    have h1 := h.liab a ha0
    show a ∈ s.inode.all ++ [s.next]
      ∧ (mem_set s.mem s.next r a).ordering.tempted = true
      ∧ (mem_set s.mem s.next r a).ordering.fulfilled = false
      ∧ a ∉ (if r.ordering.tempted then s.inode.temptation ++ [s.next]
          else s.inode.temptation)
    rw [hm a h1.1, hP1]
    refine ⟨List.mem_append_left _ h1.1, h1.2.1, h1.2.2.1, ?_⟩
    rintro (h2 | h2)
    · exact h1.2.2.2 h2
    · exact hne a h1.1 h2.1
  · intro a ha
    have ha0 := (hP1 a).1 ha
    show a ∈ s.inode.all ++ [s.next]
      ∧ (mem_set s.mem s.next r a).ordering.tempted = true ∧ a ∉ []
    rcases ha0 with h1 | h1
    · rw [hm a (hP a h1)]
      exact ⟨List.mem_append_left _ (hP a h1), (h.tempt a h1).2.1, List.not_mem_nil _⟩
    · rw [h1.1, mem_set_eq]
      exact ⟨List.mem_append_right _ (List.mem_singleton.2 rfl), h1.2, List.not_mem_nil _⟩
  · intro a ha
    cases ha
  · intro a ha
    have ha0 : a ∈ s.inode.all ++ [s.next] := ha
    show (mem_set s.mem s.next r a).ordering.tempted = true →
      (mem_set s.mem s.next r a).ordering.fulfilled = false →
      a ∈ (if r.ordering.tempted then s.inode.temptation ++ [s.next]
          else s.inode.temptation) ∨ a ∈ s.inode.liability
    rw [hP1]
    rcases List.mem_append.1 ha0 with h1 | h1
    · rw [hm a h1]
      intro h2 h3
      rcases h.tempted_held a h1 h2 h3 with h4 | h4
      · exact Or.inl (Or.inl h4)
      · exact Or.inr h4
    · rw [List.mem_singleton.1 h1, mem_set_eq]
      intro h2 _
      exact Or.inl (Or.inr ⟨rfl, h2⟩)
  · intro a ha
    have ha0 : a ∈ s.inode.all ++ [s.next] := ha
    show (mem_set s.mem s.next r a).ordering.fulfilled = true →
      a ∈ (if r.ordering.tempted then s.inode.temptation ++ [s.next]
          else s.inode.temptation) ∨ a ∈ []
    rw [hP1]
    rcases List.mem_append.1 ha0 with h1 | h1
    · rw [hm a h1]
      intro h2
      rcases h.ful_held a h1 h2 with h4 | h4
      · exact Or.inl (Or.inl h4)
      · cases h4
    · rw [List.mem_singleton.1 h1, mem_set_eq, hr1]
      intro h2
      cases h2
  · intro a ha
    have ha0 : a ∈ s.inode.all ++ [s.next] := ha
    show (mem_set s.mem s.next r a).ordering.tempted = false →
      (mem_set s.mem s.next r a).write_size = (mem_set s.mem s.next r a).orig_size
      ∧ a ∉ (if r.ordering.tempted then s.inode.temptation ++ [s.next]
          else s.inode.temptation) ∧ a ∉ s.inode.liability ∧ a ∉ []
    rw [hP1]
    rcases List.mem_append.1 ha0 with h1 | h1
    · rw [hm a h1]
      intro h2
      have := h.plain a h1 h2
      refine ⟨this.1, ?_, this.2.2.1, List.not_mem_nil _⟩
      rintro (h3 | h3)
      · exact this.2.1 h3
      · exact hne a h1 h3.1
    · rw [List.mem_singleton.1 h1, mem_set_eq]
      intro h2
      refine ⟨hr4, ?_, fun hc => hnA (hL _ hc), List.not_mem_nil _⟩
      rintro (h3 | h3)
      · exact hnA (hP _ h3)
      · rw [h2] at h3
        cases h3.2
  · intro a ha
    have ha0 : a ∈ s.inode.all ++ [s.next] := ha
    show (mem_set s.mem s.next r a).refcount
      = (if (mem_set s.mem s.next r a).ordering.fulfilled = true then 0 else 1)
        + (if a ∈ (if r.ordering.tempted then s.inode.temptation ++ [s.next]
            else s.inode.temptation) ∨ a ∈ [] then 1 else 0)
    simp only [hP1]
    rcases List.mem_append.1 ha0 with h1 | h1
    · rw [hm a h1, h.refcount a h1]
      have e : ((a ∈ s.inode.temptation ∨ a = s.next ∧ r.ordering.tempted = true) ∨ a ∈ [])
          ↔ (a ∈ s.inode.temptation ∨ a ∈ []) := by
        constructor
        · rintro ((h3 | h3) | h3)
          · exact Or.inl h3
          · exact absurd h3.1 (hne a h1)
          · cases h3
        · rintro (h3 | h3)
          · exact Or.inl (Or.inl h3)
          · cases h3
      simp only [e]
    · rw [List.mem_singleton.1 h1, mem_set_eq, hr1, hr5]
      cases ht : r.ordering.tempted
      · have e : ¬((s.next ∈ s.inode.temptation ∨ s.next = s.next ∧ false = true)
            ∨ s.next ∈ []) := by
          rintro ((h3 | h3) | h3)
          · exact hnA (hP _ h3)
          · cases h3.2
          · cases h3
        rw [if_neg e]
        simp
      · have e : ((s.next ∈ s.inode.temptation ∨ s.next = s.next ∧ true = true)
            ∨ s.next ∈ []) := Or.inl (Or.inr ⟨rfl, rfl⟩)
        rw [if_pos e]
        simp
  · intro a ha
    have ha0 : a ∈ s.inode.todo ++ [s.next] := by simpa using ha
    show (mem_set s.mem s.next r a).total_size = 0 ∧ (mem_set s.mem s.next r a).winds = []
    rcases List.mem_append.1 ha0 with h1 | h1
    · have h2 : a ∈ wb_wind_list s [] [] [] :=
        (wb_wind_list_sub s [] [] [] a).1 (List.mem_append_left _ h1)
      rw [hm a (hW a h2)]
      exact h.fresh a (List.mem_append_left _ h1)
    · rw [List.mem_singleton.1 h1, mem_set_eq]
      exact ⟨hr2, hr3⟩
  · intro hd hhd
    have hhd0 : hd ∈ s.inflight := hhd
    show ((mem_set s.mem s.next r hd).total_size : Int)
        = sum_over (fun r => (r.write_size : Int)) (mem_set s.mem s.next r)
          (wb_batch (mem_set s.mem s.next r) hd)
      ∧ ∀ m ∈ (mem_set s.mem s.next r hd).winds, (mem_set s.mem s.next r m).total_size = 0
    rw [hbF hd hhd0, hm hd (hB hd hhd0 hd (wb_batch_head_mem s.mem hd)),
      hsum _ _ (hB hd hhd0)]
    refine ⟨(h.batch hd hhd0).1, ?_⟩
    intro m hmw
    have hmb : m ∈ wb_batch s.mem hd := by
      unfold wb_batch
      exact List.mem_append_left _ hmw
    rw [hm m (hB hd hhd0 m hmb)]
    exact (h.batch hd hhd0).2 m hmw
  · show s.inode.window_current + sum_over wb_pending_credit (mem_set s.mem s.next r)
        (if r.ordering.tempted then s.inode.temptation ++ [s.next] else s.inode.temptation)
      = sum_over (fun r => (r.orig_size : Int)) (mem_set s.mem s.next r) s.inode.liability
        + sum_over wb_excess (mem_set s.mem s.next r) (s.inode.all ++ [s.next]) + 0
    have e0 : wb_pending_credit r = 0 := by
      unfold wb_pending_credit
      rw [hr1]
      rfl
    have e1 : wb_excess r = 0 := by
      unfold wb_excess
      rw [hr1, hr4]
      simp
    have e2 : sum_over wb_pending_credit (mem_set s.mem s.next r)
        (if r.ordering.tempted then s.inode.temptation ++ [s.next] else s.inode.temptation)
        = sum_over wb_pending_credit s.mem s.inode.temptation := by
      split
      · rw [sum_over_append, sum_over_cons, sum_over_nil, mem_set_eq, e0, hsum _ _ hP]
        ring
      · exact hsum _ _ hP
    rw [e2, hsum _ _ hL, sum_over_append, sum_over_cons, sum_over_nil, mem_set_eq, e1,
      hsum _ _ (fun a ha => ha)]
    have := h.acct
    linarith
  · intro hq a ha
    show (mem_set s.mem s.next r a).ordering.fulfilled = false
    rcases (hP1 a).1 ha with h1 | h1
    · rw [hm a (hP a h1)]
      exact h.settled hq a h1
    · rw [h1.1, mem_set_eq]
      exact hr1

theorem wb_request_init_fields (stub : call_stub_t) (t : Bool) :
    (wb_request_init stub t).ordering.tempted = t
    ∧ (wb_request_init stub t).ordering.fulfilled = false
    ∧ (wb_request_init stub t).total_size = 0
    ∧ (wb_request_init stub t).winds = []
    ∧ (wb_request_init stub t).write_size = (wb_request_init stub t).orig_size := by
  unfold wb_request_init
  simp only [wb_request_zero]
  split <;> split <;> simp

theorem wb_acct_inv.acct_enqueue {s : wb_state} {q : Bool} (h : wb_acct_inv s [] [] [] [] 0 q)
    (env : wb_env) (stub : call_stub_t) (tempted : Bool) :
    wb_acct_inv (wb_enqueue_common env s stub tempted).1 [] [] [] [] 0 q := by
  by_cases hc : env.request_calloc = true
  · rw [wb_enqueue_common_eq env s stub tempted hc]
    have hf := wb_request_init_fields stub tempted
    have g := h.attach { wb_request_init stub tempted with
        gen := s.inode.gen
        refcount := if tempted then 2 else 1 } hf.2.1 hf.2.2.1 hf.2.2.2.1 hf.2.2.2.2
      (by
        show (if tempted = true then (2 : Int) else 1)
          = if (wb_request_init stub tempted).ordering.tempted = true then 2 else 1
        rw [hf.1])
    have e : ({ wb_request_init stub tempted with
        gen := s.inode.gen
        refcount := if tempted then 2 else 1 } : wb_request).ordering.tempted = tempted := hf.1
    rw [e] at g
    exact g
  · unfold wb_enqueue_common
    simp only [hc, Bool.not_false, if_true]
    exact h

/-- A round of `wb_process_queue`, when every frame can be had. -/
theorem wb_acct_inv.acct_process_queue {s : wb_state} {q : Bool} (xl : xlator_t) (env : wb_env)
    (hcf : ∀ hd, env.create_frame hd = true) (h : wb_acct_inv s [] [] [] [] 0 q) :
    wb_acct_inv (wb_process_queue xl env s) [] [] [] [] 0 true := by
  unfold wb_process_queue wb_process_queue_locked
  simp only
  apply wb_acct_inv.acct_fulfill xl env hcf
  apply wb_acct_inv.acct_do_winds
  apply wb_acct_inv.acct_do_unwinds
  apply wb_acct_inv.acct_pick_unwinds (q := false)
  apply wb_acct_inv.acct_pick_winds
  exact h.acct_preprocess xl env

/-- The completion of a batch in flight. -/
theorem wb_acct_inv.acct_fulfill_cbk {s : wb_state} {q : Bool} (xl : xlator_t) (env : wb_env)
    (hcf : ∀ hd, env.create_frame hd = true) (h : wb_acct_inv s [] [] [] [] 0 q)
    (head : Nat) (hh : head ∈ s.inflight) (op_ret op_errno : Int) :
    wb_acct_inv (wb_fulfill_cbk xl env s head op_ret op_errno) [] [] [] [] 0 true := by
  unfold wb_fulfill_cbk
  simp only
  apply wb_acct_inv.acct_process_queue xl env hcf (q := false)
  have h1 := h.take_batch hh
  have hb := h.batch head hh
  have key : ∀ (s1 : wb_state), wb_same_queue { s with inflight := list_del head s.inflight } s1 →
      wb_acct_inv (wb_head_done s1 head) [] [] [] [] 0 false := by
    intro s1 hs
    have h2 := h1.acct_same hs
    have hm : s1.mem = s.mem := hs.mem
    rw [← hm] at h2
    apply h2.acct_head_done
    · rw [hm]
      exact hb.1
    · rw [hm]
      exact hb.2
  split
  · exact key _ ⟨rfl, rfl, rfl, rfl, rfl, rfl, rfl, rfl, rfl, rfl, rfl, rfl⟩
  · split
    · exact key _ ⟨rfl, rfl, rfl, rfl, rfl, rfl, rfl, rfl, rfl, rfl, rfl, rfl⟩
    · exact key _ ⟨rfl, rfl, rfl, rfl, rfl, rfl, rfl, rfl, rfl, rfl, rfl, rfl⟩

/-- The context `wb_inode_create` builds on an inode nothing is in flight for. -/
theorem wb_acct_inv.created (xl : xlator_t) (s : wb_state) (hF : s.inflight = []) :
    wb_acct_inv { s with ctx := true, inode := wb_inode_zero xl } [] [] [] [] 0 true := by
  constructor
  · rfl
  · exact List.nodup_nil
  · intro a ha; cases ha
  · exact List.nodup_nil
  · exact List.nodup_nil
  · exact List.nodup_nil
  · unfold wb_wind_list
    simp [hF, wb_inode_zero]
  · intro a ha
    unfold wb_wind_list at ha
    simp [hF, wb_inode_zero] at ha
  · intro a ha
    simp [hF] at ha
  · intro a ha; cases ha
  · intro a ha; cases ha
  · intro a ha; cases ha
  · intro a ha; cases ha
  · intro a ha; cases ha
  · intro a ha; cases ha
  · intro a ha; cases ha
  · intro a ha; cases ha
  · intro a ha
    simp [wb_inode_zero] at ha
  · intro a ha
    simp [hF] at ha
  · simp [wb_inode_zero, sum_over]
  · intro _ a ha; cases ha

theorem wb_quiescent.quiet_inode_create {s s1 : wb_state} (h : wb_quiescent s) (xl : xlator_t)
    (env : wb_env) (hs : wb_inode_create xl env s = some s1) :
    wb_acct_inv s1 [] [] [] [] 0 true := by
  unfold wb_inode_create at hs
  rcases h with h | h
  · rw [if_neg (by simp [h.1])] at hs
    split at hs
    · cases hs
    · cases hs
      exact wb_acct_inv.created xl s h.2.1
  · rw [if_pos h.ctx] at hs
    cases hs
    exact h

theorem wb_quiescent.quiet_same {s s1 : wb_state} (h : wb_quiescent s) (hs : wb_same_queue s s1) :
    wb_quiescent s1 := by
  rcases h with h | h
  · left
    rw [hs.ctx, hs.inflight, hs.window_current, hs.liability, hs.all]
    exact h
  · exact Or.inr (h.acct_same hs)

theorem wb_quiescent.quiet_unwind {s : wb_state} (h : wb_quiescent s)
    (fop : glusterfs_fop_t) (frame : Nat) (e : Int) :
    wb_quiescent (wb_unwind s fop frame e) :=
  h.quiet_same ⟨rfl, rfl, rfl, rfl, rfl, rfl, rfl, rfl, rfl, rfl, rfl, rfl⟩

theorem wb_quiescent.quiet_queue_if_ctx {s : wb_state} (h : wb_quiescent s) (xl : xlator_t)
    (env : wb_env) (hcf : ∀ hd, env.create_frame hd = true) (stub : call_stub_t) :
    wb_quiescent (wb_queue_if_ctx xl env s stub) := by
  unfold wb_queue_if_ctx
  split
  · exact h.quiet_same ⟨rfl, rfl, rfl, rfl, rfl, rfl, rfl, rfl, rfl, rfl, rfl, rfl⟩
  · rename_i hctx
    split
    · exact h.quiet_unwind _ _ _
    · have h1 : wb_acct_inv s [] [] [] [] 0 true := by
        rcases h with h | h
        · rw [h.1] at hctx
          exact absurd rfl hctx
        · exact h
      simp only
      split
      · exact wb_quiescent.quiet_unwind (Or.inr (h1.acct_enqueue env stub false)) _ _ _
      · exact Or.inr ((h1.acct_enqueue env stub false).acct_process_queue xl env hcf)

theorem wb_quiescent.quiet_queue_create_ctx {s : wb_state} (h : wb_quiescent s) (xl : xlator_t)
    (env : wb_env) (hcf : ∀ hd, env.create_frame hd = true) (stub : call_stub_t) :
    wb_quiescent (wb_queue_create_ctx xl env s stub) := by
  unfold wb_queue_create_ctx
  split
  · exact h.quiet_unwind _ _ _
  · rename_i s1 hs
    have h1 := h.quiet_inode_create xl env hs
    split
    · exact wb_quiescent.quiet_unwind (Or.inr h1) _ _ _
    · simp only
      split
      · exact wb_quiescent.quiet_unwind (Or.inr (h1.acct_enqueue env stub false)) _ _ _
      · exact Or.inr ((h1.acct_enqueue env stub false).acct_process_queue xl env hcf)

theorem wb_quiescent.quiet_writev {s : wb_state} (h : wb_quiescent s) (xl : xlator_t)
    (env : wb_env) (hcf : ∀ hd, env.create_frame hd = true) (frame lk_owner : Nat) (fd : fd_t)
    (vector : List iovec) (offset : Int) (flags : Nat) :
    wb_quiescent (wb_writev xl env s frame lk_owner fd vector offset flags) := by
  unfold wb_writev
  split
  · exact h.quiet_unwind _ _ _
  · rename_i s1 hs
    have h1 := h.quiet_inode_create xl env hs
    have h2 : wb_acct_inv { s1 with inode := { s1.inode with op_ret := 0 } } [] [] [] [] 0 true :=
      h1.acct_same ⟨rfl, rfl, rfl, rfl, rfl, rfl, rfl, rfl, rfl, rfl, rfl, rfl⟩
    have hsr : ∀ (d : Bool) (stub : call_stub_t), wb_acct_inv
        (if d = true then wb_enqueue env { s1 with inode := { s1.inode with op_ret := 0 } } stub
          else wb_enqueue_tempted env
            { s1 with inode := { s1.inode with op_ret := 0 } } stub).1 [] [] [] [] 0 true := by
      intro d stub
      split
      · exact h2.acct_enqueue env _ false
      · exact h2.acct_enqueue env _ true
    simp only
    apply ite_ind wb_quiescent
    · exact wb_quiescent.quiet_unwind (Or.inr h2) _ _ _
    · apply ite_ind wb_quiescent
      · exact wb_quiescent.quiet_unwind (Or.inr h2) _ _ _
      · apply ite_ind wb_quiescent
        · exact wb_quiescent.quiet_unwind (Or.inr (hsr _ _)) _ _ _
        · exact Or.inr ((hsr _ _).acct_process_queue xl env hcf)

theorem wb_quiescent.quiet_step {s : wb_state} (h : wb_quiescent s) (xl : xlator_t)
    (env : wb_env) (hcf : ∀ hd, env.create_frame hd = true) (c : wb_call)
    (hok : wb_call_ok s c) : wb_quiescent (wb_step xl env s c) := by
  cases c with
  | writev frame lk_owner fd vector offset flags => exact h.quiet_writev xl env hcf _ _ _ _ _ _
  | readv frame lk_owner fd size offset flags => exact h.quiet_queue_if_ctx xl env hcf _
  | flush frame lk_owner fd => exact h.quiet_queue_if_ctx xl env hcf _
  | fsync frame lk_owner fd => exact h.quiet_queue_if_ctx xl env hcf _
  | stat frame lk_owner => exact h.quiet_queue_if_ctx xl env hcf _
  | fstat frame lk_owner fd => exact h.quiet_queue_if_ctx xl env hcf _
  | truncate frame lk_owner offset => exact h.quiet_queue_create_ctx xl env hcf _
  | ftruncate frame lk_owner fd offset => exact h.quiet_queue_create_ctx xl env hcf _
  | setattr frame lk_owner => exact h.quiet_queue_if_ctx xl env hcf _
  | fsetattr frame lk_owner fd => exact h.quiet_queue_if_ctx xl env hcf _
  | fulfill_cbk head op_ret op_errno =>
    have hh : head ∈ s.inflight := hok
    rcases h with h | h
    · rw [h.2.1] at hh
      cases hh
    · exact Or.inr (h.acct_fulfill_cbk xl env hcf head hh op_ret op_errno)

theorem wb_quiescent.quiet_run (xl : xlator_t) (calls : List (wb_env × wb_call)) :
    ∀ (s : wb_state), wb_quiescent s → wb_calls_ok xl s calls →
      (∀ ec ∈ calls, ∀ hd, ec.1.create_frame hd = true) →
      wb_quiescent (wb_run xl s calls) := by
  induction calls with
  | nil => intro s h _ _; exact h
  | cons ec rest ih =>
    intro s h hok hcf
    obtain ⟨env, c⟩ := ec
    exact ih _ (h.quiet_step xl env (hcf (env, c) (List.mem_cons_self _ _)) c hok.1) hok.2
      (fun e he => hcf e (List.mem_cons_of_mem _ he))

theorem wb_quiescent.init (xl : xlator_t) : wb_quiescent (wb_state_init xl) :=
  Or.inl ⟨rfl, rfl, rfl, rfl, rfl⟩

/-- The balance at a quiescent point: the window counts the liability entries'
original sizes and the bytes coalesced into the attached requests. -/
theorem wb_quiescent.balance {s : wb_state} (h : wb_quiescent s) :
    s.inode.window_current
      = sum_over (fun r => (r.orig_size : Int)) s.mem s.inode.liability
        + sum_over (fun r => (r.write_size : Int) - r.orig_size) s.mem s.inode.all := by
  rcases h with h | h
  · rw [h.2.2.1, h.2.2.2.1, h.2.2.2.2]
    rfl
  · have hP : sum_over wb_pending_credit s.mem s.inode.temptation = 0 := by
      have : sum_over wb_pending_credit s.mem s.inode.temptation
          = sum_over (fun _ => (0 : Int)) s.mem s.inode.temptation := by
        unfold sum_over
        congr 1
        apply List.map_congr_left
        intro a ha
        unfold wb_pending_credit
        rw [h.settled rfl a ha]
        rfl
      rw [this]
      unfold sum_over
      simp
    have hA : sum_over wb_excess s.mem s.inode.all
        = sum_over (fun r => (r.write_size : Int) - r.orig_size) s.mem s.inode.all := by
      unfold sum_over
      congr 1
      apply List.map_congr_left
      intro a ha
      unfold wb_excess
      have hf : (s.mem a).ordering.fulfilled = false := by
        by_contra hc
        have hc1 : (s.mem a).ordering.fulfilled = true := by simpa using hc
        rcases h.ful_held a ha hc1 with h1 | h1
        · rw [h.settled rfl a h1] at hc1
          cases hc1
        · cases h1
      rw [hf]
      rfl
    have := h.acct
    rw [hP, hA] at this
    linarith

/-- C8 (counterexample): after the three writes of `calls_coalesced`, between
calls, liability holds requests 1 and 2, whose `orig_size` sum is 8, while
`window_current` is 12: the 4 bytes of the third write, coalesced into
request 2, are counted too. -/
theorem C8_window_counts_coalesced_bytes :
    wb_calls_ok xl_default (wb_state_init xl_default) calls_coalesced
    ∧ state_coalesced.inode.liability = [1, 2]
    ∧ sum_over (fun r => (r.orig_size : Int)) state_coalesced.mem
        state_coalesced.inode.liability = 8
    ∧ state_coalesced.inode.window_current = 12
    ∧ state_coalesced.inode.window_current
        ≠ sum_over (fun r => (r.orig_size : Int)) state_coalesced.mem
            state_coalesced.inode.liability := by
  decide!

/-- C8 (amended): after every sequence of calls on a fresh inode during which
no frame allocation fails, `window_current` equals the sum of `orig_size` over
the requests on liability plus the sum of `write_size - orig_size` over the
attached requests (the bytes coalesced into them); so it equals the sum over
liability alone when no attached request holds coalesced bytes. -/
theorem C8_window_balance (xl : xlator_t) (calls : List (wb_env × wb_call))
    (hok : wb_calls_ok xl (wb_state_init xl) calls)
    (hcf : ∀ ec ∈ calls, ∀ hd, ec.1.create_frame hd = true) :
    (wb_run xl (wb_state_init xl) calls).inode.window_current
      = sum_over (fun r => (r.orig_size : Int)) (wb_run xl (wb_state_init xl) calls).mem
          (wb_run xl (wb_state_init xl) calls).inode.liability
        + sum_over (fun r => (r.write_size : Int) - r.orig_size)
            (wb_run xl (wb_state_init xl) calls).mem
            (wb_run xl (wb_state_init xl) calls).inode.all
    ∧ ((∀ a ∈ (wb_run xl (wb_state_init xl) calls).inode.all,
          ((wb_run xl (wb_state_init xl) calls).mem a).write_size
            = ((wb_run xl (wb_state_init xl) calls).mem a).orig_size) →
        (wb_run xl (wb_state_init xl) calls).inode.window_current
          = sum_over (fun r => (r.orig_size : Int)) (wb_run xl (wb_state_init xl) calls).mem
              (wb_run xl (wb_state_init xl) calls).inode.liability) := by
  have hb := (wb_quiescent.quiet_run xl calls _ (wb_quiescent.init xl) hok hcf).balance
  refine ⟨hb, ?_⟩
  intro hz
  rw [hb]
  have : sum_over (fun r => (r.write_size : Int) - r.orig_size)
      (wb_run xl (wb_state_init xl) calls).mem (wb_run xl (wb_state_init xl) calls).inode.all
      = 0 := by
    unfold sum_over
    apply List.sum_eq_zero
    intro x hx
    obtain ⟨a, ha, e⟩ := List.mem_map.1 hx
    rw [← e]
    show (((wb_run xl (wb_state_init xl) calls).mem a).write_size : Int)
      - ((wb_run xl (wb_state_init xl) calls).mem a).orig_size = 0
    rw [hz a ha]
    exact sub_self _
  rw [this, add_zero]

/-- Witness of the amended C8 on `calls_coalesced`: 12 = 8 + 4. -/
theorem C8_window_balance_witness :
    wb_calls_ok xl_default (wb_state_init xl_default) calls_coalesced
    ∧ (wb_run xl_default (wb_state_init xl_default) calls_coalesced).inode.window_current
      = sum_over (fun r => (r.orig_size : Int))
          (wb_run xl_default (wb_state_init xl_default) calls_coalesced).mem
          (wb_run xl_default (wb_state_init xl_default) calls_coalesced).inode.liability
        + sum_over (fun r => (r.write_size : Int) - r.orig_size)
            (wb_run xl_default (wb_state_init xl_default) calls_coalesced).mem
            (wb_run xl_default (wb_state_init xl_default) calls_coalesced).inode.all
    ∧ sum_over (fun r => (r.write_size : Int) - r.orig_size)
        (wb_run xl_default (wb_state_init xl_default) calls_coalesced).mem
        (wb_run xl_default (wb_state_init xl_default) calls_coalesced).inode.all = 4 :=
  ⟨by decide!,
    (C8_window_balance xl_default calls_coalesced (by decide!)
      (fun ec hec hd => by
        simp only [calls_coalesced, List.mem_cons, List.mem_singleton, List.not_mem_nil,
          or_false] at hec
        rcases hec with e | e | e <;> rw [e] <;> rfl)).1,
    by decide!⟩

/-- C11, evaluated on the code in the default configuration: `wb_fulfill`
receives the picked writes 2 and 3 (131072 bytes each, at offsets 0 and
131072, same fd and lock owner); the aggregate size is 131072.  `NEXT_HEAD`
starts `curr_aggregate` at 0 without counting the head, so write 3 passes the
test `curr_aggregate + write_size > aggregate_size` and joins the batch of
write 2: the batch carries 262144 bytes. -/
theorem C11_batch_exceeds_aggregate :
    (state_pair_picked (iov_fill 131072 66)).2 = [2, 3]
    ∧ xl_default.priv.aggregate_size = 131072
    ∧ ((state_pair_picked (iov_fill 131072 66)).1.mem 2).write_size = 131072
    ∧ ((state_pair_picked (iov_fill 131072 66)).1.mem 3).write_size = 131072
    ∧ (wb_fulfill_calls xl_default wb_env_ok (state_pair_picked (iov_fill 131072 66)).1
        (state_pair_picked (iov_fill 131072 66)).2).map wb_call_batch = [[2, 3]]
    ∧ (wb_fulfill_calls xl_default wb_env_ok (state_pair_picked (iov_fill 131072 66)).1
        (state_pair_picked (iov_fill 131072 66)).2).map wb_call_payload = [262144]
    ∧ ((wb_fulfill xl_default wb_env_ok (state_pair_picked (iov_fill 131072 66)).1
        (state_pair_picked (iov_fill 131072 66)).2).mem 2).total_size = 262144
    ∧ (wb_fulfill xl_default wb_env_ok (state_pair_picked (iov_fill 131072 66)).1
        (state_pair_picked (iov_fill 131072 66)).2).inflight = [2]
    ∧ wb_step xl_default wb_env_ok (state_pair_waiting (iov_fill 131072 66))
        (.fulfill_cbk 1 131072 0)
        = wb_fulfill xl_default wb_env_ok (state_pair_picked (iov_fill 131072 66)).1
            (state_pair_picked (iov_fill 131072 66)).2 := by
  refine ⟨by decide!, by decide!, by decide!, by decide!, by decide!, by decide!, by decide!,
    by decide!, rfl⟩

/-- C12, evaluated on the code in the default configuration: write 2 carries
its 131072 bytes in 8 iovecs and write 3 in one.  `NEXT_HEAD` starts
`vector_count` at 0 without counting the head's iovecs, so write 3 passes the
test `vector_count + count > MAX_VECTOR_COUNT` and joins the batch of write 2:
`wb_fulfill_head` loads 9 iovecs into its vector of `MAX_VECTOR_COUNT` slots
and sends a writev of 9 iovecs. -/
theorem C12_batch_exceeds_vector :
    (state_pair_picked iov_eight).2 = [2, 3]
    ∧ MAX_VECTOR_COUNT = 8
    ∧ ((state_pair_picked iov_eight).1.mem 2).stub.vector.length = 8
    ∧ ((state_pair_picked iov_eight).1.mem 3).stub.vector.length = 1
    ∧ (wb_fulfill_calls xl_default wb_env_ok (state_pair_picked iov_eight).1
        (state_pair_picked iov_eight).2).map wb_call_batch = [[2, 3]]
    ∧ (wb_fulfill_calls xl_default wb_env_ok (state_pair_picked iov_eight).1
        (state_pair_picked iov_eight).2).map wb_call_iovecs = [9]
    ∧ (wb_fulfill xl_default wb_env_ok (state_pair_picked iov_eight).1
        (state_pair_picked iov_eight).2).out.map wb_event.writev_count
        = (state_pair_picked iov_eight).1.out.map wb_event.writev_count ++ [some (2, 9)]
    ∧ wb_step xl_default wb_env_ok (state_pair_waiting iov_eight) (.fulfill_cbk 1 131072 0)
        = wb_fulfill xl_default wb_env_ok (state_pair_picked iov_eight).1
            (state_pair_picked iov_eight).2 := by
  refine ⟨by decide!, by decide!, by decide!, by decide!, by decide!, by decide!, by decide!,
    rfl⟩

theorem wb_req_static.refl (r : wb_request) : wb_req_static r r :=
  ⟨by rfl, by rfl, by rfl, by rfl, by rfl⟩

theorem wb_req_static.trans {r r1 r2 : wb_request} (h : wb_req_static r r1)
    (h1 : wb_req_static r1 r2) : wb_req_static r r2 :=
  ⟨h1.stub.trans h.stub, h1.write_size.trans h.write_size, h1.lk_owner.trans h.lk_owner,
    h1.fd.trans h.fd, h1.winds.trans h.winds⟩

theorem mem_set_static (mem : Nat → wb_request) (x : Nat) (r : wb_request)
    (h : wb_req_static (mem x) r) (a : Nat) : wb_req_static (mem a) (mem_set mem x r a) := by
  unfold mem_set
  by_cases hax : a = x
  · subst hax
    rw [if_pos rfl]
    exact h
  · rw [if_neg hax]
    exact wb_req_static.refl _

theorem __wb_fulfill_request_static (s : wb_state) (x a : Nat) :
    wb_req_static (s.mem a) ((__wb_fulfill_request s x).mem a) := by
  rw [__wb_fulfill_request_eq]
  split
  · exact mem_set_static _ _ _ (by constructor <;> rfl) a
  · split
    · exact mem_set_static _ _ _ (by constructor <;> rfl) a
    · exact mem_set_static _ _ _ (by constructor <;> rfl) a

theorem wb_head_done_loop_static (l : List Nat) :
    ∀ (s : wb_state) (a : Nat), wb_req_static (s.mem a) ((wb_head_done_loop l s).mem a) := by
  induction l with
  | nil => intro s a; exact wb_req_static.refl _
  | cons x l ih =>
    intro s a
    exact (__wb_fulfill_request_static s x a).trans (ih _ a)

theorem wb_head_done_static (s : wb_state) (head a : Nat) :
    wb_req_static (s.mem a) ((wb_head_done s head).mem a) := by
  unfold wb_head_done
  exact (wb_head_done_loop_static _ s a).trans (__wb_fulfill_request_static _ head a)

theorem wb_fulfill_head_loop_static (head : Nat) (l : List Nat) :
    ∀ (s : wb_state) (vec : List iovec) (a : Nat),
      wb_req_static (s.mem a) ((wb_fulfill_head_loop head l s vec).1.mem a) := by
  induction l with
  | nil => intro s vec a; exact wb_req_static.refl _
  | cons x l ih =>
    intro s vec a
    simp only [wb_fulfill_head_loop]
    refine wb_req_static.trans ?_ (ih _ _ a)
    simp only [WB_IOV_LOAD]
    exact mem_set_static _ _ _ (by constructor <;> rfl) a

theorem wb_fulfill_head_static (env : wb_env) (s : wb_state) (head a : Nat) :
    wb_req_static (s.mem a) ((wb_fulfill_head env s head).mem a) := by
  unfold wb_fulfill_head
  split
  · exact wb_head_done_static (wb_inode_err s ENOMEM) head a
  · simp only
    refine wb_req_static.trans ?_ (wb_fulfill_head_loop_static head _ _ _ a)
    simp only [WB_IOV_LOAD]
    exact mem_set_static _ _ _ (by constructor <;> rfl) a

theorem wb_fulfill_breaks_false (xl : xlator_t) (s : wb_state) (l : wb_fulfill_locals)
    (head req : Nat) :
    wb_fulfill_breaks xl s l head req = false ↔
      ((s.mem req).fd = (s.mem head).fd ∧ (s.mem req).lk_owner = (s.mem head).lk_owner
        ∧ l.expected_offset = (s.mem req).stub.off
        ∧ l.curr_aggregate + (s.mem req).write_size ≤ xl.priv.aggregate_size
        ∧ l.vector_count + (s.mem req).stub.vector.length ≤ MAX_VECTOR_COUNT) := by
  unfold wb_fulfill_breaks
  simp only [Bool.or_eq_false_iff, decide_eq_false_iff_not, not_not, not_lt, ne_eq, gt_iff_lt]
  tauto

theorem NEXT_HEAD_static (env : wb_env) (s : wb_state) (l : wb_fulfill_locals) (req a : Nat) :
    wb_req_static (s.mem a) ((NEXT_HEAD env s l req).1.mem a) := by
  unfold NEXT_HEAD
  simp only
  split
  · exact wb_fulfill_head_static env s _ a
  · exact wb_req_static.refl _

theorem NEXT_HEAD_inv (xl : xlator_t) (env : wb_env) (s : wb_state) (l : wb_fulfill_locals)
    (req : Nat) (hw : (s.mem req).winds = []) :
    wb_fulfill_inv xl (NEXT_HEAD env s l req).1 (NEXT_HEAD env s l req).2
    ∧ wb_open_batch (NEXT_HEAD env s l req).1 (NEXT_HEAD env s l req).2 = [req] := by
  have hst := NEXT_HEAD_static env s l req req
  have hw1 : ((NEXT_HEAD env s l req).1.mem req).winds = [] := by rw [hst.winds, hw]
  have hh : (NEXT_HEAD env s l req).2.head = some req := rfl
  constructor
  · intro head e
    rw [hh] at e
    cases e
    refine ⟨⟨?_, ?_, ?_⟩, ?_, rfl, ?_, ?_⟩
    · intro m hm
      simp only at hm
      rw [hw1] at hm
      cases hm
    · simp only
      rw [hw1]
      exact Nat.zero_le _
    · simp only
      rw [hw1]
      exact Nat.zero_le _
    · rw [hw1]
      exact List.not_mem_nil _
    · rw [hw1]
      rfl
    · rw [hw1]
      rfl
  · unfold wb_open_batch
    rw [hh]
    simp only
    rw [hw1]

/-- Adding a member to the batch being formed keeps what holds of the locals. -/
theorem wb_fulfill_inv_member (xl : xlator_t) (s : wb_state) (l : wb_fulfill_locals)
    (head req : Nat) (hh : l.head = some head) (hne : req ≠ head)
    (hinv : wb_fulfill_inv xl s l) (hb : wb_fulfill_breaks xl s l head req = false) :
    wb_fulfill_inv xl
      { s with mem := (mem_set s.mem head
          { s.mem head with winds := (s.mem head).winds ++ [req] }) }
      { l with
        curr_aggregate := l.curr_aggregate + (s.mem req).write_size
        vector_count := l.vector_count + (s.mem req).stub.vector.length } := by
  obtain ⟨⟨hm, hagg, hvc⟩, hnw, hexp, hca, hvn⟩ := hinv head hh
  obtain ⟨b1, b2, b3, b4, b5⟩ := (wb_fulfill_breaks_false xl s l head req).1 hb
  have hf : ∀ a, (mem_set s.mem head { s.mem head with winds := (s.mem head).winds ++ [req] }
      a).fd = (s.mem a).fd
      ∧ (mem_set s.mem head { s.mem head with winds := (s.mem head).winds ++ [req] }
        a).lk_owner = (s.mem a).lk_owner
      ∧ (mem_set s.mem head { s.mem head with winds := (s.mem head).winds ++ [req] }
        a).stub = (s.mem a).stub
      ∧ (mem_set s.mem head { s.mem head with winds := (s.mem head).winds ++ [req] }
        a).write_size = (s.mem a).write_size := by
    intro a
    by_cases hax : a = head
    · subst hax
      rw [mem_set_eq]
      exact ⟨rfl, rfl, rfl, rfl⟩
    · rw [mem_set_ne _ _ _ _ hax]
      exact ⟨rfl, rfl, rfl, rfl⟩
  have hwd : (mem_set s.mem head { s.mem head with winds := (s.mem head).winds ++ [req] }
      head).winds = (s.mem head).winds ++ [req] := by rw [mem_set_eq]
  have hsw : ∀ (w : List Nat), w.map (fun a => (mem_set s.mem head
      { s.mem head with winds := (s.mem head).winds ++ [req] } a).write_size)
      = w.map (fun a => (s.mem a).write_size) :=
    fun w => List.map_congr_left (fun a _ => (hf a).2.2.2)
  have hsv : ∀ (w : List Nat), w.map (fun a => (mem_set s.mem head
      { s.mem head with winds := (s.mem head).winds ++ [req] } a).stub.vector.length)
      = w.map (fun a => (s.mem a).stub.vector.length) :=
    fun w => List.map_congr_left (fun a _ => by rw [(hf a).2.2.1])
  intro hd e
  have e1 : l.head = some hd := e
  rw [hh] at e1
  cases e1
  refine ⟨⟨?_, ?_, ?_⟩, ?_, ?_, ?_, ?_⟩
  · intro m hmw
    simp only at hmw ⊢
    rw [hwd] at hmw
    rw [(hf m).1, (hf m).2.1, (hf m).2.2.1, (hf head).1, (hf head).2.1, (hf head).2.2.1,
      (hf head).2.2.2]
    rcases List.mem_append.1 hmw with h1 | h1
    · exact hm m h1
    · rw [List.mem_singleton.1 h1]
      exact ⟨b1, b2, by rw [← b3, hexp]⟩
  · simp only
    rw [hwd, hsw, List.map_append, List.sum_append, List.map_singleton, List.sum_singleton,
      ← hca]
    exact b4
  · simp only
    rw [hwd, hsv, List.map_append, List.sum_append, List.map_singleton, List.sum_singleton,
      ← hvn]
    exact b5
  · simp only
    rw [hwd]
    intro hc
    rcases List.mem_append.1 hc with h1 | h1
    · exact hnw h1
    · exact hne (List.mem_singleton.1 h1).symm
  · simp only
    rw [(hf head).2.2.1, (hf head).2.2.2]
    exact hexp
  · simp only
    rw [hwd, hsw, List.map_append, List.sum_append, List.map_singleton, List.sum_singleton,
      ← hca]
  · simp only
    rw [hwd, hsv, List.map_append, List.sum_append, List.map_singleton, List.sum_singleton,
      ← hvn]

/-- The walk of `wb_fulfill`: every call of `wb_fulfill_head` made from the
loop is for a sound batch, and the batches of the calls followed by the batch
being formed list the requests walked so far, in order. -/
theorem wb_fulfill_loop_calls_sound (xl : xlator_t) (env : wb_env) (rest : List Nat) :
    ∀ (s : wb_state) (l : wb_fulfill_locals), rest.Nodup →
      (∀ a ∈ rest, (s.mem a).winds = []) → (∀ hd, l.head = some hd → hd ∉ rest) →
      wb_fulfill_inv xl s l →
      (∀ c ∈ wb_fulfill_loop_calls xl env rest s l, wb_batch_sound xl c)
      ∧ wb_fulfill_inv xl (wb_fulfill_loop xl env rest s l).1 (wb_fulfill_loop xl env rest s l).2
      ∧ ((wb_fulfill_loop_calls xl env rest s l).map wb_call_batch).flatten
          ++ wb_open_batch (wb_fulfill_loop xl env rest s l).1
              (wb_fulfill_loop xl env rest s l).2
        = wb_open_batch s l ++ rest := by
  induction rest with
  | nil =>
    intro s l _ _ _ hinv
    refine ⟨fun c hc => ?_, hinv, ?_⟩
    · simp [wb_fulfill_loop_calls] at hc
    · simp [wb_fulfill_loop_calls, wb_fulfill_loop]
  | cons req rest ih =>
    intro s l hnd hw hhd hinv
    have hrr : req ∉ rest := (List.nodup_cons.1 hnd).1
    have hnd1 : rest.Nodup := (List.nodup_cons.1 hnd).2
    have hwreq := hw req (List.mem_cons_self _ _)
    have hnext := NEXT_HEAD_inv xl env s l req hwreq
    have hnw : ∀ a ∈ rest, ((NEXT_HEAD env s l req).1.mem a).winds = [] := by
      intro a ha
      rw [(NEXT_HEAD_static env s l req a).winds]
      exact hw a (List.mem_cons_of_mem _ ha)
    have hnh : ∀ hd, (NEXT_HEAD env s l req).2.head = some hd → hd ∉ rest := by
      intro hd e
      have e1 : some req = some hd := e
      cases e1
      exact hrr
    have ihn := ih (NEXT_HEAD env s l req).1 (NEXT_HEAD env s l req).2 hnd1 hnw hnh hnext.1
    cases hh : l.head with
    | none =>
      have e1 : wb_fulfill_loop_calls xl env (req :: rest) s l
          = wb_fulfill_loop_calls xl env rest (NEXT_HEAD env s l req).1
              (NEXT_HEAD env s l req).2 := by
        rw [wb_fulfill_loop_calls]
        simp only [hh]
      have e2 : wb_fulfill_loop xl env (req :: rest) s l
          = wb_fulfill_loop xl env rest (NEXT_HEAD env s l req).1
              (NEXT_HEAD env s l req).2 := by
        rw [wb_fulfill_loop]
        simp only [hh]
      have e3 : wb_open_batch s l = [] := by
        unfold wb_open_batch
        rw [hh]
      rw [e1, e2, e3]
      refine ⟨ihn.1, ihn.2.1, ?_⟩
      rw [ihn.2.2, hnext.2]
      rfl
    | some head =>
      have e3 : wb_open_batch s l = head :: (s.mem head).winds := by
        unfold wb_open_batch
        rw [hh]
      have hhr : head ∉ req :: rest := hhd head hh
      by_cases hb : wb_fulfill_breaks xl s l head req = true
      · have e1 : wb_fulfill_loop_calls xl env (req :: rest) s l
            = (s, head) :: wb_fulfill_loop_calls xl env rest (NEXT_HEAD env s l req).1
                (NEXT_HEAD env s l req).2 := by
          rw [wb_fulfill_loop_calls]
          simp only [hh, hb, if_true]
        have e2 : wb_fulfill_loop xl env (req :: rest) s l
            = wb_fulfill_loop xl env rest (NEXT_HEAD env s l req).1
                (NEXT_HEAD env s l req).2 := by
          rw [wb_fulfill_loop]
          simp only [hh, hb, if_true]
        rw [e1, e2, e3]
        refine ⟨?_, ihn.2.1, ?_⟩
        · intro c hc
          rcases List.mem_cons.1 hc with h1 | h1
          · rw [h1]
            exact (hinv head hh).1
          · exact ihn.1 c h1
        · rw [List.map_cons, List.flatten_cons, List.append_assoc, ihn.2.2, hnext.2]
          simp [wb_call_batch]
      · have hb0 : wb_fulfill_breaks xl s l head req = false := by simpa using hb
        have hne : req ≠ head := fun e => hhr (e ▸ List.mem_cons_self _ _)
        have e1 : wb_fulfill_loop_calls xl env (req :: rest) s l
            = wb_fulfill_loop_calls xl env rest
                { s with mem := (mem_set s.mem head
                    { s.mem head with winds := (s.mem head).winds ++ [req] }) }
                { l with
                  curr_aggregate := l.curr_aggregate + (s.mem req).write_size
                  vector_count := l.vector_count + (s.mem req).stub.vector.length } := by
          rw [wb_fulfill_loop_calls]
          simp only [hh, hb0, Bool.false_eq_true, if_false]
        have e2 : wb_fulfill_loop xl env (req :: rest) s l
            = wb_fulfill_loop xl env rest
                { s with mem := (mem_set s.mem head
                    { s.mem head with winds := (s.mem head).winds ++ [req] }) }
                { l with
                  curr_aggregate := l.curr_aggregate + (s.mem req).write_size
                  vector_count := l.vector_count + (s.mem req).stub.vector.length } := by
          rw [wb_fulfill_loop]
          simp only [hh, hb0, Bool.false_eq_true, if_false]
        have hm := wb_fulfill_inv_member xl s l head req hh hne hinv hb0
        have ihm := ih _ _ hnd1
          (by
            intro a ha
            have hah : a ≠ head := fun e => hhr (e ▸ List.mem_cons_of_mem _ ha)
            simp only
            rw [mem_set_ne _ _ _ _ hah]
            exact hw a (List.mem_cons_of_mem _ ha))
          (by
            intro hd e
            have e4 : l.head = some hd := e
            rw [hh] at e4
            cases e4
            exact fun hc => hhr (List.mem_cons_of_mem _ hc))
          hm
        rw [e1, e2, e3]
        refine ⟨ihm.1, ihm.2.1, ?_⟩
        rw [ihm.2.2]
        unfold wb_open_batch
        simp only [hh, mem_set_eq]
        simp

/-- Every call `wb_fulfill` makes to `wb_fulfill_head` is for a sound batch,
and the batches of the calls, in order, list the picked requests in the order
they were picked.  The picked list is an intrusive list linked through
`winds`, so it repeats no request and none of its requests has members. -/
theorem wb_fulfill_calls_sound (xl : xlator_t) (env : wb_env) (s : wb_state)
    (liabilities : List Nat) (hnd : liabilities.Nodup)
    (hw : ∀ a ∈ liabilities, (s.mem a).winds = []) :
    (∀ c ∈ wb_fulfill_calls xl env s liabilities, wb_batch_sound xl c)
    ∧ ((wb_fulfill_calls xl env s liabilities).map wb_call_batch).flatten = liabilities := by
  have h := wb_fulfill_loop_calls_sound xl env liabilities s
    { head := none, expected_offset := 0, curr_aggregate := 0, vector_count := 0 } hnd hw
    (fun hd e => by cases e) (fun hd e => by cases e)
  unfold wb_fulfill_calls
  simp only
  have h3 := h.2.2
  have e0 : wb_open_batch s
      { head := none, expected_offset := 0, curr_aggregate := 0, vector_count := 0 } = [] := rfl
  rw [e0, List.nil_append] at h3
  cases hh : (wb_fulfill_loop xl env liabilities s
      { head := none, expected_offset := 0, curr_aggregate := 0, vector_count := 0 }).2.head with
  | none =>
    simp only [List.append_nil]
    refine ⟨h.1, ?_⟩
    unfold wb_open_batch at h3
    rw [hh] at h3
    simpa using h3
  | some head =>
    simp only
    constructor
    · intro c hc
      rcases List.mem_append.1 hc with h1 | h1
      · exact h.1 c h1
      · rw [List.mem_singleton.1 h1]
        exact (h.2.1 head hh).1
    · unfold wb_open_batch at h3
      rw [hh] at h3
      rw [List.map_append, List.flatten_append]
      simpa [wb_call_batch] using h3

theorem wb_batch_sound_same (xl : xlator_t) (c : wb_state × Nat) (h : wb_batch_sound xl c)
    (a : Nat) (ha : a ∈ wb_call_batch c) :
    (c.1.mem a).fd = (c.1.mem c.2).fd ∧ (c.1.mem a).lk_owner = (c.1.mem c.2).lk_owner := by
  rcases List.mem_cons.1 ha with h1 | h1
  · rw [h1]
    exact ⟨rfl, rfl⟩
  · exact ⟨(h.1 a h1).1, (h.1 a h1).2.1⟩

/-- C13: any two requests of the batch of a call `wb_fulfill` makes to
`wb_fulfill_head` have the same fd and the same lock owner, for every state
and every picked list (an intrusive list linked through `winds`: no request
twice, no request with members). -/
theorem C13_batch_same_fd_and_lk_owner (xl : xlator_t) (env : wb_env) (s : wb_state)
    (liabilities : List Nat) (hnd : liabilities.Nodup)
    (hw : ∀ a ∈ liabilities, (s.mem a).winds = [])
    (c : wb_state × Nat) (hc : c ∈ wb_fulfill_calls xl env s liabilities)
    (a b : Nat) (ha : a ∈ wb_call_batch c) (hb : b ∈ wb_call_batch c) :
    (c.1.mem a).fd = (c.1.mem b).fd ∧ (c.1.mem a).lk_owner = (c.1.mem b).lk_owner := by
  have h := (wb_fulfill_calls_sound xl env s liabilities hnd hw).1 c hc
  have h1 := wb_batch_sound_same xl c h a ha
  have h2 := wb_batch_sound_same xl c h b hb
  exact ⟨h1.1.trans h2.1.symm, h1.2.trans h2.2.symm⟩

theorem getD_mem_of_lt {α : Type} (l : List α) (i : Nat) (d : α) (h : i < l.length) :
    l.getD i d ∈ l := by
  rw [List.getD_eq_getElem l d h]
  exact List.getElem_mem h

/-- Witness of C13 on the picked writes 2 and 3 of `state_pair_picked`, which
`wb_fulfill` puts in one batch. -/
theorem C13_batch_same_fd_and_lk_owner_witness :
    (state_pair_picked iov_eight).2.Nodup
    ∧ (∀ a ∈ (state_pair_picked iov_eight).2, ((state_pair_picked iov_eight).1.mem a).winds = [])
    ∧ wb_call_batch ((wb_fulfill_calls xl_default wb_env_ok (state_pair_picked iov_eight).1
        (state_pair_picked iov_eight).2).getD 0 ((state_pair_picked iov_eight).1, 0)) = [2, 3]
    ∧ ((((wb_fulfill_calls xl_default wb_env_ok (state_pair_picked iov_eight).1
          (state_pair_picked iov_eight).2).getD 0 ((state_pair_picked iov_eight).1, 0)).1.mem 2).fd
        = (((wb_fulfill_calls xl_default wb_env_ok (state_pair_picked iov_eight).1
          (state_pair_picked iov_eight).2).getD 0 ((state_pair_picked iov_eight).1, 0)).1.mem 3).fd
      ∧ (((wb_fulfill_calls xl_default wb_env_ok (state_pair_picked iov_eight).1
          (state_pair_picked iov_eight).2).getD 0
            ((state_pair_picked iov_eight).1, 0)).1.mem 2).lk_owner
        = (((wb_fulfill_calls xl_default wb_env_ok (state_pair_picked iov_eight).1
          (state_pair_picked iov_eight).2).getD 0
            ((state_pair_picked iov_eight).1, 0)).1.mem 3).lk_owner) :=
  ⟨by decide!, by decide!, by decide!,
    C13_batch_same_fd_and_lk_owner xl_default wb_env_ok (state_pair_picked iov_eight).1
      (state_pair_picked iov_eight).2 (by decide!) (by decide!) _
      (getD_mem_of_lt _ 0 _ (by decide!)) 2 3 (by decide!) (by decide!)⟩

/-- The loop of `wb_fulfill_head` over the members: the vector grows by the
members' iovecs, the head's `total_size` by their `write_size`. -/
theorem wb_fulfill_head_loop_spec (head : Nat) (l : List Nat) :
    ∀ (s : wb_state) (vec : List iovec),
      wb_fulfill_head_loop head l s vec
        = ({ s with mem := (mem_set s.mem head { s.mem head with
              total_size := (s.mem head).total_size
                + (l.map (fun a => (s.mem a).write_size)).sum }) },
           vec ++ (l.map (fun a => (s.mem a).stub.vector)).flatten) := by
  induction l with
  | nil =>
    intro s vec
    simp only [wb_fulfill_head_loop, List.map_nil, List.sum_nil, Nat.add_zero,
      List.flatten_nil, List.append_nil]
    have : mem_set s.mem head (s.mem head) = s.mem := by
      funext a
      unfold mem_set
      split
      · rename_i e; rw [e]
      · rfl
    rw [this]
  | cons x l ih =>
    intro s vec
    simp only [wb_fulfill_head_loop, WB_IOV_LOAD]
    rw [ih]
    simp only [mem_set_eq, mem_set_mem_set]
    have hf : ∀ a, (mem_set s.mem head { s.mem head with
          total_size := (s.mem head).total_size + (s.mem x).write_size } a).write_size
          = (s.mem a).write_size
        ∧ (mem_set s.mem head { s.mem head with
          total_size := (s.mem head).total_size + (s.mem x).write_size } a).stub
          = (s.mem a).stub := by
      intro a
      by_cases hax : a = head
      · subst hax
        rw [mem_set_eq]
        exact ⟨rfl, rfl⟩
      · rw [mem_set_ne _ _ _ _ hax]
        exact ⟨rfl, rfl⟩
    have e1 : l.map (fun a => (mem_set s.mem head { s.mem head with
          total_size := (s.mem head).total_size + (s.mem x).write_size } a).write_size)
        = l.map (fun a => (s.mem a).write_size) :=
      List.map_congr_left (fun a _ => (hf a).1)
    have e2 : l.map (fun a => (mem_set s.mem head { s.mem head with
          total_size := (s.mem head).total_size + (s.mem x).write_size } a).stub.vector)
        = l.map (fun a => (s.mem a).stub.vector) :=
      List.map_congr_left (fun a _ => by rw [(hf a).2])
    rw [e1, e2, List.map_cons, List.sum_cons, Nat.add_assoc, List.map_cons, List.flatten_cons,
      List.append_assoc]

/-- What `wb_fulfill_head` does when the frame can be had, for a head that has
not been loaded before. -/
theorem wb_fulfill_head_spec (env : wb_env) (s : wb_state) (head : Nat)
    (hcf : env.create_frame head = true) (h0 : (s.mem head).total_size = 0) :
    wb_fulfill_head env s head
      = { s with
          mem := (mem_set s.mem head { s.mem head with total_size := wb_call_payload (s, head) })
          inode := { s.inode with transit := s.inode.transit + wb_call_payload (s, head) }
          inflight := s.inflight ++ [head]
          out := s.out ++ [wb_event.wind_writev head (s.mem head).fd (wb_call_vector (s, head))
            (s.mem head).stub.off (s.mem head).stub.flags] } := by
  unfold wb_fulfill_head
  rw [if_neg (by simp [hcf])]
  simp only [WB_IOV_LOAD, mem_set_eq]
  rw [wb_fulfill_head_loop_spec]
  simp only [mem_set_eq, mem_set_mem_set]
  have hf : ∀ a, (mem_set s.mem head { s.mem head with
        total_size := (s.mem head).total_size + (s.mem head).write_size } a).write_size
        = (s.mem a).write_size
      ∧ (mem_set s.mem head { s.mem head with
        total_size := (s.mem head).total_size + (s.mem head).write_size } a).stub
        = (s.mem a).stub := by
    intro a
    by_cases hax : a = head
    · subst hax
      rw [mem_set_eq]
      exact ⟨rfl, rfl⟩
    · rw [mem_set_ne _ _ _ _ hax]
      exact ⟨rfl, rfl⟩
  have e1 : ((s.mem head).winds).map (fun a => (mem_set s.mem head { s.mem head with
        total_size := (s.mem head).total_size + (s.mem head).write_size } a).write_size)
      = ((s.mem head).winds).map (fun a => (s.mem a).write_size) :=
    List.map_congr_left (fun a _ => (hf a).1)
  have e2 : ((s.mem head).winds).map (fun a => (mem_set s.mem head { s.mem head with
        total_size := (s.mem head).total_size + (s.mem head).write_size } a).stub.vector)
      = ((s.mem head).winds).map (fun a => (s.mem a).stub.vector) :=
    List.map_congr_left (fun a _ => by rw [(hf a).2])
  have e3 : wb_call_payload (s, head)
      = (s.mem head).total_size + (s.mem head).write_size
        + (((s.mem head).winds).map (fun a => (s.mem a).write_size)).sum := by
    unfold wb_call_payload wb_call_batch
    simp only [List.map_cons, List.sum_cons]
    rw [h0, Nat.zero_add]
  have e4 : wb_call_vector (s, head)
      = (s.mem head).stub.vector
        ++ (((s.mem head).winds).map (fun a => (s.mem a).stub.vector)).flatten := by
    unfold wb_call_vector wb_call_batch
    simp only [List.map_cons, List.flatten_cons]
  rw [e1, e2, e3, e4]
  simp only [List.nil_append]

/-- C14: when the frame can be had, `wb_fulfill_head` on a batch (a head not
loaded before, with its members, whose iovecs fit the vector of
`MAX_VECTOR_COUNT` slots) makes exactly one downward call, a writev on the
head's fd with the head's iovecs followed by each member's in order, at the
head's offset and with the head's flags; the head's `total_size` becomes the
sum of `write_size` over the head and the members, `transit` grows by that
sum, the head is in flight, and nothing else changes. -/
theorem C14_fulfill_head_submits_batch (env : wb_env) (s : wb_state) (head : Nat)
    (hcf : env.create_frame head = true) (h0 : (s.mem head).total_size = 0)
    (_hv : wb_call_iovecs (s, head) ≤ MAX_VECTOR_COUNT) :
    wb_fulfill_head env s head
      = { s with
          mem := (mem_set s.mem head { s.mem head with total_size := wb_call_payload (s, head) })
          inode := { s.inode with transit := s.inode.transit + wb_call_payload (s, head) }
          inflight := s.inflight ++ [head]
          out := s.out ++ [wb_event.wind_writev head (s.mem head).fd (wb_call_vector (s, head))
            (s.mem head).stub.off (s.mem head).stub.flags] } :=
  wb_fulfill_head_spec env s head hcf h0

/-- Witness of C14 on the batch of the writes 2 and 3 of `state_pair_formed`
(131072 bytes and one iovec each): one writev of 262144 bytes in 2 iovecs. -/
theorem C14_fulfill_head_submits_batch_witness :
    wb_call_batch (state_pair_formed (iov_fill 131072 66), 2) = [2, 3]
    ∧ wb_call_payload (state_pair_formed (iov_fill 131072 66), 2) = 262144
    ∧ (wb_call_vector (state_pair_formed (iov_fill 131072 66), 2)).length = 2
    ∧ wb_fulfill_head wb_env_ok (state_pair_formed (iov_fill 131072 66)) 2
      = { state_pair_formed (iov_fill 131072 66) with
          mem := (mem_set (state_pair_formed (iov_fill 131072 66)).mem 2
            { (state_pair_formed (iov_fill 131072 66)).mem 2 with
              total_size := wb_call_payload (state_pair_formed (iov_fill 131072 66), 2) })
          inode := { (state_pair_formed (iov_fill 131072 66)).inode with
            transit := (state_pair_formed (iov_fill 131072 66)).inode.transit
              + wb_call_payload (state_pair_formed (iov_fill 131072 66), 2) }
          inflight := (state_pair_formed (iov_fill 131072 66)).inflight ++ [2]
          out := (state_pair_formed (iov_fill 131072 66)).out ++ [wb_event.wind_writev 2
            ((state_pair_formed (iov_fill 131072 66)).mem 2).fd
            (wb_call_vector (state_pair_formed (iov_fill 131072 66), 2))
            ((state_pair_formed (iov_fill 131072 66)).mem 2).stub.off
            ((state_pair_formed (iov_fill 131072 66)).mem 2).stub.flags] } :=
  ⟨by decide!, by decide!, by decide!,
    C14_fulfill_head_submits_batch wb_env_ok (state_pair_formed (iov_fill 131072 66)) 2 rfl
      (by decide!) (by decide!)⟩

/-! ## Round trip and merge -/

/-- C15, evaluated on the code with flush-behind off.  First run: after a
buffered write of 4 bytes at offset 0 a flush arrives on the same fd.  The
write is in flight and not fulfilled, yet the engine's third call is the flush
wound down: the flush does not wait for the write, because
`wb_requests_conflict` finds no overlap for the size-0 range of the flush.
Second run: writes of 4 bytes at offsets 0, 100 (two iovecs) and 104, each
writev below completed in full, then a flush.  The lower layer receives 4
bytes at 0 and 6 bytes at 100, so offset 106 of the file is never written
below, while the caller wrote byte 67 there. -/
theorem C15_flush_forwarded_before_fulfilled :
    xl_flush_sync.priv.flush_behind = false
    ∧ wb_calls_ok xl_flush_sync (wb_state_init xl_flush_sync) calls_write_flush
    ∧ state_write_flush.out
        = [wb_event.unwind GF_FOP_WRITE 1 4 0,
           wb_event.wind_writev 1 100 (iov_fill 4 65) 0 0,
           wb_event.wind (wb_plain_stub GF_FOP_FLUSH 2 7 (some fd_plain))]
    ∧ state_write_flush.inflight = [1]
    ∧ state_write_flush.inode.liability = [1]
    ∧ (state_write_flush.mem 1).ordering.fulfilled = false
    ∧ wb_calls_ok xl_flush_sync (wb_state_init xl_flush_sync) calls_split_flush
    ∧ spec_submitted calls_split_flush
        = [(0, [64, 64, 64, 64]), (100, [65, 65, 66, 66]), (104, [67, 67, 67, 67])]
    ∧ wb_written state_split_flush.out
        = [(0, [64, 64, 64, 64]), (100, [65, 65, 66, 66, 67, 67])]
    ∧ spec_file_of (spec_submitted calls_split_flush) 106 = some 67
    ∧ spec_file_of (wb_written state_split_flush.out) 106 = none
    ∧ state_split_flush.inflight = [] := by
  decide!

/-- C16, evaluated on the code in the default configuration (page size
131072): the holder is write 2, 131073 bytes at offset 100; write 3, 4 bytes
at offset 131173, arrives.  The test `space_left < req->write_size` is made on
`space_left = page_size - holder->write_size` computed in `size_t`, which
wraps to 2^64 - 1, so write 3 is merged: the holder ends with 131077 bytes,
more than the page size. -/
theorem C16_merge_beyond_page_size :
    xl_default.page_size = 131072
    ∧ state_big_holder.inode.todo = [2]
    ∧ (state_big_holder.mem 2).ordering.tempted = true
    ∧ (state_big_holder.mem 2).write_size = 131073
    ∧ state_big_holder_queued.inode.todo = [2, 3]
    ∧ (state_big_holder_queued.mem 3).write_size = 4
    ∧ (state_big_holder_queued.mem 3).stub.off = 131173
    ∧ size_t_sub xl_default.page_size (state_big_holder_queued.mem 2).write_size = 2 ^ 64 - 1
    ∧ (__wb_preprocess_winds xl_default wb_env_ok state_big_holder_queued).inode.todo = [2]
    ∧ ((__wb_preprocess_winds xl_default wb_env_ok state_big_holder_queued).mem 2).write_size
        = 131077
    ∧ ((__wb_preprocess_winds xl_default wb_env_ok
        state_big_holder_queued).mem 3).ordering.fulfilled = true
    ∧ ((wb_step xl_default wb_env_ok state_big_holder
        (call_write 3 4 67 131173)).mem 2).write_size = 131077 := by
  decide!

/-- C17, evaluated on the code: the holder is write 2, whose 4 bytes 65 65 66 66
come in two iovecs of 2 bytes; write 3 brings the 4 bytes 67 67 67 67.
`__wb_collapse_small_writes` copies all 8 bytes to the new buffer and sets
`count` to 1, but leaves `vector[0].iov_len` at the length of the first iovec
before it adds the size of write 3: the holder's single iovec has length 6
while its `write_size` is 8, and its payload is 65 65 66 66 67 67. -/
theorem C17_merge_loses_bytes :
    state_split_holder_queued.inode.todo = [2, 3]
    ∧ (state_split_holder_queued.mem 2).stub.vector = iov_split
    ∧ iov_unload (state_split_holder_queued.mem 2).stub.vector = [65, 65, 66, 66]
    ∧ iov_unload (state_split_holder_queued.mem 3).stub.vector = [67, 67, 67, 67]
    ∧ (__wb_collapse_small_writes wb_env_ok state_split_holder_queued 2 3).2 = 0
    ∧ ((__wb_collapse_small_writes wb_env_ok state_split_holder_queued 2 3).1.mem 2).stub.vector
        = [{ iov_base := [65, 65, 66, 66, 67, 67, 67, 67], iov_len := 6 }]
    ∧ ((__wb_collapse_small_writes wb_env_ok state_split_holder_queued 2 3).1.mem 2).write_size
        = 8
    ∧ iov_unload
        ((__wb_collapse_small_writes wb_env_ok state_split_holder_queued 2 3).1.mem 2).stub.vector
        = [65, 65, 66, 66, 67, 67]
    ∧ (wb_run xl_default state_split_holder
        [(wb_env_ok, call_write 3 4 67 104), (wb_env_ok, .fulfill_cbk 1 4 0)]).out
        = state_split_holder.out
          ++ [wb_event.unwind GF_FOP_WRITE 3 4 0,
              wb_event.wind_writev 2 100
                [{ iov_base := [65, 65, 66, 66, 67, 67, 67, 67], iov_len := 6 }] 100 0] := by
  decide!

/-! ## The calls the engine makes -/

theorem wb_out_grows.unchanged {P : wb_event → Prop} {s s1 : wb_state} (h : s1.out = s.out) :
    wb_out_grows P s s1 :=
  ⟨[], by rw [h, List.append_nil], fun ev hev => by cases hev⟩

theorem wb_out_grows.one {P : wb_event → Prop} {s s1 : wb_state} (ev : wb_event)
    (h : s1.out = s.out ++ [ev]) (hp : P ev) : wb_out_grows P s s1 :=
  ⟨[ev], h, fun e he => by rw [List.mem_singleton.1 he]; exact hp⟩

theorem wb_out_grows.then {P : wb_event → Prop} {s s1 s2 : wb_state}
    (h : wb_out_grows P s s1) (h1 : wb_out_grows P s1 s2) : wb_out_grows P s s2 := by
  obtain ⟨n, e, hn⟩ := h
  obtain ⟨n1, e1, hn1⟩ := h1
  refine ⟨n ++ n1, by rw [e1, e, List.append_assoc], ?_⟩
  intro ev hev
  rcases List.mem_append.1 hev with h2 | h2
  · exact hn ev h2
  · exact hn1 ev h2

theorem wb_out_grows.mono {P Q : wb_event → Prop} {s s1 : wb_state}
    (h : wb_out_grows P s s1) (hpq : ∀ ev, P ev → Q ev) : wb_out_grows Q s s1 := by
  obtain ⟨n, e, hn⟩ := h
  exact ⟨n, e, fun ev hev => hpq ev (hn ev hev)⟩

theorem __wb_request_unref_out (s : wb_state) (req : Nat) :
    (__wb_request_unref s req).out = s.out := by
  unfold __wb_request_unref
  simp only
  split
  · rfl
  · split <;> rfl

theorem __wb_fulfill_request_out (s : wb_state) (req : Nat) :
    (__wb_fulfill_request s req).out = s.out := by
  rw [__wb_fulfill_request_eq]
  split
  · rfl
  · split <;> rfl

theorem wb_head_done_loop_out (l : List Nat) :
    ∀ (s : wb_state), (wb_head_done_loop l s).out = s.out := by
  induction l with
  | nil => intro s; rfl
  | cons x l ih =>
    intro s
    simp only [wb_head_done_loop]
    rw [ih, __wb_fulfill_request_out]

theorem wb_head_done_out (s : wb_state) (head : Nat) : (wb_head_done s head).out = s.out := by
  unfold wb_head_done
  simp only
  rw [__wb_fulfill_request_out, wb_head_done_loop_out]

theorem __wb_fulfill_request_todo_sub (s : wb_state) (x a : Nat)
    (h : a ∈ (__wb_fulfill_request s x).inode.todo) : a ∈ s.inode.todo := by
  rw [__wb_fulfill_request_eq] at h
  split at h
  · exact h
  · split at h
    · unfold wb_request_destroy at h
      simp only at h
      split at h
      · exact ((mem_list_del_iff _ _ _).1 h).1
      · exact ((mem_list_del_iff _ _ _).1 h).1
    · exact h

theorem wb_head_done_loop_todo_sub (l : List Nat) :
    ∀ (s : wb_state) (a : Nat), a ∈ (wb_head_done_loop l s).inode.todo → a ∈ s.inode.todo := by
  induction l with
  | nil => intro s a h; exact h
  | cons x l ih =>
    intro s a h
    simp only [wb_head_done_loop] at h
    exact __wb_fulfill_request_todo_sub s x a (ih _ a h)

theorem wb_head_done_todo_sub (s : wb_state) (head a : Nat)
    (h : a ∈ (wb_head_done s head).inode.todo) : a ∈ s.inode.todo := by
  unfold wb_head_done at h
  simp only at h
  exact wb_head_done_loop_todo_sub _ s a (__wb_fulfill_request_todo_sub _ head a h)

/-- The one call `wb_fulfill_head` can make: the writev of the batch. -/
theorem wb_fulfill_head_out (env : wb_env) (s : wb_state) (head : Nat) :
    wb_out_grows (fun ev => ∃ fd v o fl, ev = wb_event.wind_writev head fd v o fl) s
      (wb_fulfill_head env s head) := by
  unfold wb_fulfill_head
  split
  · apply wb_out_grows.unchanged
    rw [wb_head_done_out]
    rfl
  · simp only
    rw [wb_fulfill_head_loop_spec]
    exact wb_out_grows.one _ rfl ⟨_, _, _, _, rfl⟩

theorem wb_fulfill_loop_out (xl : xlator_t) (env : wb_env) (rest : List Nat) :
    ∀ (s : wb_state) (l : wb_fulfill_locals),
      wb_out_grows (fun ev => ∃ h, (l.head = some h ∨ h ∈ rest)
          ∧ ∃ fd v o fl, ev = wb_event.wind_writev h fd v o fl) s
        (wb_fulfill_loop xl env rest s l).1
      ∧ ∀ h, (wb_fulfill_loop xl env rest s l).2.head = some h → l.head = some h ∨ h ∈ rest := by
  induction rest with
  | nil =>
    intro s l
    exact ⟨wb_out_grows.unchanged rfl, fun h e => Or.inl e⟩
  | cons req rest ih =>
    intro s l
    have hnext : wb_out_grows (fun ev => ∃ h, (l.head = some h ∨ h ∈ req :: rest)
          ∧ ∃ fd v o fl, ev = wb_event.wind_writev h fd v o fl) s
        (NEXT_HEAD env s l req).1 := by
      unfold NEXT_HEAD
      simp only
      cases hh : l.head with
      | none => exact wb_out_grows.unchanged rfl
      | some head =>
        simp only
        exact (wb_fulfill_head_out env s head).mono
          (fun ev ⟨fd, v, o, fl, e⟩ => ⟨head, Or.inl rfl, fd, v, o, fl, e⟩)
    have hrec := ih (NEXT_HEAD env s l req).1 (NEXT_HEAD env s l req).2
    have hrec1 : wb_out_grows (fun ev => ∃ h, (l.head = some h ∨ h ∈ req :: rest)
          ∧ ∃ fd v o fl, ev = wb_event.wind_writev h fd v o fl) s
        (wb_fulfill_loop xl env rest (NEXT_HEAD env s l req).1 (NEXT_HEAD env s l req).2).1 := by
      refine hnext.then (hrec.1.mono ?_)
      rintro ev ⟨h, hh, hev⟩
      refine ⟨h, Or.inr ?_, hev⟩
      rcases hh with h1 | h1
      · have h2 : some req = some h := h1
        cases h2
        exact List.mem_cons_self _ _
      · exact List.mem_cons_of_mem _ h1
    have hrec2 : ∀ h, (wb_fulfill_loop xl env rest (NEXT_HEAD env s l req).1
        (NEXT_HEAD env s l req).2).2.head = some h → l.head = some h ∨ h ∈ req :: rest := by
      intro h e
      rcases hrec.2 h e with h1 | h1
      · have h2 : some req = some h := h1
        cases h2
        exact Or.inr (List.mem_cons_self _ _)
      · exact Or.inr (List.mem_cons_of_mem _ h1)
    cases hh : l.head with
    | none =>
      have e2 : wb_fulfill_loop xl env (req :: rest) s l
          = wb_fulfill_loop xl env rest (NEXT_HEAD env s l req).1
              (NEXT_HEAD env s l req).2 := by
        rw [wb_fulfill_loop]
        simp only [hh]
      rw [e2]
      rw [hh] at hrec1 hrec2
      exact ⟨hrec1, hrec2⟩
    | some head =>
      by_cases hb : wb_fulfill_breaks xl s l head req = true
      · have e2 : wb_fulfill_loop xl env (req :: rest) s l
            = wb_fulfill_loop xl env rest (NEXT_HEAD env s l req).1
                (NEXT_HEAD env s l req).2 := by
          rw [wb_fulfill_loop]
          simp only [hh, hb, if_true]
        rw [e2]
        rw [hh] at hrec1 hrec2
        exact ⟨hrec1, hrec2⟩
      · have hb0 : wb_fulfill_breaks xl s l head req = false := by simpa using hb
        have e2 : wb_fulfill_loop xl env (req :: rest) s l
            = wb_fulfill_loop xl env rest
                { s with mem := (mem_set s.mem head
                    { s.mem head with winds := (s.mem head).winds ++ [req] }) }
                { l with
                  curr_aggregate := l.curr_aggregate + (s.mem req).write_size
                  vector_count := l.vector_count + (s.mem req).stub.vector.length } := by
          rw [wb_fulfill_loop]
          simp only [hh, hb0, Bool.false_eq_true, if_false]
        rw [e2]
        have hm := ih { s with mem := (mem_set s.mem head
            { s.mem head with winds := (s.mem head).winds ++ [req] }) }
          { l with
            curr_aggregate := l.curr_aggregate + (s.mem req).write_size
            vector_count := l.vector_count + (s.mem req).stub.vector.length }
        constructor
        · obtain ⟨n, e, hn⟩ := hm.1
          refine ⟨n, e, ?_⟩
          intro ev hev
          obtain ⟨h, hh1, hev1⟩ := hn ev hev
          refine ⟨h, ?_, hev1⟩
          rcases hh1 with h1 | h1
          · have h2 : l.head = some h := h1
            rw [hh] at h2
            exact Or.inl h2
          · exact Or.inr (List.mem_cons_of_mem _ h1)
        · intro h e
          rcases hm.2 h e with h1 | h1
          · have h2 : l.head = some h := h1
            rw [hh] at h2
            exact Or.inl h2
          · exact Or.inr (List.mem_cons_of_mem _ h1)

/-- The calls `wb_fulfill` can make: writevs for batches whose heads are among
the picked requests. -/
theorem wb_fulfill_out (xl : xlator_t) (env : wb_env) (s : wb_state) (liabilities : List Nat) :
    wb_out_grows (fun ev => ∃ h ∈ liabilities, ∃ fd v o fl,
        ev = wb_event.wind_writev h fd v o fl) s (wb_fulfill xl env s liabilities) := by
  have h := wb_fulfill_loop_out xl env liabilities s
    { head := none, expected_offset := 0, curr_aggregate := 0, vector_count := 0 }
  have h1 : wb_out_grows (fun ev => ∃ h ∈ liabilities, ∃ fd v o fl,
      ev = wb_event.wind_writev h fd v o fl) s
      (wb_fulfill_loop xl env liabilities s
        { head := none, expected_offset := 0, curr_aggregate := 0, vector_count := 0 }).1 := by
    refine h.1.mono ?_
    rintro ev ⟨hd, hh, hev⟩
    rcases hh with h2 | h2
    · cases h2
    · exact ⟨hd, h2, hev⟩
  unfold wb_fulfill
  simp only
  split
  · rename_i head e
    refine h1.then ((wb_fulfill_head_out env _ head).mono ?_)
    rintro ev ⟨fd, v, o, fl, hev⟩
    rcases h.2 head e with h2 | h2
    · cases h2
    · exact ⟨head, h2, fd, v, o, fl, hev⟩
  · exact h1

theorem __wb_preprocess_winds_loop_out (xl : xlator_t) (env : wb_env) (l : List Nat) :
    ∀ (s : wb_state) (holder : Option Nat),
      (__wb_preprocess_winds_loop xl env l s holder).1.out = s.out
      ∧ ∀ a ∈ (__wb_preprocess_winds_loop xl env l s holder).1.inode.todo, a ∈ s.inode.todo := by
  induction l with
  | nil => intro s holder; exact ⟨rfl, fun a ha => ha⟩
  | cons req rest ih =>
    intro s holder
    have hgo : ∀ (hd : Nat) (ho : Option Nat),
        (__wb_preprocess_winds_loop xl env rest (wb_set_go s hd) ho).1.out = s.out
        ∧ ∀ a ∈ (__wb_preprocess_winds_loop xl env rest (wb_set_go s hd) ho).1.inode.todo,
            a ∈ s.inode.todo := fun hd ho => ih (wb_set_go s hd) ho
    unfold __wb_preprocess_winds_loop
    split
    · split
      · split
        · exact hgo _ _
        · exact ih _ _
      · exact ih _ _
    · split
      · exact ih _ _
      · simp only
        split
        · exact hgo _ _
        · split
          · exact hgo _ _
          · split
            · exact hgo _ _
            · rename_i hd _ _ _
              rcases __wb_collapse_small_writes_eq env s hd req with he | he
              · rw [he]
                simp only [show ((-1 : Int) ≠ 0) = True from by simp, if_true]
                exact ih _ _
              · rw [he]
                simp only [ne_eq, not_true_eq_false, if_false]
                have h1 := ih (__wb_fulfill_request
                  { s with
                    mem := (mem_set s.mem hd (wb_holder_append (wb_holder_buffered (s.mem hd))
                      (mem_set s.mem hd (wb_holder_buffered (s.mem hd)) req)))
                    inode := { s.inode with todo := list_del req s.inode.todo } } req) (some hd)
                refine ⟨h1.1.trans (__wb_fulfill_request_out _ _), ?_⟩
                intro a ha
                have h2 := __wb_fulfill_request_todo_sub _ _ a (h1.2 a ha)
                exact ((mem_list_del_iff _ _ _).1 h2).1

theorem __wb_preprocess_winds_out (xl : xlator_t) (env : wb_env) (s : wb_state) :
    (__wb_preprocess_winds xl env s).out = s.out
    ∧ ∀ a ∈ (__wb_preprocess_winds xl env s).inode.todo, a ∈ s.inode.todo := by
  have h1 := __wb_preprocess_winds_loop_out xl env s.inode.todo s none
  unfold __wb_preprocess_winds
  simp only
  split
  · split
    · exact h1
    · exact h1
  · exact h1

/-- The calls `wb_do_unwinds` makes: the callers of the lied writes are answered. -/
theorem wb_do_unwinds_out (lies : List Nat) :
    ∀ (s : wb_state), wb_out_grows (fun ev => ∃ f r e, ev = wb_event.unwind GF_FOP_WRITE f r e)
      s (wb_do_unwinds s lies) := by
  induction lies with
  | nil => intro s; exact wb_out_grows.unchanged rfl
  | cons req rest ih =>
    intro s
    simp only [wb_do_unwinds]
    refine wb_out_grows.then ?_ (ih _)
    refine wb_out_grows.one (wb_event.unwind GF_FOP_WRITE (s.mem req).stub.frame
      (s.mem req).op_ret (s.mem req).op_errno) ?_ ⟨_, _, _, rfl⟩
    unfold wb_request_unref
    rw [__wb_request_unref_out]

theorem wb_out_grows.two {P : wb_event → Prop} {s s1 : wb_state} (ev ev1 : wb_event)
    (h : s1.out = s.out ++ [ev, ev1]) (hp : P ev) (hp1 : P ev1) : wb_out_grows P s s1 := by
  refine ⟨[ev, ev1], h, ?_⟩
  intro e he
  simp only [List.mem_cons, List.mem_singleton, List.not_mem_nil, or_false] at he
  rcases he with h1 | h1
  · rw [h1]; exact hp
  · rw [h1]; exact hp1

theorem wb_flush_helper_out (xl : xlator_t) (env : wb_env) (s : wb_state) (stub : call_stub_t) :
    wb_out_grows (wb_round_event []) s (wb_flush_helper xl env s stub) := by
  unfold wb_flush_helper
  simp only
  split_ifs
  all_goals first
    | exact wb_out_grows.one _ rfl (Or.inr rfl)
    | exact wb_out_grows.one _ rfl True.intro
    | exact wb_out_grows.two _ _ rfl True.intro (Or.inr rfl)

theorem call_resume_out (xl : xlator_t) (env : wb_env) (s : wb_state) (stub : call_stub_t) :
    wb_out_grows (wb_round_event []) s (call_resume xl env s stub) := by
  unfold call_resume
  split
  · exact wb_flush_helper_out xl env s stub
  · exact wb_out_grows.one _ rfl True.intro

/-- The calls `wb_do_winds` makes: queued calls are wound down, a flush may be
answered. -/
theorem wb_do_winds_out (xl : xlator_t) (env : wb_env) (tasks : List Nat) :
    ∀ (s : wb_state), wb_out_grows (wb_round_event []) s (wb_do_winds xl env s tasks) := by
  induction tasks with
  | nil => intro s; exact wb_out_grows.unchanged rfl
  | cons req rest ih =>
    intro s
    simp only [wb_do_winds]
    refine wb_out_grows.then ?_ (ih _)
    obtain ⟨n, e, hn⟩ := call_resume_out xl env s (s.mem req).stub
    refine ⟨n, ?_, hn⟩
    unfold wb_request_unref
    rw [__wb_request_unref_out, e]

/-- The calls a round of `wb_process_queue` makes. -/
theorem wb_process_queue_out (xl : xlator_t) (env : wb_env) (s : wb_state) :
    wb_out_grows (wb_round_event s.inode.todo) s (wb_process_queue xl env s) := by
  unfold wb_process_queue wb_process_queue_locked
  simp only
  have hp := __wb_preprocess_winds_out xl env s
  have hw : (__wb_pick_winds xl (__wb_preprocess_winds xl env s) [] []).1.out
      = (__wb_preprocess_winds xl env s).out := by
    rw [__wb_pick_winds_eq]
  have hl : ∀ a ∈ (__wb_pick_winds xl (__wb_preprocess_winds xl env s) [] []).2.2,
      a ∈ s.inode.todo := by
    intro a ha
    rw [__wb_pick_winds_eq] at ha
    simp only [List.nil_append] at ha
    exact hp.2 a (List.mem_filter.1 ha).1
  have hu : (__wb_pick_unwinds
      (__wb_pick_winds xl (__wb_preprocess_winds xl env s) [] []).1 []).1.out
      = (__wb_pick_winds xl (__wb_preprocess_winds xl env s) [] []).1.out := by
    unfold __wb_pick_unwinds
    rw [__wb_pick_unwinds_loop_eq]
  have h0 : wb_out_grows (wb_round_event s.inode.todo) s
      (__wb_pick_unwinds (__wb_pick_winds xl (__wb_preprocess_winds xl env s) [] []).1 []).1 :=
    wb_out_grows.unchanged (by rw [hu, hw, hp.1])
  refine ((h0.then ((wb_do_unwinds_out _ _).mono ?_)).then
    ((wb_do_winds_out xl env _ _).mono ?_)).then ((wb_fulfill_out xl env _ _).mono ?_)
  · rintro ev ⟨f, r, e, hev⟩
    rw [hev]
    exact Or.inl rfl
  · intro ev hev
    cases ev with
    | unwind fop f r e => exact hev
    | wind stub => exact True.intro
    | wind_bg stub => exact True.intro
    | wind_writev h fd v o fl => cases hev
  · rintro ev ⟨h, hh, fd, v, o, fl, hev⟩
    rw [hev]
    exact hl h hh

/-! ## The error latch -/

theorem wb_enqueue_common_out (env : wb_env) (s : wb_state) (stub : call_stub_t)
    (tempted : Bool) : (wb_enqueue_common env s stub tempted).1.out = s.out := by
  by_cases hc : env.request_calloc = true
  · rw [wb_enqueue_common_eq env s stub tempted hc]
  · unfold wb_enqueue_common
    simp only [hc, Bool.not_false, if_true]

/-- What `wb_writev` does on an inode with a latched error. -/
theorem wb_writev_latched (xl : xlator_t) (env : wb_env) (s : wb_state) (frame lk_owner : Nat)
    (fd : fd_t) (vector : List iovec) (offset : Int) (flags : Nat) (hctx : s.ctx = true)
    (hl : s.inode.op_ret < 0) (he : s.inode.op_errno ≠ 0) :
    wb_writev xl env s frame lk_owner fd vector offset flags
      = { s with
          inode := { s.inode with op_ret := 0 }
          out := s.out ++ [wb_event.unwind GF_FOP_WRITE frame (-1) s.inode.op_errno] } := by
  unfold wb_writev wb_inode_create
  simp only [hctx, if_true, hl, he, ne_eq, not_false_eq_true, wb_unwind]

/-- What `wb_writev` does on an inode without a latched error, when the stub
and the request can be had. -/
theorem wb_writev_queued (xl : xlator_t) (env : wb_env) (s : wb_state) (frame lk_owner : Nat)
    (fd : fd_t) (vector : List iovec) (offset : Int) (flags : Nat) (hctx : s.ctx = true)
    (hl : s.inode.op_ret = 0) (hs : env.fop_stub = true) (hr : env.request_calloc = true) :
    wb_writev xl env s frame lk_owner fd vector offset flags
      = wb_process_queue xl env (wb_enqueue_common env s
          { fop := GF_FOP_WRITE, frame := frame, lk_owner := lk_owner, fd := some fd,
            vector := vector, off := offset, size := 0, flags := flags }
          (!wb_writev_disabled xl fd flags)).1 := by
  obtain ⟨ctx, inode, mem, next, inflight, out⟩ := s
  obtain ⟨wc, wcur, tr, opr, ope, all, todo, li, te, gen⟩ := inode
  simp only at hctx hl
  subst hctx
  subst hl
  have hen : ∀ t, (wb_enqueue_common env
      { ctx := true
        inode := { window_conf := wc, window_current := wcur, transit := tr, op_ret := 0,
                   op_errno := ope, all := all, todo := todo, liability := li, temptation := te,
                   gen := gen }
        mem := mem, next := next, inflight := inflight, out := out }
      { fop := GF_FOP_WRITE, frame := frame, lk_owner := lk_owner, fd := some fd,
        vector := vector, off := offset, size := 0, flags := flags } t).2 = true := by
    intro t
    rw [wb_enqueue_common_eq env _ _ _ hr]
  unfold wb_writev wb_inode_create
  simp only [if_true, lt_self_iff_false, if_false, ne_eq, not_true_eq_false, hs,
    Bool.not_true, Bool.false_eq_true]
  cases hd : wb_writev_disabled xl fd flags
  · have hd1 := hd
    unfold wb_writev_disabled at hd1
    simp only at hd1
    simp only [hd1, Bool.false_eq_true, if_false, wb_enqueue_tempted, Bool.not_false, hen,
      Bool.not_true]
  · have hd1 := hd
    unfold wb_writev_disabled at hd1
    simp only at hd1
    simp only [hd1, if_true, wb_enqueue, Bool.not_true, hen, Bool.false_eq_true, if_false]

/-- C18: on an inode whose latch holds a negative `op_ret` and the errno `e`
(not 0), `wb_writev` answers the caller with -1 and `e`, clears the latch
(`op_ret` becomes 0) and changes nothing else: no request is enqueued.  The
next `wb_writev`, when its stub and request can be had, takes the normal path:
the write is enqueued at the tail of `all` and todo and `wb_process_queue`
runs. -/
theorem C18_writev_error_latch (xl : xlator_t) (env env2 : wb_env) (s : wb_state)
    (frame lk_owner : Nat) (fd : fd_t) (vector : List iovec) (offset : Int) (flags : Nat)
    (frame2 lk_owner2 : Nat) (fd2 : fd_t) (vector2 : List iovec) (offset2 : Int) (flags2 : Nat)
    (hctx : s.ctx = true) (hl : s.inode.op_ret < 0) (he : s.inode.op_errno ≠ 0)
    (hs : env2.fop_stub = true) (hr : env2.request_calloc = true) :
    wb_writev xl env s frame lk_owner fd vector offset flags
      = { s with
          inode := { s.inode with op_ret := 0 }
          out := s.out ++ [wb_event.unwind GF_FOP_WRITE frame (-1) s.inode.op_errno] }
    ∧ wb_writev xl env2 (wb_writev xl env s frame lk_owner fd vector offset flags)
        frame2 lk_owner2 fd2 vector2 offset2 flags2
      = wb_process_queue xl env2 (wb_enqueue_common env2
          (wb_writev xl env s frame lk_owner fd vector offset flags)
          { fop := GF_FOP_WRITE, frame := frame2, lk_owner := lk_owner2, fd := some fd2,
            vector := vector2, off := offset2, size := 0, flags := flags2 }
          (!wb_writev_disabled xl fd2 flags2)).1
    ∧ (wb_enqueue_common env2 (wb_writev xl env s frame lk_owner fd vector offset flags)
          { fop := GF_FOP_WRITE, frame := frame2, lk_owner := lk_owner2, fd := some fd2,
            vector := vector2, off := offset2, size := 0, flags := flags2 }
          (!wb_writev_disabled xl fd2 flags2)).1.inode.all = s.inode.all ++ [s.next]
    ∧ (wb_enqueue_common env2 (wb_writev xl env s frame lk_owner fd vector offset flags)
          { fop := GF_FOP_WRITE, frame := frame2, lk_owner := lk_owner2, fd := some fd2,
            vector := vector2, off := offset2, size := 0, flags := flags2 }
          (!wb_writev_disabled xl fd2 flags2)).1.inode.todo = s.inode.todo ++ [s.next]
    ∧ ((wb_enqueue_common env2 (wb_writev xl env s frame lk_owner fd vector offset flags)
          { fop := GF_FOP_WRITE, frame := frame2, lk_owner := lk_owner2, fd := some fd2,
            vector := vector2, off := offset2, size := 0, flags := flags2 }
          (!wb_writev_disabled xl fd2 flags2)).1.mem s.next).stub
        = { fop := GF_FOP_WRITE, frame := frame2, lk_owner := lk_owner2, fd := some fd2,
            vector := vector2, off := offset2, size := 0, flags := flags2 } := by
  have h1 := wb_writev_latched xl env s frame lk_owner fd vector offset flags hctx hl he
  rw [h1]
  refine ⟨rfl, ?_, ?_, ?_, ?_⟩
  · exact wb_writev_queued xl env2 _ frame2 lk_owner2 fd2 vector2 offset2 flags2 hctx rfl hs hr
  · rw [wb_enqueue_common_eq env2 _ _ _ hr]
  · rw [wb_enqueue_common_eq env2 _ _ _ hr]
  · rw [wb_enqueue_common_eq env2 _ _ _ hr]
    simp only [mem_set_eq]
    unfold wb_request_init
    simp [wb_request_zero]

/-- Witness of C18 on `state_latched` (latch -1, ENOSPC): the write of frame 4
fails with ENOSPC; the write of frame 5 is acknowledged with its 4 bytes and
sent down. -/
theorem C18_writev_error_latch_witness :
    state_latched.ctx = true
    ∧ state_latched.inode.op_ret = -1
    ∧ state_latched.inode.op_errno = 28
    ∧ wb_writev xl_default wb_env_ok state_latched 4 7 fd_plain (iov_fill 4 66) 0 0
      = { state_latched with
          inode := { state_latched.inode with op_ret := 0 }
          out := state_latched.out
            ++ [wb_event.unwind GF_FOP_WRITE 4 (-1) state_latched.inode.op_errno] }
    ∧ (wb_writev xl_default wb_env_ok
        (wb_writev xl_default wb_env_ok state_latched 4 7 fd_plain (iov_fill 4 66) 0 0)
        5 7 fd_plain (iov_fill 4 67) 0 0).out
      = state_latched.out
        ++ [wb_event.unwind GF_FOP_WRITE 4 (-1) 28, wb_event.unwind GF_FOP_WRITE 5 4 0,
            wb_event.wind_writev state_latched.next 100 (iov_fill 4 67) 0 0] :=
  ⟨by decide!, by decide!, by decide!,
    (C18_writev_error_latch xl_default wb_env_ok wb_env_ok state_latched 4 7 fd_plain
      (iov_fill 4 66) 0 0 5 7 fd_plain (iov_fill 4 67) 0 0 (by decide!) (by decide!)
      (by decide!) rfl rfl).1,
    by decide!⟩

/-- An entry point that queues its call only when the inode has a context
answers the caller itself only with -1 and ENOMEM, unless the call is a write
or a flush; every other answer comes from below. -/
theorem wb_queue_if_ctx_out (xl : xlator_t) (env : wb_env) (s : wb_state) (stub : call_stub_t)
    (hw : stub.fop ≠ GF_FOP_WRITE) (hf : stub.fop ≠ GF_FOP_FLUSH) :
    ∃ new, (wb_queue_if_ctx xl env s stub).out = s.out ++ new
      ∧ ∀ f r e, wb_event.unwind stub.fop f r e ∈ new → r = -1 ∧ e = ENOMEM := by
  have hone : ∀ (s1 : wb_state), s1.out = s.out →
      ∃ new, (wb_unwind s1 stub.fop stub.frame ENOMEM).out = s.out ++ new
        ∧ ∀ f r e, wb_event.unwind stub.fop f r e ∈ new → r = -1 ∧ e = ENOMEM := by
    intro s1 h1
    refine ⟨[wb_event.unwind stub.fop stub.frame (-1) ENOMEM], ?_, ?_⟩
    · unfold wb_unwind
      simp only
      rw [h1]
    · intro f r e hev
      have h2 := List.mem_singleton.1 hev
      injection h2 with _ _ h3 h4
      exact ⟨h3, h4⟩
  unfold wb_queue_if_ctx
  split
  · refine ⟨[wb_event.wind stub], rfl, ?_⟩
    intro f r e hev
    have h2 := List.mem_singleton.1 hev
    cases h2
  · split
    · exact hone s rfl
    · simp only
      split
      · exact hone _ (wb_enqueue_common_out env s stub false)
      · obtain ⟨n, e1, hn⟩ := wb_process_queue_out xl env (wb_enqueue env s stub).1
        refine ⟨n, ?_, ?_⟩
        · rw [e1]
          unfold wb_enqueue
          rw [wb_enqueue_common_out]
        · intro f r e hev
          have h2 := hn _ hev
          rcases h2 with h3 | h3
          · exact absurd h3 hw
          · exact absurd h3 hf

/-- C19, evaluated on the code in the default configuration: on
`state_latched` (latch -1, ENOSPC) an fsync and a setattr are each wound down,
not failed, and leave the latch as it is; the write that follows them is the
call that fails with ENOSPC. -/
theorem C19_fsync_setattr_ignore_latch :
    state_latched.ctx = true
    ∧ state_latched.inode.op_ret = -1
    ∧ state_latched.inode.op_errno = 28
    ∧ (wb_fsync xl_default wb_env_ok state_latched 2 7 fd_plain).out
        = state_latched.out ++ [wb_event.wind (wb_plain_stub GF_FOP_FSYNC 2 7 (some fd_plain))]
    ∧ (wb_fsync xl_default wb_env_ok state_latched 2 7 fd_plain).inode.op_ret = -1
    ∧ (wb_fsync xl_default wb_env_ok state_latched 2 7 fd_plain).inode.op_errno = 28
    ∧ (wb_setattr xl_default wb_env_ok state_latched 3 7).out
        = state_latched.out ++ [wb_event.wind (wb_plain_stub GF_FOP_SETATTR 3 7 none)]
    ∧ (wb_setattr xl_default wb_env_ok state_latched 3 7).inode.op_ret = -1
    ∧ (wb_setattr xl_default wb_env_ok state_latched 3 7).inode.op_errno = 28
    ∧ (wb_run xl_default state_latched
        [(wb_env_ok, .fsync 2 7 fd_plain), (wb_env_ok, .setattr 3 7),
         (wb_env_ok, call_write 4 4 66 0)]).out
        = state_latched.out
          ++ [wb_event.wind (wb_plain_stub GF_FOP_FSYNC 2 7 (some fd_plain)),
              wb_event.wind (wb_plain_stub GF_FOP_SETATTR 3 7 none),
              wb_event.unwind GF_FOP_WRITE 4 (-1) 28] := by
  decide!

/-- The code of `wb_fsync` and `wb_setattr` does not look at the latch.  In
every state and whatever is latched, the only answer the engine itself gives
to an fsync or a setattr is -1 with ENOMEM (a stub or request that cannot be
had); otherwise the call is queued, and when it is resumed it is wound down
and the state, the latch included, is otherwise left as it is. -/
theorem wb_fsync_setattr_not_latched (xl : xlator_t) (env : wb_env) (s : wb_state)
    (frame lk_owner : Nat) (fd : fd_t) :
    (∃ new, (wb_fsync xl env s frame lk_owner fd).out = s.out ++ new
      ∧ ∀ f r e, wb_event.unwind GF_FOP_FSYNC f r e ∈ new → r = -1 ∧ e = ENOMEM)
    ∧ (∃ new, (wb_setattr xl env s frame lk_owner).out = s.out ++ new
      ∧ ∀ f r e, wb_event.unwind GF_FOP_SETATTR f r e ∈ new → r = -1 ∧ e = ENOMEM)
    ∧ call_resume xl env s (wb_plain_stub GF_FOP_FSYNC frame lk_owner (some fd))
        = { s with out := s.out
              ++ [wb_event.wind (wb_plain_stub GF_FOP_FSYNC frame lk_owner (some fd))] }
    ∧ call_resume xl env s (wb_plain_stub GF_FOP_SETATTR frame lk_owner none)
        = { s with out := s.out
              ++ [wb_event.wind (wb_plain_stub GF_FOP_SETATTR frame lk_owner none)] } :=
  ⟨wb_queue_if_ctx_out xl env s (wb_plain_stub GF_FOP_FSYNC frame lk_owner (some fd))
      (fun h => by cases h) (fun h => by cases h),
    wb_queue_if_ctx_out xl env s (wb_plain_stub GF_FOP_SETATTR frame lk_owner none)
      (fun h => by cases h) (fun h => by cases h),
    rfl, rfl⟩

theorem to_size_t_of_nonneg (x : Int) (h0 : 0 ≤ x) (h1 : x < 2 ^ 31) :
    (to_size_t x : Int) = x := by
  unfold to_size_t
  have h2 : x % 2 ^ 64 = x := Int.emod_eq_of_lt h0 (by omega)
  rw [h2]
  exact Int.toNat_of_nonneg h0

/-- C20: on completion of a batch whose head has `total_size` T, with an
`op_ret` that fits `int32_t`: if `op_ret` is -1 the latch becomes (-1, the
callback's `op_errno`); if 0 <= `op_ret` < T it becomes (-1, EIO); if `op_ret`
is T it is left as it was; in each case the callback goes on with
`wb_head_done` and `wb_process_queue`.  No writev is sent for the head again
(the head is not on todo: a request is taken off todo before it is sent). -/
theorem C20_fulfill_cbk_latch (xl : xlator_t) (env : wb_env) (s : wb_state) (head : Nat)
    (op_ret op_errno : Int) (hr : -(2 ^ 31) ≤ op_ret ∧ op_ret < 2 ^ 31)
    (ht : head ∉ s.inode.todo) :
    (op_ret = -1 →
      wb_fulfill_cbk xl env s head op_ret op_errno
        = wb_process_queue xl env (wb_head_done
            { s with
              inflight := list_del head s.inflight
              inode := { s.inode with op_ret := -1, op_errno := op_errno } } head))
    ∧ (0 ≤ op_ret → op_ret < (s.mem head).total_size →
      wb_fulfill_cbk xl env s head op_ret op_errno
        = wb_process_queue xl env (wb_head_done
            { s with
              inflight := list_del head s.inflight
              inode := { s.inode with op_ret := -1, op_errno := EIO } } head))
    ∧ (op_ret = (s.mem head).total_size →
      wb_fulfill_cbk xl env s head op_ret op_errno
        = wb_process_queue xl env (wb_head_done
            { s with inflight := list_del head s.inflight } head))
    ∧ (∃ new, (wb_fulfill_cbk xl env s head op_ret op_errno).out = s.out ++ new
        ∧ ∀ fd vector off flags, wb_event.wind_writev head fd vector off flags ∉ new) := by
  refine ⟨?_, ?_, ?_, ?_⟩
  · intro h1
    unfold wb_fulfill_cbk wb_inode_err
    simp only [h1, if_true]
  · intro h0 h1
    have hne : op_ret ≠ -1 := by omega
    have h2 : to_size_t op_ret < (s.mem head).total_size := by
      have := to_size_t_of_nonneg op_ret h0 hr.2
      omega
    unfold wb_fulfill_cbk wb_inode_err
    simp only [hne, if_false, h2, if_true]
  · intro h1
    have h0 : 0 ≤ op_ret := by rw [h1]; exact Int.ofNat_nonneg _
    have hne : op_ret ≠ -1 := by omega
    have h2 : ¬ to_size_t op_ret < (s.mem head).total_size := by
      have := to_size_t_of_nonneg op_ret h0 hr.2
      omega
    unfold wb_fulfill_cbk
    simp only [hne, if_false, h2]
  · have key : ∀ (s1 : wb_state), s1.out = s.out → s1.inode.todo = s.inode.todo →
        ∃ new, (wb_process_queue xl env (wb_head_done s1 head)).out = s.out ++ new
          ∧ ∀ fd vector off flags, wb_event.wind_writev head fd vector off flags ∉ new := by
      intro s1 ho htd
      obtain ⟨n, e, hn⟩ := wb_process_queue_out xl env (wb_head_done s1 head)
      refine ⟨n, ?_, ?_⟩
      · rw [e, wb_head_done_out, ho]
      · intro fd vector off flags hev
        have h1 : head ∈ (wb_head_done s1 head).inode.todo := hn _ hev
        have h2 := wb_head_done_todo_sub s1 head head h1
        rw [htd] at h2
        exact ht h2
    unfold wb_fulfill_cbk
    simp only
    split
    · exact key _ rfl rfl
    · split
      · exact key _ rfl rfl
      · exact key _ rfl rfl

/-- Witness of C20 on `state_written`, where the batch of write 1 (4 bytes) is
in flight: a completion with `op_ret` 2 latches (-1, EIO). -/
theorem C20_fulfill_cbk_latch_witness :
    (state_written.mem 1).total_size = 4
    ∧ 1 ∉ state_written.inode.todo
    ∧ wb_fulfill_cbk xl_default wb_env_ok state_written 1 2 0
        = wb_process_queue xl_default wb_env_ok (wb_head_done
            { state_written with
              inflight := list_del 1 state_written.inflight
              inode := { state_written.inode with op_ret := -1, op_errno := EIO } } 1)
    ∧ (wb_fulfill_cbk xl_default wb_env_ok state_written 1 2 0).inode.op_ret = -1
    ∧ (wb_fulfill_cbk xl_default wb_env_ok state_written 1 2 0).inode.op_errno = EIO
    ∧ (wb_fulfill_cbk xl_default wb_env_ok state_written 1 2 0).out = state_written.out :=
  ⟨by decide!, by decide!,
    (C20_fulfill_cbk_latch xl_default wb_env_ok state_written 1 2 0 (by decide) (by decide!)).2.1
      (by decide) (by decide!),
    by decide!, by decide!, by decide!⟩

/-! ## What the merge tests and the merge do in the cases they were written for -/

theorem size_t_sub_of_le (a b : Nat) (hb : b ≤ a) (ha : a < 2 ^ 64) :
    size_t_sub a b = a - b := by
  unfold size_t_sub
  have h1 : b % 2 ^ 64 = b := Nat.mod_eq_of_lt (by omega)
  rw [h1]
  have h2 : a + 2 ^ 64 - b = (a - b) + 2 ^ 64 := by omega
  rw [h2, Nat.add_mod_right]
  exact Nat.mod_eq_of_lt (by omega)

/-- The step of `__wb_preprocess_winds` for a tempted request `req` met with a
holder that holds at most `page_size` bytes: `req` is merged only if it starts
where the holder ends, has the holder's lock owner, and fits in the page with
the holder; otherwise the holder's `go` is set and `req` becomes the holder. -/
theorem __wb_preprocess_winds_loop_tempted (xl : xlator_t) (env : wb_env) (s : wb_state)
    (holder req : Nat) (rest : List Nat) (ht : (s.mem req).ordering.tempted = true)
    (hp : xl.page_size < 2 ^ 64) (hh : (s.mem holder).write_size ≤ xl.page_size) :
    __wb_preprocess_winds_loop xl env (req :: rest) s (some holder)
      = if (s.mem req).stub.off
            = to_off_t ((s.mem holder).stub.off + (s.mem holder).write_size)
          ∧ (s.mem req).lk_owner = (s.mem holder).lk_owner
          ∧ (s.mem holder).write_size + (s.mem req).write_size ≤ xl.page_size then
          if (__wb_collapse_small_writes env s holder req).2 ≠ 0 then
            __wb_preprocess_winds_loop xl env rest
              (__wb_collapse_small_writes env s holder req).1 (some holder)
          else
            __wb_preprocess_winds_loop xl env rest
              (__wb_fulfill_request
                { (__wb_collapse_small_writes env s holder req).1 with
                  inode := { (__wb_collapse_small_writes env s holder req).1.inode with
                    todo := list_del req
                      (__wb_collapse_small_writes env s holder req).1.inode.todo } } req)
              (some holder)
        else
          __wb_preprocess_winds_loop xl env rest (wb_set_go s holder) (some req) := by
  have hsub := size_t_sub_of_le xl.page_size (s.mem holder).write_size hh hp
  rw [__wb_preprocess_winds_loop]
  simp only [ht, Bool.not_true, Bool.false_eq_true, if_false, ne_eq, hsub]
  by_cases h1 : (s.mem req).stub.off
      = to_off_t ((s.mem holder).stub.off + (s.mem holder).write_size)
  · by_cases h2 : (s.mem req).lk_owner = (s.mem holder).lk_owner
    · by_cases h3 : (s.mem holder).write_size + (s.mem req).write_size ≤ xl.page_size
      · have h4 : ¬ (xl.page_size - (s.mem holder).write_size < (s.mem req).write_size) := by
          omega
        simp only [h1, h2, h3, h4, not_true_eq_false, if_false, and_self, if_true]
      · have h4 : xl.page_size - (s.mem holder).write_size < (s.mem req).write_size := by
          omega
        simp only [h1, h2, h3, h4, not_true_eq_false, if_false, and_false, if_true]
    · simp only [h1, h2, not_true_eq_false, not_false_eq_true, if_false, if_true, false_and,
        and_false]
  · simp only [h1, not_false_eq_true, if_true, false_and, if_false]

theorem iov_unload_single (v : iovec) : iov_unload [v] = v.iov_base.take v.iov_len := by
  simp [iov_unload, iovec.bytes]

/-- The merge for a holder whose payload is a single iovec of `write_size`
bytes: the holder's payload becomes its previous payload followed by the
payload of `req`, in a single iovec of the new `write_size`; `write_size` and
`ordering.size` grow by `req`'s `write_size`; offset and `orig_size` stay. -/
theorem __wb_collapse_small_writes_single (env : wb_env) (s : wb_state) (holder req : Nat)
    (v : iovec) (hv : (s.mem holder).stub.vector = [v])
    (hl : v.iov_len = (s.mem holder).write_size) (hb : v.iov_len ≤ v.iov_base.length)
    (hr : (iov_unload (s.mem req).stub.vector).length = (s.mem req).write_size)
    (hne : req ≠ holder) (hret : (__wb_collapse_small_writes env s holder req).2 = 0) :
    ((__wb_collapse_small_writes env s holder req).1.mem holder).stub.vector.length = 1
    ∧ iov_unload ((__wb_collapse_small_writes env s holder req).1.mem holder).stub.vector
        = iov_unload (s.mem holder).stub.vector ++ iov_unload (s.mem req).stub.vector
    ∧ (iov_first ((__wb_collapse_small_writes env s holder req).1.mem holder).stub.vector).iov_len
        = ((__wb_collapse_small_writes env s holder req).1.mem holder).write_size
    ∧ ((__wb_collapse_small_writes env s holder req).1.mem holder).write_size
        = (s.mem holder).write_size + (s.mem req).write_size
    ∧ ((__wb_collapse_small_writes env s holder req).1.mem holder).ordering.size
        = (s.mem holder).ordering.size + (s.mem req).write_size
    ∧ ((__wb_collapse_small_writes env s holder req).1.mem holder).stub.off
        = (s.mem holder).stub.off
    ∧ ((__wb_collapse_small_writes env s holder req).1.mem holder).ordering.off
        = (s.mem holder).ordering.off
    ∧ ((__wb_collapse_small_writes env s holder req).1.mem holder).orig_size
        = (s.mem holder).orig_size := by
  rcases __wb_collapse_small_writes_eq env s holder req with he | he
  · rw [he] at hret
    cases hret
  · rw [he]
    simp only [mem_set_eq]
    rw [mem_set_ne _ _ _ _ hne]
    have hsame := wb_holder_buffered_same (s.mem holder)
    -- the holder once it has its own buffer: one iovec with the same bytes
    have hbuf : ∃ w : iovec, (wb_holder_buffered (s.mem holder)).stub.vector = [w]
        ∧ w.iov_len = v.iov_len ∧ w.iov_base.take w.iov_len = v.iov_base.take v.iov_len
        ∧ w.iov_len ≤ w.iov_base.length := by
      unfold wb_holder_buffered
      split
      · refine ⟨_, rfl, ?_, ?_, ?_⟩
        · simp only [hv, iov_first, List.headD_cons]
        · simp only [hv, iov_first, List.headD_cons, iov_unload_single]
          rw [List.take_take, Nat.min_self]
        · simp only [hv, iov_first, List.headD_cons, iov_unload_single, List.length_take]
          omega
      · exact ⟨v, hv, rfl, rfl, hb⟩
    obtain ⟨w, hw, hwl, hwb, hwle⟩ := hbuf
    have hws : (wb_holder_buffered (s.mem holder)).write_size = (s.mem holder).write_size :=
      hsame.2.2.1
    have hstore : buf_store w.iov_base (s.mem holder).write_size
        (iov_unload (s.mem req).stub.vector)
        = w.iov_base.take w.iov_len ++ iov_unload (s.mem req).stub.vector := by
      unfold buf_store
      have h1 : (s.mem holder).write_size - w.iov_base.length = 0 := by omega
      rw [h1, List.replicate_zero, List.append_nil, ← hl, ← hwl]
    have hvec : (wb_holder_append (wb_holder_buffered (s.mem holder)) (s.mem req)).stub.vector
        = [{ iov_base := w.iov_base.take w.iov_len ++ iov_unload (s.mem req).stub.vector
             iov_len := w.iov_len + (s.mem req).write_size }] := by
      unfold wb_holder_append
      simp only [hw, iov_first, List.headD_cons, List.tail_cons, hws, hstore]
    have hf := wb_holder_append_fields (wb_holder_buffered (s.mem holder)) (s.mem req)
    have hsz : (wb_holder_append (wb_holder_buffered (s.mem holder)) (s.mem req)).ordering.size
        = (wb_holder_buffered (s.mem holder)).ordering.size + (s.mem req).write_size := rfl
    have hso : (wb_holder_append (wb_holder_buffered (s.mem holder)) (s.mem req)).stub.off
        = (wb_holder_buffered (s.mem holder)).stub.off := rfl
    have hoo : (wb_holder_append (wb_holder_buffered (s.mem holder)) (s.mem req)).ordering.off
        = (wb_holder_buffered (s.mem holder)).ordering.off := rfl
    rw [hvec, hf.2.2.2.2.1, hf.2.2.2.1, hsz, hso, hoo, hws, hsame.2.1, hsame.2.2.2.1,
      hsame.2.2.2.2.2.2.2.2.2]
    refine ⟨rfl, ?_, ?_, rfl, rfl, rfl, rfl, rfl⟩
    · rw [iov_unload_single, hv, iov_unload_single]
      simp only
      rw [List.take_append_eq_append_take, List.length_take, Nat.min_eq_left hwle]
      have h2 : w.iov_len + (s.mem req).write_size - w.iov_len = (s.mem req).write_size := by
        omega
      have h3 : (List.take w.iov_len w.iov_base).length ≤ w.iov_len + (s.mem req).write_size := by
        rw [List.length_take]
        omega
      have h4 : (iov_unload (s.mem req).stub.vector).length ≤ (s.mem req).write_size := by
        omega
      rw [h2, List.take_of_length_le h3, List.take_of_length_le h4, hwb]
    · simp only [iov_first, List.headD_cons]
      omega

/-! ## Enqueueing -/

/-- C23: the request a successful `wb_enqueue_common` builds carries the
ordering key of its kind.  For a WRITE whose payload size fits `int` (the type
of `op_ret`): `off` is the write offset; `size`, `write_size`, `orig_size` and
`op_ret` are the `iov_length` of the payload; `op_errno` is 0; `append` is set
iff the fd has O_APPEND.  For a READ, `off` and `size` are those of the read;
for TRUNCATE and FTRUNCATE, `off` is the new length and `size` is 0; for every
other kind both are 0. -/
theorem C23_enqueue_ordering_key (env : wb_env) (s : wb_state) (stub : call_stub_t)
    (tempted : Bool) (hc : env.request_calloc = true)
    (_hsz : iov_length stub.vector < 2 ^ 31) :
    (stub.fop = GF_FOP_WRITE →
      (wb_enqueued env s stub tempted).ordering.off = stub.off
      ∧ (wb_enqueued env s stub tempted).ordering.size = iov_length stub.vector
      ∧ (wb_enqueued env s stub tempted).write_size = iov_length stub.vector
      ∧ (wb_enqueued env s stub tempted).orig_size = iov_length stub.vector
      ∧ (wb_enqueued env s stub tempted).op_ret = iov_length stub.vector
      ∧ (wb_enqueued env s stub tempted).op_errno = 0
      ∧ ((wb_enqueued env s stub tempted).ordering.append = true
          ↔ Nat.land (stub_fd_flags stub) O_APPEND ≠ 0))
    ∧ (stub.fop = GF_FOP_READ →
      (wb_enqueued env s stub tempted).ordering.off = stub.off
      ∧ (wb_enqueued env s stub tempted).ordering.size = stub.size)
    ∧ (stub.fop = GF_FOP_TRUNCATE ∨ stub.fop = GF_FOP_FTRUNCATE →
      (wb_enqueued env s stub tempted).ordering.off = stub.off
      ∧ (wb_enqueued env s stub tempted).ordering.size = 0)
    ∧ (stub.fop ≠ GF_FOP_WRITE → stub.fop ≠ GF_FOP_READ → stub.fop ≠ GF_FOP_TRUNCATE →
        stub.fop ≠ GF_FOP_FTRUNCATE →
      (wb_enqueued env s stub tempted).ordering.off = 0
      ∧ (wb_enqueued env s stub tempted).ordering.size = 0) := by
  unfold wb_enqueued
  rw [wb_enqueue_common_eq env s stub tempted hc]
  simp only [mem_set_eq]
  have hi : to_int (iov_length stub.vector) = iov_length stub.vector :=
    to_int_of_range _ (by omega) (by exact_mod_cast _hsz)
  refine ⟨?_, ?_, ?_, ?_⟩
  · intro h
    unfold wb_request_init
    simp [h, wb_request_zero, hi]
  · intro h
    unfold wb_request_init
    simp [h, wb_request_zero]
  · intro h
    unfold wb_request_init
    rcases h with h | h <;> simp [h, wb_request_zero]
  · intro h1 h2 h3 h4
    unfold wb_request_init
    cases hf : stub.fop <;> simp_all [wb_request_zero]

/-- Witness of C23: a write of 4 bytes at offset 8 on an fd opened with
O_APPEND, enqueued on `state_written`. -/
theorem C23_enqueue_ordering_key_witness :
    (wb_enqueued wb_env_ok state_written stub_write_append true).ordering.off = 8
    ∧ (wb_enqueued wb_env_ok state_written stub_write_append true).ordering.size = 4
    ∧ (wb_enqueued wb_env_ok state_written stub_write_append true).write_size = 4
    ∧ (wb_enqueued wb_env_ok state_written stub_write_append true).orig_size = 4
    ∧ (wb_enqueued wb_env_ok state_written stub_write_append true).op_ret = 4
    ∧ (wb_enqueued wb_env_ok state_written stub_write_append true).op_errno = 0
    ∧ (wb_enqueued wb_env_ok state_written stub_write_append true).ordering.append = true := by
  have h := (C23_enqueue_ordering_key wb_env_ok state_written stub_write_append true rfl
    (by decide)).1 rfl
  refine ⟨h.1, h.2.1, h.2.2.1, h.2.2.2.1, h.2.2.2.2.1, h.2.2.2.2.2.1, ?_⟩
  exact h.2.2.2.2.2.2.2 (by decide)

/-- C24: a successful `wb_enqueue_common` puts the new request, at the address
`s.next`, at the tail of `all` and of todo with `gen` the inode's current
`gen`.  A non-tempted request ends with `refcount` 1 and temptation is left as
it was; a tempted one is also put at the tail of temptation and ends with
`refcount` 2.  Liability, the inode's `gen`, `window_current`, `transit`,
`window_conf`, the latch, the batches in flight, the calls made and every
other request are unchanged. -/
theorem C24_enqueue_frame (env : wb_env) (s : wb_state) (stub : call_stub_t) (tempted : Bool)
    (hc : env.request_calloc = true) :
    (wb_enqueue_common env s stub tempted).2 = true
    ∧ (wb_enqueue_common env s stub tempted).1.inode.all = s.inode.all ++ [s.next]
    ∧ (wb_enqueue_common env s stub tempted).1.inode.todo = s.inode.todo ++ [s.next]
    ∧ ((wb_enqueue_common env s stub tempted).1.mem s.next).gen = s.inode.gen
    ∧ ((wb_enqueue_common env s stub tempted).1.mem s.next).ordering.tempted = tempted
    ∧ ((wb_enqueue_common env s stub tempted).1.mem s.next).stub = stub
    ∧ ((wb_enqueue_common env s stub tempted).1.mem s.next).refcount
        = (if tempted then 2 else 1)
    ∧ (wb_enqueue_common env s stub tempted).1.inode.temptation
        = (if tempted then s.inode.temptation ++ [s.next] else s.inode.temptation)
    ∧ (wb_enqueue_common env s stub tempted).1.inode.liability = s.inode.liability
    ∧ (wb_enqueue_common env s stub tempted).1.inode.gen = s.inode.gen
    ∧ (wb_enqueue_common env s stub tempted).1.inode.window_current = s.inode.window_current
    ∧ (wb_enqueue_common env s stub tempted).1.inode.window_conf = s.inode.window_conf
    ∧ (wb_enqueue_common env s stub tempted).1.inode.transit = s.inode.transit
    ∧ (wb_enqueue_common env s stub tempted).1.inode.op_ret = s.inode.op_ret
    ∧ (wb_enqueue_common env s stub tempted).1.inode.op_errno = s.inode.op_errno
    ∧ (wb_enqueue_common env s stub tempted).1.ctx = s.ctx
    ∧ (wb_enqueue_common env s stub tempted).1.inflight = s.inflight
    ∧ (wb_enqueue_common env s stub tempted).1.out = s.out
    ∧ (wb_enqueue_common env s stub tempted).1.next = s.next + 1
    ∧ ∀ a, a ≠ s.next → (wb_enqueue_common env s stub tempted).1.mem a = s.mem a := by
  rw [wb_enqueue_common_eq env s stub tempted hc]
  have hstub : (wb_request_init stub tempted).stub = stub := by
    unfold wb_request_init
    cases hf : stub.fop <;> simp [wb_request_zero]
  refine ⟨rfl, rfl, rfl, ?_, ?_, ?_, ?_, rfl, rfl, rfl, rfl, rfl, rfl, rfl, rfl, rfl, rfl, rfl,
    rfl, ?_⟩
  · simp only [mem_set_eq]
  · simp only [mem_set_eq]
    exact (wb_request_init_fields stub tempted).1
  · simp only [mem_set_eq]
    exact hstub
  · simp only [mem_set_eq]
  · intro a ha
    exact mem_set_ne _ _ _ _ ha

/-- Witness of C24: a buffered write of 4 bytes at offset 8 enqueued on
`state_written`, where write 1 is on `all` and liability and the next free
address is 2. -/
theorem C24_enqueue_frame_witness :
    state_written.inode.all = [1] ∧ state_written.next = 2
    ∧ (wb_enqueue_common wb_env_ok state_written (stub_write 3 4 66 8) true).1.inode.all = [1, 2]
    ∧ (wb_enqueue_common wb_env_ok state_written (stub_write 3 4 66 8) true).1.inode.temptation
        = [2]
    ∧ ((wb_enqueue_common wb_env_ok state_written (stub_write 3 4 66 8) true).1.mem 2).refcount
        = 2
    ∧ (wb_enqueue_common wb_env_ok state_written (stub_write 3 4 66 8) true).1.inode.liability
        = state_written.inode.liability :=
  ⟨by decide!, by decide!,
   (C24_enqueue_frame wb_env_ok state_written (stub_write 3 4 66 8) true rfl).2.1,
   (C24_enqueue_frame wb_env_ok state_written (stub_write 3 4 66 8) true rfl).2.2.2.2.2.2.2.1,
   (C24_enqueue_frame wb_env_ok state_written (stub_write 3 4 66 8) true rfl).2.2.2.2.2.2.1,
   (C24_enqueue_frame wb_env_ok state_written (stub_write 3 4 66 8) true rfl).2.2.2.2.2.2.2.2.1⟩

/-! ## The decision to buffer a write -/

theorem lor_eq_zero (a b : Nat) : a ||| b = 0 ↔ a = 0 ∧ b = 0 := by
  constructor
  · intro h
    have key : ∀ i, a.testBit i = false ∧ b.testBit i = false := by
      intro i
      have h1 : (a ||| b).testBit i = false := by rw [h]; exact Nat.zero_testBit i
      rw [Nat.testBit_or] at h1
      simpa using h1
    constructor
    · apply Nat.eq_of_testBit_eq
      intro i
      rw [(key i).1, Nat.zero_testBit]
    · apply Nat.eq_of_testBit_eq
      intro i
      rw [(key i).2, Nat.zero_testBit]
  · rintro ⟨rfl, rfl⟩
    rfl

theorem land_lor_ne_zero (a b c : Nat) :
    Nat.land a (Nat.lor b c) ≠ 0 ↔ Nat.land a b ≠ 0 ∨ Nat.land a c ≠ 0 := by
  show a &&& (b ||| c) ≠ 0 ↔ a &&& b ≠ 0 ∨ a &&& c ≠ 0
  rw [Nat.and_or_distrib_left, ne_eq, lor_eq_zero]
  tauto

/-- The flags that make `wb_writev` set `wb_disabled`. -/
theorem wb_writev_disabled_iff (xl : xlator_t) (fd : fd_t) (flags : Nat) :
    wb_writev_disabled xl fd flags = true
      ↔ (Nat.land fd.flags O_SYNC ≠ 0 ∨ Nat.land fd.flags O_DSYNC ≠ 0
          ∨ (xl.priv.strict_O_DIRECT = true ∧ Nat.land fd.flags O_DIRECT ≠ 0))
        ∨ (Nat.land flags O_SYNC ≠ 0 ∨ Nat.land flags O_DSYNC ≠ 0
          ∨ Nat.land flags O_DIRECT ≠ 0) := by
  unfold wb_writev_disabled
  simp only [Bool.or_eq_true, decide_eq_true_eq, land_lor_ne_zero]
  cases hs : xl.priv.strict_O_DIRECT
  · have h0 : Nat.land fd.flags 0 = 0 := Nat.and_zero _
    simp [h0]
    tauto
  · simp
    tauto

/-- What `wb_writev` does when the inode context can be had, no error is
latched, and the stub and the request can be had: the write is enqueued, as
tempted unless `wb_disabled` is set, and `wb_process_queue` runs. -/
theorem wb_writev_enqueues (xl : xlator_t) (env : wb_env) (s s1 : wb_state)
    (frame lk_owner : Nat) (fd : fd_t) (vector : List iovec) (offset : Int) (flags : Nat)
    (hi : wb_inode_create xl env s = some s1)
    (hl : ¬ (s1.inode.op_ret < 0 ∧ s1.inode.op_errno ≠ 0))
    (hs : env.fop_stub = true) (hr : env.request_calloc = true) :
    wb_writev xl env s frame lk_owner fd vector offset flags
      = wb_process_queue xl env (wb_enqueue_common env
          { s1 with inode := { s1.inode with op_ret := 0 } }
          { fop := GF_FOP_WRITE, frame := frame, lk_owner := lk_owner, fd := some fd,
            vector := vector, off := offset, size := 0, flags := flags }
          (!wb_writev_disabled xl fd flags)).1 := by
  have hen : ∀ (s2 : wb_state) (t : Bool), (wb_enqueue_common env s2
      { fop := GF_FOP_WRITE, frame := frame, lk_owner := lk_owner, fd := some fd,
        vector := vector, off := offset, size := 0, flags := flags } t).2 = true := by
    intro s2 t
    rw [wb_enqueue_common_eq env _ _ _ hr]
  have he : (if s1.inode.op_ret < 0 then s1.inode.op_errno else 0) = 0 := by
    split
    · rename_i h
      by_contra h2
      exact hl ⟨h, h2⟩
    · rfl
  unfold wb_writev
  rw [hi]
  simp only [he, ne_eq, not_true_eq_false, if_false, hs, Bool.not_true, Bool.false_eq_true]
  cases hd : wb_writev_disabled xl fd flags
  · have hd1 := hd
    unfold wb_writev_disabled at hd1
    simp only at hd1
    simp only [hd1, Bool.false_eq_true, if_false, wb_enqueue_tempted, Bool.not_false, hen,
      Bool.not_true]
  · have hd1 := hd
    unfold wb_writev_disabled at hd1
    simp only at hd1
    simp only [hd1, if_true, wb_enqueue, Bool.not_true, hen, Bool.false_eq_true, if_false]

/-- C25 (counterexample), evaluated on the code in the default configuration
(strict-O_DIRECT off): a write of 4 bytes on an fd opened with O_DIRECT, the
call's own flags being 0, is enqueued as tempted; it is acknowledged to its
caller at once and sent down as a batch of the fulfiller. -/
theorem C25_direct_fd_is_tempted :
    xl_default.priv.strict_O_DIRECT = false
    ∧ Nat.land fd_direct.flags O_DIRECT ≠ 0
    ∧ wb_writev_disabled xl_default fd_direct 0 = false
    ∧ ((wb_writev xl_default wb_env_ok (wb_state_init xl_default) 1 7 fd_direct
          (iov_fill 4 65) 0 0).mem 1).ordering.tempted = true
    ∧ (wb_writev xl_default wb_env_ok (wb_state_init xl_default) 1 7 fd_direct
          (iov_fill 4 65) 0 0).out
        = [wb_event.unwind GF_FOP_WRITE 1 4 0,
           wb_event.wind_writev 1 100 (iov_fill 4 65) 0 0] := by
  decide!

/-- C25 (amended): when the inode context can be had, no error is latched, and
the stub and the request can be had, `wb_writev` enqueues the write and runs
`wb_process_queue`.  The write is enqueued as non-tempted iff the fd was
opened with O_SYNC or O_DSYNC, or strict-O_DIRECT is configured and the fd was
opened with O_DIRECT, or the call's own flags hold O_SYNC, O_DSYNC or
O_DIRECT; in every other case it is enqueued as tempted.  O_DIRECT on the fd
alone does not count unless strict-O_DIRECT is configured. -/
theorem C25_writev_tempted_iff (xl : xlator_t) (env : wb_env) (s s1 : wb_state)
    (frame lk_owner : Nat) (fd : fd_t) (vector : List iovec) (offset : Int) (flags : Nat)
    (hi : wb_inode_create xl env s = some s1)
    (hl : ¬ (s1.inode.op_ret < 0 ∧ s1.inode.op_errno ≠ 0))
    (hs : env.fop_stub = true) (hr : env.request_calloc = true) :
    wb_writev xl env s frame lk_owner fd vector offset flags
      = wb_process_queue xl env (wb_enqueue_common env
          { s1 with inode := { s1.inode with op_ret := 0 } }
          { fop := GF_FOP_WRITE, frame := frame, lk_owner := lk_owner, fd := some fd,
            vector := vector, off := offset, size := 0, flags := flags }
          (!wb_writev_disabled xl fd flags)).1
    ∧ ((wb_enqueued env { s1 with inode := { s1.inode with op_ret := 0 } }
          { fop := GF_FOP_WRITE, frame := frame, lk_owner := lk_owner, fd := some fd,
            vector := vector, off := offset, size := 0, flags := flags }
          (!wb_writev_disabled xl fd flags)).ordering.tempted = false
        ↔ (Nat.land fd.flags O_SYNC ≠ 0 ∨ Nat.land fd.flags O_DSYNC ≠ 0
            ∨ (xl.priv.strict_O_DIRECT = true ∧ Nat.land fd.flags O_DIRECT ≠ 0))
          ∨ (Nat.land flags O_SYNC ≠ 0 ∨ Nat.land flags O_DSYNC ≠ 0
            ∨ Nat.land flags O_DIRECT ≠ 0)) := by
  refine ⟨wb_writev_enqueues xl env s s1 frame lk_owner fd vector offset flags hi hl hs hr, ?_⟩
  rw [← wb_writev_disabled_iff]
  unfold wb_enqueued
  rw [wb_enqueue_common_eq env _ _ _ hr]
  simp only [mem_set_eq]
  rw [(wb_request_init_fields _ _).1]
  cases wb_writev_disabled xl fd flags <;> simp

/-- Witness of C25 (amended) on a fresh inode in the default configuration: a
write whose own flags hold O_DIRECT is enqueued as non-tempted. -/
theorem C25_writev_tempted_iff_witness :
    wb_inode_create xl_default wb_env_ok (wb_state_init xl_default)
      = some { wb_state_init xl_default with ctx := true, inode := wb_inode_zero xl_default }
    ∧ (wb_enqueued wb_env_ok
        { wb_state_init xl_default with
          ctx := true
          inode := { wb_inode_zero xl_default with op_ret := 0 } }
        { fop := GF_FOP_WRITE, frame := 1, lk_owner := 7, fd := some fd_plain,
          vector := iov_fill 4 65, off := 0, size := 0, flags := O_DIRECT }
        (!wb_writev_disabled xl_default fd_plain O_DIRECT)).ordering.tempted = false :=
  ⟨rfl,
   ((C25_writev_tempted_iff xl_default wb_env_ok (wb_state_init xl_default)
      { wb_state_init xl_default with ctx := true, inode := wb_inode_zero xl_default }
      1 7 fd_plain (iov_fill 4 65) 0 O_DIRECT rfl (by decide) rfl rfl).2).2
      (Or.inr (Or.inr (Or.inr (by decide))))⟩

/-! ## Generations and the reset of an idle inode -/

/-- C26: in every reachable state every request on `all` has a `gen` that is
at most the inode's `gen`. -/
theorem C26_request_gen_le_inode_gen (xl : xlator_t) (s : wb_state) (h : Reachable xl s)
    (a : Nat) (ha : a ∈ s.inode.all) : (s.mem a).gen ≤ s.inode.gen :=
  ((wb_liability_inv.reachable xl s h).gen_le a ha).1

/-- Witness of C26 on the reachable state `state_read_waiting`, where the read
(request 4) is on `all`. -/
theorem C26_request_gen_le_inode_gen_witness :
    Reachable xl_window16 state_read_waiting
    ∧ 4 ∈ state_read_waiting.inode.all
    ∧ (state_read_waiting.mem 4).gen ≤ state_read_waiting.inode.gen :=
  ⟨Reachable.run _ _ _ Reachable.init (by decide!), by decide!,
    C26_request_gen_le_inode_gen xl_window16 state_read_waiting
      (Reachable.run _ _ _ Reachable.init (by decide!)) 4 (by decide!)⟩

/-- C28: `__wb_request_unref` takes the request off `all` exactly when its
count goes from 1 to 0.  If `all` is empty after that removal, the inode's
`gen` and `window_current` are set to 0; in every other case (the request is
removed and `all` stays non-empty, or the request is not removed) both are
left as they were. -/
theorem C28_unref_resets_idle_inode (s : wb_state) (req : Nat) :
    (__wb_request_unref s req).inode.all
      = (if (s.mem req).refcount = 1 then list_del req s.inode.all else s.inode.all)
    ∧ (__wb_request_unref s req).inode.gen
      = (if (s.mem req).refcount = 1 ∧ list_del req s.inode.all = [] then 0 else s.inode.gen)
    ∧ (__wb_request_unref s req).inode.window_current
      = (if (s.mem req).refcount = 1 ∧ list_del req s.inode.all = [] then 0
          else s.inode.window_current) := by
  rw [__wb_request_unref_eq]
  by_cases h0 : (s.mem req).refcount ≤ 0
  · have h1 : ¬ (s.mem req).refcount = 1 := by omega
    have h4 : ¬ ((s.mem req).refcount = 1 ∧ list_del req s.inode.all = []) := fun h => h1 h.1
    rw [if_pos h0]
    exact ⟨by rw [if_neg h1], by rw [if_neg h4], by rw [if_neg h4]⟩
  · by_cases h1 : (s.mem req).refcount = 1
    · have h2 : (s.mem req).refcount - 1 = 0 := by omega
      rw [if_neg h0, if_pos h2]
      unfold wb_request_destroy
      simp only [List.isEmpty_iff]
      by_cases h3 : list_del req s.inode.all = []
      · have h4 : (s.mem req).refcount = 1 ∧ list_del req s.inode.all = [] := ⟨h1, h3⟩
        rw [if_pos h3]
        exact ⟨by rw [if_pos h1], by rw [if_pos h4], by rw [if_pos h4]⟩
      · have h4 : ¬ ((s.mem req).refcount = 1 ∧ list_del req s.inode.all = []) :=
          fun h => h3 h.2
        rw [if_neg h3]
        exact ⟨by rw [if_pos h1], by rw [if_neg h4], by rw [if_neg h4]⟩
    · have h2 : ¬ (s.mem req).refcount - 1 = 0 := by omega
      have h4 : ¬ ((s.mem req).refcount = 1 ∧ list_del req s.inode.all = []) := fun h => h1 h.1
      rw [if_neg h0, if_neg h2]
      exact ⟨by rw [if_neg h1], by rw [if_neg h4], by rw [if_neg h4]⟩

/-! ## The rule for the last holder -/

/-- C29: let `h` be the holder the scan of `__wb_preprocess_winds` ends with.
If trickling-writes is on and `transit` is 0, the result is the state the
scan left with `go` set on `h` and nothing else changed; if trickling-writes
is off or `transit` is not 0, the result is the state just as the scan left
it, the holder's `go` flag included. -/
theorem C29_trickling_sets_go (xl : xlator_t) (env : wb_env) (s : wb_state) (h : Nat)
    (hh : (__wb_preprocess_winds_loop xl env s.inode.todo s none).2 = some h) :
    __wb_preprocess_winds xl env s
      = (if xl.priv.trickling_writes = true
            ∧ (__wb_preprocess_winds_loop xl env s.inode.todo s none).1.inode.transit = 0 then
          wb_set_go (__wb_preprocess_winds_loop xl env s.inode.todo s none).1 h
        else (__wb_preprocess_winds_loop xl env s.inode.todo s none).1)
    ∧ ((wb_set_go (__wb_preprocess_winds_loop xl env s.inode.todo s none).1 h).mem h).ordering.go
        = true
    ∧ (wb_set_go (__wb_preprocess_winds_loop xl env s.inode.todo s none).1 h).mem h
        = { (__wb_preprocess_winds_loop xl env s.inode.todo s none).1.mem h with
            ordering :=
              { ((__wb_preprocess_winds_loop xl env s.inode.todo s none).1.mem h).ordering with
                go := true } }
    ∧ (∀ a, a ≠ h →
        (wb_set_go (__wb_preprocess_winds_loop xl env s.inode.todo s none).1 h).mem a
          = (__wb_preprocess_winds_loop xl env s.inode.todo s none).1.mem a)
    ∧ (wb_set_go (__wb_preprocess_winds_loop xl env s.inode.todo s none).1 h).inode
        = (__wb_preprocess_winds_loop xl env s.inode.todo s none).1.inode := by
  refine ⟨?_, ?_, ?_, ?_, rfl⟩
  · unfold __wb_preprocess_winds
    simp only [hh, Bool.and_eq_true, decide_eq_true_eq]
  · unfold wb_set_go
    simp only [mem_set_eq]
  · unfold wb_set_go
    simp only [mem_set_eq]
  · intro a ha
    unfold wb_set_go
    exact mem_set_ne _ _ _ _ ha

/-- Witness of C29.  On `state_first_queued` (nothing in transit, default
configuration) the scan ends with write 1 as the holder and the rule sets its
`go`; on `state_split_holder_queued` (4 bytes in transit) the scan ends with
write 2 as the holder and its `go` stays clear. -/
theorem C29_trickling_sets_go_witness :
    (__wb_preprocess_winds_loop xl_default wb_env_ok state_first_queued.inode.todo
        state_first_queued none).2 = some 1
    ∧ ((__wb_preprocess_winds_loop xl_default wb_env_ok state_first_queued.inode.todo
        state_first_queued none).1.mem 1).ordering.go = false
    ∧ ((__wb_preprocess_winds xl_default wb_env_ok state_first_queued).mem 1).ordering.go = true
    ∧ (__wb_preprocess_winds_loop xl_default wb_env_ok state_split_holder_queued.inode.todo
        state_split_holder_queued none).1.inode.transit = 4
    ∧ __wb_preprocess_winds xl_default wb_env_ok state_split_holder_queued
        = (__wb_preprocess_winds_loop xl_default wb_env_ok state_split_holder_queued.inode.todo
            state_split_holder_queued none).1
    ∧ ((__wb_preprocess_winds xl_default wb_env_ok state_split_holder_queued).mem 2).ordering.go
        = false := by
  have h1 := C29_trickling_sets_go xl_default wb_env_ok state_first_queued 1 (by decide!)
  have h2 := C29_trickling_sets_go xl_default wb_env_ok state_split_holder_queued 2 (by decide!)
  have t2 : (__wb_preprocess_winds_loop xl_default wb_env_ok state_split_holder_queued.inode.todo
      state_split_holder_queued none).1.inode.transit = 4 := by decide!
  refine ⟨by decide!, by decide!, ?_, t2, ?_, by decide!⟩
  · rw [h1.1, if_pos ⟨rfl, by decide!⟩]
    exact h1.2.1
  · rw [h2.1, if_neg]
    rw [t2]
    intro h
    exact absurd h.2 (by decide)

/-! ## Scenario S1 -/

theorem wb_latch_kept.kept_refl (s : wb_state) : wb_latch_kept s s :=
  ⟨rfl, rfl, rfl, fun _ => rfl, fun _ h => h⟩

theorem wb_latch_kept.kept_trans {s s1 s2 : wb_state} (h : wb_latch_kept s s1)
    (h1 : wb_latch_kept s1 s2) : wb_latch_kept s s2 :=
  ⟨h1.ctx.trans h.ctx, h1.op_ret.trans h.op_ret, h1.op_errno.trans h.op_errno,
    fun a => (h1.fop a).trans (h.fop a), fun a ha => h.todo a (h1.todo a ha)⟩

theorem wb_request_destroy_latch (ino : wb_inode) (x : Nat) :
    (wb_request_destroy ino x).op_ret = ino.op_ret
    ∧ (wb_request_destroy ino x).op_errno = ino.op_errno
    ∧ (wb_request_destroy ino x).gen ≤ ino.gen := by
  unfold wb_request_destroy
  simp only [List.isEmpty_iff]
  split
  · exact ⟨rfl, rfl, Nat.zero_le _⟩
  · exact ⟨rfl, rfl, Nat.le_refl _⟩

theorem mem_set_fop (mem : Nat → wb_request) (x : Nat) (r : wb_request)
    (h : r.stub.fop = (mem x).stub.fop) (a : Nat) :
    (mem_set mem x r a).stub.fop = (mem a).stub.fop := by
  by_cases ha : a = x
  · subst ha
    rw [mem_set_eq]
    exact h
  · rw [mem_set_ne _ _ _ _ ha]

theorem __wb_request_unref_latch (s : wb_state) (x : Nat) :
    wb_latch_kept s (__wb_request_unref s x) := by
  rw [__wb_request_unref_eq]
  split
  · exact wb_latch_kept.kept_refl s
  · split
    · exact ⟨rfl, (wb_request_destroy_latch _ _).1, (wb_request_destroy_latch _ _).2.1,
        mem_set_fop _ _ _ rfl, fun a ha => by
          rw [(wb_request_destroy_fields _ _).2.1] at ha
          exact ((mem_list_del_iff _ _ _).1 ha).1⟩
    · exact ⟨rfl, rfl, rfl, mem_set_fop _ _ _ rfl, fun _ h => h⟩

theorem __wb_fulfill_request_latch (s : wb_state) (x : Nat) :
    wb_latch_kept s (__wb_fulfill_request s x) := by
  rw [__wb_fulfill_request_eq]
  split
  · exact ⟨rfl, rfl, rfl, mem_set_fop _ _ _ rfl, fun _ h => h⟩
  · split
    · exact ⟨rfl, (wb_request_destroy_latch _ _).1, (wb_request_destroy_latch _ _).2.1,
        mem_set_fop _ _ _ rfl, fun a ha => by
          rw [(wb_request_destroy_fields _ _).2.1] at ha
          exact ((mem_list_del_iff _ _ _).1 ha).1⟩
    · exact ⟨rfl, rfl, rfl, mem_set_fop _ _ _ rfl, fun _ h => h⟩

theorem wb_head_done_loop_latch (l : List Nat) :
    ∀ (s : wb_state), wb_latch_kept s (wb_head_done_loop l s) := by
  induction l with
  | nil => intro s; exact wb_latch_kept.kept_refl s
  | cons x l ih =>
    intro s
    simp only [wb_head_done_loop]
    exact (__wb_fulfill_request_latch s x).kept_trans (ih _)

theorem wb_head_done_latch (s : wb_state) (head : Nat) :
    wb_latch_kept s (wb_head_done s head) := by
  unfold wb_head_done
  exact (wb_head_done_loop_latch _ s).kept_trans (__wb_fulfill_request_latch _ head)

theorem wb_set_go_latch (s : wb_state) (x : Nat) : wb_latch_kept s (wb_set_go s x) := by
  unfold wb_set_go
  exact ⟨rfl, rfl, rfl, mem_set_fop _ _ _ rfl, fun _ h => h⟩

theorem __wb_collapse_small_writes_latch (env : wb_env) (s : wb_state) (holder req : Nat) :
    wb_latch_kept s (__wb_collapse_small_writes env s holder req).1 := by
  rcases __wb_collapse_small_writes_eq env s holder req with he | he
  · rw [he]
    exact wb_latch_kept.kept_refl s
  · rw [he]
    refine ⟨rfl, rfl, rfl, mem_set_fop _ _ _ ?_, fun _ h => h⟩
    unfold wb_holder_append wb_holder_buffered
    split <;> rfl

theorem __wb_preprocess_winds_loop_latch (xl : xlator_t) (env : wb_env) (l : List Nat) :
    ∀ (s : wb_state) (holder : Option Nat),
      wb_latch_kept s (__wb_preprocess_winds_loop xl env l s holder).1 := by
  induction l with
  | nil => intro s holder; exact wb_latch_kept.kept_refl s
  | cons req rest ih =>
    intro s holder
    have hgo : ∀ (hd : Nat) (ho : Option Nat),
        wb_latch_kept s (__wb_preprocess_winds_loop xl env rest (wb_set_go s hd) ho).1 :=
      fun hd ho => (wb_set_go_latch s hd).kept_trans (ih _ ho)
    unfold __wb_preprocess_winds_loop
    split
    · split
      · split
        · exact hgo _ _
        · exact ih _ _
      · exact ih _ _
    · split
      · exact ih _ _
      · simp only
        split
        · exact hgo _ _
        · split
          · exact hgo _ _
          · split
            · exact hgo _ _
            · rename_i hd _ _ _
              have hc := __wb_collapse_small_writes_latch env s hd req
              split
              · exact hc.kept_trans (ih _ _)
              · refine (hc.kept_trans ?_).kept_trans (ih _ _)
                refine @wb_latch_kept.kept_trans _
                  { (__wb_collapse_small_writes env s hd req).1 with
                    inode := { (__wb_collapse_small_writes env s hd req).1.inode with
                      todo := list_del req
                        (__wb_collapse_small_writes env s hd req).1.inode.todo } } _
                  ⟨rfl, rfl, rfl, fun _ => rfl, fun a ha => ((mem_list_del_iff _ _ _).1 ha).1⟩
                  (__wb_fulfill_request_latch _ req)

theorem __wb_preprocess_winds_latch (xl : xlator_t) (env : wb_env) (s : wb_state) :
    wb_latch_kept s (__wb_preprocess_winds xl env s) := by
  have h1 := __wb_preprocess_winds_loop_latch xl env s.inode.todo s none
  unfold __wb_preprocess_winds
  simp only
  split
  · split
    · exact h1.kept_trans (wb_set_go_latch _ _)
    · exact h1
  · exact h1

theorem __wb_pick_winds_latch (xl : xlator_t) (s : wb_state) (tasks liabilities : List Nat) :
    wb_latch_kept s (__wb_pick_winds xl s tasks liabilities).1 := by
  rw [__wb_pick_winds_eq]
  exact ⟨rfl, rfl, rfl, fun _ => rfl, fun a ha => (List.mem_filter.1 ha).1⟩

theorem __wb_pick_unwinds_latch (s : wb_state) (lies : List Nat) :
    wb_latch_kept s (__wb_pick_unwinds s lies).1 := by
  unfold __wb_pick_unwinds
  rw [__wb_pick_unwinds_loop_eq]
  refine ⟨rfl, rfl, rfl, ?_, fun _ h => h⟩
  intro a
  simp only
  split
  · rfl
  · rfl

theorem wb_do_unwinds_latch (lies : List Nat) :
    ∀ (s : wb_state), wb_latch_kept s (wb_do_unwinds s lies) := by
  induction lies with
  | nil => intro s; exact wb_latch_kept.kept_refl s
  | cons req rest ih =>
    intro s
    simp only [wb_do_unwinds]
    refine wb_latch_kept.kept_trans ?_ (ih _)
    unfold wb_request_unref
    exact @wb_latch_kept.kept_trans _
      { s with out := s.out ++ [wb_event.unwind GF_FOP_WRITE (s.mem req).stub.frame
          (s.mem req).op_ret (s.mem req).op_errno] } _
      ⟨rfl, rfl, rfl, fun _ => rfl, fun _ h => h⟩ (__wb_request_unref_latch _ req)

/-- Resuming a call that is not a flush leaves the latch alone. -/
theorem call_resume_latch (xl : xlator_t) (env : wb_env) (s : wb_state) (stub : call_stub_t)
    (hf : stub.fop ≠ GF_FOP_FLUSH) : wb_latch_kept s (call_resume xl env s stub) := by
  unfold call_resume
  split
  · rename_i h
    exact absurd h hf
  · exact ⟨rfl, rfl, rfl, fun _ => rfl, fun _ h => h⟩

theorem wb_do_winds_latch (xl : xlator_t) (env : wb_env) (tasks : List Nat) :
    ∀ (s : wb_state), (∀ a ∈ tasks, (s.mem a).stub.fop ≠ GF_FOP_FLUSH) →
      wb_latch_kept s (wb_do_winds xl env s tasks) := by
  induction tasks with
  | nil => intro s _; exact wb_latch_kept.kept_refl s
  | cons req rest ih =>
    intro s hf
    simp only [wb_do_winds]
    have h1 : wb_latch_kept s (wb_request_unref (call_resume xl env s (s.mem req).stub) req) := by
      unfold wb_request_unref
      exact (call_resume_latch xl env s _ (hf req (List.mem_cons_self _ _))).kept_trans
        (__wb_request_unref_latch _ req)
    refine h1.kept_trans (ih _ ?_)
    intro a ha
    rw [h1.fop a]
    exact hf a (List.mem_cons_of_mem _ ha)

theorem wb_fulfill_head_latch (env : wb_env) (s : wb_state) (head : Nat)
    (hcf : env.create_frame head = true) : wb_latch_kept s (wb_fulfill_head env s head) := by
  unfold wb_fulfill_head
  rw [if_neg (by simp [hcf])]
  simp only [WB_IOV_LOAD]
  rw [wb_fulfill_head_loop_spec]
  refine ⟨rfl, rfl, rfl, ?_, fun _ h => h⟩
  intro a
  by_cases ha : a = head
  · subst ha
    simp only [mem_set, if_true]
  · simp only [mem_set, ha, if_false]

theorem NEXT_HEAD_latch (env : wb_env) (s : wb_state) (l : wb_fulfill_locals) (req : Nat)
    (hcf : ∀ hd, env.create_frame hd = true) : wb_latch_kept s (NEXT_HEAD env s l req).1 := by
  unfold NEXT_HEAD
  simp only
  split
  · exact wb_fulfill_head_latch env s _ (hcf _)
  · exact wb_latch_kept.kept_refl s

theorem wb_fulfill_loop_latch (xl : xlator_t) (env : wb_env)
    (hcf : ∀ hd, env.create_frame hd = true) (rest : List Nat) :
    ∀ (s : wb_state) (l : wb_fulfill_locals),
      wb_latch_kept s (wb_fulfill_loop xl env rest s l).1 := by
  induction rest with
  | nil => intro s l; exact wb_latch_kept.kept_refl s
  | cons req rest ih =>
    intro s l
    rw [wb_fulfill_loop]
    split
    · exact (NEXT_HEAD_latch env s l req hcf).kept_trans (ih _ _)
    · split
      · exact (NEXT_HEAD_latch env s l req hcf).kept_trans (ih _ _)
      · rename_i head _ _
        exact @wb_latch_kept.kept_trans _
          { s with mem := (mem_set s.mem head
              { s.mem head with winds := (s.mem head).winds ++ [req] }) } _
          ⟨rfl, rfl, rfl, mem_set_fop _ _ _ rfl, fun _ h => h⟩ (ih _ _)

theorem wb_fulfill_latch (xl : xlator_t) (env : wb_env) (s : wb_state) (liabilities : List Nat)
    (hcf : ∀ hd, env.create_frame hd = true) :
    wb_latch_kept s (wb_fulfill xl env s liabilities) := by
  have h := wb_fulfill_loop_latch xl env hcf liabilities s
    { head := none, expected_offset := 0, curr_aggregate := 0, vector_count := 0 }
  unfold wb_fulfill
  simp only
  split
  · exact h.kept_trans (wb_fulfill_head_latch env _ _ (hcf _))
  · exact h

/-- A round of `wb_process_queue` in which every frame can be had and no flush
waits on todo leaves the latch as it is. -/
theorem wb_process_queue_latch (xl : xlator_t) (env : wb_env) (s : wb_state)
    (hcf : ∀ hd, env.create_frame hd = true)
    (hf : ∀ a ∈ s.inode.todo, (s.mem a).stub.fop ≠ GF_FOP_FLUSH) :
    wb_latch_kept s (wb_process_queue xl env s) := by
  unfold wb_process_queue wb_process_queue_locked
  simp only
  have hp := __wb_preprocess_winds_latch xl env s
  have hw := __wb_pick_winds_latch xl (__wb_preprocess_winds xl env s) [] []
  have hu := __wb_pick_unwinds_latch (__wb_pick_winds xl (__wb_preprocess_winds xl env s) [] []).1 []
  have hd := wb_do_unwinds_latch
    (__wb_pick_unwinds (__wb_pick_winds xl (__wb_preprocess_winds xl env s) [] []).1 []).2
    (__wb_pick_unwinds (__wb_pick_winds xl (__wb_preprocess_winds xl env s) [] []).1 []).1
  have h4 := ((hp.kept_trans hw).kept_trans hu).kept_trans hd
  have ht : ∀ a ∈ (__wb_pick_winds xl (__wb_preprocess_winds xl env s) [] []).2.1,
      a ∈ s.inode.todo := by
    intro a ha
    rw [__wb_pick_winds_eq] at ha
    simp only [List.nil_append] at ha
    exact hp.todo a (List.mem_filter.1 ha).1
  refine (h4.kept_trans (wb_do_winds_latch xl env _ _ ?_)).kept_trans (wb_fulfill_latch xl env _ _ hcf)
  intro a ha
  rw [h4.fop a]
  exact hf a (ht a ha)

/-- A failed completion leaves its errno in the latch, whatever the latch held
before, when every frame can be had and no flush waits on todo. -/
theorem wb_fulfill_cbk_failed (xl : xlator_t) (env : wb_env) (s : wb_state) (head : Nat)
    (op_errno : Int) (hcf : ∀ hd, env.create_frame hd = true)
    (hf : ∀ a ∈ s.inode.todo, (s.mem a).stub.fop ≠ GF_FOP_FLUSH) :
    wb_latch_kept
      { s with inode := { s.inode with op_ret := -1, op_errno := op_errno } }
      (wb_fulfill_cbk xl env s head (-1) op_errno) := by
  unfold wb_fulfill_cbk wb_inode_err
  simp only [if_true]
  have h1 := wb_head_done_latch
    { s with
      inflight := list_del head s.inflight
      inode := { s.inode with op_ret := -1, op_errno := op_errno } } head
  have h2 := wb_process_queue_latch xl env _ hcf (fun a ha => by
    rw [h1.fop a]
    exact hf a (h1.todo a ha))
  exact @wb_latch_kept.kept_trans _ _ _
    (@wb_latch_kept.kept_trans
      { s with inode := { s.inode with op_ret := -1, op_errno := op_errno } }
      { s with
        inflight := list_del head s.inflight
        inode := { s.inode with op_ret := -1, op_errno := op_errno } } _
      ⟨rfl, rfl, rfl, fun _ => rfl, fun _ h => h⟩ h1) h2

/-- C21 (counterexample), evaluated on the code in the default configuration:
in `state_two_inflight` the batches of write 1 and write 2 are in flight.  The
first fails with ENOSPC (28), the second with EDQUOT (122), and no writev or
flush comes in between.  The latch holds 28 after the first failure and 122
after the second; the next writev is answered with -1 and 122, not 28. -/
theorem C21_first_failure_overwritten :
    wb_calls_ok xl_default (wb_state_init xl_default)
      (calls_two_inflight ++
        [(wb_env_ok, .fulfill_cbk 1 (-1) 28), (wb_env_ok, .fulfill_cbk 2 (-1) 122),
         (wb_env_ok, call_write 4 4 68 400)])
    ∧ state_two_inflight.inflight = [1, 2]
    ∧ state_two_inflight.inode.op_ret = 0
    ∧ (wb_fulfill_cbk xl_default wb_env_ok state_two_inflight 1 (-1) 28).inode.op_ret = -1
    ∧ (wb_fulfill_cbk xl_default wb_env_ok state_two_inflight 1 (-1) 28).inode.op_errno = 28
    ∧ (wb_fulfill_cbk xl_default wb_env_ok
        (wb_fulfill_cbk xl_default wb_env_ok state_two_inflight 1 (-1) 28) 2 (-1) 122).inode.op_ret
        = -1
    ∧ (wb_fulfill_cbk xl_default wb_env_ok
        (wb_fulfill_cbk xl_default wb_env_ok state_two_inflight 1 (-1) 28) 2 (-1)
          122).inode.op_errno = 122
    ∧ (wb_run xl_default state_two_inflight
        [(wb_env_ok, .fulfill_cbk 1 (-1) 28), (wb_env_ok, .fulfill_cbk 2 (-1) 122),
         (wb_env_ok, call_write 4 4 68 400)]).out
        = state_two_inflight.out
          ++ [wb_event.wind_writev 3 100 (iov_fill 4 67) 300 0,
              wb_event.unwind GF_FOP_WRITE 4 (-1) 122] := by
  decide!

/-- C21 (amended): the latch keeps the last failure.  Let two batch completions
fail, the first with errno `e1` and the second with `e2`, in rounds in which
every frame can be had, with no flush waiting on todo (so that no flush reads
the latch in between) and no other call in between.  After the first the latch
holds (-1, `e1`); after the second it holds (-1, `e2`); and the next writev,
for `e2` not 0, is answered with -1 and `e2` and clears the latch. -/
theorem C21_latch_keeps_last_failure (xl : xlator_t) (env1 env2 env3 : wb_env) (s : wb_state)
    (h1 h2 : Nat) (e1 e2 : Int) (frame lk_owner : Nat) (fd : fd_t) (vector : List iovec)
    (offset : Int) (flags : Nat) (hctx : s.ctx = true)
    (hcf1 : ∀ hd, env1.create_frame hd = true) (hcf2 : ∀ hd, env2.create_frame hd = true)
    (hf : ∀ a ∈ s.inode.todo, (s.mem a).stub.fop ≠ GF_FOP_FLUSH) (he : e2 ≠ 0) :
    (wb_fulfill_cbk xl env1 s h1 (-1) e1).inode.op_ret = -1
    ∧ (wb_fulfill_cbk xl env1 s h1 (-1) e1).inode.op_errno = e1
    ∧ (wb_fulfill_cbk xl env2 (wb_fulfill_cbk xl env1 s h1 (-1) e1) h2 (-1) e2).inode.op_ret = -1
    ∧ (wb_fulfill_cbk xl env2 (wb_fulfill_cbk xl env1 s h1 (-1) e1) h2 (-1) e2).inode.op_errno
        = e2
    ∧ wb_writev xl env3
        (wb_fulfill_cbk xl env2 (wb_fulfill_cbk xl env1 s h1 (-1) e1) h2 (-1) e2)
        frame lk_owner fd vector offset flags
      = { wb_fulfill_cbk xl env2 (wb_fulfill_cbk xl env1 s h1 (-1) e1) h2 (-1) e2 with
          inode :=
            { (wb_fulfill_cbk xl env2 (wb_fulfill_cbk xl env1 s h1 (-1) e1) h2 (-1) e2).inode with
              op_ret := 0 }
          out := (wb_fulfill_cbk xl env2 (wb_fulfill_cbk xl env1 s h1 (-1) e1) h2 (-1) e2).out
            ++ [wb_event.unwind GF_FOP_WRITE frame (-1) e2] } := by
  have k1 := wb_fulfill_cbk_failed xl env1 s h1 e1 hcf1 hf
  have hf1 : ∀ a ∈ (wb_fulfill_cbk xl env1 s h1 (-1) e1).inode.todo,
      ((wb_fulfill_cbk xl env1 s h1 (-1) e1).mem a).stub.fop ≠ GF_FOP_FLUSH := by
    intro a ha
    rw [k1.fop a]
    exact hf a (k1.todo a ha)
  have k2 := wb_fulfill_cbk_failed xl env2 (wb_fulfill_cbk xl env1 s h1 (-1) e1) h2 e2 hcf2 hf1
  have c2 : (wb_fulfill_cbk xl env2 (wb_fulfill_cbk xl env1 s h1 (-1) e1) h2 (-1) e2).ctx
      = true := by
    rw [k2.ctx]
    show (wb_fulfill_cbk xl env1 s h1 (-1) e1).ctx = true
    rw [k1.ctx]
    exact hctx
  have r2 : (wb_fulfill_cbk xl env2 (wb_fulfill_cbk xl env1 s h1 (-1) e1) h2 (-1)
      e2).inode.op_ret = -1 := k2.op_ret
  have o2 : (wb_fulfill_cbk xl env2 (wb_fulfill_cbk xl env1 s h1 (-1) e1) h2 (-1)
      e2).inode.op_errno = e2 := k2.op_errno
  refine ⟨k1.op_ret, k1.op_errno, r2, o2, ?_⟩
  have hw := wb_writev_latched xl env3 _ frame lk_owner fd vector offset flags c2
    (by rw [r2]; decide) (by rw [o2]; exact he)
  rw [hw, o2]

/-- Witness of C21 (amended) on `state_two_inflight`, with the errnos 28 and
122. -/
theorem C21_latch_keeps_last_failure_witness :
    state_two_inflight.ctx = true
    ∧ (∀ a ∈ state_two_inflight.inode.todo,
        (state_two_inflight.mem a).stub.fop ≠ GF_FOP_FLUSH)
    ∧ (wb_fulfill_cbk xl_default wb_env_ok state_two_inflight 1 (-1) 28).inode.op_errno = 28
    ∧ (wb_fulfill_cbk xl_default wb_env_ok
        (wb_fulfill_cbk xl_default wb_env_ok state_two_inflight 1 (-1) 28) 2 (-1)
          122).inode.op_errno = 122 :=
  ⟨by decide!, by decide!,
   (C21_latch_keeps_last_failure xl_default wb_env_ok wb_env_ok wb_env_ok state_two_inflight
      1 2 28 122 4 7 fd_plain (iov_fill 4 68) 400 0 (by decide!) (fun _ => rfl) (fun _ => rfl)
      (by decide!) (by decide)).2.1,
   (C21_latch_keeps_last_failure xl_default wb_env_ok wb_env_ok wb_env_ok state_two_inflight
      1 2 28 122 4 7 fd_plain (iov_fill 4 68) 400 0 (by decide!) (fun _ => rfl) (fun _ => rfl)
      (by decide!) (by decide)).2.2.2.1⟩

/-! ## Completion of a batch -/

theorem wb_head_done_loop_append (l : List Nat) (h : Nat) :
    ∀ (s : wb_state),
      wb_head_done_loop (l ++ [h]) s = __wb_fulfill_request (wb_head_done_loop l s) h := by
  induction l with
  | nil => intro s; rfl
  | cons x l ih =>
    intro s
    simp only [List.cons_append, wb_head_done_loop]
    exact ih _

theorem wb_head_done_eq_loop (s : wb_state) (head : Nat) :
    wb_head_done s head = wb_head_done_loop (wb_batch s.mem head) s := by
  unfold wb_head_done wb_batch
  rw [wb_head_done_loop_append]

theorem __wb_fulfill_request_all_sub (s : wb_state) (x a : Nat)
    (h : a ∈ (__wb_fulfill_request s x).inode.all) : a ∈ s.inode.all := by
  rw [__wb_fulfill_request_eq] at h
  split at h
  · exact h
  · split at h
    · rw [(wb_request_destroy_fields _ _).1] at h
      exact ((mem_list_del_iff _ _ _).1 h).1
    · exact h

theorem wb_head_done_loop_all_sub (l : List Nat) :
    ∀ (s : wb_state) (a : Nat), a ∈ (wb_head_done_loop l s).inode.all → a ∈ s.inode.all := by
  induction l with
  | nil => intro s a h; exact h
  | cons x l ih =>
    intro s a h
    simp only [wb_head_done_loop] at h
    exact __wb_fulfill_request_all_sub s x a (ih _ a h)

/-- `__wb_fulfill_request` on a request that holds a reference, when `all`
does not become empty. -/
theorem __wb_fulfill_request_effect (s : wb_state) (x : Nat) (hr : 0 < (s.mem x).refcount)
    (hne : (__wb_fulfill_request s x).inode.all ≠ []) :
    __wb_fulfill_request s x
      = { s with
          mem := mem_set s.mem x (wb_fulfilled_unref (s.mem x))
          inode := { s.inode with
            window_current := s.inode.window_current - (s.mem x).total_size
            transit := s.inode.transit - (s.mem x).total_size
            all := if (s.mem x).refcount = 1 then list_del x s.inode.all else s.inode.all
            todo := if (s.mem x).refcount = 1 then list_del x s.inode.todo else s.inode.todo
            liability := if (s.mem x).refcount = 1 then list_del x s.inode.liability
              else s.inode.liability
            temptation := if (s.mem x).refcount = 1 then list_del x s.inode.temptation
              else s.inode.temptation } } := by
  rw [__wb_fulfill_request_eq] at hne ⊢
  have h0 : ¬ (s.mem x).refcount ≤ 0 := by omega
  rw [if_neg h0] at hne ⊢
  by_cases h1 : (s.mem x).refcount = 1
  · have h2 : (s.mem x).refcount - 1 = 0 := by omega
    rw [if_pos h2] at hne ⊢
    simp only at hne
    rw [(wb_request_destroy_fields _ _).1] at hne
    simp only [if_pos h1]
    unfold wb_request_destroy
    simp only [List.isEmpty_iff]
    rw [if_neg hne]
    rfl
  · have h2 : ¬ (s.mem x).refcount - 1 = 0 := by omega
    rw [if_neg h2]
    simp only [if_neg h1]
    rfl

theorem wb_released_nil (mem : Nat → wb_request) (a : Nat) : wb_released mem [] a = false := by
  simp [wb_released]

/-- Filtering out the requests released from `x :: rest`, in two steps. -/
theorem filter_released_cons (mem mem1 : Nat → wb_request) (x : Nat) (rest L : List Nat)
    (hx : x ∉ rest) (hm : ∀ a, a ≠ x → mem1 a = mem a) :
    (if (mem x).refcount = 1 then list_del x L else L).filter
        (fun a => !wb_released mem1 rest a)
      = L.filter (fun a => !wb_released mem (x :: rest) a) := by
  by_cases h1 : (mem x).refcount = 1
  · rw [if_pos h1]
    unfold list_del
    rw [List.filter_filter]
    apply List.filter_congr
    intro a _
    by_cases hax : a = x
    · subst hax
      simp [wb_released, h1]
    · simp [wb_released, hax, hm a hax]
  · rw [if_neg h1]
    apply List.filter_congr
    intro a _
    by_cases hax : a = x
    · subst hax
      simp [wb_released, h1, hx]
    · simp [wb_released, hax, hm a hax]

/-- The loop of `wb_head_done` over requests that each hold a reference, when
`all` does not become empty: each is marked fulfilled and loses a reference,
the window and `transit` lose their `total_size`, and those that held a single
reference leave the four lists. -/
theorem wb_head_done_loop_effect (l : List Nat) :
    ∀ (s : wb_state), l.Nodup → (∀ a ∈ l, 0 < (s.mem a).refcount) →
      (wb_head_done_loop l s).inode.all ≠ [] →
      wb_head_done_loop l s
        = { s with
            mem := fun a => if a ∈ l then wb_fulfilled_unref (s.mem a) else s.mem a
            inode := { s.inode with
              window_current := s.inode.window_current
                - sum_over (fun r => (r.total_size : Int)) s.mem l
              transit := s.inode.transit - sum_over (fun r => (r.total_size : Int)) s.mem l
              all := s.inode.all.filter (fun a => !wb_released s.mem l a)
              todo := s.inode.todo.filter (fun a => !wb_released s.mem l a)
              liability := s.inode.liability.filter (fun a => !wb_released s.mem l a)
              temptation := s.inode.temptation.filter (fun a => !wb_released s.mem l a) } } := by
  induction l with
  | nil =>
    intro s _ _ _
    simp [wb_head_done_loop, wb_released_nil, sum_over_nil]
  | cons x rest ih =>
    intro s hnd hr hne
    have hx : x ∉ rest := (List.nodup_cons.1 hnd).1
    have hne1 : (__wb_fulfill_request s x).inode.all ≠ [] := by
      intro he
      apply hne
      apply List.eq_nil_iff_forall_not_mem.2
      intro a ha
      have := wb_head_done_loop_all_sub rest _ a ha
      rw [he] at this
      exact absurd this (List.not_mem_nil _)
    have e1 := __wb_fulfill_request_effect s x (hr x (List.mem_cons_self _ _)) hne1
    have hm : ∀ a, a ≠ x → mem_set s.mem x (wb_fulfilled_unref (s.mem x)) a = s.mem a :=
      fun a ha => mem_set_ne _ _ _ _ ha
    have hmx : mem_set s.mem x (wb_fulfilled_unref (s.mem x)) x = wb_fulfilled_unref (s.mem x) :=
      mem_set_eq _ _ _
    have hsum : sum_over (fun r => (r.total_size : Int))
          (mem_set s.mem x (wb_fulfilled_unref (s.mem x))) rest
        = sum_over (fun r => (r.total_size : Int)) s.mem rest :=
      sum_over_congr _ _ _ _ (fun a ha => by
        simp only [hm a (fun e => hx (e ▸ ha))])
    have hmem : (fun a => if a ∈ rest
          then wb_fulfilled_unref (mem_set s.mem x (wb_fulfilled_unref (s.mem x)) a)
          else mem_set s.mem x (wb_fulfilled_unref (s.mem x)) a)
        = (fun a => if a ∈ x :: rest then wb_fulfilled_unref (s.mem a) else s.mem a) := by
      funext a
      by_cases hax : a = x
      · subst hax
        rw [if_neg hx, if_pos (List.mem_cons_self _ _), hmx]
      · rw [hm a hax]
        simp only [List.mem_cons, hax, false_or]
    have hfl : ∀ L : List Nat,
        (if (s.mem x).refcount = 1 then list_del x L else L).filter
          (fun a => !wb_released (mem_set s.mem x (wb_fulfilled_unref (s.mem x))) rest a)
        = L.filter (fun a => !wb_released s.mem (x :: rest) a) :=
      fun L => filter_released_cons s.mem _ x rest L hx hm
    have hne2 := hne
    simp only [wb_head_done_loop] at hne2
    show wb_head_done_loop rest (__wb_fulfill_request s x) = _
    rw [e1] at hne2 ⊢
    rw [ih _ (List.nodup_cons.1 hnd).2 (fun a ha => by
      show 0 < (mem_set s.mem x (wb_fulfilled_unref (s.mem x)) a).refcount
      rw [hm a (fun e => hx (e ▸ ha))]
      exact hr a (List.mem_cons_of_mem _ ha)) hne2]
    simp only [hmem, hsum, hfl, sum_over_cons]
    congr 2 <;> ring

/-- C22 (counterexample), evaluated on the code: in `state_two_inflight` the
batch of write 1 is in flight; write 1 has been answered to its caller, so it
holds one reference.  `wb_head_done` on it leaves `all` non-empty, yet `all`
and liability both lose request 1: inode fields other than `window_current`
and `transit` change. -/
theorem C22_head_done_changes_lists :
    (state_two_inflight.mem 1).winds = []
    ∧ (state_two_inflight.mem 1).refcount = 1
    ∧ state_two_inflight.inode.all = [1, 2, 3]
    ∧ state_two_inflight.inode.liability = [1, 2, 3]
    ∧ (wb_head_done state_two_inflight 1).inode.all = [2, 3]
    ∧ (wb_head_done state_two_inflight 1).inode.liability = [2, 3]
    ∧ (wb_head_done state_two_inflight 1).inode.window_current
        = state_two_inflight.inode.window_current - 4
    ∧ (wb_head_done state_two_inflight 1).inode.transit
        = state_two_inflight.inode.transit - 4 := by
  decide!

/-- C22 (amended): let the requests of the batch of `head` (its members, then
`head`) be distinct and each hold a reference, let the members have
`total_size` 0, and let `all` not become empty.  Then `wb_head_done` marks
each request of the batch fulfilled and takes one reference from it;
`window_current` and `transit` each decrease by `head`'s `total_size`; the
requests of the batch that held a single reference are destroyed, that is they
leave `all`, todo, liability and temptation, whose other entries keep their
order; and nothing else changes: not `gen`, `window_conf` or the latch, not
any other request, not the batches in flight or the calls made. -/
theorem C22_head_done_effect (s : wb_state) (head : Nat)
    (hnd : (wb_batch s.mem head).Nodup)
    (hr : ∀ a ∈ wb_batch s.mem head, 0 < (s.mem a).refcount)
    (hm : ∀ m ∈ (s.mem head).winds, (s.mem m).total_size = 0)
    (hne : (wb_head_done s head).inode.all ≠ []) :
    wb_head_done s head
      = { s with
          mem := fun a =>
            if a ∈ wb_batch s.mem head then wb_fulfilled_unref (s.mem a) else s.mem a
          inode := { s.inode with
            window_current := s.inode.window_current - (s.mem head).total_size
            transit := s.inode.transit - (s.mem head).total_size
            all := s.inode.all.filter (fun a => !wb_released s.mem (wb_batch s.mem head) a)
            todo := s.inode.todo.filter (fun a => !wb_released s.mem (wb_batch s.mem head) a)
            liability := s.inode.liability.filter
              (fun a => !wb_released s.mem (wb_batch s.mem head) a)
            temptation := s.inode.temptation.filter
              (fun a => !wb_released s.mem (wb_batch s.mem head) a) } } := by
  have hsum : sum_over (fun r => (r.total_size : Int)) s.mem (wb_batch s.mem head)
      = (s.mem head).total_size := by
    unfold wb_batch
    rw [sum_over_append, sum_over_cons, sum_over_nil]
    have h0 : sum_over (fun r => (r.total_size : Int)) s.mem (s.mem head).winds = 0 := by
      unfold sum_over
      apply List.sum_eq_zero
      intro z hz
      obtain ⟨m, hm1, hm2⟩ := List.mem_map.1 hz
      rw [← hm2]
      show ((s.mem m).total_size : Int) = 0
      rw [hm m hm1]
      rfl
    rw [h0]
    ring
  rw [wb_head_done_eq_loop] at hne ⊢
  rw [wb_head_done_loop_effect _ s hnd hr hne, hsum]

/-- Witness of C22 (amended) on `state_batch_inflight`, where the batch of
head 2 with member 3 is in flight (262144 bytes) and write 4 waits on todo. -/
theorem C22_head_done_effect_witness :
    wb_batch state_batch_inflight.mem 2 = [3, 2]
    ∧ (state_batch_inflight.mem 2).total_size = 262144
    ∧ state_batch_inflight.inode.all = [2, 3, 4]
    ∧ (wb_head_done state_batch_inflight 2).inode.all = [4]
    ∧ (wb_head_done state_batch_inflight 2).inode.transit
        = state_batch_inflight.inode.transit - 262144 := by
  have h := C22_head_done_effect state_batch_inflight 2 (by decide!) (by decide!) (by decide!)
    (by decide!)
  refine ⟨by decide!, by decide!, by decide!, by decide!, ?_⟩
  rw [h]
  decide!

/-! ## Reference counts -/

theorem wb_ref_core.core_perm {s : wb_state} {W T W1 T1 : List Nat} (h : wb_ref_core s W T)
    (hW : W1.Perm W) (hT : T1.Perm T) : wb_ref_core s W1 T1 :=
  ⟨hW.nodup_iff.2 h.W_nodup, hT.nodup_iff.2 h.T_nodup,
    fun a => by rw [h.refs a]; simp only [hW.mem_iff, hT.mem_iff],
    fun a => by rw [h.all_iff a, hW.mem_iff, hT.mem_iff], h.all_lt⟩

theorem wb_ref_core.core_swap {s : wb_state} {W T : List Nat} (h : wb_ref_core s W T) :
    wb_ref_core s T W :=
  ⟨h.T_nodup, h.W_nodup, fun a => by rw [h.refs a]; ring,
    fun a => by rw [h.all_iff a]; exact or_comm, h.all_lt⟩

theorem wb_ref_core.core_frame {s s1 : wb_state} {W T : List Nat} (h : wb_ref_core s W T)
    (hall : s1.inode.all = s.inode.all) (hnext : s1.next = s.next)
    (href : ∀ a, (s1.mem a).refcount = (s.mem a).refcount) : wb_ref_core s1 W T :=
  ⟨h.W_nodup, h.T_nodup, fun a => by rw [href a]; exact h.refs a,
    fun a => by rw [hall]; exact h.all_iff a,
    fun a ha => by rw [hnext]; rw [hall] at ha; exact h.all_lt a ha⟩

/-- The one request that changes in `__wb_request_unref`, and what happens to
the lists: nothing, or the request leaves them because its count was 1. -/
theorem __wb_request_unref_shape (s : wb_state) (x : Nat) (hp : 0 < (s.mem x).refcount) :
    (__wb_request_unref s x).next = s.next
    ∧ (__wb_request_unref s x).inflight = s.inflight
    ∧ (__wb_request_unref s x).ctx = s.ctx
    ∧ (__wb_request_unref s x).out = s.out
    ∧ (∀ a, a ≠ x → (__wb_request_unref s x).mem a = s.mem a)
    ∧ ((__wb_request_unref s x).mem x).refcount = (s.mem x).refcount - 1
    ∧ (∀ a, ((__wb_request_unref s x).mem a).winds = (s.mem a).winds)
    ∧ (((s.mem x).refcount ≠ 1 ∧ (__wb_request_unref s x).inode = s.inode)
      ∨ ((s.mem x).refcount = 1
        ∧ (__wb_request_unref s x).inode.all = list_del x s.inode.all
        ∧ (__wb_request_unref s x).inode.todo = list_del x s.inode.todo
        ∧ (__wb_request_unref s x).inode.temptation = list_del x s.inode.temptation)) := by
  rw [__wb_request_unref_eq]
  have h0 : ¬ (s.mem x).refcount ≤ 0 := by omega
  rw [if_neg h0]
  have hw : ∀ a, (mem_set s.mem x { s.mem x with refcount := (s.mem x).refcount - 1 } a).winds
      = (s.mem a).winds := by
    intro a
    by_cases ha : a = x
    · subst ha
      rw [mem_set_eq]
    · rw [mem_set_ne _ _ _ _ ha]
  by_cases h1 : (s.mem x).refcount = 1
  · have h2 : (s.mem x).refcount - 1 = 0 := by omega
    rw [if_pos h2]
    refine ⟨rfl, rfl, rfl, rfl, fun a ha => mem_set_ne _ _ _ _ ha, ?_, hw, Or.inr ⟨h1, ?_, ?_, ?_⟩⟩
    · simp only [mem_set_eq]
    · exact (wb_request_destroy_fields _ _).1
    · exact (wb_request_destroy_fields _ _).2.1
    · exact (wb_request_destroy_fields _ _).2.2.2.1
  · have h2 : ¬ (s.mem x).refcount - 1 = 0 := by omega
    rw [if_neg h2]
    refine ⟨rfl, rfl, rfl, rfl, fun a ha => mem_set_ne _ _ _ _ ha, ?_, hw, Or.inl ⟨h1, rfl⟩⟩
    simp only [mem_set_eq]

/-- Releasing the wind reference of `x`. -/
theorem wb_ref_core.core_release {s : wb_state} {x : Nat} {W T : List Nat}
    (h : wb_ref_core s (x :: W) T) : wb_ref_core (__wb_request_unref s x) W T := by
  have hxW : x ∉ W := (List.nodup_cons.1 h.W_nodup).1
  have hrx := h.refs x
  rw [if_pos (List.mem_cons_self _ _)] at hrx
  have hp : 0 < (s.mem x).refcount := by
    rw [hrx]
    split <;> omega
  obtain ⟨hn, _, _, _, hne, hx, _, hl⟩ := __wb_request_unref_shape s x hp
  have hrefs : ∀ a, ((__wb_request_unref s x).mem a).refcount
      = (if a ∈ W then 1 else 0) + (if a ∈ T then 1 else 0) := by
    intro a
    by_cases ha : a = x
    · subst ha
      rw [hx, hrx, if_neg hxW]
      ring
    · rw [hne a ha, h.refs a]
      simp only [List.mem_cons, ha, false_or]
  refine ⟨(List.nodup_cons.1 h.W_nodup).2, h.T_nodup, hrefs, ?_, ?_⟩
  · intro a
    rcases hl with ⟨h1, he⟩ | ⟨h1, he, _, _⟩
    · rw [he, h.all_iff a]
      have hxT : x ∈ T := by
        by_contra hc
        rw [if_neg hc] at hrx
        omega
      constructor
      · rintro (h2 | h2)
        · rcases List.mem_cons.1 h2 with h3 | h3
          · subst h3
            exact Or.inr hxT
          · exact Or.inl h3
        · exact Or.inr h2
      · rintro (h2 | h2)
        · exact Or.inl (List.mem_cons_of_mem _ h2)
        · exact Or.inr h2
    · have hxT : x ∉ T := by
        intro hc
        rw [if_pos hc] at hrx
        omega
      rw [he, mem_list_del_iff, h.all_iff a]
      constructor
      · rintro ⟨h2 | h2, h3⟩
        · rcases List.mem_cons.1 h2 with h4 | h4
          · exact absurd h4 h3
          · exact Or.inl h4
        · exact Or.inr h2
      · rintro (h2 | h2)
        · exact ⟨Or.inl (List.mem_cons_of_mem _ h2), fun e => hxW (e ▸ h2)⟩
        · exact ⟨Or.inr h2, fun e => hxT (e ▸ h2)⟩
  · intro a ha
    rw [hn]
    apply h.all_lt
    rcases hl with ⟨_, he⟩ | ⟨_, he, _, _⟩
    · rw [he] at ha
      exact ha
    · rw [he] at ha
      exact ((mem_list_del_iff _ _ _).1 ha).1

theorem __wb_request_unref_keeps (s : wb_state) (x : Nat) (hp : 0 < (s.mem x).refcount)
    (ht : (s.mem x).refcount = 1 → x ∉ s.inode.todo ∧ x ∉ s.inode.temptation) :
    (__wb_request_unref s x).inode.todo = s.inode.todo
    ∧ (__wb_request_unref s x).inode.temptation = s.inode.temptation := by
  obtain ⟨_, _, _, _, _, _, _, hl⟩ := __wb_request_unref_shape s x hp
  rcases hl with ⟨_, he⟩ | ⟨h1, _, h2, h3⟩
  · rw [he]
    exact ⟨rfl, rfl⟩
  · rw [h2, h3, list_del_of_not_mem _ _ (ht h1).1, list_del_of_not_mem _ _ (ht h1).2]
    exact ⟨rfl, rfl⟩

/-- A step that changes no reference count and only moves requests between
the lists that hold the same kind of reference. -/
theorem wb_ref_inv.ref_move {s s1 : wb_state} {U tasks liabilities X U1 tasks1 liabilities1 X1 :
    List Nat} (h : wb_ref_inv s U tasks liabilities X) (hctx : s1.ctx = s.ctx)
    (hall : s1.inode.all = s.inode.all) (hnext : s1.next = s.next)
    (href : ∀ a, (s1.mem a).refcount = (s.mem a).refcount)
    (hW : (wb_wind_list s1 tasks1 liabilities1 X1).Perm (wb_wind_list s tasks liabilities X))
    (hT : (s1.inode.temptation ++ U1).Perm (s.inode.temptation ++ U))
    (hfresh : ∀ a ∈ s1.inode.todo ++ (tasks1 ++ liabilities1), (s1.mem a).winds = []) :
    wb_ref_inv s1 U1 tasks1 liabilities1 X1 :=
  ⟨hctx.trans h.ctx, (h.core.core_frame hall hnext href).core_perm hW hT, hfresh⟩

/-- A step that keeps the lists and, in the store, the counts and the members
linked on each request. -/
theorem wb_ref_inv.ref_frame {s s1 : wb_state} {U tasks liabilities X : List Nat}
    (h : wb_ref_inv s U tasks liabilities X) (hctx : s1.ctx = s.ctx)
    (hall : s1.inode.all = s.inode.all) (htodo : s1.inode.todo = s.inode.todo)
    (htempt : s1.inode.temptation = s.inode.temptation) (hnext : s1.next = s.next)
    (hF : s1.inflight = s.inflight)
    (hm : ∀ a, (s1.mem a).refcount = (s.mem a).refcount ∧ (s1.mem a).winds = (s.mem a).winds) :
    wb_ref_inv s1 U tasks liabilities X := by
  refine h.ref_move hctx hall hnext (fun a => (hm a).1) ?_ ?_ ?_
  · rw [wb_wind_list_congr tasks liabilities X hF htodo (fun a => (hm a).2)]
  · rw [htempt]
  · intro a ha
    rw [htodo] at ha
    rw [(hm a).2]
    exact h.fresh a ha

/-- The wind reference of `x` is released. -/
theorem wb_ref_inv.ref_unref_wind {s : wb_state} {x : Nat}
    {U tasks liabilities X tasks1 liabilities1 X1 : List Nat}
    (h : wb_ref_inv s U tasks liabilities X)
    (hW : (wb_wind_list s tasks liabilities X).Perm (x :: wb_wind_list s tasks1 liabilities1 X1))
    (hsub : ∀ a ∈ tasks1 ++ liabilities1, a ∈ tasks ++ liabilities) :
    wb_ref_inv (__wb_request_unref s x) U tasks1 liabilities1 X1 := by
  have c1 := h.core.core_perm hW.symm (List.Perm.refl _)
  have hrx := c1.refs x
  rw [if_pos (List.mem_cons_self _ _)] at hrx
  have hp : 0 < (s.mem x).refcount := by
    rw [hrx]
    split <;> omega
  have hxW : x ∉ wb_wind_list s tasks1 liabilities1 X1 := (List.nodup_cons.1 c1.W_nodup).1
  have hk := __wb_request_unref_keeps s x hp (by
    intro h1
    constructor
    · intro hx
      apply hxW
      unfold wb_wind_list
      exact List.mem_append_left _ hx
    · intro hx
      have : x ∈ s.inode.temptation ++ U := List.mem_append_left _ hx
      rw [if_pos this] at hrx
      omega)
  obtain ⟨_, hF, hc, _, _, _, hw, _⟩ := __wb_request_unref_shape s x hp
  refine ⟨hc.trans h.ctx, ?_, ?_⟩
  · rw [wb_wind_list_congr tasks1 liabilities1 X1 hF hk.1 hw, hk.2]
    exact c1.core_release
  · intro a ha
    rw [hk.1] at ha
    rw [hw a]
    apply h.fresh a
    rcases List.mem_append.1 ha with h1 | h1
    · exact List.mem_append_left _ h1
    · exact List.mem_append_right _ (hsub a h1)

/-- The unwind reference of `x` is released. -/
theorem wb_ref_inv.ref_unref_unwind {s : wb_state} {x : Nat} {U tasks liabilities X : List Nat}
    (h : wb_ref_inv s (x :: U) tasks liabilities X) :
    wb_ref_inv (__wb_request_unref s x) U tasks liabilities X := by
  have hT : (x :: (s.inode.temptation ++ U)).Perm (s.inode.temptation ++ x :: U) :=
    List.perm_middle.symm
  have c1 := (h.core.core_perm (List.Perm.refl _) hT).core_swap
  have hrx := c1.refs x
  rw [if_pos (List.mem_cons_self _ _)] at hrx
  have hp : 0 < (s.mem x).refcount := by
    rw [hrx]
    split <;> omega
  have hxT : x ∉ s.inode.temptation ++ U := (List.nodup_cons.1 c1.W_nodup).1
  have hk := __wb_request_unref_keeps s x hp (by
    intro h1
    constructor
    · intro hx
      have : x ∈ wb_wind_list s tasks liabilities X := by
        unfold wb_wind_list
        exact List.mem_append_left _ hx
      rw [if_pos this] at hrx
      omega
    · intro hx
      exact hxT (List.mem_append_left _ hx))
  obtain ⟨_, hF, hc, _, _, _, hw, _⟩ := __wb_request_unref_shape s x hp
  refine ⟨hc.trans h.ctx, ?_, ?_⟩
  · rw [wb_wind_list_congr tasks liabilities X hF hk.1 hw, hk.2]
    exact c1.core_release.core_swap
  · intro a ha
    rw [hk.1] at ha
    rw [hw a]
    exact h.fresh a ha

theorem mem_set_ref_same (mem : Nat → wb_request) (x : Nat) (r : wb_request)
    (h1 : r.refcount = (mem x).refcount) (h2 : r.winds = (mem x).winds) (a : Nat) :
    (mem_set mem x r a).refcount = (mem a).refcount
    ∧ (mem_set mem x r a).winds = (mem a).winds := by
  by_cases ha : a = x
  · subst ha
    rw [mem_set_eq]
    exact ⟨h1, h2⟩
  · rw [mem_set_ne _ _ _ _ ha]
    exact ⟨rfl, rfl⟩

/-- `__wb_fulfill_request` on the first request of the batch being closed. -/
theorem wb_ref_inv.ref_fulfill_request {s : wb_state} {x : Nat}
    {U tasks liabilities X : List Nat} (h : wb_ref_inv s U tasks liabilities (x :: X)) :
    wb_ref_inv (__wb_fulfill_request s x) U tasks liabilities X := by
  unfold __wb_fulfill_request
  simp only
  have h3 : wb_ref_inv
      { s with
        mem := mem_set s.mem x
          { s.mem x with ordering := { (s.mem x).ordering with fulfilled := true } }
        inode := { s.inode with
          window_current := s.inode.window_current - (s.mem x).total_size
          transit := s.inode.transit - (s.mem x).total_size } }
      U tasks liabilities (x :: X) :=
    h.ref_frame rfl rfl rfl rfl rfl rfl (mem_set_ref_same _ _ _ rfl rfl)
  exact h3.ref_unref_wind (wb_wind_list_cons_X _ _ _ _ _) (fun a ha => ha)

theorem wb_ref_inv.ref_head_done_loop {U tasks liabilities X : List Nat} (l : List Nat) :
    ∀ {s : wb_state}, wb_ref_inv s U tasks liabilities (l ++ X) →
      wb_ref_inv (wb_head_done_loop l s) U tasks liabilities X := by
  induction l with
  | nil => intro s h; exact h
  | cons x l ih =>
    intro s h
    simp only [wb_head_done_loop]
    exact ih h.ref_fulfill_request

/-- `wb_head_done` on the batch being closed: every request of it gives up its
wind reference. -/
theorem wb_ref_inv.ref_head_done {s : wb_state} {U tasks liabilities : List Nat} {head : Nat}
    (h : wb_ref_inv s U tasks liabilities (wb_batch s.mem head)) :
    wb_ref_inv (wb_head_done s head) U tasks liabilities [] := by
  rw [wb_head_done_eq_loop]
  apply wb_ref_inv.ref_head_done_loop
  rw [List.append_nil]
  exact h

theorem wb_ref_inv.ref_set_go {s : wb_state} {U tasks liabilities X : List Nat}
    (h : wb_ref_inv s U tasks liabilities X) (x : Nat) :
    wb_ref_inv (wb_set_go s x) U tasks liabilities X := by
  unfold wb_set_go
  exact h.ref_frame rfl rfl rfl rfl rfl rfl (mem_set_ref_same _ _ _ rfl rfl)

theorem wb_ref_inv.todo_nodup {s : wb_state} {U tasks liabilities X : List Nat}
    (h : wb_ref_inv s U tasks liabilities X) : s.inode.todo.Nodup := by
  have := h.core.W_nodup
  unfold wb_wind_list at this
  exact this.of_append_left

/-- A request taken off todo to be fulfilled at once. -/
theorem wb_ref_inv.ref_detach_todo {s : wb_state} {U tasks liabilities X : List Nat} {x : Nat}
    (h : wb_ref_inv s U tasks liabilities X) (hx : x ∈ s.inode.todo) :
    wb_ref_inv { s with inode := { s.inode with todo := list_del x s.inode.todo } }
      U tasks liabilities (x :: X) := by
  refine h.ref_move rfl rfl rfl (fun _ => rfl) ?_ (List.Perm.refl _) ?_
  · refine (wb_wind_list_cons_X _ _ _ _ _).trans ?_
    unfold wb_wind_list
    show (x :: (list_del x s.inode.todo ++ _)).Perm (s.inode.todo ++ _)
    rw [← List.cons_append]
    exact List.Perm.append_right _ (list_del_perm x s.inode.todo h.todo_nodup hx).symm
  · intro a ha
    apply h.fresh a
    rcases List.mem_append.1 ha with h1 | h1
    · exact List.mem_append_left _ ((mem_list_del_iff _ _ _).1 h1).1
    · exact List.mem_append_right _ h1

theorem wb_ref_inv.ref_collapse {s : wb_state} {U tasks liabilities X : List Nat}
    (h : wb_ref_inv s U tasks liabilities X) (env : wb_env) (holder req : Nat) :
    wb_ref_inv (__wb_collapse_small_writes env s holder req).1 U tasks liabilities X
    ∧ (__wb_collapse_small_writes env s holder req).1.inode.todo = s.inode.todo := by
  rcases __wb_collapse_small_writes_eq env s holder req with he | he
  · rw [he]
    exact ⟨h, rfl⟩
  · rw [he]
    refine ⟨h.ref_frame rfl rfl rfl rfl rfl rfl (mem_set_ref_same _ _ _ ?_ ?_), rfl⟩
    · rw [(wb_holder_append_fields _ _).2.2.1, (wb_holder_buffered_same _).2.2.2.2.2.1]
    · rw [(wb_holder_append_fields _ _).2.2.2.2.2.2, (wb_holder_buffered_same _).2.2.2.2.2.2.1]

theorem wb_ref_inv.ref_preprocess_loop (xl : xlator_t) (env : wb_env) (l : List Nat) :
    ∀ {s : wb_state} {holder : Option Nat}, wb_ref_inv s [] [] [] [] → l.Nodup →
      (∀ a ∈ l, a ∈ s.inode.todo) →
      wb_ref_inv (__wb_preprocess_winds_loop xl env l s holder).1 [] [] [] [] := by
  induction l with
  | nil => intro s holder h _ _; exact h
  | cons req l ih =>
    intro s holder h hnd hsub
    have hrl : req ∉ l := (List.nodup_cons.1 hnd).1
    have hl : l.Nodup := (List.nodup_cons.1 hnd).2
    have hrT := hsub req (List.mem_cons_self _ _)
    have hsub1 : ∀ a ∈ l, a ∈ s.inode.todo := fun a ha => hsub a (List.mem_cons_of_mem _ ha)
    have hgo : ∀ (hd : Nat) (ho : Option Nat),
        wb_ref_inv (__wb_preprocess_winds_loop xl env l (wb_set_go s hd) ho).1 [] [] [] [] :=
      fun hd ho => ih (h.ref_set_go hd) hl hsub1
    unfold __wb_preprocess_winds_loop
    split
    · split
      · split
        · exact hgo _ _
        · exact ih h hl hsub1
      · exact ih h hl hsub1
    · split
      · exact ih h hl hsub1
      · simp only
        split
        · exact hgo _ _
        · split
          · exact hgo _ _
          · split
            · exact hgo _ _
            · rename_i hd _ _ _
              have hc := h.ref_collapse env hd req
              split
              · exact ih hc.1 hl (fun a ha => by rw [hc.2]; exact hsub1 a ha)
              · have hd1 := @wb_ref_inv.ref_detach_todo _ [] [] [] [] req hc.1
                  (by rw [hc.2]; exact hrT)
                have hf := hd1.ref_fulfill_request
                apply ih hf hl
                intro a ha
                have hane : a ≠ req := fun e => hrl (e ▸ ha)
                rw [__wb_fulfill_request_todo _ _ _ hane]
                show a ∈ list_del req (__wb_collapse_small_writes env s hd req).1.inode.todo
                rw [hc.2]
                exact (mem_list_del_iff _ _ _).2 ⟨hsub1 a ha, hane⟩

theorem wb_ref_inv.ref_preprocess {s : wb_state} (xl : xlator_t) (env : wb_env)
    (h : wb_ref_inv s [] [] [] []) : wb_ref_inv (__wb_preprocess_winds xl env s) [] [] [] [] := by
  have h1 := @wb_ref_inv.ref_preprocess_loop xl env s.inode.todo s none h h.todo_nodup
    (fun a ha => ha)
  unfold __wb_preprocess_winds
  simp only
  split
  · split
    · exact h1.ref_set_go _
    · exact h1
  · exact h1

/-- `__wb_pick_winds` at the start of a round: the picked requests keep their
wind reference. -/
theorem wb_ref_inv.ref_pick_winds {s : wb_state} (xl : xlator_t) (h : wb_ref_inv s [] [] [] []) :
    wb_ref_inv (__wb_pick_winds xl s [] []).1 [] (__wb_pick_winds xl s [] []).2.1
      (__wb_pick_winds xl s [] []).2.2 [] := by
  rw [__wb_pick_winds_eq]
  simp only [List.nil_append]
  refine h.ref_move rfl rfl rfl (fun _ => rfl) ?_ (List.Perm.refl _) ?_
  · unfold wb_wind_list
    simp only [List.nil_append]
    rw [← List.append_assoc, ← List.append_assoc]
    apply List.Perm.append_right
    rw [List.append_assoc]
    exact filter_three_perm _ _ _
  · intro a ha
    apply h.fresh a
    simp only [List.append_nil]
    simp only [List.mem_append, List.mem_filter] at ha
    rcases ha with h1 | h1 | h1 <;> exact h1.1

/-- One entry taken off temptation by the unwinder: it keeps its unwind
reference until its caller is answered. -/
theorem wb_ref_inv.ref_taken {s s1 : wb_state} {U tasks liabilities X : List Nat} {x : Nat}
    (h : wb_ref_inv s U tasks liabilities X) (hx : x ∈ s.inode.temptation)
    (hctx : s1.ctx = s.ctx) (hall : s1.inode.all = s.inode.all)
    (htodo : s1.inode.todo = s.inode.todo)
    (htempt : s1.inode.temptation = list_del x s.inode.temptation) (hnext : s1.next = s.next)
    (hF : s1.inflight = s.inflight)
    (hm : ∀ a, (s1.mem a).refcount = (s.mem a).refcount ∧ (s1.mem a).winds = (s.mem a).winds) :
    wb_ref_inv s1 (U ++ [x]) tasks liabilities X := by
  have htn : s.inode.temptation.Nodup := h.core.T_nodup.of_append_left
  refine h.ref_move hctx hall hnext (fun a => (hm a).1) ?_ ?_ ?_
  · rw [wb_wind_list_congr tasks liabilities X hF htodo (fun a => (hm a).2)]
  · rw [htempt]
    have h1 : (list_del x s.inode.temptation ++ (U ++ [x])).Perm
        (x :: (list_del x s.inode.temptation ++ U)) := by
      rw [← List.append_assoc]
      exact List.perm_append_singleton _ _
    refine h1.trans ?_
    rw [← List.cons_append]
    exact List.Perm.append_right _ (list_del_perm x s.inode.temptation htn hx).symm
  · intro a ha
    rw [htodo] at ha
    rw [(hm a).2]
    exact h.fresh a ha

theorem wb_ref_inv.ref_pick_unwinds_loop {tasks liabilities : List Nat} (l : List Nat) :
    ∀ {s : wb_state} {U : List Nat}, wb_ref_inv s U tasks liabilities [] → l.Nodup →
      (∀ a ∈ l, a ∈ s.inode.temptation) →
      wb_ref_inv (__wb_pick_unwinds_loop l s U).1 (__wb_pick_unwinds_loop l s U).2
        tasks liabilities [] := by
  induction l with
  | nil => intro s U h _ _; exact h
  | cons x l ih =>
    intro s U h hnd hsub
    have hxP := hsub x (List.mem_cons_self _ _)
    have hxl : x ∉ l := (List.nodup_cons.1 hnd).1
    have hl : l.Nodup := (List.nodup_cons.1 hnd).2
    have hrest : ∀ a ∈ l, a ∈ list_del x s.inode.temptation := fun a ha =>
      (mem_list_del_iff _ _ _).2 ⟨hsub a (List.mem_cons_of_mem _ ha), fun e => hxl (e ▸ ha)⟩
    by_cases hf : (s.mem x).ordering.fulfilled = true
    · rw [__wb_pick_unwinds_loop_release x l s U hf]
      apply ih _ hl hrest
      exact h.ref_taken hxP rfl rfl rfl rfl rfl rfl (fun _ => ⟨rfl, rfl⟩)
    · have hf0 : (s.mem x).ordering.fulfilled = false := by simpa using hf
      by_cases hw : s.inode.window_current > s.inode.window_conf
      · rw [__wb_pick_unwinds_loop_skip x l s U hf0 hw]
        exact ih h hl (fun a ha => hsub a (List.mem_cons_of_mem _ ha))
      · rw [__wb_pick_unwinds_loop_lie x l s U hf0 hw]
        apply ih _ hl hrest
        exact h.ref_taken hxP rfl rfl rfl rfl rfl rfl (mem_set_ref_same _ _ _ rfl rfl)

/-- `__wb_pick_unwinds` in a round. -/
theorem wb_ref_inv.ref_pick_unwinds {s : wb_state} {tasks liabilities : List Nat}
    (h : wb_ref_inv s [] tasks liabilities []) :
    wb_ref_inv (__wb_pick_unwinds s []).1 (__wb_pick_unwinds s []).2 tasks liabilities [] := by
  unfold __wb_pick_unwinds
  exact wb_ref_inv.ref_pick_unwinds_loop s.inode.temptation h h.core.T_nodup.of_append_left
    (fun a ha => ha)

/-- `wb_do_unwinds`: each caller is answered and the unwind reference released. -/
theorem wb_ref_inv.ref_do_unwinds {tasks liabilities : List Nat} (lies : List Nat) :
    ∀ {s : wb_state}, wb_ref_inv s lies tasks liabilities [] →
      wb_ref_inv (wb_do_unwinds s lies) [] tasks liabilities [] := by
  induction lies with
  | nil => intro s h; exact h
  | cons x U ih =>
    intro s h
    unfold wb_do_unwinds
    apply ih
    unfold wb_request_unref
    apply wb_ref_inv.ref_unref_unwind
    exact h.ref_frame rfl rfl rfl rfl rfl rfl (fun _ => ⟨rfl, rfl⟩)

theorem call_resume_ref (xl : xlator_t) (env : wb_env) (s : wb_state) (stub : call_stub_t) :
    (call_resume xl env s stub).ctx = s.ctx
    ∧ (call_resume xl env s stub).inode.all = s.inode.all
    ∧ (call_resume xl env s stub).inode.todo = s.inode.todo
    ∧ (call_resume xl env s stub).inode.temptation = s.inode.temptation
    ∧ (call_resume xl env s stub).next = s.next
    ∧ (call_resume xl env s stub).inflight = s.inflight
    ∧ (call_resume xl env s stub).mem = s.mem := by
  have h := call_resume_same xl env s stub
  exact ⟨h.ctx, h.all, h.todo, h.temptation, h.next, h.inflight, h.mem⟩

/-- `wb_do_winds`: each task is resumed and its wind reference released. -/
theorem wb_ref_inv.ref_do_winds {liabilities : List Nat} (xl : xlator_t) (env : wb_env)
    (tasks : List Nat) :
    ∀ {s : wb_state}, wb_ref_inv s [] tasks liabilities [] →
      wb_ref_inv (wb_do_winds xl env s tasks) [] [] liabilities [] := by
  induction tasks with
  | nil => intro s h; exact h
  | cons x l ih =>
    intro s h
    unfold wb_do_winds
    apply ih
    unfold wb_request_unref
    have hr := call_resume_ref xl env s (s.mem x).stub
    have h1 : wb_ref_inv (call_resume xl env s (s.mem x).stub) [] (x :: l) liabilities [] :=
      h.ref_frame hr.1 hr.2.1 hr.2.2.1 hr.2.2.2.1 hr.2.2.2.2.1 hr.2.2.2.2.2.1
        (fun a => by rw [hr.2.2.2.2.2.2]; exact ⟨rfl, rfl⟩)
    refine h1.ref_unref_wind (wb_wind_list_cons_tasks _ _ _ _ _) ?_
    intro a ha
    rcases List.mem_append.1 ha with h2 | h2
    · exact List.mem_append_left _ (List.mem_cons_of_mem _ h2)
    · exact List.mem_append_right _ h2

/-- `NEXT_HEAD` without a batch to close: the request opens a batch. -/
theorem wb_ref_inv.ref_open_head {s : wb_state} {rest : List Nat} {req : Nat}
    (h : wb_ref_inv s [] [] (req :: rest) []) :
    wb_ref_inv s [] [] rest (wb_batch s.mem req) := by
  have hfr := h.fresh req (by simp)
  have hb : wb_batch s.mem req = [req] := by
    unfold wb_batch
    rw [hfr]
    rfl
  rw [hb]
  refine h.ref_move rfl rfl rfl (fun _ => rfl) ?_ (List.Perm.refl _) ?_
  · unfold wb_wind_list
    simp only [List.nil_append]
    apply List.Perm.append_left
    show (rest ++ ([req] ++ s.inflight.flatMap (wb_batch s.mem))).Perm
      ((req :: rest) ++ s.inflight.flatMap (wb_batch s.mem))
    rw [← List.append_assoc]
    exact List.Perm.append_right _ (List.perm_append_singleton req rest)
  · intro a ha
    apply h.fresh a
    simp only [List.mem_append, List.mem_cons, List.not_mem_nil, false_or] at ha ⊢
    rcases ha with h1 | h1
    · exact Or.inl h1
    · exact Or.inr (Or.inr h1)

/-- The head of the batch being formed or closed is neither in flight nor
waiting. -/
theorem wb_ref_inv.head_apart {s : wb_state} {U tasks liabilities : List Nat} {hd : Nat}
    (h : wb_ref_inv s U tasks liabilities (wb_batch s.mem hd)) :
    hd ∉ (s.mem hd).winds ∧ hd ∉ s.inflight
    ∧ ∀ a ∈ s.inode.todo ++ (tasks ++ liabilities), a ≠ hd := by
  have hnd := h.core.W_nodup
  unfold wb_wind_list at hnd
  have hX : hd ∈ wb_batch s.mem hd := wb_batch_head_mem s.mem hd
  refine ⟨?_, ?_, ?_⟩
  · have h1 := hnd.of_append_right.of_append_right.of_append_right.of_append_left
    unfold wb_batch at h1
    intro hc
    exact (List.nodup_append.1 h1).2.2 hc (List.mem_singleton.2 rfl)
  · intro hc
    have h1 := hnd.of_append_right.of_append_right.of_append_right
    have h2 : hd ∈ s.inflight.flatMap (wb_batch s.mem) :=
      List.mem_flatMap.2 ⟨hd, hc, wb_batch_head_mem s.mem hd⟩
    exact (List.nodup_append.1 h1).2.2 hX h2
  · intro a ha e
    subst e
    rcases List.mem_append.1 ha with h1 | h1
    · have h2 := (List.nodup_append.1 hnd).2.2 h1
      apply h2
      simp only [List.mem_append]
      exact Or.inr (Or.inr (Or.inl hX))
    · rcases List.mem_append.1 h1 with h3 | h3
      · have h2 := (List.nodup_append.1 hnd.of_append_right).2.2 h3
        apply h2
        simp only [List.mem_append]
        exact Or.inr (Or.inl hX)
      · have h2 := (List.nodup_append.1 hnd.of_append_right.of_append_right).2.2 h3
        apply h2
        simp only [List.mem_append]
        exact Or.inl hX

/-- The request joins the batch being formed: it is linked on the head. -/
theorem wb_ref_inv.ref_member_add {s : wb_state} {rest : List Nat} {hd req : Nat}
    (h : wb_ref_inv s [] [] (req :: rest) (wb_batch s.mem hd)) :
    wb_ref_inv { s with mem := (mem_set s.mem hd
        { s.mem hd with winds := (s.mem hd).winds ++ [req] }) } [] [] rest
      (wb_batch (mem_set s.mem hd { s.mem hd with winds := (s.mem hd).winds ++ [req] }) hd) := by
  obtain ⟨_, hnF, hne⟩ := h.head_apart
  have hb : wb_batch (mem_set s.mem hd { s.mem hd with winds := (s.mem hd).winds ++ [req] }) hd
      = (s.mem hd).winds ++ [req] ++ [hd] := by
    unfold wb_batch
    rw [mem_set_eq]
  have hfl : s.inflight.flatMap (wb_batch (mem_set s.mem hd
        { s.mem hd with winds := (s.mem hd).winds ++ [req] }))
      = s.inflight.flatMap (wb_batch s.mem) := by
    apply flatMap_congr_mem
    intro a ha
    have hax : a ≠ hd := fun e => hnF (e ▸ ha)
    unfold wb_batch
    rw [mem_set_ne _ _ _ _ hax]
  rw [hb]
  refine h.ref_move rfl rfl rfl ?_ ?_ (List.Perm.refl _) ?_
  · intro a
    show (mem_set s.mem hd { s.mem hd with winds := (s.mem hd).winds ++ [req] } a).refcount
      = (s.mem a).refcount
    by_cases hax : a = hd
    · subst hax
      rw [mem_set_eq]
    · rw [mem_set_ne _ _ _ _ hax]
  · unfold wb_wind_list
    simp only [List.nil_append]
    rw [hfl]
    apply List.Perm.append_left
    unfold wb_batch
    exact perm_move_member rest (s.mem hd).winds _ req hd
  · intro a ha
    have ha1 : a ∈ s.inode.todo ++ ([] ++ (req :: rest)) := by
      simp only [List.mem_append, List.mem_cons, List.not_mem_nil, false_or] at ha ⊢
      rcases ha with h1 | h1
      · exact Or.inl h1
      · exact Or.inr (Or.inr h1)
    show (mem_set s.mem hd { s.mem hd with winds := (s.mem hd).winds ++ [req] } a).winds = []
    rw [mem_set_ne _ _ _ _ (hne a ha1)]
    exact h.fresh a ha1

/-- What the successful path of `wb_fulfill_head` changes: the head's
`total_size`, `transit`, the batches in flight and the calls made. -/
theorem wb_fulfill_head_shape (env : wb_env) (s : wb_state) (hd : Nat)
    (hcf : env.create_frame hd = true) :
    (wb_fulfill_head env s hd).ctx = s.ctx
    ∧ (wb_fulfill_head env s hd).inode.all = s.inode.all
    ∧ (wb_fulfill_head env s hd).inode.todo = s.inode.todo
    ∧ (wb_fulfill_head env s hd).inode.temptation = s.inode.temptation
    ∧ (wb_fulfill_head env s hd).next = s.next
    ∧ (wb_fulfill_head env s hd).inflight = s.inflight ++ [hd]
    ∧ ∀ a, ((wb_fulfill_head env s hd).mem a).refcount = (s.mem a).refcount
        ∧ ((wb_fulfill_head env s hd).mem a).winds = (s.mem a).winds := by
  unfold wb_fulfill_head
  rw [if_neg (by simp [hcf])]
  simp only [WB_IOV_LOAD]
  rw [wb_fulfill_head_loop_spec]
  refine ⟨rfl, rfl, rfl, rfl, rfl, rfl, ?_⟩
  intro a
  by_cases ha : a = hd
  · subst ha
    simp only [mem_set, if_true, and_self]
  · simp only [mem_set, ha, if_false, and_self]

/-- A formed batch goes in flight. -/
theorem wb_ref_inv.ref_launch {s s1 : wb_state} {liabilities : List Nat} {hd : Nat}
    (h : wb_ref_inv s [] [] liabilities (wb_batch s.mem hd)) (hctx : s1.ctx = s.ctx)
    (hall : s1.inode.all = s.inode.all) (htodo : s1.inode.todo = s.inode.todo)
    (htempt : s1.inode.temptation = s.inode.temptation) (hnext : s1.next = s.next)
    (hF : s1.inflight = s.inflight ++ [hd])
    (hm : ∀ a, (s1.mem a).refcount = (s.mem a).refcount ∧ (s1.mem a).winds = (s.mem a).winds) :
    wb_ref_inv s1 [] [] liabilities [] := by
  refine h.ref_move hctx hall hnext (fun a => (hm a).1) ?_ ?_ ?_
  · unfold wb_wind_list
    simp only [List.nil_append]
    rw [wb_batch_congr s.mem s1.mem (fun a => (hm a).2), hF, htodo]
    apply List.Perm.append_left
    apply List.Perm.append_left
    rw [List.flatMap_append]
    simp only [List.flatMap_cons, List.flatMap_nil, List.append_nil]
    exact List.perm_append_comm
  · rw [htempt]
  · intro a ha
    rw [htodo] at ha
    rw [(hm a).2]
    exact h.fresh a ha

/-- `wb_fulfill_head` on a formed batch: the batch goes in flight, or, when
the frame cannot be had, each of its requests gives up its wind reference. -/
theorem wb_ref_inv.ref_fulfill_head {s : wb_state} {liabilities : List Nat} {hd : Nat}
    (env : wb_env) (h : wb_ref_inv s [] [] liabilities (wb_batch s.mem hd)) :
    wb_ref_inv (wb_fulfill_head env s hd) [] [] liabilities [] := by
  by_cases hcf : env.create_frame hd = true
  · obtain ⟨h1, h2, h3, h4, h5, h6, h7⟩ := wb_fulfill_head_shape env s hd hcf
    exact h.ref_launch h1 h2 h3 h4 h5 h6 h7
  · unfold wb_fulfill_head
    rw [if_pos (by simpa using hcf)]
    apply wb_ref_inv.ref_head_done
    unfold wb_inode_err
    exact h.ref_frame rfl rfl rfl rfl rfl rfl (fun _ => ⟨rfl, rfl⟩)

theorem wb_ref_inv.ref_fulfill_loop (xl : xlator_t) (env : wb_env) (l : List Nat) :
    ∀ {s : wb_state} {loc : wb_fulfill_locals},
      (loc.head = none → wb_ref_inv s [] [] l []) →
      (∀ hd, loc.head = some hd → wb_ref_inv s [] [] l (wb_batch s.mem hd)) →
      ((wb_fulfill_loop xl env l s loc).2.head = none →
        wb_ref_inv (wb_fulfill_loop xl env l s loc).1 [] [] [] [])
      ∧ (∀ hd, (wb_fulfill_loop xl env l s loc).2.head = some hd →
        wb_ref_inv (wb_fulfill_loop xl env l s loc).1 [] [] []
          (wb_batch (wb_fulfill_loop xl env l s loc).1.mem hd)) := by
  induction l with
  | nil =>
    intro s loc h1 h2
    exact ⟨h1, h2⟩
  | cons req rest ih =>
    intro s loc h1 h2
    unfold wb_fulfill_loop
    cases hh : loc.head with
    | none =>
      simp only
      have g := (h1 hh).ref_open_head
      apply ih
      · intro e
        simp [NEXT_HEAD] at e
      · intro hd e
        simp only [NEXT_HEAD, hh, Option.some.injEq] at e ⊢
        subst e
        exact g
    | some hd0 =>
      simp only
      have g0 := h2 hd0 hh
      split
      · have g1 := g0.ref_fulfill_head env
        have g := g1.ref_open_head
        apply ih
        · intro e
          simp [NEXT_HEAD] at e
        · intro hd e
          simp only [NEXT_HEAD, hh, Option.some.injEq] at e ⊢
          subst e
          exact g
      · have g := g0.ref_member_add
        apply ih
        · intro e
          have e1 : some hd0 = none := e
          cases e1
        · intro hd e
          have e1 : some hd0 = some hd := e
          cases e1
          exact g

/-- `wb_fulfill` on the liabilities picked in a round: every picked request
ends in a batch in flight, or gives up its wind reference when the frame of
its batch cannot be had. -/
theorem wb_ref_inv.ref_fulfill {s : wb_state} {liabilities : List Nat}
    (xl : xlator_t) (env : wb_env) (h : wb_ref_inv s [] [] liabilities []) :
    wb_ref_inv (wb_fulfill xl env s liabilities) [] [] [] [] := by
  have g := @wb_ref_inv.ref_fulfill_loop xl env liabilities s
    { head := none, expected_offset := 0, curr_aggregate := 0, vector_count := 0 }
    (fun _ => h) (fun hd e => by cases e)
  unfold wb_fulfill
  simp only
  split
  · rename_i hd e
    exact (g.2 hd e).ref_fulfill_head env
  · rename_i e
    exact g.1 e

/-- A round of `wb_process_queue`, whatever the allocation outcomes. -/
theorem wb_ref_inv.ref_process_queue {s : wb_state} (xl : xlator_t) (env : wb_env)
    (h : wb_ref_inv s [] [] [] []) : wb_ref_inv (wb_process_queue xl env s) [] [] [] [] := by
  unfold wb_process_queue wb_process_queue_locked
  simp only
  apply wb_ref_inv.ref_fulfill xl env
  apply wb_ref_inv.ref_do_winds
  apply wb_ref_inv.ref_do_unwinds
  apply wb_ref_inv.ref_pick_unwinds
  apply wb_ref_inv.ref_pick_winds
  exact h.ref_preprocess xl env

theorem wb_ref_inv.ref_inflight_nodup {s : wb_state} {U tasks liabilities X : List Nat}
    (h : wb_ref_inv s U tasks liabilities X) : s.inflight.Nodup := by
  have h1 := h.core.W_nodup
  unfold wb_wind_list at h1
  have h2 := h1.of_append_right.of_append_right.of_append_right.of_append_right
  have h3 := (List.nodup_flatMap.1 h2).2
  apply List.Pairwise.imp _ h3
  intro a b hd e
  subst e
  exact hd (wb_batch_head_mem s.mem a) (wb_batch_head_mem s.mem a)

/-- Taking a batch out of flight, as `wb_fulfill_cbk` does on entry. -/
theorem wb_ref_inv.ref_take_batch {s : wb_state} {head : Nat}
    (h : wb_ref_inv s [] [] [] []) (hh : head ∈ s.inflight) :
    wb_ref_inv { s with inflight := list_del head s.inflight } [] [] []
      (wb_batch s.mem head) := by
  refine h.ref_move rfl rfl rfl (fun _ => rfl) ?_ (List.Perm.refl _) (fun a ha => h.fresh a ha)
  unfold wb_wind_list
  simp only [List.nil_append]
  apply List.Perm.append_left
  have := (list_del_perm head s.inflight h.ref_inflight_nodup hh).flatMap_right (wb_batch s.mem)
  rw [List.flatMap_cons] at this
  exact this.symm

/-- The completion of a batch in flight, whatever its outcome. -/
theorem wb_ref_inv.ref_fulfill_cbk {s : wb_state} (xl : xlator_t) (env : wb_env)
    (h : wb_ref_inv s [] [] [] []) (head : Nat) (hh : head ∈ s.inflight)
    (op_ret op_errno : Int) :
    wb_ref_inv (wb_fulfill_cbk xl env s head op_ret op_errno) [] [] [] [] := by
  unfold wb_fulfill_cbk
  simp only
  apply wb_ref_inv.ref_process_queue xl env
  have h1 := h.ref_take_batch hh
  have key : ∀ (s1 : wb_state), s1.ctx = s.ctx → s1.inode.all = s.inode.all →
      s1.inode.todo = s.inode.todo → s1.inode.temptation = s.inode.temptation →
      s1.next = s.next → s1.inflight = list_del head s.inflight → s1.mem = s.mem →
      wb_ref_inv (wb_head_done s1 head) [] [] [] [] := by
    intro s1 e1 e2 e3 e4 e5 e6 e7
    apply wb_ref_inv.ref_head_done
    rw [e7]
    exact h1.ref_frame e1 e2 e3 e4 e5 e6 (fun a => by rw [e7]; exact ⟨rfl, rfl⟩)
  split
  · exact key _ rfl rfl rfl rfl rfl rfl rfl
  · split
    · exact key _ rfl rfl rfl rfl rfl rfl rfl
    · exact key _ rfl rfl rfl rfl rfl rfl rfl

/-- A new request is attached at the fresh address `s.next`, as
`wb_enqueue_common` does. -/
theorem wb_ref_inv.ref_attach {s : wb_state} (h : wb_ref_inv s [] [] [] [])
    (r : wb_request) (t : Bool) (hr1 : r.refcount = if t then 2 else 1) (hr2 : r.winds = []) :
    wb_ref_inv { s with
      next := s.next + 1
      mem := mem_set s.mem s.next r
      inode := { s.inode with
        all := s.inode.all ++ [s.next]
        todo := s.inode.todo ++ [s.next]
        temptation := if t then s.inode.temptation ++ [s.next] else s.inode.temptation } }
      [] [] [] [] := by
  have hnA : s.next ∉ s.inode.all := fun hc => Nat.lt_irrefl _ (h.core.all_lt _ hc)
  have hnW : s.next ∉ wb_wind_list s [] [] [] := fun hc =>
    hnA ((h.core.all_iff _).2 (Or.inl hc))
  have hnT : s.next ∉ s.inode.temptation ++ [] := fun hc =>
    hnA ((h.core.all_iff _).2 (Or.inr hc))
  have hnF : s.next ∉ s.inflight := by
    intro hc
    apply hnW
    unfold wb_wind_list
    simp only [List.nil_append, List.mem_append]
    exact Or.inr (List.mem_flatMap.2 ⟨s.next, hc, wb_batch_head_mem s.mem s.next⟩)
  have hfl : s.inflight.flatMap (wb_batch (mem_set s.mem s.next r))
      = s.inflight.flatMap (wb_batch s.mem) := by
    apply flatMap_congr_mem
    intro a ha
    have hax : a ≠ s.next := fun e => hnF (e ▸ ha)
    unfold wb_batch
    rw [mem_set_ne _ _ _ _ hax]
  have hW : wb_wind_list { s with
      next := s.next + 1
      mem := mem_set s.mem s.next r
      inode := { s.inode with
        all := s.inode.all ++ [s.next]
        todo := s.inode.todo ++ [s.next]
        temptation := if t then s.inode.temptation ++ [s.next] else s.inode.temptation } }
      [] [] [] = s.inode.todo ++ [s.next] ++ s.inflight.flatMap (wb_batch s.mem) := by
    unfold wb_wind_list
    simp only [List.nil_append]
    rw [hfl]
  have hW0 : wb_wind_list s [] [] [] = s.inode.todo ++ s.inflight.flatMap (wb_batch s.mem) := by
    unfold wb_wind_list
    simp only [List.nil_append]
  have hWp : (s.inode.todo ++ [s.next] ++ s.inflight.flatMap (wb_batch s.mem)).Perm
      (s.next :: wb_wind_list s [] [] []) := by
    rw [hW0, List.append_assoc]
    exact List.perm_middle
  have hTp : ((if t then s.inode.temptation ++ [s.next] else s.inode.temptation) ++ []).Perm
      (if t then s.next :: (s.inode.temptation ++ []) else s.inode.temptation ++ []) := by
    cases t
    · simp
    · simp only [if_true, List.append_nil]
      exact List.perm_append_singleton _ _
  have hmemW : ∀ a, a ∈ s.inode.todo ++ [s.next] ++ s.inflight.flatMap (wb_batch s.mem)
      ↔ a = s.next ∨ a ∈ wb_wind_list s [] [] [] := fun a => by
    rw [hWp.mem_iff, List.mem_cons]
  have hmemT : ∀ a, a ∈ (if t then s.inode.temptation ++ [s.next] else s.inode.temptation) ++ []
      ↔ (t = true ∧ a = s.next) ∨ a ∈ s.inode.temptation ++ [] := fun a => by
    rw [hTp.mem_iff]
    cases t
    · simp
    · simp
  refine ⟨h.ctx, ?_, ?_⟩
  · rw [hW]
    refine ⟨?_, ?_, ?_, ?_, ?_⟩
    · exact hWp.nodup_iff.2 (List.nodup_cons.2 ⟨hnW, h.core.W_nodup⟩)
    · refine hTp.nodup_iff.2 ?_
      cases t
      · exact h.core.T_nodup
      · exact List.nodup_cons.2 ⟨hnT, h.core.T_nodup⟩
    · intro a
      show (mem_set s.mem s.next r a).refcount = _
      by_cases ha : a = s.next
      · subst ha
        rw [mem_set_eq, hr1, if_pos ((hmemW _).2 (Or.inl rfl))]
        cases t
        · have : ¬ s.next ∈ (if false = true then s.inode.temptation ++ [s.next]
              else s.inode.temptation) ++ [] := by
            rw [hmemT]
            rintro (h1 | h1)
            · cases h1.1
            · exact hnT h1
          rw [if_neg this]
          rfl
        · rw [if_pos ((hmemT _).2 (Or.inl ⟨rfl, rfl⟩))]
          rfl
      · rw [mem_set_ne _ _ _ _ ha, h.core.refs a]
        have e1 : a ∈ s.inode.todo ++ [s.next] ++ s.inflight.flatMap (wb_batch s.mem)
            ↔ a ∈ wb_wind_list s [] [] [] := by
          rw [hmemW]
          exact ⟨fun h1 => h1.resolve_left ha, Or.inr⟩
        have e2 : a ∈ (if t then s.inode.temptation ++ [s.next] else s.inode.temptation) ++ []
            ↔ a ∈ s.inode.temptation ++ [] := by
          rw [hmemT]
          exact ⟨fun h1 => h1.resolve_left (fun h2 => ha h2.2), Or.inr⟩
        simp only [e1, e2]
    · intro a
      show a ∈ s.inode.all ++ [s.next] ↔ _
      rw [hmemW, hmemT, List.mem_append, List.mem_singleton, h.core.all_iff a]
      constructor
      · rintro ((h1 | h1) | h1)
        · exact Or.inl (Or.inr h1)
        · exact Or.inr (Or.inr h1)
        · exact Or.inl (Or.inl h1)
      · rintro ((h1 | h1) | (h1 | h1))
        · exact Or.inr h1
        · exact Or.inl (Or.inl h1)
        · exact Or.inr h1.2
        · exact Or.inl (Or.inr h1)
    · intro a ha
      show a < s.next + 1
      rcases List.mem_append.1 ha with h1 | h1
      · exact Nat.lt_succ_of_lt (h.core.all_lt a h1)
      · rw [List.mem_singleton.1 h1]
        exact Nat.lt_succ_self _
  · intro a ha
    show (mem_set s.mem s.next r a).winds = []
    by_cases hax : a = s.next
    · subst hax
      rw [mem_set_eq]
      exact hr2
    · rw [mem_set_ne _ _ _ _ hax]
      apply h.fresh a
      simp only [List.nil_append, List.append_nil, List.mem_append, List.mem_singleton] at ha ⊢
      exact ha.resolve_right hax

theorem wb_ref_inv.ref_enqueue {s : wb_state} (h : wb_ref_inv s [] [] [] [])
    (env : wb_env) (stub : call_stub_t) (tempted : Bool) :
    wb_ref_inv (wb_enqueue_common env s stub tempted).1 [] [] [] [] := by
  by_cases hc : env.request_calloc = true
  · rw [wb_enqueue_common_eq env s stub tempted hc]
    exact h.ref_attach _ tempted rfl (wb_request_init_fields stub tempted).2.2.2.1
  · unfold wb_enqueue_common
    simp only [hc, Bool.not_false, if_true]
    exact h

/-- The context `wb_inode_create` builds on an inode for which nothing is in
flight and no request holds a reference. -/
theorem wb_ref_inv.ref_created (xl : xlator_t) (s : wb_state) (hF : s.inflight = [])
    (hr : ∀ a, (s.mem a).refcount = 0) :
    wb_ref_inv { s with ctx := true, inode := wb_inode_zero xl } [] [] [] [] := by
  have hW : wb_wind_list { s with ctx := true, inode := wb_inode_zero xl } [] [] [] = [] := by
    unfold wb_wind_list
    simp [wb_inode_zero, hF]
  refine ⟨rfl, ?_, ?_⟩
  · rw [hW]
    refine ⟨List.nodup_nil, List.nodup_nil, ?_, ?_, ?_⟩
    · intro a
      show (s.mem a).refcount = _
      rw [hr a]
      simp [wb_inode_zero]
    · intro a
      simp [wb_inode_zero]
    · intro a ha
      simp [wb_inode_zero] at ha
  · intro a ha
    simp [wb_inode_zero] at ha

theorem wb_ref_quiet.refq_inode_create {s s1 : wb_state} (h : wb_ref_quiet s) (xl : xlator_t)
    (env : wb_env) (hs : wb_inode_create xl env s = some s1) : wb_ref_inv s1 [] [] [] [] := by
  unfold wb_inode_create at hs
  rcases h with h | h
  · rw [if_neg (by simp [h.1])] at hs
    split at hs
    · cases hs
    · cases hs
      exact wb_ref_inv.ref_created xl s h.2.1 h.2.2.2.2.2
  · rw [if_pos h.ctx] at hs
    cases hs
    exact h

theorem wb_ref_quiet.refq_same {s s1 : wb_state} (h : wb_ref_quiet s) (hs : wb_same_queue s s1) :
    wb_ref_quiet s1 := by
  rcases h with h | h
  · left
    rw [hs.ctx, hs.inflight, hs.all, hs.todo, hs.temptation, hs.mem]
    exact h
  · exact Or.inr (h.ref_frame hs.ctx hs.all hs.todo hs.temptation hs.next hs.inflight
      (fun a => by rw [hs.mem]; exact ⟨rfl, rfl⟩))

theorem wb_ref_quiet.refq_unwind {s : wb_state} (h : wb_ref_quiet s)
    (fop : glusterfs_fop_t) (frame : Nat) (e : Int) :
    wb_ref_quiet (wb_unwind s fop frame e) :=
  h.refq_same ⟨rfl, rfl, rfl, rfl, rfl, rfl, rfl, rfl, rfl, rfl, rfl, rfl⟩

theorem wb_ref_quiet.refq_queue_if_ctx {s : wb_state} (h : wb_ref_quiet s) (xl : xlator_t)
    (env : wb_env) (stub : call_stub_t) : wb_ref_quiet (wb_queue_if_ctx xl env s stub) := by
  unfold wb_queue_if_ctx
  split
  · exact h.refq_same ⟨rfl, rfl, rfl, rfl, rfl, rfl, rfl, rfl, rfl, rfl, rfl, rfl⟩
  · rename_i hctx
    split
    · exact h.refq_unwind _ _ _
    · have h1 : wb_ref_inv s [] [] [] [] := by
        rcases h with h | h
        · rw [h.1] at hctx
          exact absurd rfl hctx
        · exact h
      simp only
      split
      · exact wb_ref_quiet.refq_unwind (Or.inr (h1.ref_enqueue env stub false)) _ _ _
      · exact Or.inr ((h1.ref_enqueue env stub false).ref_process_queue xl env)

theorem wb_ref_quiet.refq_queue_create_ctx {s : wb_state} (h : wb_ref_quiet s) (xl : xlator_t)
    (env : wb_env) (stub : call_stub_t) : wb_ref_quiet (wb_queue_create_ctx xl env s stub) := by
  unfold wb_queue_create_ctx
  split
  · exact h.refq_unwind _ _ _
  · rename_i s1 hs
    have h1 := h.refq_inode_create xl env hs
    split
    · exact wb_ref_quiet.refq_unwind (Or.inr h1) _ _ _
    · simp only
      split
      · exact wb_ref_quiet.refq_unwind (Or.inr (h1.ref_enqueue env stub false)) _ _ _
      · exact Or.inr ((h1.ref_enqueue env stub false).ref_process_queue xl env)

theorem wb_ref_quiet.refq_writev {s : wb_state} (h : wb_ref_quiet s) (xl : xlator_t)
    (env : wb_env) (frame lk_owner : Nat) (fd : fd_t)
    (vector : List iovec) (offset : Int) (flags : Nat) :
    wb_ref_quiet (wb_writev xl env s frame lk_owner fd vector offset flags) := by
  unfold wb_writev
  split
  · exact h.refq_unwind _ _ _
  · rename_i s1 hs
    have h1 := h.refq_inode_create xl env hs
    have h2 : wb_ref_inv { s1 with inode := { s1.inode with op_ret := 0 } } [] [] [] [] :=
      h1.ref_frame rfl rfl rfl rfl rfl rfl (fun _ => ⟨rfl, rfl⟩)
    have hsr : ∀ (d : Bool) (stub : call_stub_t), wb_ref_inv
        (if d = true then wb_enqueue env { s1 with inode := { s1.inode with op_ret := 0 } } stub
          else wb_enqueue_tempted env
            { s1 with inode := { s1.inode with op_ret := 0 } } stub).1 [] [] [] [] := by
      intro d stub
      split
      · exact h2.ref_enqueue env _ false
      · exact h2.ref_enqueue env _ true
    simp only
    apply ite_ind wb_ref_quiet
    · exact wb_ref_quiet.refq_unwind (Or.inr h2) _ _ _
    · apply ite_ind wb_ref_quiet
      · exact wb_ref_quiet.refq_unwind (Or.inr h2) _ _ _
      · apply ite_ind wb_ref_quiet
        · exact wb_ref_quiet.refq_unwind (Or.inr (hsr _ _)) _ _ _
        · exact Or.inr ((hsr _ _).ref_process_queue xl env)

theorem wb_ref_quiet.refq_step {s : wb_state} (h : wb_ref_quiet s) (xl : xlator_t)
    (env : wb_env) (c : wb_call) (hok : wb_call_ok s c) : wb_ref_quiet (wb_step xl env s c) := by
  cases c with
  | writev frame lk_owner fd vector offset flags => exact h.refq_writev xl env _ _ _ _ _ _
  | readv frame lk_owner fd size offset flags => exact h.refq_queue_if_ctx xl env _
  | flush frame lk_owner fd => exact h.refq_queue_if_ctx xl env _
  | fsync frame lk_owner fd => exact h.refq_queue_if_ctx xl env _
  | stat frame lk_owner => exact h.refq_queue_if_ctx xl env _
  | fstat frame lk_owner fd => exact h.refq_queue_if_ctx xl env _
  | truncate frame lk_owner offset => exact h.refq_queue_create_ctx xl env _
  | ftruncate frame lk_owner fd offset => exact h.refq_queue_create_ctx xl env _
  | setattr frame lk_owner => exact h.refq_queue_if_ctx xl env _
  | fsetattr frame lk_owner fd => exact h.refq_queue_if_ctx xl env _
  | fulfill_cbk head op_ret op_errno =>
    have hh : head ∈ s.inflight := hok
    rcases h with h | h
    · rw [h.2.1] at hh
      cases hh
    · exact Or.inr (h.ref_fulfill_cbk xl env head hh op_ret op_errno)

/-- The reference census holds in every reachable state. -/
theorem wb_ref_quiet.refq_reachable (xl : xlator_t) (s : wb_state) (h : Reachable xl s) :
    wb_ref_quiet s := by
  induction h with
  | init => exact Or.inl ⟨rfl, rfl, rfl, rfl, rfl, fun _ => rfl⟩
  | step env s c _ hok ih => exact ih.refq_step xl env c hok

/-- Between calls a request is on `all` iff it holds a reference, and it holds
at most two. -/
theorem wb_ref_quiet.on_all_iff {s : wb_state} (h : wb_ref_quiet s) (a : Nat) :
    (a ∈ s.inode.all ↔ 0 < (s.mem a).refcount)
    ∧ 0 ≤ (s.mem a).refcount ∧ (s.mem a).refcount ≤ 2 := by
  rcases h with h | h
  · rw [h.2.2.1, h.2.2.2.2.2 a]
    simp
  · have hr := h.core.refs a
    have ha := h.core.all_iff a
    rw [List.append_nil] at hr ha
    rw [ha, hr]
    by_cases h1 : a ∈ wb_wind_list s [] [] [] <;> by_cases h2 : a ∈ s.inode.temptation
      <;> simp [h1, h2]

theorem wb_queue_if_ctx_bypass (xl : xlator_t) (env : wb_env) (s : wb_state) (stub : call_stub_t)
    (h : s.ctx = false) :
    wb_queue_if_ctx xl env s stub = { s with out := s.out ++ [wb_event.wind stub] } := by
  unfold wb_queue_if_ctx wb_noqueue
  rw [if_pos (by simp [h])]

theorem wb_request_init_plain (stub : call_stub_t) :
    (wb_request_init stub false).stub = stub
    ∧ (wb_request_init stub false).ordering.tempted = false := by
  unfold wb_request_init
  simp only [wb_request_zero]
  split <;> split <;> simp

/-- A round of `wb_process_queue` on a queue that holds a single request, not a
tempted one and not a flush: the request is picked, wound down and destroyed,
and the inode is idle again. -/
theorem wb_process_queue_single (xl : xlator_t) (env : wb_env) (s : wb_state) (n : Nat)
    (r : wb_request) (ht : r.ordering.tempted = false) (hf : r.stub.fop ≠ GF_FOP_FLUSH)
    (hr : r.refcount = 1) :
    wb_process_queue xl env
        { s with
          ctx := true
          next := n + 1
          mem := mem_set s.mem n r
          inode := { wb_inode_zero xl with all := [n], todo := [n] } }
      = { s with
          ctx := true
          next := n + 1
          mem := mem_set s.mem n { r with refcount := 0 }
          inode := wb_inode_zero xl
          out := s.out ++ [wb_event.wind r.stub] } := by
  have hcr : ∀ (t : wb_state), call_resume xl env t r.stub
      = { t with out := t.out ++ [wb_event.wind r.stub] } := by
    intro t
    unfold call_resume
    split
    · rename_i h1
      exact absurd h1 hf
    · rfl
  simp [wb_process_queue, wb_process_queue_locked, __wb_preprocess_winds,
    __wb_preprocess_winds_loop, __wb_pick_winds, __wb_pick_winds_loop, __wb_pick_unwinds,
    __wb_pick_unwinds_loop, wb_do_unwinds, wb_do_winds, wb_fulfill, wb_fulfill_loop,
    wb_liability_has_conflict, wb_liability_has_conflict_loop, wb_inode_zero, mem_set_eq, ht,
    hcr, wb_request_unref, __wb_request_unref, hr, wb_request_destroy, list_del,
    mem_set_mem_set]

/-- What `wb_truncate` and `wb_ftruncate` do on an inode without context when
every allocation succeeds: the context is created, a request is allocated and
queued, and the round that follows winds the call down and destroys the
request. -/
theorem wb_queue_create_ctx_fresh (xl : xlator_t) (env : wb_env) (s : wb_state)
    (stub : call_stub_t) (h : s.ctx = false) (hi : env.inode_calloc = true)
    (hs : env.fop_stub = true) (hr : env.request_calloc = true)
    (hf : stub.fop ≠ GF_FOP_FLUSH) :
    wb_queue_create_ctx xl env s stub
      = { s with
          ctx := true
          next := s.next + 1
          mem := mem_set s.mem s.next
            { wb_request_init stub false with gen := 0, refcount := 0 }
          inode := wb_inode_zero xl
          out := s.out ++ [wb_event.wind stub] } := by
  have e1 : wb_queue_create_ctx xl env s stub
      = wb_process_queue xl env
          (wb_enqueue env { s with ctx := true, inode := wb_inode_zero xl } stub).1 := by
    simp [wb_queue_create_ctx, wb_inode_create, h, hi, hs, hr, wb_enqueue, wb_enqueue_common]
  have e2 : (wb_enqueue env { s with ctx := true, inode := wb_inode_zero xl } stub).1
      = { s with
          ctx := true
          next := s.next + 1
          mem := mem_set s.mem s.next
            { wb_request_init stub false with gen := 0, refcount := 1 }
          inode := { wb_inode_zero xl with all := [s.next], todo := [s.next] } } := by
    unfold wb_enqueue
    rw [wb_enqueue_common_eq _ _ _ _ hr]
    simp [wb_inode_zero]
  rw [e1, e2, wb_process_queue_single xl env s s.next
    { wb_request_init stub false with gen := 0, refcount := 1 } (wb_request_init_plain stub).2
    (by rw [(wb_request_init_plain stub).1]; exact hf) rfl]
  simp only [(wb_request_init_plain stub).1]

/-- C32 (counterexample), evaluated on the code: a truncate and an ftruncate on
an inode without write-behind state.  Each creates the inode context and
allocates and queues a request (address 1) before the call is wound down. -/
theorem C32_truncate_creates_state :
    (wb_state_init xl_default).ctx = false
    ∧ (wb_truncate xl_default wb_env_ok (wb_state_init xl_default) 1 7 5).ctx = true
    ∧ (wb_truncate xl_default wb_env_ok (wb_state_init xl_default) 1 7 5).next = 2
    ∧ ((wb_truncate xl_default wb_env_ok (wb_state_init xl_default) 1 7 5).mem 1).fop
        = GF_FOP_TRUNCATE
    ∧ (wb_enqueue wb_env_ok { wb_state_init xl_default with ctx := true }
        { fop := GF_FOP_TRUNCATE, frame := 1, lk_owner := 7, fd := none, vector := [],
          off := 5, size := 0, flags := 0 }).1.inode.todo = [1]
    ∧ wb_truncate xl_default wb_env_ok (wb_state_init xl_default) 1 7 5
        = wb_process_queue xl_default wb_env_ok
          (wb_enqueue wb_env_ok { wb_state_init xl_default with ctx := true }
            { fop := GF_FOP_TRUNCATE, frame := 1, lk_owner := 7, fd := none, vector := [],
              off := 5, size := 0, flags := 0 }).1
    ∧ (wb_ftruncate xl_default wb_env_ok (wb_state_init xl_default) 1 7 fd_plain 5).ctx = true
    ∧ (wb_ftruncate xl_default wb_env_ok (wb_state_init xl_default) 1 7 fd_plain 5).next = 2
    ∧ ((wb_ftruncate xl_default wb_env_ok (wb_state_init xl_default) 1 7 fd_plain 5).mem 1).fop
        = GF_FOP_FTRUNCATE :=
  ⟨rfl, by decide!, by decide!, by decide!, by decide!, rfl, by decide!, by decide!, by decide!⟩

/-- C32 (amended): on an inode without write-behind state, readv, flush,
fsync, stat, fstat, setattr and fsetattr are wound down directly and nothing
else changes: no request is allocated and no context is created.  Truncate
and ftruncate create the context; when their allocations succeed they queue a
request, which the round that follows winds down and destroys, so that the
call reaches the lower layer in the same way and the inode is left with a
context and empty lists. -/
theorem C32_no_state_bypass (xl : xlator_t) (env : wb_env) (s : wb_state) (h : s.ctx = false)
    (frame lk_owner : Nat) (fd : fd_t) (size : Nat) (offset : Int) (flags : Nat) :
    wb_readv xl env s frame lk_owner fd size offset flags
      = { s with out := s.out ++ [wb_event.wind
          { fop := GF_FOP_READ, frame := frame, lk_owner := lk_owner, fd := some fd,
            vector := [], off := offset, size := size, flags := flags }] }
    ∧ wb_flush xl env s frame lk_owner fd
      = { s with out := s.out
          ++ [wb_event.wind (wb_plain_stub GF_FOP_FLUSH frame lk_owner (some fd))] }
    ∧ wb_fsync xl env s frame lk_owner fd
      = { s with out := s.out
          ++ [wb_event.wind (wb_plain_stub GF_FOP_FSYNC frame lk_owner (some fd))] }
    ∧ wb_stat xl env s frame lk_owner
      = { s with out := s.out ++ [wb_event.wind (wb_plain_stub GF_FOP_STAT frame lk_owner none)] }
    ∧ wb_fstat xl env s frame lk_owner fd
      = { s with out := s.out
          ++ [wb_event.wind (wb_plain_stub GF_FOP_FSTAT frame lk_owner (some fd))] }
    ∧ wb_setattr xl env s frame lk_owner
      = { s with out := s.out
          ++ [wb_event.wind (wb_plain_stub GF_FOP_SETATTR frame lk_owner none)] }
    ∧ wb_fsetattr xl env s frame lk_owner fd
      = { s with out := s.out
          ++ [wb_event.wind (wb_plain_stub GF_FOP_FSETATTR frame lk_owner (some fd))] }
    ∧ (env.inode_calloc = true → env.fop_stub = true → env.request_calloc = true →
        wb_truncate xl env s frame lk_owner offset
          = { s with
              ctx := true
              next := s.next + 1
              mem := mem_set s.mem s.next
                { wb_request_init
                    { fop := GF_FOP_TRUNCATE, frame := frame, lk_owner := lk_owner, fd := none,
                      vector := [], off := offset, size := 0, flags := 0 } false with
                  gen := 0, refcount := 0 }
              inode := wb_inode_zero xl
              out := s.out ++ [wb_event.wind
                { fop := GF_FOP_TRUNCATE, frame := frame, lk_owner := lk_owner, fd := none,
                  vector := [], off := offset, size := 0, flags := 0 }] }
        ∧ wb_ftruncate xl env s frame lk_owner fd offset
          = { s with
              ctx := true
              next := s.next + 1
              mem := mem_set s.mem s.next
                { wb_request_init
                    { fop := GF_FOP_FTRUNCATE, frame := frame, lk_owner := lk_owner,
                      fd := some fd, vector := [], off := offset, size := 0, flags := 0 }
                    false with
                  gen := 0, refcount := 0 }
              inode := wb_inode_zero xl
              out := s.out ++ [wb_event.wind
                { fop := GF_FOP_FTRUNCATE, frame := frame, lk_owner := lk_owner, fd := some fd,
                  vector := [], off := offset, size := 0, flags := 0 }] }) :=
  ⟨wb_queue_if_ctx_bypass xl env s _ h, wb_queue_if_ctx_bypass xl env s _ h,
    wb_queue_if_ctx_bypass xl env s _ h, wb_queue_if_ctx_bypass xl env s _ h,
    wb_queue_if_ctx_bypass xl env s _ h, wb_queue_if_ctx_bypass xl env s _ h,
    wb_queue_if_ctx_bypass xl env s _ h,
    fun hi hs hr =>
      ⟨wb_queue_create_ctx_fresh xl env s _ h hi hs hr (fun e => by cases e),
        wb_queue_create_ctx_fresh xl env s _ h hi hs hr (fun e => by cases e)⟩⟩

/-- Witness of C32 (amended) on a fresh inode, default configuration: a read
is wound down and leaves the inode without context; a truncate to offset 5 is
wound down and leaves a context. -/
theorem C32_no_state_bypass_witness :
    (wb_state_init xl_default).ctx = false
    ∧ wb_readv xl_default wb_env_ok (wb_state_init xl_default) 1 7 fd_plain 4 0 0
      = { wb_state_init xl_default with out := [wb_event.wind
          { fop := GF_FOP_READ, frame := 1, lk_owner := 7, fd := some fd_plain,
            vector := [], off := 0, size := 4, flags := 0 }] }
    ∧ (wb_truncate xl_default wb_env_ok (wb_state_init xl_default) 1 7 5).ctx = true
    ∧ (wb_truncate xl_default wb_env_ok (wb_state_init xl_default) 1 7 5).inode
      = wb_inode_zero xl_default
    ∧ (wb_truncate xl_default wb_env_ok (wb_state_init xl_default) 1 7 5).out
      = [wb_event.wind
          { fop := GF_FOP_TRUNCATE, frame := 1, lk_owner := 7, fd := none,
            vector := [], off := 5, size := 0, flags := 0 }] :=
  ⟨rfl,
    (C32_no_state_bypass xl_default wb_env_ok (wb_state_init xl_default) rfl 1 7 fd_plain
      4 0 0).1,
    congrArg wb_state.ctx
      ((C32_no_state_bypass xl_default wb_env_ok (wb_state_init xl_default) rfl 1 7 fd_plain
        4 5 0).2.2.2.2.2.2.2 rfl rfl rfl).1,
    congrArg wb_state.inode
      ((C32_no_state_bypass xl_default wb_env_ok (wb_state_init xl_default) rfl 1 7 fd_plain
        4 5 0).2.2.2.2.2.2.2 rfl rfl rfl).1,
    congrArg wb_state.out
      ((C32_no_state_bypass xl_default wb_env_ok (wb_state_init xl_default) rfl 1 7 fd_plain
        4 5 0).2.2.2.2.2.2.2 rfl rfl rfl).1⟩

/-! ## Resumption of a queued flush -/

/-- C33: resuming the stub of a queued flush runs `wb_flush_helper`.  On an
inode with a context, as every inode with a queued flush has: with an error
latched (`op_ret` negative and an errno other than 0) the caller is answered
-1 with the latched errno, `op_ret` of the latch is reset to 0 and no flush is
sent down.  Without a latched error and with flush-behind on, one flush is
sent down on a copy of the frame and the caller is answered 0 in the same step
(when the frame cannot be copied the caller is answered -1 with ENOMEM and
nothing is sent).  Without a latched error and with flush-behind off, the
flush is sent down on the caller's frame and the engine does not answer the
caller.  Nothing else changes in any of the cases.  Were the helper to run on
an inode without context, the caller would be answered -1 with EINVAL and
nothing else would happen. -/
theorem C33_flush_helper (xl : xlator_t) (env : wb_env) (s : wb_state) (stub : call_stub_t)
    (hf : stub.fop = GF_FOP_FLUSH) :
    call_resume xl env s stub = wb_flush_helper xl env s stub
    ∧ (s.ctx = true → s.inode.op_ret < 0 → s.inode.op_errno ≠ 0 →
        wb_flush_helper xl env s stub
          = { s with
              inode := { s.inode with op_ret := 0 }
              out := s.out ++ [wb_event.unwind GF_FOP_FLUSH stub.frame (-1) s.inode.op_errno] })
    ∧ (s.ctx = true → ¬ s.inode.op_ret < 0 → xl.priv.flush_behind = true →
        env.copy_frame stub.frame = true →
        wb_flush_helper xl env s stub
          = { s with
              inode := { s.inode with op_ret := 0 }
              out := s.out
                ++ [wb_event.wind_bg stub, wb_event.unwind GF_FOP_FLUSH stub.frame 0 0] })
    ∧ (s.ctx = true → ¬ s.inode.op_ret < 0 → xl.priv.flush_behind = true →
        env.copy_frame stub.frame = false →
        wb_flush_helper xl env s stub
          = { s with
              inode := { s.inode with op_ret := 0 }
              out := s.out ++ [wb_event.unwind GF_FOP_FLUSH stub.frame (-1) ENOMEM] })
    ∧ (s.ctx = true → ¬ s.inode.op_ret < 0 → xl.priv.flush_behind = false →
        wb_flush_helper xl env s stub
          = { s with
              inode := { s.inode with op_ret := 0 }
              out := s.out ++ [wb_event.wind stub] })
    ∧ (s.ctx = false →
        wb_flush_helper xl env s stub
          = { s with out := s.out ++ [wb_event.unwind GF_FOP_FLUSH stub.frame (-1) EINVAL] }) := by
  refine ⟨?_, ?_, ?_, ?_, ?_, ?_⟩
  · unfold call_resume
    rw [hf]
  · intro hc h1 h2
    unfold wb_flush_helper
    simp only [hc, Bool.not_true, Bool.false_eq_true, if_false, if_pos h1]
    rw [if_pos h2]
  · intro hc h1 h2 h3
    unfold wb_flush_helper
    simp only [hc, Bool.not_true, Bool.false_eq_true, if_false, if_neg h1]
    rw [if_neg (fun h => h rfl), if_pos h2, if_neg (by simp [h3])]
  · intro hc h1 h2 h3
    unfold wb_flush_helper
    simp only [hc, Bool.not_true, Bool.false_eq_true, if_false, if_neg h1]
    rw [if_neg (fun h => h rfl), if_pos h2, if_pos (by simp [h3])]
  · intro hc h1 h2
    unfold wb_flush_helper
    simp only [hc, Bool.not_true, Bool.false_eq_true, if_false, if_neg h1]
    rw [if_neg (fun h => h rfl), if_neg (by simp [h2])]
  · intro hc
    unfold wb_flush_helper
    simp only [hc, Bool.not_false, if_true]

/-- Witness of C33: the flush `stub_flush` resumed in `state_latched` (context
present, latch -1 with ENOSPC, flush-behind on), and the same flush arriving
as a call: it is answered -1 with errno 28, the latch is cleared, and the only
call the engine makes is that answer.  Resumed on the fresh inode, which has
no context, the helper answers -1 with EINVAL (22). -/
theorem C33_flush_helper_witness :
    stub_flush.fop = GF_FOP_FLUSH
    ∧ state_latched.ctx = true
    ∧ state_latched.inode.op_ret = -1 ∧ state_latched.inode.op_errno = 28
    ∧ wb_flush_helper xl_default wb_env_ok state_latched stub_flush
        = { state_latched with
            inode := { state_latched.inode with op_ret := 0 }
            out := state_latched.out ++ [wb_event.unwind GF_FOP_FLUSH 2 (-1) 28] }
    ∧ (wb_step xl_default wb_env_ok state_latched (.flush 2 7 fd_plain)).out
        = state_latched.out ++ [wb_event.unwind GF_FOP_FLUSH 2 (-1) 28]
    ∧ (wb_step xl_default wb_env_ok state_latched (.flush 2 7 fd_plain)).inode.op_ret = 0
    ∧ (wb_state_init xl_default).ctx = false
    ∧ wb_flush_helper xl_default wb_env_ok (wb_state_init xl_default) stub_flush
        = { wb_state_init xl_default with
            out := (wb_state_init xl_default).out
              ++ [wb_event.unwind GF_FOP_FLUSH 2 (-1) 22] } :=
  ⟨rfl, by decide!, by decide!, by decide!,
    (C33_flush_helper xl_default wb_env_ok state_latched stub_flush rfl).2.1 (by decide!)
      (by decide!) (by decide!),
    by decide!, by decide!, rfl,
    (C33_flush_helper xl_default wb_env_ok (wb_state_init xl_default) stub_flush
      rfl).2.2.2.2.2 rfl⟩

/-! ## Failure of the frame allocation in the fulfiller -/

theorem __wb_fulfill_request_mem (s : wb_state) (x : Nat) (hr : 0 < (s.mem x).refcount) :
    (__wb_fulfill_request s x).mem = mem_set s.mem x (wb_fulfilled_unref (s.mem x)) := by
  rw [__wb_fulfill_request_eq, if_neg (not_le.2 hr)]
  split <;> rfl

theorem __wb_fulfill_request_transit (s : wb_state) (x : Nat) :
    (__wb_fulfill_request s x).inode.transit = s.inode.transit - (s.mem x).total_size
    ∧ (__wb_fulfill_request s x).inflight = s.inflight
    ∧ ∀ a, ((__wb_fulfill_request s x).mem a).total_size = (s.mem a).total_size := by
  rw [__wb_fulfill_request_eq]
  have hm : ∀ (r : wb_request), r.total_size = (s.mem x).total_size →
      ∀ a, (mem_set s.mem x r a).total_size = (s.mem a).total_size := by
    intro r hr a
    by_cases hax : a = x
    · rw [hax, mem_set_eq, hr]
    · rw [mem_set_ne _ _ _ _ hax]
  split
  · exact ⟨rfl, rfl, hm _ rfl⟩
  · split
    · refine ⟨?_, rfl, hm _ rfl⟩
      simp only [wb_request_destroy]
      split <;> rfl
    · exact ⟨rfl, rfl, hm _ rfl⟩

/-- The store after the loop of `wb_head_done` over distinct requests that each
hold a reference: each is marked fulfilled and loses one reference. -/
theorem wb_head_done_loop_mem (l : List Nat) :
    ∀ (s : wb_state), l.Nodup → (∀ a ∈ l, 0 < (s.mem a).refcount) →
      (wb_head_done_loop l s).mem
        = fun a => if a ∈ l then wb_fulfilled_unref (s.mem a) else s.mem a := by
  induction l with
  | nil => intro s _ _; simp [wb_head_done_loop]
  | cons x l ih =>
    intro s hnd hr
    have hx : x ∉ l := (List.nodup_cons.1 hnd).1
    have e1 := __wb_fulfill_request_mem s x (hr x (List.mem_cons_self _ _))
    simp only [wb_head_done_loop]
    rw [ih _ (List.nodup_cons.1 hnd).2 (fun a ha => by
      rw [e1, mem_set_ne _ _ _ _ (fun (e : a = x) => hx (e ▸ ha))]
      exact hr a (List.mem_cons_of_mem _ ha)), e1]
    funext a
    by_cases hax : a = x
    · subst hax
      simp only [if_neg hx, mem_set_eq, List.mem_cons, true_or, if_true]
    · simp only [mem_set_ne _ _ _ _ hax, List.mem_cons, hax, false_or]

/-- What the loop of `wb_head_done` does to `transit`: it is debited by the
`total_size` of each request walked. -/
theorem wb_head_done_loop_transit (l : List Nat) :
    ∀ (s : wb_state),
      (wb_head_done_loop l s).inode.transit
        = s.inode.transit - sum_over (fun r => (r.total_size : Int)) s.mem l
      ∧ (wb_head_done_loop l s).inflight = s.inflight
      ∧ ∀ a, ((wb_head_done_loop l s).mem a).total_size = (s.mem a).total_size := by
  induction l with
  | nil => intro s; simp [wb_head_done_loop, sum_over_nil]
  | cons x l ih =>
    intro s
    have h1 := __wb_fulfill_request_transit s x
    have h2 := ih (__wb_fulfill_request s x)
    simp only [wb_head_done_loop]
    refine ⟨?_, h2.2.1.trans h1.2.1, fun a => (h2.2.2 a).trans (h1.2.2 a)⟩
    rw [h2.1, h1.1, sum_over_cons,
      sum_over_congr _ s.mem (__wb_fulfill_request s x).mem l
        (fun a _ => by rw [h1.2.2 a])]
    ring

/-- C34: when the frame for a batch cannot be created, `wb_fulfill_head` makes
no call (no writev is submitted and the head is not in flight), latches
(-1, ENOMEM) on the inode, and marks the head and every member fulfilled, each
losing one reference; no other request changes.  For a batch that was never
loaded (`total_size` 0 on its requests, as `wb_fulfill` forms it) `transit` is
left as it was.  The batch is a list linked through `winds`: its requests
are distinct, and each holds its wind reference. -/
theorem C34_fulfill_head_enomem (env : wb_env) (s : wb_state) (head : Nat)
    (hcf : env.create_frame head = false)
    (hnd : (wb_batch s.mem head).Nodup)
    (hr : ∀ a ∈ wb_batch s.mem head, 0 < (s.mem a).refcount)
    (h0 : ∀ a ∈ wb_batch s.mem head, (s.mem a).total_size = 0) :
    (wb_fulfill_head env s head).out = s.out
    ∧ (wb_fulfill_head env s head).inflight = s.inflight
    ∧ (wb_fulfill_head env s head).inode.op_ret = -1
    ∧ (wb_fulfill_head env s head).inode.op_errno = ENOMEM
    ∧ (∀ a ∈ wb_batch s.mem head,
        ((wb_fulfill_head env s head).mem a).ordering.fulfilled = true
        ∧ ((wb_fulfill_head env s head).mem a).refcount = (s.mem a).refcount - 1)
    ∧ (wb_fulfill_head env s head).mem
        = (fun a => if a ∈ wb_batch s.mem head then wb_fulfilled_unref (s.mem a) else s.mem a)
    ∧ (wb_fulfill_head env s head).inode.transit = s.inode.transit := by
  have e : wb_fulfill_head env s head
      = wb_head_done_loop (wb_batch s.mem head) (wb_inode_err s ENOMEM) := by
    unfold wb_fulfill_head
    rw [if_pos (by simp [hcf]), wb_head_done_eq_loop]
    rfl
  have hl := wb_head_done_latch (wb_inode_err s ENOMEM) head
  have e2 : wb_fulfill_head env s head = wb_head_done (wb_inode_err s ENOMEM) head := by
    unfold wb_fulfill_head
    rw [if_pos (by simp [hcf])]
  have hm := wb_head_done_loop_mem (wb_batch s.mem head) (wb_inode_err s ENOMEM) hnd hr
  have ht := wb_head_done_loop_transit (wb_batch s.mem head) (wb_inode_err s ENOMEM)
  refine ⟨?_, ?_, ?_, ?_, ?_, ?_, ?_⟩
  · rw [e2, wb_head_done_out]
    rfl
  · rw [e, ht.2.1]
    rfl
  · rw [e2, hl.op_ret]
    rfl
  · rw [e2, hl.op_errno]
    rfl
  · intro a ha
    rw [e, hm]
    simp only [if_pos ha]
    exact ⟨rfl, rfl⟩
  · rw [e, hm]
    rfl
  · rw [e, ht.1]
    have h3 : sum_over (fun r => (r.total_size : Int)) (wb_inode_err s ENOMEM).mem
        (wb_batch s.mem head) = 0 := by
      unfold sum_over
      apply List.sum_eq_zero
      intro x hx
      obtain ⟨a, ha, rfl⟩ := List.mem_map.1 hx
      show (((s.mem a).total_size : Nat) : Int) = 0
      rw [h0 a ha]
      rfl
    rw [h3]
    show s.inode.transit - 0 = s.inode.transit
    ring

/-- Witness of C34 on the batch of the writes 2 and 3 of `state_pair_formed`
when no frame can be created: no call is made, nothing is put in flight,
(-1, ENOMEM) is latched, both writes are marked fulfilled, and `transit` stays
0. -/
theorem C34_fulfill_head_enomem_witness :
    wb_env_noframe.create_frame 2 = false
    ∧ wb_batch (state_pair_formed (iov_fill 131072 66)).mem 2 = [3, 2]
    ∧ (state_pair_formed (iov_fill 131072 66)).inode.transit = 0
    ∧ (wb_fulfill_head wb_env_noframe (state_pair_formed (iov_fill 131072 66)) 2).out
        = (state_pair_formed (iov_fill 131072 66)).out
    ∧ (wb_fulfill_head wb_env_noframe (state_pair_formed (iov_fill 131072 66)) 2).inflight
        = (state_pair_formed (iov_fill 131072 66)).inflight
    ∧ (wb_fulfill_head wb_env_noframe (state_pair_formed (iov_fill 131072 66)) 2).inode.op_ret
        = -1
    ∧ (wb_fulfill_head wb_env_noframe (state_pair_formed (iov_fill 131072 66)) 2).inode.op_errno
        = ENOMEM
    ∧ (∀ a ∈ wb_batch (state_pair_formed (iov_fill 131072 66)).mem 2,
        ((wb_fulfill_head wb_env_noframe (state_pair_formed (iov_fill 131072 66)) 2).mem
            a).ordering.fulfilled = true
        ∧ ((wb_fulfill_head wb_env_noframe (state_pair_formed (iov_fill 131072 66)) 2).mem
            a).refcount = ((state_pair_formed (iov_fill 131072 66)).mem a).refcount - 1)
    ∧ (wb_fulfill_head wb_env_noframe (state_pair_formed (iov_fill 131072 66)) 2).inode.transit
        = (state_pair_formed (iov_fill 131072 66)).inode.transit :=
  have h := C34_fulfill_head_enomem wb_env_noframe (state_pair_formed (iov_fill 131072 66)) 2 rfl
    (by decide!) (by decide!) (by decide!)
  ⟨rfl, by decide!, by decide!, h.1, h.2.1, h.2.2.1, h.2.2.2.1, h.2.2.2.2.1, h.2.2.2.2.2.2⟩

/-! ## The fulfiller partitions the picked writes -/

/-- The call `wb_fulfill_head` makes: the writev of the batch when the frame
can be created, none otherwise. -/
theorem wb_fulfill_head_sent (env : wb_env) (s : wb_state) (head : Nat) :
    (wb_fulfill_head env s head).out
      = s.out ++ (wb_calls_submitted env [(s, head)]).map wb_call_event := by
  unfold wb_fulfill_head wb_calls_submitted
  by_cases hcf : env.create_frame head = true
  · rw [if_neg (by simp [hcf])]
    simp only [WB_IOV_LOAD, mem_set_eq]
    rw [wb_fulfill_head_loop_spec]
    simp only [mem_set_eq, mem_set_mem_set, List.filter_cons, hcf, if_true, List.filter_nil,
      List.map_cons, List.map_nil]
    have hf : ∀ a, (mem_set s.mem head { s.mem head with
          total_size := (s.mem head).total_size + (s.mem head).write_size } a).stub
          = (s.mem a).stub := by
      intro a
      by_cases hax : a = head
      · subst hax
        rw [mem_set_eq]
      · rw [mem_set_ne _ _ _ _ hax]
    have e2 : ((s.mem head).winds).map (fun a => (mem_set s.mem head { s.mem head with
          total_size := (s.mem head).total_size + (s.mem head).write_size } a).stub.vector)
        = ((s.mem head).winds).map (fun a => (s.mem a).stub.vector) :=
      List.map_congr_left (fun a _ => by rw [hf a])
    have e4 : wb_call_vector (s, head)
        = (s.mem head).stub.vector
          ++ (((s.mem head).winds).map (fun a => (s.mem a).stub.vector)).flatten := by
      unfold wb_call_vector wb_call_batch
      simp only [List.map_cons, List.flatten_cons]
    unfold wb_call_event
    rw [e2, e4]
    simp only [List.nil_append]
  · have hcf0 : env.create_frame head = false := by simpa using hcf
    rw [if_pos (by simp [hcf0]), wb_head_done_out]
    simp [hcf0, wb_inode_err]

theorem NEXT_HEAD_sent (env : wb_env) (s : wb_state) (l : wb_fulfill_locals) (req : Nat) :
    (NEXT_HEAD env s l req).1.out
      = s.out ++ (wb_calls_submitted env
          (match l.head with
            | some head => [(s, head)]
            | none => [])).map wb_call_event := by
  unfold NEXT_HEAD
  simp only
  cases hh : l.head with
  | none => simp [wb_calls_submitted]
  | some head =>
    simp only
    exact wb_fulfill_head_sent env s head

/-- The calls the loop of `wb_fulfill` makes: the writevs of the batches whose
calls are listed by `wb_fulfill_loop_calls` and whose frame can be created, in
order. -/
theorem wb_fulfill_loop_sent (xl : xlator_t) (env : wb_env) (rest : List Nat) :
    ∀ (s : wb_state) (l : wb_fulfill_locals),
      (wb_fulfill_loop xl env rest s l).1.out
        = s.out
          ++ (wb_calls_submitted env (wb_fulfill_loop_calls xl env rest s l)).map
              wb_call_event := by
  induction rest with
  | nil =>
    intro s l
    simp [wb_fulfill_loop, wb_fulfill_loop_calls, wb_calls_submitted]
  | cons req rest ih =>
    intro s l
    have hn := NEXT_HEAD_sent env s l req
    cases hh : l.head with
    | none =>
      rw [hh] at hn
      rw [wb_fulfill_loop, wb_fulfill_loop_calls]
      simp only [hh]
      rw [ih, hn]
      simp [wb_calls_submitted]
    | some head =>
      rw [hh] at hn
      by_cases hb : wb_fulfill_breaks xl s l head req = true
      · rw [wb_fulfill_loop, wb_fulfill_loop_calls]
        simp only [hh, hb, if_true]
        rw [ih, hn]
        simp only [wb_calls_submitted, List.filter_cons, List.filter_nil]
        split <;> simp
      · have hb0 : wb_fulfill_breaks xl s l head req = false := by simpa using hb
        rw [wb_fulfill_loop, wb_fulfill_loop_calls]
        simp only [hh, hb0, Bool.false_eq_true, if_false]
        rw [ih]

/-- The calls `wb_fulfill` makes: one writev for each call of
`wb_fulfill_head` whose frame can be created, in the order of the calls. -/
theorem wb_fulfill_sent (xl : xlator_t) (env : wb_env) (s : wb_state) (liabilities : List Nat) :
    (wb_fulfill xl env s liabilities).out
      = s.out
        ++ (wb_calls_submitted env (wb_fulfill_calls xl env s liabilities)).map
            wb_call_event := by
  have h := wb_fulfill_loop_sent xl env liabilities s
    { head := none, expected_offset := 0, curr_aggregate := 0, vector_count := 0 }
  unfold wb_fulfill wb_fulfill_calls
  simp only
  cases hh : (wb_fulfill_loop xl env liabilities s
      { head := none, expected_offset := 0, curr_aggregate := 0, vector_count := 0 }).2.head with
  | none =>
    simp only [List.append_nil]
    exact h
  | some head =>
    simp only
    rw [wb_fulfill_head_sent, h]
    simp [wb_calls_submitted, List.filter_append]

/-- C38: `wb_fulfill` partitions the picked list.  Listing the batch of every
call it makes to `wb_fulfill_head` as the head followed by the members, in the
order of the calls, gives the picked list itself; and the calls the engine
makes during `wb_fulfill` are the writevs of these batches, in that order, one
for each batch whose frame can be created: when every frame can be created
each picked write travels in exactly one writev, none is dropped, repeated
or moved.  The picked list is an intrusive list linked through `winds`, so it
repeats no request and none of its requests has members. -/
theorem C38_fulfill_partitions (xl : xlator_t) (env : wb_env) (s : wb_state)
    (liabilities : List Nat) (hnd : liabilities.Nodup)
    (hw : ∀ a ∈ liabilities, (s.mem a).winds = []) :
    ((wb_fulfill_calls xl env s liabilities).map wb_call_batch).flatten = liabilities
    ∧ (wb_fulfill xl env s liabilities).out
        = s.out
          ++ (wb_calls_submitted env (wb_fulfill_calls xl env s liabilities)).map wb_call_event
    ∧ ((∀ hd, env.create_frame hd = true) →
        wb_calls_submitted env (wb_fulfill_calls xl env s liabilities)
          = wb_fulfill_calls xl env s liabilities) :=
  ⟨(wb_fulfill_calls_sound xl env s liabilities hnd hw).2, wb_fulfill_sent xl env s liabilities,
    fun h => List.filter_eq_self.2 (fun c _ => h c.2)⟩

/-- Witness of C38 on the picked writes 2, 3 and 4 of `state_gap_picked`
(offsets 100, 104 and 200): two calls, for the batches 2, 3 and 4, and two
writevs sent in that order. -/
theorem C38_fulfill_partitions_witness :
    state_gap_picked.2 = [2, 3, 4]
    ∧ (wb_fulfill_calls xl_page4 wb_env_ok state_gap_picked.1 state_gap_picked.2).map
        wb_call_batch = [[2, 3], [4]]
    ∧ ((wb_fulfill_calls xl_page4 wb_env_ok state_gap_picked.1 state_gap_picked.2).map
        wb_call_batch).flatten = state_gap_picked.2
    ∧ (wb_fulfill xl_page4 wb_env_ok state_gap_picked.1 state_gap_picked.2).out
        = state_gap_picked.1.out
          ++ (wb_calls_submitted wb_env_ok
              (wb_fulfill_calls xl_page4 wb_env_ok state_gap_picked.1 state_gap_picked.2)).map
              wb_call_event
    ∧ wb_written (wb_fulfill xl_page4 wb_env_ok state_gap_picked.1 state_gap_picked.2).out
        = wb_written state_gap_picked.1.out
          ++ [(100, [66, 66, 66, 66, 67, 67, 67, 67]), (200, [68, 68, 68, 68])] :=
  have h := C38_fulfill_partitions xl_page4 wb_env_ok state_gap_picked.1 state_gap_picked.2
    (by decide!) (by decide!)
  ⟨by decide!, by decide!, h.1, h.2.1, by decide!⟩

/-! ## Coalescing and the liabilities -/

/-- C36 (counterexample), evaluated on the code in the default configuration.
In `state_overtake` write 3 (bytes 105 to 108, gen 2) is on liability and in
flight, and write 2 (bytes 100 to 103, gen 1) waits on todo behind write 1.
Write 5 (bytes 104 to 107, gen 3) arrives: it conflicts with the liability
entry 3, which does not conflict with write 2, and `__wb_preprocess_winds`
merges it into write 2, which then holds 8 bytes and still does not conflict
with 3.  When write 1 completes, the engine sends write 2 with the bytes of
write 5 while write 3 is still on liability, in flight and not fulfilled. -/
theorem C36_merged_bytes_overtake :
    wb_calls_ok xl_default (wb_state_init xl_default)
      (calls_overtake ++ [(wb_env_ok, call_write 5 4 69 104), (wb_env_ok, .fulfill_cbk 1 4 0)])
    ∧ wb_step xl_default wb_env_ok state_overtake (call_write 5 4 69 104)
        = wb_process_queue xl_default wb_env_ok state_overtake_queued
    ∧ state_overtake_queued.inode.todo = [2, 4, 5]
    ∧ state_overtake_queued.inode.liability = [1, 2, 3]
    ∧ wb_requests_conflict xl_default state_overtake_queued.mem 3 5 = true
    ∧ wb_requests_conflict xl_default state_overtake_queued.mem 3 2 = false
    ∧ (__wb_preprocess_winds xl_default wb_env_ok state_overtake_queued).inode.todo = [2, 4]
    ∧ ((__wb_preprocess_winds xl_default wb_env_ok state_overtake_queued).mem 2).write_size = 8
    ∧ ((__wb_preprocess_winds xl_default wb_env_ok state_overtake_queued).mem 2).stub.vector
        = [{ iov_base := [66, 66, 66, 66, 69, 69, 69, 69], iov_len := 8 }]
    ∧ ((__wb_preprocess_winds xl_default wb_env_ok state_overtake_queued).mem 5).ordering.fulfilled
        = true
    ∧ wb_requests_conflict xl_default
        (__wb_preprocess_winds xl_default wb_env_ok state_overtake_queued).mem 3 2 = false
    ∧ wb_written state_overtake_sent.out
        = [(100, [65, 65, 65, 65]), (105, [67, 67, 67, 67]),
           (100, [66, 66, 66, 66, 69, 69, 69, 69])]
    ∧ state_overtake_sent.inflight = [3, 2]
    ∧ state_overtake_sent.inode.liability = [2, 3]
    ∧ (state_overtake_sent.mem 3).ordering.fulfilled = false :=
  ⟨by decide!,
    wb_writev_queued xl_default wb_env_ok state_overtake 5 7 fd_plain (iov_fill 4 69) 104 0
      (by decide!) (by decide!) rfl rfl,
    by decide!, by decide!, by decide!, by decide!, by decide!, by decide!,
    by decide!, by decide!, by decide!, by decide!, by decide!, by decide!, by decide!⟩

/-! ## The ledger: bytes in transit and the two slots of a request -/

theorem wb_req_kept.kept_same (r : wb_request) : wb_req_kept r r := ⟨rfl, rfl, rfl, rfl, rfl⟩

theorem mem_set_kept (mem : Nat → wb_request) (x : Nat) (r : wb_request)
    (h : wb_req_kept (mem x) r) (a : Nat) : wb_req_kept (mem a) (mem_set mem x r a) := by
  by_cases ha : a = x
  · subst ha
    rw [mem_set_eq]
    exact h
  · rw [mem_set_ne _ _ _ _ ha]
    exact wb_req_kept.kept_same _

theorem mem_wind_list (s : wb_state) (tasks liabilities X : List Nat) (a : Nat) :
    a ∈ wb_wind_list s tasks liabilities X
      ↔ a ∈ s.inode.todo ∨ a ∈ tasks ∨ a ∈ liabilities ∨ a ∈ X
        ∨ ∃ h ∈ s.inflight, a ∈ (s.mem h).winds ∨ a = h := by
  unfold wb_wind_list wb_batch
  simp only [List.mem_append, List.mem_flatMap, List.mem_singleton]

/-- A step that keeps the ledger fields of every request, the batches in
flight and `transit`, and only moves requests between lists that hold the same
kind of reference. -/
theorem wb_ledger_inv.led_move {s s1 : wb_state}
    {U tasks liabilities X U1 tasks1 liabilities1 X1 : List Nat}
    (h : wb_ledger_inv s U tasks liabilities X) (href : wb_ref_inv s1 U1 tasks1 liabilities1 X1)
    (hF : s1.inflight = s.inflight) (htr : s1.inode.transit = s.inode.transit)
    (hm : ∀ a, wb_req_kept (s.mem a) (s1.mem a))
    (hW : ∀ a ∈ wb_wind_list s1 tasks1 liabilities1 X1, a ∈ wb_wind_list s tasks liabilities X)
    (hful : ∀ a ∈ s1.inode.temptation ++ U1, a ∉ wb_wind_list s1 tasks1 liabilities1 X1 →
      a ∈ wb_wind_list s tasks liabilities X → (s.mem a).ordering.fulfilled = true)
    (hT : ∀ a ∈ s1.inode.temptation ++ U1, a ∈ s.inode.temptation ++ U)
    (hX : sum_over (fun r => (r.total_size : Int)) s.mem X1
      = sum_over (fun r => (r.total_size : Int)) s.mem X)
    (hz : ∀ a ∈ s1.inode.todo ++ (tasks1 ++ liabilities1),
      a ∈ s.inode.todo ++ (tasks ++ liabilities))
    (hp : ∀ a ∈ tasks1, (s.mem a).ordering.tempted = false) :
    wb_ledger_inv s1 U1 tasks1 liabilities1 X1 := by
  have hts : ∀ (l : List Nat), sum_over (fun r => (r.total_size : Int)) s1.mem l
      = sum_over (fun r => (r.total_size : Int)) s.mem l := fun l =>
    sum_over_congr _ _ _ _ (fun a _ => by rw [(hm a).total_size])
  have hws : ∀ (l : List Nat), sum_over (fun r => (r.write_size : Int)) s1.mem l
      = sum_over (fun r => (r.write_size : Int)) s.mem l := fun l =>
    sum_over_congr _ _ _ _ (fun a _ => by rw [(hm a).write_size])
  refine ⟨href, ?_, ?_, ?_, ?_, ?_, ?_, ?_, ?_⟩
  · rw [htr, h.transit, hts, hts, hF, hX]
  · intro a ha
    rw [(hm a).total_size]
    exact h.zero a (hz a ha)
  · intro hd hh m hmm
    rw [hF] at hh
    rw [(hm hd).winds] at hmm
    rw [(hm m).total_size]
    exact h.members hd hh m hmm
  · intro hd hh
    rw [hF] at hh
    rw [(hm hd).total_size, wb_batch_congr s.mem s1.mem (fun a => (hm a).winds), hws]
    exact h.batch hd hh
  · intro a ha
    rw [(hm a).fulfilled]
    exact h.unful a (hW a ha)
  · intro a ha hn
    rw [(hm a).fulfilled]
    by_cases hc : a ∈ wb_wind_list s tasks liabilities X
    · exact hful a ha hn hc
    · exact h.ful a (hT a ha) hc
  · intro a ha
    rw [(hm a).tempted]
    exact h.tempted a (hT a ha)
  · intro a ha
    rw [(hm a).tempted]
    exact hp a ha

/-- A step that keeps the lists, the batches in flight, `transit` and the
ledger fields of every request. -/
theorem wb_ledger_inv.led_frame {s s1 : wb_state} {U tasks liabilities X : List Nat}
    (h : wb_ledger_inv s U tasks liabilities X) (href : wb_ref_inv s1 U tasks liabilities X)
    (htodo : s1.inode.todo = s.inode.todo) (htempt : s1.inode.temptation = s.inode.temptation)
    (hF : s1.inflight = s.inflight) (htr : s1.inode.transit = s.inode.transit)
    (hm : ∀ a, wb_req_kept (s.mem a) (s1.mem a)) :
    wb_ledger_inv s1 U tasks liabilities X := by
  have hWe := wb_wind_list_congr tasks liabilities X hF htodo (fun a => (hm a).winds)
  refine h.led_move href hF htr hm ?_ ?_ ?_ rfl ?_ h.plain
  · intro a ha
    rw [hWe] at ha
    exact ha
  · intro a _ hn hc
    rw [hWe] at hn
    exact absurd hc hn
  · intro a ha
    rw [htempt] at ha
    exact ha
  · intro a ha
    rw [htodo] at ha
    exact ha

theorem __wb_request_unref_kept (s : wb_state) (x : Nat) :
    (__wb_request_unref s x).inode.transit = s.inode.transit
    ∧ (__wb_request_unref s x).inflight = s.inflight
    ∧ ∀ a, wb_req_kept (s.mem a) ((__wb_request_unref s x).mem a) := by
  rw [__wb_request_unref_eq]
  split
  · exact ⟨rfl, rfl, fun _ => wb_req_kept.kept_same _⟩
  · split
    · exact ⟨(wb_request_destroy_fields _ _).2.2.2.2.2.2, rfl,
        mem_set_kept _ _ _ ⟨rfl, rfl, rfl, rfl, rfl⟩⟩
    · exact ⟨rfl, rfl, mem_set_kept _ _ _ ⟨rfl, rfl, rfl, rfl, rfl⟩⟩

/-- Releasing a wind reference leaves todo and temptation as they are: the
request is on neither when the reference is its last. -/
theorem wb_ref_inv.unref_wind_lists {s : wb_state} {x : Nat}
    {U tasks liabilities X tasks1 liabilities1 X1 : List Nat}
    (h : wb_ref_inv s U tasks liabilities X)
    (hW : (wb_wind_list s tasks liabilities X).Perm (x :: wb_wind_list s tasks1 liabilities1 X1)) :
    (__wb_request_unref s x).inode.todo = s.inode.todo
    ∧ (__wb_request_unref s x).inode.temptation = s.inode.temptation := by
  have c1 := h.core.core_perm hW.symm (List.Perm.refl _)
  have hrx := c1.refs x
  rw [if_pos (List.mem_cons_self _ _)] at hrx
  have hp : 0 < (s.mem x).refcount := by
    rw [hrx]
    split <;> omega
  have hxW : x ∉ wb_wind_list s tasks1 liabilities1 X1 := (List.nodup_cons.1 c1.W_nodup).1
  exact __wb_request_unref_keeps s x hp (by
    intro h1
    constructor
    · intro hx
      apply hxW
      unfold wb_wind_list
      exact List.mem_append_left _ hx
    · intro hx
      have : x ∈ s.inode.temptation ++ U := List.mem_append_left _ hx
      rw [if_pos this] at hrx
      omega)

/-- Releasing an unwind reference leaves todo and temptation as they are. -/
theorem wb_ref_inv.unref_unwind_lists {s : wb_state} {x : Nat} {U tasks liabilities X : List Nat}
    (h : wb_ref_inv s (x :: U) tasks liabilities X) :
    (__wb_request_unref s x).inode.todo = s.inode.todo
    ∧ (__wb_request_unref s x).inode.temptation = s.inode.temptation := by
  have hT : (x :: (s.inode.temptation ++ U)).Perm (s.inode.temptation ++ x :: U) :=
    List.perm_middle.symm
  have c1 := (h.core.core_perm (List.Perm.refl _) hT).core_swap
  have hrx := c1.refs x
  rw [if_pos (List.mem_cons_self _ _)] at hrx
  have hp : 0 < (s.mem x).refcount := by
    rw [hrx]
    split <;> omega
  have hxT : x ∉ s.inode.temptation ++ U := (List.nodup_cons.1 c1.W_nodup).1
  exact __wb_request_unref_keeps s x hp (by
    intro h1
    constructor
    · intro hx
      have : x ∈ wb_wind_list s tasks liabilities X := by
        unfold wb_wind_list
        exact List.mem_append_left _ hx
      rw [if_pos this] at hrx
      omega
    · intro hx
      exact hxT (List.mem_append_left _ hx))

/-- The unwind reference of `x` is released. -/
theorem wb_ledger_inv.led_unref_unwind {s : wb_state} {x : Nat}
    {U tasks liabilities X : List Nat} (h : wb_ledger_inv s (x :: U) tasks liabilities X) :
    wb_ledger_inv (__wb_request_unref s x) U tasks liabilities X := by
  obtain ⟨htr, hF, hm⟩ := __wb_request_unref_kept s x
  obtain ⟨htodo, htempt⟩ := h.ref.unref_unwind_lists
  have hWe := wb_wind_list_congr tasks liabilities X hF htodo (fun a => (hm a).winds)
  refine h.led_move h.ref.ref_unref_unwind hF htr hm ?_ ?_ ?_ rfl ?_ h.plain
  · intro a ha
    rw [hWe] at ha
    exact ha
  · intro a _ hn hc
    rw [hWe] at hn
    exact absurd hc hn
  · intro a ha
    rw [htempt] at ha
    rcases List.mem_append.1 ha with h1 | h1
    · exact List.mem_append_left _ h1
    · exact List.mem_append_right _ (List.mem_cons_of_mem _ h1)
  · intro a ha
    rw [htodo] at ha
    exact ha

/-- A task has been resumed: its wind reference is released. -/
theorem wb_ledger_inv.led_unref_task {s : wb_state} {x : Nat}
    {tasks liabilities : List Nat} (h : wb_ledger_inv s [] (x :: tasks) liabilities []) :
    wb_ledger_inv (__wb_request_unref s x) [] tasks liabilities [] := by
  obtain ⟨htr, hF, hm⟩ := __wb_request_unref_kept s x
  have hP := wb_wind_list_cons_tasks s tasks liabilities [] x
  obtain ⟨htodo, htempt⟩ := h.ref.unref_wind_lists hP
  have hWe := wb_wind_list_congr tasks liabilities [] hF htodo (fun a => (hm a).winds)
  have href : wb_ref_inv (__wb_request_unref s x) [] tasks liabilities [] :=
    h.ref.ref_unref_wind hP (fun a ha => by
      rcases List.mem_append.1 ha with h2 | h2
      · exact List.mem_append_left _ (List.mem_cons_of_mem _ h2)
      · exact List.mem_append_right _ h2)
  refine h.led_move href hF htr hm ?_ ?_ ?_ rfl ?_ ?_
  · intro a ha
    rw [hWe] at ha
    exact hP.mem_iff.2 (List.mem_cons_of_mem _ ha)
  · intro a ha hn hc
    rw [hWe] at hn
    rw [htempt] at ha
    rcases List.mem_cons.1 (hP.mem_iff.1 hc) with h1 | h1
    · have h2 := h.tempted a ha
      rw [h1, h.plain x (List.mem_cons_self _ _)] at h2
      cases h2
    · exact absurd h1 hn
  · intro a ha
    rw [htempt] at ha
    exact ha
  · intro a ha
    rw [htodo] at ha
    rcases List.mem_append.1 ha with h1 | h1
    · exact List.mem_append_left _ h1
    · rcases List.mem_append.1 h1 with h2 | h2
      · exact List.mem_append_right _ (List.mem_append_left _ (List.mem_cons_of_mem _ h2))
      · exact List.mem_append_right _ (List.mem_append_right _ h2)
  · intro a ha
    exact h.plain a (List.mem_cons_of_mem _ ha)

/-- `__wb_fulfill_request` on the first request of the batch being closed: it
is marked fulfilled, `transit` is debited by its `total_size`, and its wind
reference is released. -/
theorem wb_ledger_inv.led_fulfill_request {s : wb_state} {x : Nat}
    {U tasks liabilities X : List Nat} (h : wb_ledger_inv s U tasks liabilities (x :: X)) :
    wb_ledger_inv (__wb_fulfill_request s x) U tasks liabilities X := by
  have hP := wb_wind_list_cons_X s tasks liabilities X x
  have hxW : x ∉ wb_wind_list s tasks liabilities X :=
    (List.nodup_cons.1 (hP.nodup_iff.1 h.ref.core.W_nodup)).1
  have hrx := h.ref.core.refs x
  rw [if_pos (hP.mem_iff.2 (List.mem_cons_self _ _))] at hrx
  have hp : 0 < (s.mem x).refcount := by
    rw [hrx]
    split <;> omega
  have hmem := __wb_fulfill_request_mem s x hp
  obtain ⟨htr, hF, _⟩ := __wb_fulfill_request_transit s x
  have hl : (__wb_fulfill_request s x).inode.todo = s.inode.todo
      ∧ (__wb_fulfill_request s x).inode.temptation = s.inode.temptation := by
    have h3 : wb_ref_inv
        { s with
          mem := mem_set s.mem x
            { s.mem x with ordering := { (s.mem x).ordering with fulfilled := true } }
          inode := { s.inode with
            window_current := s.inode.window_current - (s.mem x).total_size
            transit := s.inode.transit - (s.mem x).total_size } }
        U tasks liabilities (x :: X) :=
      h.ref.ref_frame rfl rfl rfl rfl rfl rfl (mem_set_ref_same _ _ _ rfl rfl)
    exact @wb_ref_inv.unref_wind_lists _ x U tasks liabilities (x :: X) tasks liabilities X h3
      (wb_wind_list_cons_X _ _ _ _ _)
  have hk : ∀ a, ((__wb_fulfill_request s x).mem a).total_size = (s.mem a).total_size
      ∧ ((__wb_fulfill_request s x).mem a).write_size = (s.mem a).write_size
      ∧ ((__wb_fulfill_request s x).mem a).winds = (s.mem a).winds
      ∧ ((__wb_fulfill_request s x).mem a).ordering.tempted = (s.mem a).ordering.tempted
      ∧ (a ≠ x → (__wb_fulfill_request s x).mem a = s.mem a) := by
    intro a
    rw [hmem]
    by_cases hax : a = x
    · subst hax
      rw [mem_set_eq]
      exact ⟨rfl, rfl, rfl, rfl, fun e => absurd rfl e⟩
    · rw [mem_set_ne _ _ _ _ hax]
      exact ⟨rfl, rfl, rfl, rfl, fun _ => rfl⟩
  have hts : ∀ (l : List Nat),
      sum_over (fun r => (r.total_size : Int)) (__wb_fulfill_request s x).mem l
      = sum_over (fun r => (r.total_size : Int)) s.mem l := fun l =>
    sum_over_congr _ _ _ _ (fun a _ => by rw [(hk a).1])
  have hws : ∀ (l : List Nat),
      sum_over (fun r => (r.write_size : Int)) (__wb_fulfill_request s x).mem l
      = sum_over (fun r => (r.write_size : Int)) s.mem l := fun l =>
    sum_over_congr _ _ _ _ (fun a _ => by rw [(hk a).2.1])
  have hWe := @wb_wind_list_congr s (__wb_fulfill_request s x) tasks liabilities X hF hl.1
    (fun a => (hk a).2.2.1)
  refine ⟨h.ref.ref_fulfill_request, ?_, ?_, ?_, ?_, ?_, ?_, ?_, ?_⟩
  · rw [htr, h.transit, hts, hts, hF, sum_over_cons]
    ring
  · intro a ha
    rw [hl.1] at ha
    rw [(hk a).1]
    exact h.zero a ha
  · intro hd hh m hmm
    rw [hF] at hh
    rw [(hk hd).2.2.1] at hmm
    rw [(hk m).1]
    exact h.members hd hh m hmm
  · intro hd hh
    rw [hF] at hh
    rw [(hk hd).1, wb_batch_congr s.mem _ (fun a => (hk a).2.2.1), hws]
    exact h.batch hd hh
  · intro a ha
    rw [hWe] at ha
    have hax : a ≠ x := fun e => hxW (e ▸ ha)
    rw [(hk a).2.2.2.2 hax]
    exact h.unful a (hP.mem_iff.2 (List.mem_cons_of_mem _ ha))
  · intro a ha hn
    rw [hWe] at hn
    rw [hl.2] at ha
    by_cases hax : a = x
    · subst hax
      rw [hmem, mem_set_eq]
      rfl
    · rw [(hk a).2.2.2.2 hax]
      apply h.ful a ha
      intro hc
      rcases List.mem_cons.1 (hP.mem_iff.1 hc) with h1 | h1
      · exact hax h1
      · exact hn h1
  · intro a ha
    rw [hl.2] at ha
    rw [(hk a).2.2.2.1]
    exact h.tempted a ha
  · intro a ha
    rw [(hk a).2.2.2.1]
    exact h.plain a ha

theorem wb_ledger_inv.led_head_done_loop {U tasks liabilities X : List Nat} (l : List Nat) :
    ∀ {s : wb_state}, wb_ledger_inv s U tasks liabilities (l ++ X) →
      wb_ledger_inv (wb_head_done_loop l s) U tasks liabilities X := by
  induction l with
  | nil => intro s h; exact h
  | cons x l ih =>
    intro s h
    simp only [wb_head_done_loop]
    exact ih h.led_fulfill_request

/-- `wb_head_done` on the batch being closed. -/
theorem wb_ledger_inv.led_head_done {s : wb_state} {U tasks liabilities : List Nat}
    {head : Nat} (h : wb_ledger_inv s U tasks liabilities (wb_batch s.mem head)) :
    wb_ledger_inv (wb_head_done s head) U tasks liabilities [] := by
  rw [wb_head_done_eq_loop]
  apply wb_ledger_inv.led_head_done_loop
  rw [List.append_nil]
  exact h

theorem wb_ledger_inv.led_set_go {s : wb_state} {U tasks liabilities X : List Nat}
    (h : wb_ledger_inv s U tasks liabilities X) (x : Nat) :
    wb_ledger_inv (wb_set_go s x) U tasks liabilities X := by
  refine h.led_frame (h.ref.ref_set_go x) rfl rfl rfl rfl ?_
  unfold wb_set_go
  exact mem_set_kept _ _ _ ⟨rfl, rfl, rfl, rfl, rfl⟩

/-- A request taken off todo to be fulfilled at once. -/
theorem wb_ledger_inv.led_detach_todo {s : wb_state} {U tasks liabilities X : List Nat}
    {x : Nat} (h : wb_ledger_inv s U tasks liabilities X) (hx : x ∈ s.inode.todo) :
    wb_ledger_inv { s with inode := { s.inode with todo := list_del x s.inode.todo } }
      U tasks liabilities (x :: X) := by
  have href := h.ref.ref_detach_todo hx
  have hmem : ∀ a, a ∈ wb_wind_list
      { s with inode := { s.inode with todo := list_del x s.inode.todo } }
      tasks liabilities (x :: X) ↔ a ∈ wb_wind_list s tasks liabilities X := by
    intro a
    rw [mem_wind_list, mem_wind_list]
    show (a ∈ list_del x s.inode.todo ∨ _) ↔ _
    rw [mem_list_del_iff, List.mem_cons]
    constructor
    · rintro (h1 | h1 | h1 | (h1 | h1) | h1)
      · exact Or.inl h1.1
      · exact Or.inr (Or.inl h1)
      · exact Or.inr (Or.inr (Or.inl h1))
      · exact Or.inl (h1 ▸ hx)
      · exact Or.inr (Or.inr (Or.inr (Or.inl h1)))
      · exact Or.inr (Or.inr (Or.inr (Or.inr h1)))
    · rintro (h1 | h1 | h1 | h1 | h1)
      · by_cases hax : a = x
        · exact Or.inr (Or.inr (Or.inr (Or.inl (Or.inl hax))))
        · exact Or.inl ⟨h1, hax⟩
      · exact Or.inr (Or.inl h1)
      · exact Or.inr (Or.inr (Or.inl h1))
      · exact Or.inr (Or.inr (Or.inr (Or.inl (Or.inr h1))))
      · exact Or.inr (Or.inr (Or.inr (Or.inr h1)))
  refine h.led_move href rfl rfl (fun _ => wb_req_kept.kept_same _) (fun a ha => (hmem a).1 ha)
    (fun a _ hn hc => absurd ((hmem a).2 hc) hn) (fun a ha => ha) ?_ ?_ h.plain
  · rw [sum_over_cons]
    have := h.zero x (List.mem_append_left _ hx)
    simp only [this]
    simp
  · intro a ha
    rcases List.mem_append.1 ha with h1 | h1
    · exact List.mem_append_left _ ((mem_list_del_iff _ _ _).1 h1).1
    · exact List.mem_append_right _ h1


/-- A request on todo is part of no batch in flight. -/
theorem wb_ref_inv.todo_apart {s : wb_state} {U tasks liabilities X : List Nat}
    (h : wb_ref_inv s U tasks liabilities X) {a : Nat} (ha : a ∈ s.inode.todo) :
    ∀ hd ∈ s.inflight, a ∉ wb_batch s.mem hd := by
  intro hd hh hc
  have hnd := h.core.W_nodup
  unfold wb_wind_list at hnd
  apply (List.nodup_append.1 hnd).2.2 ha
  simp only [List.mem_append]
  exact Or.inr (Or.inr (Or.inr (List.mem_flatMap.2 ⟨hd, hh, hc⟩)))

/-- A step that changes one request on todo and keeps its `total_size`, the
members linked on it and its flags `fulfilled` and `tempted`. -/
theorem wb_ledger_inv.led_patch {s : wb_state} {U tasks liabilities X : List Nat}
    (h : wb_ledger_inv s U tasks liabilities X) {x : Nat} (r : wb_request)
    (hx : x ∈ s.inode.todo) (h1 : r.total_size = (s.mem x).total_size)
    (h2 : r.winds = (s.mem x).winds)
    (h3 : r.ordering.fulfilled = (s.mem x).ordering.fulfilled)
    (h4 : r.ordering.tempted = (s.mem x).ordering.tempted)
    (href : wb_ref_inv { s with mem := mem_set s.mem x r } U tasks liabilities X) :
    wb_ledger_inv { s with mem := mem_set s.mem x r } U tasks liabilities X := by
  have hk : ∀ a, (mem_set s.mem x r a).total_size = (s.mem a).total_size
      ∧ (mem_set s.mem x r a).winds = (s.mem a).winds
      ∧ (mem_set s.mem x r a).ordering.fulfilled = (s.mem a).ordering.fulfilled
      ∧ (mem_set s.mem x r a).ordering.tempted = (s.mem a).ordering.tempted := by
    intro a
    by_cases hax : a = x
    · subst hax
      rw [mem_set_eq]
      exact ⟨h1, h2, h3, h4⟩
    · rw [mem_set_ne _ _ _ _ hax]
      exact ⟨rfl, rfl, rfl, rfl⟩
  have hts : ∀ (l : List Nat),
      sum_over (fun r => (r.total_size : Int)) (mem_set s.mem x r) l
      = sum_over (fun r => (r.total_size : Int)) s.mem l := fun l =>
    sum_over_congr _ _ _ _ (fun a _ => by rw [(hk a).1])
  have hWe := @wb_wind_list_congr s { s with mem := mem_set s.mem x r } tasks liabilities X
    rfl rfl (fun a => (hk a).2.1)
  refine ⟨href, ?_, ?_, ?_, ?_, ?_, ?_, ?_, ?_⟩
  · show s.inode.transit = sum_over _ (mem_set s.mem x r) s.inflight
      + sum_over _ (mem_set s.mem x r) X
    rw [hts, hts]
    exact h.transit
  · intro a ha
    show (mem_set s.mem x r a).total_size = 0
    rw [(hk a).1]
    exact h.zero a ha
  · intro hd hh m hmm
    have hmm1 : m ∈ (mem_set s.mem x r hd).winds := hmm
    rw [(hk hd).2.1] at hmm1
    show (mem_set s.mem x r m).total_size = 0
    rw [(hk m).1]
    exact h.members hd hh m hmm1
  · intro hd hh
    show ((mem_set s.mem x r hd).total_size : Int)
      = sum_over _ (mem_set s.mem x r) (wb_batch (mem_set s.mem x r) hd)
    rw [(hk hd).1, wb_batch_congr s.mem _ (fun a => (hk a).2.1), h.batch hd hh]
    symm
    apply sum_over_congr
    intro a ha
    have hax : a ≠ x := fun e => h.ref.todo_apart hx hd hh (e ▸ ha)
    rw [mem_set_ne _ _ _ _ hax]
  · intro a ha
    rw [hWe] at ha
    show (mem_set s.mem x r a).ordering.fulfilled = false
    rw [(hk a).2.2.1]
    exact h.unful a ha
  · intro a ha hn
    rw [hWe] at hn
    show (mem_set s.mem x r a).ordering.fulfilled = true
    rw [(hk a).2.2.1]
    exact h.ful a ha hn
  · intro a ha
    show (mem_set s.mem x r a).ordering.tempted = true
    rw [(hk a).2.2.2]
    exact h.tempted a ha
  · intro a ha
    show (mem_set s.mem x r a).ordering.tempted = false
    rw [(hk a).2.2.2]
    exact h.plain a ha

theorem wb_ledger_inv.led_collapse {s : wb_state} {U tasks liabilities X : List Nat}
    (h : wb_ledger_inv s U tasks liabilities X) (env : wb_env) (holder req : Nat)
    (hh : holder ∈ s.inode.todo) :
    wb_ledger_inv (__wb_collapse_small_writes env s holder req).1 U tasks liabilities X
    ∧ (__wb_collapse_small_writes env s holder req).1.inode.todo = s.inode.todo := by
  have hr := h.ref.ref_collapse env holder req
  rcases __wb_collapse_small_writes_eq env s holder req with he | he
  · rw [he]
    exact ⟨h, rfl⟩
  · rw [he] at hr ⊢
    refine ⟨h.led_patch _ hh ?_ ?_ ?_ ?_ hr.1, rfl⟩
    · rw [(wb_holder_append_fields _ _).2.2.2.2.2.1, (wb_holder_buffered_same _).2.2.2.2.1]
    · rw [(wb_holder_append_fields _ _).2.2.2.2.2.2, (wb_holder_buffered_same _).2.2.2.2.2.2.1]
    · rw [(wb_holder_append_fields _ _).2.1, (wb_holder_buffered_same _).2.1]
    · rw [(wb_holder_append_fields _ _).1, (wb_holder_buffered_same _).2.1]

theorem wb_ledger_inv.led_preprocess_loop (xl : xlator_t) (env : wb_env) (l : List Nat) :
    ∀ {s : wb_state} {holder : Option Nat}, wb_ledger_inv s [] [] [] [] → l.Nodup →
      (∀ a ∈ l, a ∈ s.inode.todo) → (∀ hd, holder = some hd → hd ∈ s.inode.todo ∧ hd ∉ l) →
      wb_ledger_inv (__wb_preprocess_winds_loop xl env l s holder).1 [] [] [] [] := by
  induction l with
  | nil => intro s holder h _ _ _; exact h
  | cons req l ih =>
    intro s holder h hnd hsub hho
    have hrl : req ∉ l := (List.nodup_cons.1 hnd).1
    have hl : l.Nodup := (List.nodup_cons.1 hnd).2
    have hrT := hsub req (List.mem_cons_self _ _)
    have hsub1 : ∀ a ∈ l, a ∈ s.inode.todo := fun a ha => hsub a (List.mem_cons_of_mem _ ha)
    have hho1 : ∀ hd, holder = some hd → hd ∈ s.inode.todo ∧ hd ∉ l := fun hd e =>
      ⟨(hho hd e).1, fun hc => (hho hd e).2 (List.mem_cons_of_mem _ hc)⟩
    have hnew : ∀ hd, some req = some hd → hd ∈ s.inode.todo ∧ hd ∉ l := by
      intro hd e
      cases e
      exact ⟨hrT, hrl⟩
    have hgo : ∀ (hd : Nat) (ho : Option Nat),
        (∀ hd1, ho = some hd1 → hd1 ∈ s.inode.todo ∧ hd1 ∉ l) →
        wb_ledger_inv (__wb_preprocess_winds_loop xl env l (wb_set_go s hd) ho).1 [] [] [] [] :=
      fun hd ho hq => ih (h.led_set_go hd) hl hsub1 hq
    unfold __wb_preprocess_winds_loop
    split
    · split
      · split
        · exact hgo _ _ hho1
        · exact ih h hl hsub1 hho1
      · exact ih h hl hsub1 hho1
    · split
      · exact ih h hl hsub1 hnew
      · simp only
        split
        · exact hgo _ _ hnew
        · split
          · exact hgo _ _ hnew
          · split
            · exact hgo _ _ hnew
            · rename_i hd _ _ _
              have hhd := hho hd rfl
              have hdr : hd ≠ req := fun e => hhd.2 (e ▸ List.mem_cons_self _ _)
              have hc := h.led_collapse env hd req hhd.1
              split
              · exact ih hc.1 hl (fun a ha => by rw [hc.2]; exact hsub1 a ha)
                  (fun hd1 e => by rw [hc.2]; exact hho1 hd1 e)
              · have hd1 := @wb_ledger_inv.led_detach_todo _ [] [] [] [] req hc.1
                  (by rw [hc.2]; exact hrT)
                have hf := hd1.led_fulfill_request
                apply ih hf hl
                · intro a ha
                  have hane : a ≠ req := fun e => hrl (e ▸ ha)
                  rw [__wb_fulfill_request_todo _ _ _ hane]
                  show a ∈ list_del req (__wb_collapse_small_writes env s hd req).1.inode.todo
                  rw [hc.2]
                  exact (mem_list_del_iff _ _ _).2 ⟨hsub1 a ha, hane⟩
                · intro hd2 e
                  cases e
                  refine ⟨?_, (hho1 hd rfl).2⟩
                  rw [__wb_fulfill_request_todo _ _ _ hdr]
                  show hd ∈ list_del req (__wb_collapse_small_writes env s hd req).1.inode.todo
                  rw [hc.2]
                  exact (mem_list_del_iff _ _ _).2 ⟨hhd.1, hdr⟩

theorem wb_ledger_inv.led_preprocess {s : wb_state} (xl : xlator_t) (env : wb_env)
    (h : wb_ledger_inv s [] [] [] []) :
    wb_ledger_inv (__wb_preprocess_winds xl env s) [] [] [] [] := by
  have h1 := @wb_ledger_inv.led_preprocess_loop xl env s.inode.todo s none h h.ref.todo_nodup
    (fun a ha => ha) (fun hd e => by cases e)
  unfold __wb_preprocess_winds
  simp only
  split
  · split
    · exact h1.led_set_go _
    · exact h1
  · exact h1

/-- `__wb_pick_winds` at the start of a round. -/
theorem wb_ledger_inv.led_pick_winds {s : wb_state} (xl : xlator_t)
    (h : wb_ledger_inv s [] [] [] []) :
    wb_ledger_inv (__wb_pick_winds xl s [] []).1 [] (__wb_pick_winds xl s [] []).2.1
      (__wb_pick_winds xl s [] []).2.2 [] := by
  have href := h.ref.ref_pick_winds xl
  rw [__wb_pick_winds_eq] at href ⊢
  simp only [List.nil_append] at href ⊢
  have hmem : ∀ a, a ∈ wb_wind_list
      { s with inode := { s.inode with
          todo := s.inode.todo.filter (fun a => !wb_detachable xl s a) } }
      (s.inode.todo.filter (fun a => wb_detachable xl s a && !(s.mem a).ordering.tempted))
      (s.inode.todo.filter (fun a => wb_detachable xl s a && (s.mem a).ordering.tempted)) []
      ↔ a ∈ wb_wind_list s [] [] [] := by
    intro a
    rw [mem_wind_list, mem_wind_list]
    simp only [List.mem_filter, List.not_mem_nil, false_or, Bool.and_eq_true,
      Bool.not_eq_true']
    constructor
    · rintro (h1 | h1 | h1 | h1)
      · exact Or.inl h1.1
      · exact Or.inl h1.1
      · exact Or.inl h1.1
      · exact Or.inr h1
    · rintro (h1 | h1)
      · cases hd : wb_detachable xl s a
        · exact Or.inl ⟨h1, rfl⟩
        · cases ht : (s.mem a).ordering.tempted
          · exact Or.inr (Or.inl ⟨h1, rfl, rfl⟩)
          · exact Or.inr (Or.inr (Or.inl ⟨h1, rfl, rfl⟩))
      · exact Or.inr (Or.inr (Or.inr h1))
  refine h.led_move href rfl rfl (fun _ => wb_req_kept.kept_same _) (fun a ha => (hmem a).1 ha)
    (fun a _ hn hc => absurd ((hmem a).2 hc) hn) (fun a ha => ha) rfl ?_ ?_
  · intro a ha
    simp only [List.append_nil]
    simp only [List.mem_append, List.mem_filter] at ha
    rcases ha with h1 | h1 | h1 <;> exact h1.1
  · intro a ha
    have := (List.mem_filter.1 ha).2
    simp only [Bool.and_eq_true, Bool.not_eq_true'] at this
    exact this.2

/-- One entry taken off temptation by the unwinder. -/
theorem wb_ledger_inv.led_taken {s s1 : wb_state} {U tasks liabilities X : List Nat} {x : Nat}
    (h : wb_ledger_inv s U tasks liabilities X) (hx : x ∈ s.inode.temptation)
    (hctx : s1.ctx = s.ctx) (hall : s1.inode.all = s.inode.all)
    (htodo : s1.inode.todo = s.inode.todo)
    (htempt : s1.inode.temptation = list_del x s.inode.temptation) (hnext : s1.next = s.next)
    (hF : s1.inflight = s.inflight) (htr : s1.inode.transit = s.inode.transit)
    (hr : ∀ a, (s1.mem a).refcount = (s.mem a).refcount)
    (hm : ∀ a, wb_req_kept (s.mem a) (s1.mem a)) :
    wb_ledger_inv s1 (U ++ [x]) tasks liabilities X := by
  have href := h.ref.ref_taken hx hctx hall htodo htempt hnext hF
    (fun a => ⟨hr a, (hm a).winds⟩)
  have hWe := wb_wind_list_congr tasks liabilities X hF htodo (fun a => (hm a).winds)
  refine h.led_move href hF htr hm ?_ ?_ ?_ rfl ?_ h.plain
  · intro a ha
    rw [hWe] at ha
    exact ha
  · intro a _ hn hc
    rw [hWe] at hn
    exact absurd hc hn
  · intro a ha
    rw [htempt] at ha
    simp only [List.mem_append, List.mem_singleton] at ha ⊢
    rcases ha with h1 | h1 | h1
    · exact Or.inl ((mem_list_del_iff _ _ _).1 h1).1
    · exact Or.inr h1
    · exact Or.inl (h1 ▸ hx)
  · intro a ha
    rw [htodo] at ha
    exact ha

theorem wb_ledger_inv.led_pick_unwinds_loop {tasks liabilities : List Nat} (l : List Nat) :
    ∀ {s : wb_state} {U : List Nat}, wb_ledger_inv s U tasks liabilities [] → l.Nodup →
      (∀ a ∈ l, a ∈ s.inode.temptation) →
      wb_ledger_inv (__wb_pick_unwinds_loop l s U).1 (__wb_pick_unwinds_loop l s U).2
        tasks liabilities [] := by
  induction l with
  | nil => intro s U h _ _; exact h
  | cons x l ih =>
    intro s U h hnd hsub
    have hxP := hsub x (List.mem_cons_self _ _)
    have hxl : x ∉ l := (List.nodup_cons.1 hnd).1
    have hl : l.Nodup := (List.nodup_cons.1 hnd).2
    have hrest : ∀ a ∈ l, a ∈ list_del x s.inode.temptation := fun a ha =>
      (mem_list_del_iff _ _ _).2 ⟨hsub a (List.mem_cons_of_mem _ ha), fun e => hxl (e ▸ ha)⟩
    by_cases hf : (s.mem x).ordering.fulfilled = true
    · rw [__wb_pick_unwinds_loop_release x l s U hf]
      apply ih _ hl hrest
      exact h.led_taken hxP rfl rfl rfl rfl rfl rfl rfl (fun _ => rfl)
        (fun _ => wb_req_kept.kept_same _)
    · have hf0 : (s.mem x).ordering.fulfilled = false := by simpa using hf
      by_cases hw : s.inode.window_current > s.inode.window_conf
      · rw [__wb_pick_unwinds_loop_skip x l s U hf0 hw]
        exact ih h hl (fun a ha => hsub a (List.mem_cons_of_mem _ ha))
      · rw [__wb_pick_unwinds_loop_lie x l s U hf0 hw]
        apply ih _ hl hrest
        exact h.led_taken hxP rfl rfl rfl rfl rfl rfl rfl
          (fun a => (mem_set_ref_same s.mem x (wb_set_lied (s.mem x)) rfl rfl a).1)
          (mem_set_kept _ _ _ ⟨rfl, rfl, rfl, rfl, rfl⟩)

/-- `__wb_pick_unwinds` in a round. -/
theorem wb_ledger_inv.led_pick_unwinds {s : wb_state} {tasks liabilities : List Nat}
    (h : wb_ledger_inv s [] tasks liabilities []) :
    wb_ledger_inv (__wb_pick_unwinds s []).1 (__wb_pick_unwinds s []).2 tasks liabilities [] := by
  unfold __wb_pick_unwinds
  exact wb_ledger_inv.led_pick_unwinds_loop s.inode.temptation h
    h.ref.core.T_nodup.of_append_left (fun a ha => ha)

/-- `wb_do_unwinds`: each caller is answered and the unwind reference released. -/
theorem wb_ledger_inv.led_do_unwinds {tasks liabilities : List Nat} (lies : List Nat) :
    ∀ {s : wb_state}, wb_ledger_inv s lies tasks liabilities [] →
      wb_ledger_inv (wb_do_unwinds s lies) [] tasks liabilities [] := by
  induction lies with
  | nil => intro s h; exact h
  | cons x U ih =>
    intro s h
    unfold wb_do_unwinds
    apply ih
    unfold wb_request_unref
    apply wb_ledger_inv.led_unref_unwind
    exact h.led_frame (h.ref.ref_frame rfl rfl rfl rfl rfl rfl (fun _ => ⟨rfl, rfl⟩))
      rfl rfl rfl rfl (fun _ => wb_req_kept.kept_same _)

/-- `wb_do_winds`: each task is resumed and its wind reference released. -/
theorem wb_ledger_inv.led_do_winds {liabilities : List Nat} (xl : xlator_t) (env : wb_env)
    (tasks : List Nat) :
    ∀ {s : wb_state}, wb_ledger_inv s [] tasks liabilities [] →
      wb_ledger_inv (wb_do_winds xl env s tasks) [] [] liabilities [] := by
  induction tasks with
  | nil => intro s h; exact h
  | cons x l ih =>
    intro s h
    unfold wb_do_winds
    apply ih
    unfold wb_request_unref
    have hq := call_resume_same xl env s (s.mem x).stub
    have hr := call_resume_ref xl env s (s.mem x).stub
    have h1 : wb_ledger_inv (call_resume xl env s (s.mem x).stub) [] (x :: l) liabilities [] :=
      h.led_frame
        (h.ref.ref_frame hr.1 hr.2.1 hr.2.2.1 hr.2.2.2.1 hr.2.2.2.2.1 hr.2.2.2.2.2.1
          (fun a => by rw [hr.2.2.2.2.2.2]; exact ⟨rfl, rfl⟩))
        hq.todo hq.temptation hq.inflight hq.transit
        (fun a => by rw [hq.mem]; exact wb_req_kept.kept_same _)
    exact h1.led_unref_task

theorem sum_over_zero (f : wb_request → Int) (mem : Nat → wb_request) (l : List Nat)
    (h : ∀ a ∈ l, f (mem a) = 0) : sum_over f mem l = 0 := by
  unfold sum_over
  apply List.sum_eq_zero
  intro x hx
  obtain ⟨a, ha, rfl⟩ := List.mem_map.1 hx
  exact h a ha

/-- `NEXT_HEAD` without a batch to close: the request opens a batch, which
has not been loaded. -/
theorem wb_ledger_inv.led_open_head {s : wb_state} {rest : List Nat} {req : Nat}
    (h : wb_ledger_inv s [] [] (req :: rest) []) :
    wb_ledger_inv s [] [] rest (wb_batch s.mem req)
    ∧ ∀ a ∈ wb_batch s.mem req, (s.mem a).total_size = 0 := by
  have href := h.ref.ref_open_head
  have hfr := h.ref.fresh req (by simp)
  have h0 : (s.mem req).total_size = 0 := h.zero req (by simp)
  have hb : wb_batch s.mem req = [req] := by
    unfold wb_batch
    rw [hfr]
    rfl
  rw [hb] at href ⊢
  have hmem : ∀ a, a ∈ wb_wind_list s [] rest [req]
      ↔ a ∈ wb_wind_list s [] (req :: rest) [] := by
    intro a
    rw [mem_wind_list, mem_wind_list]
    simp only [List.mem_cons, List.not_mem_nil, false_or, or_false, List.mem_singleton]
    constructor
    · rintro (h1 | h1 | h1 | h1)
      · exact Or.inl h1
      · exact Or.inr (Or.inl (Or.inr h1))
      · exact Or.inr (Or.inl (Or.inl h1))
      · exact Or.inr (Or.inr h1)
    · rintro (h1 | (h1 | h1) | h1)
      · exact Or.inl h1
      · exact Or.inr (Or.inr (Or.inl h1))
      · exact Or.inr (Or.inl h1)
      · exact Or.inr (Or.inr (Or.inr h1))
  refine ⟨h.led_move href rfl rfl (fun _ => wb_req_kept.kept_same _) (fun a ha => (hmem a).1 ha)
    (fun a _ hn hc => absurd ((hmem a).2 hc) hn) (fun a ha => ha) ?_ ?_ h.plain, ?_⟩
  · rw [sum_over_cons, sum_over_nil]
    simp only [h0]
    simp
  · intro a ha
    simp only [List.mem_append, List.mem_cons, List.not_mem_nil, false_or] at ha ⊢
    rcases ha with h1 | h1
    · exact Or.inl h1
    · exact Or.inr (Or.inr h1)
  · intro a ha
    rw [List.mem_singleton.1 ha]
    exact h0

/-- A batch in flight shares no request with the batch being formed or closed. -/
theorem wb_ref_inv.batch_apart {s : wb_state} {U tasks liabilities X : List Nat}
    (h : wb_ref_inv s U tasks liabilities X) {a : Nat} (ha : a ∈ X) :
    ∀ hd ∈ s.inflight, a ∉ wb_batch s.mem hd := by
  intro hd hh hc
  have hnd := h.core.W_nodup
  unfold wb_wind_list at hnd
  have h1 := hnd.of_append_right.of_append_right.of_append_right
  exact (List.nodup_append.1 h1).2.2 ha (List.mem_flatMap.2 ⟨hd, hh, hc⟩)

/-- The request joins the batch being formed: it is linked on the head. -/
theorem wb_ledger_inv.led_member_add {s : wb_state} {rest : List Nat} {hd req : Nat}
    (h : wb_ledger_inv s [] [] (req :: rest) (wb_batch s.mem hd))
    (hX : ∀ a ∈ wb_batch s.mem hd, (s.mem a).total_size = 0) :
    wb_ledger_inv { s with mem := (mem_set s.mem hd
        { s.mem hd with winds := (s.mem hd).winds ++ [req] }) } [] [] rest
      (wb_batch (mem_set s.mem hd { s.mem hd with winds := (s.mem hd).winds ++ [req] }) hd)
    ∧ ∀ a ∈ wb_batch (mem_set s.mem hd { s.mem hd with winds := (s.mem hd).winds ++ [req] }) hd,
        (mem_set s.mem hd { s.mem hd with winds := (s.mem hd).winds ++ [req] } a).total_size
          = 0 := by
  have href := h.ref.ref_member_add
  obtain ⟨_, hnF, hne⟩ := h.ref.head_apart
  have h0 : (s.mem req).total_size = 0 := h.zero req (by simp)
  have hb : wb_batch (mem_set s.mem hd { s.mem hd with winds := (s.mem hd).winds ++ [req] }) hd
      = (s.mem hd).winds ++ [req] ++ [hd] := by
    unfold wb_batch
    rw [mem_set_eq]
  have hk : ∀ a, (mem_set s.mem hd { s.mem hd with winds := (s.mem hd).winds ++ [req] }
        a).total_size = (s.mem a).total_size
      ∧ (mem_set s.mem hd { s.mem hd with winds := (s.mem hd).winds ++ [req] }
        a).write_size = (s.mem a).write_size
      ∧ (mem_set s.mem hd { s.mem hd with winds := (s.mem hd).winds ++ [req] }
        a).ordering = (s.mem a).ordering
      ∧ (a ≠ hd → (mem_set s.mem hd { s.mem hd with winds := (s.mem hd).winds ++ [req] }
        a).winds = (s.mem a).winds) := by
    intro a
    by_cases hax : a = hd
    · subst hax
      rw [mem_set_eq]
      exact ⟨rfl, rfl, rfl, fun e => absurd rfl e⟩
    · rw [mem_set_ne _ _ _ _ hax]
      exact ⟨rfl, rfl, rfl, fun _ => rfl⟩
  have hts : ∀ (l : List Nat), sum_over (fun r => (r.total_size : Int))
      (mem_set s.mem hd { s.mem hd with winds := (s.mem hd).winds ++ [req] }) l
      = sum_over (fun r => (r.total_size : Int)) s.mem l := fun l =>
    sum_over_congr _ _ _ _ (fun a _ => by rw [(hk a).1])
  have hws : ∀ (l : List Nat), sum_over (fun r => (r.write_size : Int))
      (mem_set s.mem hd { s.mem hd with winds := (s.mem hd).winds ++ [req] }) l
      = sum_over (fun r => (r.write_size : Int)) s.mem l := fun l =>
    sum_over_congr _ _ _ _ (fun a _ => by rw [(hk a).2.1])
  have hbF : ∀ h1 ∈ s.inflight,
      wb_batch (mem_set s.mem hd { s.mem hd with winds := (s.mem hd).winds ++ [req] }) h1
        = wb_batch s.mem h1 := by
    intro h1 hh
    have hax : h1 ≠ hd := fun e => hnF (e ▸ hh)
    unfold wb_batch
    rw [(hk h1).2.2.2 hax]
  have hmem : ∀ a, a ∈ wb_wind_list { s with mem := (mem_set s.mem hd
        { s.mem hd with winds := (s.mem hd).winds ++ [req] }) } [] rest
        ((s.mem hd).winds ++ [req] ++ [hd])
      ↔ a ∈ wb_wind_list s [] (req :: rest) (wb_batch s.mem hd) := by
    intro a
    unfold wb_wind_list
    rw [flatMap_congr_mem _ _ _ hbF]
    unfold wb_batch
    simp only [List.mem_append, List.mem_cons, List.mem_singleton, List.not_mem_nil, false_or,
      or_false]
    constructor
    · rintro (h1 | h1 | ((h1 | h1) | h1) | h1)
      · exact Or.inl h1
      · exact Or.inr (Or.inl (Or.inr h1))
      · exact Or.inr (Or.inr (Or.inl (Or.inl h1)))
      · exact Or.inr (Or.inl (Or.inl h1))
      · exact Or.inr (Or.inr (Or.inl (Or.inr h1)))
      · exact Or.inr (Or.inr (Or.inr h1))
    · rintro (h1 | (h1 | h1) | (h1 | h1) | h1)
      · exact Or.inl h1
      · exact Or.inr (Or.inr (Or.inl (Or.inl (Or.inr h1))))
      · exact Or.inr (Or.inl h1)
      · exact Or.inr (Or.inr (Or.inl (Or.inl (Or.inl h1))))
      · exact Or.inr (Or.inr (Or.inl (Or.inr h1)))
      · exact Or.inr (Or.inr (Or.inr h1))
  have hXz : ∀ a ∈ (s.mem hd).winds ++ [req] ++ [hd], (s.mem a).total_size = 0 := by
    intro a ha
    simp only [List.mem_append, List.mem_singleton] at ha
    rcases ha with (h1 | h1) | h1
    · exact hX a (by unfold wb_batch; exact List.mem_append_left _ h1)
    · rw [h1]
      exact h0
    · rw [h1]
      exact hX hd (wb_batch_head_mem _ _)
  rw [hb] at href ⊢
  refine ⟨⟨href, ?_, ?_, ?_, ?_, ?_, ?_, ?_, ?_⟩, ?_⟩
  · have e1 : sum_over (fun r => (r.total_size : Int)) s.mem (wb_batch s.mem hd) = 0 :=
      sum_over_zero _ _ _ (fun a ha => by
        show ((s.mem a).total_size : Int) = 0
        rw [hX a ha]
        rfl)
    have e2 : sum_over (fun r => (r.total_size : Int)) s.mem
        ((s.mem hd).winds ++ [req] ++ [hd]) = 0 :=
      sum_over_zero _ _ _ (fun a ha => by
        show ((s.mem a).total_size : Int) = 0
        rw [hXz a ha]
        rfl)
    show s.inode.transit = sum_over _ _ s.inflight + sum_over _ _ _
    rw [hts, hts, h.transit, e1, e2]
  · intro a ha
    show (mem_set s.mem hd _ a).total_size = 0
    rw [(hk a).1]
    apply h.zero a
    simp only [List.mem_append, List.mem_cons, List.not_mem_nil, false_or] at ha ⊢
    rcases ha with h1 | h1
    · exact Or.inl h1
    · exact Or.inr (Or.inr h1)
  · intro h1 hh m hm
    have hax : h1 ≠ hd := fun e => hnF (e ▸ hh)
    have hm1 : m ∈ (mem_set s.mem hd { s.mem hd with winds := (s.mem hd).winds ++ [req] }
        h1).winds := hm
    rw [(hk h1).2.2.2 hax] at hm1
    show (mem_set s.mem hd _ m).total_size = 0
    rw [(hk m).1]
    exact h.members h1 hh m hm1
  · intro h1 hh
    show ((mem_set s.mem hd _ h1).total_size : Int) = sum_over _ (mem_set s.mem hd _)
      (wb_batch (mem_set s.mem hd _) h1)
    rw [(hk h1).1, hbF h1 hh, hws]
    exact h.batch h1 hh
  · intro a ha
    show (mem_set s.mem hd _ a).ordering.fulfilled = false
    rw [(hk a).2.2.1]
    exact h.unful a ((hmem a).1 ha)
  · intro a ha hn
    show (mem_set s.mem hd _ a).ordering.fulfilled = true
    rw [(hk a).2.2.1]
    exact h.ful a ha (fun hc => hn ((hmem a).2 hc))
  · intro a ha
    show (mem_set s.mem hd _ a).ordering.tempted = true
    rw [(hk a).2.2.1]
    exact h.tempted a ha
  · intro a ha
    cases ha
  · intro a ha
    rw [(hk a).1]
    exact hXz a ha


theorem wb_call_payload_cast (s : wb_state) (hd : Nat) :
    ((wb_call_payload (s, hd) : Nat) : Int)
      = sum_over (fun r => (r.write_size : Int)) s.mem (wb_batch s.mem hd) := by
  unfold wb_call_payload wb_call_batch wb_batch
  rw [sum_write_size_cast]
  exact sum_over_perm _ _ (List.perm_append_singleton _ _).symm

/-- A formed batch that has not been loaded goes in flight. -/
theorem wb_ledger_inv.led_launch {s : wb_state} {liabilities : List Nat} {hd : Nat}
    (env : wb_env) (h : wb_ledger_inv s [] [] liabilities (wb_batch s.mem hd))
    (hX : ∀ a ∈ wb_batch s.mem hd, (s.mem a).total_size = 0)
    (hcf : env.create_frame hd = true) :
    wb_ledger_inv (wb_fulfill_head env s hd) [] [] liabilities [] := by
  have href := h.ref.ref_fulfill_head env
  obtain ⟨hnw, hnF, hne⟩ := h.ref.head_apart
  have h0 : (s.mem hd).total_size = 0 := hX hd (wb_batch_head_mem _ _)
  rw [wb_fulfill_head_spec env s hd hcf h0] at href ⊢
  have hk : ∀ a, (mem_set s.mem hd { s.mem hd with total_size := wb_call_payload (s, hd) }
        a).write_size = (s.mem a).write_size
      ∧ (mem_set s.mem hd { s.mem hd with total_size := wb_call_payload (s, hd) }
        a).winds = (s.mem a).winds
      ∧ (mem_set s.mem hd { s.mem hd with total_size := wb_call_payload (s, hd) }
        a).ordering = (s.mem a).ordering
      ∧ (a ≠ hd → (mem_set s.mem hd { s.mem hd with total_size := wb_call_payload (s, hd) }
        a).total_size = (s.mem a).total_size) := by
    intro a
    by_cases hax : a = hd
    · subst hax
      rw [mem_set_eq]
      exact ⟨rfl, rfl, rfl, fun e => absurd rfl e⟩
    · rw [mem_set_ne _ _ _ _ hax]
      exact ⟨rfl, rfl, rfl, fun _ => rfl⟩
  have hws : ∀ (l : List Nat), sum_over (fun r => (r.write_size : Int))
      (mem_set s.mem hd { s.mem hd with total_size := wb_call_payload (s, hd) }) l
      = sum_over (fun r => (r.write_size : Int)) s.mem l := fun l =>
    sum_over_congr _ _ _ _ (fun a _ => by rw [(hk a).1])
  have hbc : wb_batch (mem_set s.mem hd { s.mem hd with total_size := wb_call_payload (s, hd) })
      = wb_batch s.mem := wb_batch_congr _ _ (fun a => (hk a).2.1)
  have hmem : ∀ a, a ∈ wb_wind_list
      { s with
        mem := (mem_set s.mem hd { s.mem hd with total_size := wb_call_payload (s, hd) })
        inode := { s.inode with transit := s.inode.transit + wb_call_payload (s, hd) }
        inflight := s.inflight ++ [hd]
        out := s.out ++ [wb_event.wind_writev hd (s.mem hd).fd (wb_call_vector (s, hd))
          (s.mem hd).stub.off (s.mem hd).stub.flags] } [] liabilities []
      ↔ a ∈ wb_wind_list s [] liabilities (wb_batch s.mem hd) := by
    intro a
    unfold wb_wind_list
    simp only [hbc, List.flatMap_append, List.flatMap_cons, List.flatMap_nil, List.append_nil,
      List.nil_append, List.mem_append]
    constructor
    · rintro (h1 | h1 | h1 | h1)
      · exact Or.inl h1
      · exact Or.inr (Or.inl h1)
      · exact Or.inr (Or.inr (Or.inr h1))
      · exact Or.inr (Or.inr (Or.inl h1))
    · rintro (h1 | h1 | h1 | h1)
      · exact Or.inl h1
      · exact Or.inr (Or.inl h1)
      · exact Or.inr (Or.inr (Or.inr h1))
      · exact Or.inr (Or.inr (Or.inl h1))
  have eX : sum_over (fun r => (r.total_size : Int)) s.mem (wb_batch s.mem hd) = 0 :=
    sum_over_zero _ _ _ (fun a ha => by
      show ((s.mem a).total_size : Int) = 0
      rw [hX a ha]
      rfl)
  have eF : sum_over (fun r => (r.total_size : Int))
      (mem_set s.mem hd { s.mem hd with total_size := wb_call_payload (s, hd) }) s.inflight
      = sum_over (fun r => (r.total_size : Int)) s.mem s.inflight :=
    sum_over_congr _ _ _ _ (fun a ha => by
      have hax : a ≠ hd := fun e => hnF (e ▸ ha)
      rw [mem_set_ne _ _ _ _ hax])
  refine ⟨href, ?_, ?_, ?_, ?_, ?_, ?_, ?_, ?_⟩
  · show s.inode.transit + (wb_call_payload (s, hd) : Int)
      = sum_over _ (mem_set s.mem hd _) (s.inflight ++ [hd]) + sum_over _ (mem_set s.mem hd _) []
    rw [sum_over_nil, sum_over_append, sum_over_cons, sum_over_nil, mem_set_eq, h.transit, eX,
      eF]
    simp
  · intro a ha
    have hax := hne a ha
    show (mem_set s.mem hd _ a).total_size = 0
    rw [(hk a).2.2.2 hax]
    exact h.zero a ha
  · intro h1 hh m hm
    have hm1 : m ∈ (mem_set s.mem hd { s.mem hd with total_size := wb_call_payload (s, hd) }
        h1).winds := hm
    rw [(hk h1).2.1] at hm1
    have hh1 : h1 ∈ s.inflight ++ [hd] := hh
    show (mem_set s.mem hd _ m).total_size = 0
    rcases List.mem_append.1 hh1 with h2 | h2
    · have hmx : m ≠ hd := by
        intro e
        apply h.ref.batch_apart (wb_batch_head_mem s.mem hd) h1 h2
        unfold wb_batch
        exact List.mem_append_left _ (e ▸ hm1)
      rw [(hk m).2.2.2 hmx]
      exact h.members h1 h2 m hm1
    · rw [List.mem_singleton.1 h2] at hm1
      have hmx : m ≠ hd := fun e => hnw (e ▸ hm1)
      rw [(hk m).2.2.2 hmx]
      exact hX m (by unfold wb_batch; exact List.mem_append_left _ hm1)
  · intro h1 hh
    have hh1 : h1 ∈ s.inflight ++ [hd] := hh
    show ((mem_set s.mem hd _ h1).total_size : Int)
      = sum_over _ (mem_set s.mem hd _) (wb_batch (mem_set s.mem hd _) h1)
    rw [hbc, hws]
    rcases List.mem_append.1 hh1 with h2 | h2
    · have hax : h1 ≠ hd := fun e => hnF (e ▸ h2)
      rw [(hk h1).2.2.2 hax]
      exact h.batch h1 h2
    · rw [List.mem_singleton.1 h2, mem_set_eq]
      exact wb_call_payload_cast s hd
  · intro a ha
    show (mem_set s.mem hd _ a).ordering.fulfilled = false
    rw [(hk a).2.2.1]
    exact h.unful a ((hmem a).1 ha)
  · intro a ha hn
    show (mem_set s.mem hd _ a).ordering.fulfilled = true
    rw [(hk a).2.2.1]
    exact h.ful a ha (fun hc => hn ((hmem a).2 hc))
  · intro a ha
    show (mem_set s.mem hd _ a).ordering.tempted = true
    rw [(hk a).2.2.1]
    exact h.tempted a ha
  · intro a ha
    cases ha

/-- `wb_fulfill_head` on a formed batch that has not been loaded: the batch
goes in flight, or, when the frame cannot be had, each of its requests is
fulfilled without a byte in transit. -/
theorem wb_ledger_inv.led_fulfill_head {s : wb_state} {liabilities : List Nat} {hd : Nat}
    (env : wb_env) (h : wb_ledger_inv s [] [] liabilities (wb_batch s.mem hd))
    (hX : ∀ a ∈ wb_batch s.mem hd, (s.mem a).total_size = 0) :
    wb_ledger_inv (wb_fulfill_head env s hd) [] [] liabilities [] := by
  by_cases hcf : env.create_frame hd = true
  · exact h.led_launch env hX hcf
  · unfold wb_fulfill_head
    rw [if_pos (by simpa using hcf)]
    apply wb_ledger_inv.led_head_done
    unfold wb_inode_err
    exact h.led_frame (h.ref.ref_frame rfl rfl rfl rfl rfl rfl (fun _ => ⟨rfl, rfl⟩))
      rfl rfl rfl rfl (fun _ => wb_req_kept.kept_same _)

theorem wb_ledger_inv.led_fulfill_loop (xl : xlator_t) (env : wb_env) (l : List Nat) :
    ∀ {s : wb_state} {loc : wb_fulfill_locals},
      (loc.head = none → wb_ledger_inv s [] [] l []) →
      (∀ hd, loc.head = some hd → wb_ledger_inv s [] [] l (wb_batch s.mem hd)
        ∧ ∀ a ∈ wb_batch s.mem hd, (s.mem a).total_size = 0) →
      ((wb_fulfill_loop xl env l s loc).2.head = none →
        wb_ledger_inv (wb_fulfill_loop xl env l s loc).1 [] [] [] [])
      ∧ (∀ hd, (wb_fulfill_loop xl env l s loc).2.head = some hd →
        wb_ledger_inv (wb_fulfill_loop xl env l s loc).1 [] [] []
          (wb_batch (wb_fulfill_loop xl env l s loc).1.mem hd)
        ∧ ∀ a ∈ wb_batch (wb_fulfill_loop xl env l s loc).1.mem hd,
            ((wb_fulfill_loop xl env l s loc).1.mem a).total_size = 0) := by
  induction l with
  | nil =>
    intro s loc h1 h2
    exact ⟨h1, h2⟩
  | cons req rest ih =>
    intro s loc h1 h2
    unfold wb_fulfill_loop
    cases hh : loc.head with
    | none =>
      simp only
      have g := (h1 hh).led_open_head
      apply ih
      · intro e
        simp [NEXT_HEAD] at e
      · intro hd e
        simp only [NEXT_HEAD, hh, Option.some.injEq] at e ⊢
        subst e
        exact g
    | some hd0 =>
      simp only
      have g0 := h2 hd0 hh
      split
      · have g1 := g0.1.led_fulfill_head env g0.2
        have g := g1.led_open_head
        apply ih
        · intro e
          simp [NEXT_HEAD] at e
        · intro hd e
          simp only [NEXT_HEAD, hh, Option.some.injEq] at e ⊢
          subst e
          exact g
      · have g := g0.1.led_member_add g0.2
        apply ih
        · intro e
          have e1 : some hd0 = none := e
          cases e1
        · intro hd e
          have e1 : some hd0 = some hd := e
          cases e1
          exact g

/-- `wb_fulfill` on the liabilities picked in a round. -/
theorem wb_ledger_inv.led_fulfill {s : wb_state} {liabilities : List Nat}
    (xl : xlator_t) (env : wb_env) (h : wb_ledger_inv s [] [] liabilities []) :
    wb_ledger_inv (wb_fulfill xl env s liabilities) [] [] [] [] := by
  have g := @wb_ledger_inv.led_fulfill_loop xl env liabilities s
    { head := none, expected_offset := 0, curr_aggregate := 0, vector_count := 0 }
    (fun _ => h) (fun hd e => by cases e)
  unfold wb_fulfill
  simp only
  split
  · rename_i hd e
    exact (g.2 hd e).1.led_fulfill_head env (g.2 hd e).2
  · rename_i e
    exact g.1 e

/-- A round of `wb_process_queue`, whatever the allocation outcomes. -/
theorem wb_ledger_inv.led_process_queue {s : wb_state} (xl : xlator_t) (env : wb_env)
    (h : wb_ledger_inv s [] [] [] []) :
    wb_ledger_inv (wb_process_queue xl env s) [] [] [] [] := by
  unfold wb_process_queue wb_process_queue_locked
  simp only
  apply wb_ledger_inv.led_fulfill xl env
  apply wb_ledger_inv.led_do_winds
  apply wb_ledger_inv.led_do_unwinds
  apply wb_ledger_inv.led_pick_unwinds
  apply wb_ledger_inv.led_pick_winds
  exact h.led_preprocess xl env

/-- Taking a batch out of flight, as `wb_fulfill_cbk` does on entry. -/
theorem wb_ledger_inv.led_take_batch {s : wb_state} {head : Nat}
    (h : wb_ledger_inv s [] [] [] []) (hh : head ∈ s.inflight) :
    wb_ledger_inv { s with inflight := list_del head s.inflight } [] [] []
      (wb_batch s.mem head) := by
  have href := h.ref.ref_take_batch hh
  have hnd := h.ref.ref_inflight_nodup
  have hmem : ∀ a, a ∈ wb_wind_list { s with inflight := list_del head s.inflight } [] []
      (wb_batch s.mem head) ↔ a ∈ wb_wind_list s [] [] [] := by
    intro a
    rw [mem_wind_list, mem_wind_list]
    show (_ ∨ _ ∨ _ ∨ _ ∨ ∃ h1 ∈ list_del head s.inflight, _) ↔ _
    simp only [List.not_mem_nil, false_or, mem_list_del_iff]
    unfold wb_batch
    simp only [List.mem_append, List.mem_singleton]
    constructor
    · rintro (h1 | h1 | ⟨h2, h3, h4⟩)
      · exact Or.inl h1
      · exact Or.inr ⟨head, hh, h1⟩
      · exact Or.inr ⟨h2, h3.1, h4⟩
    · rintro (h1 | ⟨h2, h3, h4⟩)
      · exact Or.inl h1
      · by_cases e : h2 = head
        · subst e
          exact Or.inr (Or.inl h4)
        · exact Or.inr (Or.inr ⟨h2, ⟨h3, e⟩, h4⟩)
  refine ⟨href, ?_, h.zero, ?_, ?_, ?_, ?_, h.tempted, h.plain⟩
  · show s.inode.transit = sum_over _ s.mem (list_del head s.inflight)
      + sum_over _ s.mem (wb_batch s.mem head)
    have e1 : sum_over (fun r => (r.total_size : Int)) s.mem (s.mem head).winds = 0 :=
      sum_over_zero _ _ _ (fun a ha => by
        show ((s.mem a).total_size : Int) = 0
        rw [h.members head hh a ha]
        rfl)
    rw [h.transit, sum_over_nil, sum_over_list_del _ _ _ _ hnd hh]
    unfold wb_batch
    rw [sum_over_append, e1, sum_over_cons, sum_over_nil]
    ring
  · intro h1 hh1 m hm
    exact h.members h1 ((mem_list_del_iff _ _ _).1 hh1).1 m hm
  · intro h1 hh1
    exact h.batch h1 ((mem_list_del_iff _ _ _).1 hh1).1
  · intro a ha
    exact h.unful a ((hmem a).1 ha)
  · intro a ha hn
    exact h.ful a ha (fun hc => hn ((hmem a).2 hc))

/-- The completion of a batch in flight, whatever its outcome. -/
theorem wb_ledger_inv.led_fulfill_cbk {s : wb_state} (xl : xlator_t) (env : wb_env)
    (h : wb_ledger_inv s [] [] [] []) (head : Nat) (hh : head ∈ s.inflight)
    (op_ret op_errno : Int) :
    wb_ledger_inv (wb_fulfill_cbk xl env s head op_ret op_errno) [] [] [] [] := by
  unfold wb_fulfill_cbk
  simp only
  apply wb_ledger_inv.led_process_queue xl env
  have h1 := h.led_take_batch hh
  have key : ∀ (s1 : wb_state), s1.ctx = s.ctx → s1.inode.all = s.inode.all →
      s1.inode.todo = s.inode.todo → s1.inode.temptation = s.inode.temptation →
      s1.next = s.next → s1.inflight = list_del head s.inflight → s1.mem = s.mem →
      s1.inode.transit = s.inode.transit →
      wb_ledger_inv (wb_head_done s1 head) [] [] [] [] := by
    intro s1 e1 e2 e3 e4 e5 e6 e7 e8
    apply wb_ledger_inv.led_head_done
    rw [e7]
    exact h1.led_frame
      (h1.ref.ref_frame e1 e2 e3 e4 e5 e6 (fun a => by rw [e7]; exact ⟨rfl, rfl⟩))
      e3 e4 e6 e8 (fun a => by rw [e7]; exact wb_req_kept.kept_same _)
  split
  · exact key _ rfl rfl rfl rfl rfl rfl rfl rfl
  · split
    · exact key _ rfl rfl rfl rfl rfl rfl rfl rfl
    · exact key _ rfl rfl rfl rfl rfl rfl rfl rfl

/-- A new request is attached at the fresh address `s.next`, as
`wb_enqueue_common` does. -/
theorem wb_ledger_inv.led_attach {s : wb_state} (h : wb_ledger_inv s [] [] [] [])
    (r : wb_request) (t : Bool) (hr1 : r.refcount = if t then 2 else 1) (hr2 : r.winds = [])
    (hr3 : r.total_size = 0) (hr4 : r.ordering.fulfilled = false)
    (hr5 : r.ordering.tempted = t) :
    wb_ledger_inv { s with
      next := s.next + 1
      mem := mem_set s.mem s.next r
      inode := { s.inode with
        all := s.inode.all ++ [s.next]
        todo := s.inode.todo ++ [s.next]
        temptation := if t then s.inode.temptation ++ [s.next] else s.inode.temptation } }
      [] [] [] [] := by
  have href := h.ref.ref_attach r t hr1 hr2
  have hnA : s.next ∉ s.inode.all := fun hc => Nat.lt_irrefl _ (h.ref.core.all_lt _ hc)
  have hnW : s.next ∉ wb_wind_list s [] [] [] := fun hc =>
    hnA ((h.ref.core.all_iff _).2 (Or.inl hc))
  have hnT : s.next ∉ s.inode.temptation ++ [] := fun hc =>
    hnA ((h.ref.core.all_iff _).2 (Or.inr hc))
  have hnF : ∀ h1 ∈ s.inflight, h1 ≠ s.next ∧ ∀ m ∈ wb_batch s.mem h1, m ≠ s.next := by
    intro h1 hh
    have key : ∀ m ∈ wb_batch s.mem h1, m ≠ s.next := by
      intro m hm e
      apply hnW
      rw [← e]
      unfold wb_wind_list
      simp only [List.nil_append, List.mem_append]
      exact Or.inr (List.mem_flatMap.2 ⟨h1, hh, hm⟩)
    exact ⟨key h1 (wb_batch_head_mem _ _), key⟩
  have hbF : ∀ h1 ∈ s.inflight, wb_batch (mem_set s.mem s.next r) h1 = wb_batch s.mem h1 := by
    intro h1 hh
    unfold wb_batch
    rw [mem_set_ne _ _ _ _ (hnF h1 hh).1]
  have hmem : ∀ a, a ∈ wb_wind_list { s with
        next := s.next + 1
        mem := mem_set s.mem s.next r
        inode := { s.inode with
          all := s.inode.all ++ [s.next]
          todo := s.inode.todo ++ [s.next]
          temptation := if t then s.inode.temptation ++ [s.next] else s.inode.temptation } }
        [] [] []
      ↔ a = s.next ∨ a ∈ wb_wind_list s [] [] [] := by
    intro a
    unfold wb_wind_list
    show a ∈ (s.inode.todo ++ [s.next]) ++ ([] ++ ([] ++ ([] ++ s.inflight.flatMap
      (wb_batch (mem_set s.mem s.next r))))) ↔ _
    rw [flatMap_congr_mem _ _ _ hbF]
    simp only [List.nil_append, List.mem_append, List.mem_singleton]
    constructor
    · rintro ((h1 | h1) | h1)
      · exact Or.inr (Or.inl h1)
      · exact Or.inl h1
      · exact Or.inr (Or.inr h1)
    · rintro (h1 | h1 | h1)
      · exact Or.inl (Or.inr h1)
      · exact Or.inl (Or.inl h1)
      · exact Or.inr h1
  have hT : ∀ a, a ∈ (if t then s.inode.temptation ++ [s.next] else s.inode.temptation) ++ [] →
      (a = s.next ∧ t = true) ∨ (a ≠ s.next ∧ a ∈ s.inode.temptation ++ []) := by
    intro a ha
    by_cases hax : a = s.next
    · left
      refine ⟨hax, ?_⟩
      cases t
      · simp only [Bool.false_eq_true, if_false] at ha
        rw [hax] at ha
        exact absurd ha hnT
      · rfl
    · right
      refine ⟨hax, ?_⟩
      cases t
      · simpa using ha
      · simp only [if_true, List.append_nil, List.mem_append, List.mem_singleton] at ha ⊢
        exact ha.resolve_right hax
  refine ⟨href, ?_, ?_, ?_, ?_, ?_, ?_, ?_, ?_⟩
  · show s.inode.transit = sum_over _ (mem_set s.mem s.next r) s.inflight
      + sum_over _ (mem_set s.mem s.next r) []
    rw [sum_over_nil, h.transit, sum_over_nil]
    congr 1
    symm
    apply sum_over_congr
    intro a ha
    rw [mem_set_ne _ _ _ _ (hnF a ha).1]
  · intro a ha
    show (mem_set s.mem s.next r a).total_size = 0
    by_cases hax : a = s.next
    · rw [hax, mem_set_eq]
      exact hr3
    · rw [mem_set_ne _ _ _ _ hax]
      apply h.zero a
      simp only [List.nil_append, List.append_nil, List.mem_append, List.mem_singleton] at ha ⊢
      exact ha.resolve_right hax
  · intro h1 hh m hm
    have hh1 : h1 ∈ s.inflight := hh
    have hm1 : m ∈ (mem_set s.mem s.next r h1).winds := hm
    rw [mem_set_ne _ _ _ _ (hnF h1 hh1).1] at hm1
    show (mem_set s.mem s.next r m).total_size = 0
    rw [mem_set_ne _ _ _ _ ((hnF h1 hh1).2 m (by unfold wb_batch; exact List.mem_append_left _ hm1))]
    exact h.members h1 hh1 m hm1
  · intro h1 hh
    have hh1 : h1 ∈ s.inflight := hh
    show ((mem_set s.mem s.next r h1).total_size : Int)
      = sum_over _ (mem_set s.mem s.next r) (wb_batch (mem_set s.mem s.next r) h1)
    rw [hbF h1 hh1, mem_set_ne _ _ _ _ (hnF h1 hh1).1, h.batch h1 hh1]
    symm
    apply sum_over_congr
    intro a ha
    rw [mem_set_ne _ _ _ _ ((hnF h1 hh1).2 a ha)]
  · intro a ha
    show (mem_set s.mem s.next r a).ordering.fulfilled = false
    rcases (hmem a).1 ha with h1 | h1
    · rw [h1, mem_set_eq]
      exact hr4
    · have hax : a ≠ s.next := fun e => hnW (e ▸ h1)
      rw [mem_set_ne _ _ _ _ hax]
      exact h.unful a h1
  · intro a ha hn
    show (mem_set s.mem s.next r a).ordering.fulfilled = true
    rcases hT a ha with ⟨h1, _⟩ | ⟨h1, h2⟩
    · exact absurd ((hmem a).2 (Or.inl h1)) hn
    · rw [mem_set_ne _ _ _ _ h1]
      exact h.ful a h2 (fun hc => hn ((hmem a).2 (Or.inr hc)))
  · intro a ha
    show (mem_set s.mem s.next r a).ordering.tempted = true
    rcases hT a ha with ⟨h1, h2⟩ | ⟨h1, h2⟩
    · rw [h1, mem_set_eq, hr5, h2]
    · rw [mem_set_ne _ _ _ _ h1]
      exact h.tempted a h2
  · intro a ha
    cases ha

theorem wb_ledger_inv.led_enqueue {s : wb_state} (h : wb_ledger_inv s [] [] [] [])
    (env : wb_env) (stub : call_stub_t) (tempted : Bool) :
    wb_ledger_inv (wb_enqueue_common env s stub tempted).1 [] [] [] [] := by
  by_cases hc : env.request_calloc = true
  · rw [wb_enqueue_common_eq env s stub tempted hc]
    have hf := wb_request_init_fields stub tempted
    exact h.led_attach _ tempted rfl hf.2.2.2.1 hf.2.2.1 hf.2.1 hf.1
  · unfold wb_enqueue_common
    simp only [hc, Bool.not_false, if_true]
    exact h

/-- The context `wb_inode_create` builds on an inode for which nothing is in
flight and no request holds a reference. -/
theorem wb_ledger_inv.led_created (xl : xlator_t) (s : wb_state) (hF : s.inflight = [])
    (hr : ∀ a, (s.mem a).refcount = 0) :
    wb_ledger_inv { s with ctx := true, inode := wb_inode_zero xl } [] [] [] [] := by
  have hW : wb_wind_list { s with ctx := true, inode := wb_inode_zero xl } [] [] [] = [] := by
    unfold wb_wind_list
    simp [wb_inode_zero, hF]
  refine ⟨wb_ref_inv.ref_created xl s hF hr, ?_, ?_, ?_, ?_, ?_, ?_, ?_, ?_⟩
  · show (wb_inode_zero xl).transit = sum_over _ s.mem s.inflight + sum_over _ s.mem []
    rw [hF, sum_over_nil]
    rfl
  · intro a ha
    simp [wb_inode_zero] at ha
  · intro h1 hh
    have hh1 : h1 ∈ s.inflight := hh
    rw [hF] at hh1
    cases hh1
  · intro h1 hh
    have hh1 : h1 ∈ s.inflight := hh
    rw [hF] at hh1
    cases hh1
  · intro a ha
    rw [hW] at ha
    cases ha
  · intro a ha
    simp [wb_inode_zero] at ha
  · intro a ha
    simp [wb_inode_zero] at ha
  · intro a ha
    cases ha

theorem wb_ledger_quiet.ledq_inode_create {s s1 : wb_state} (h : wb_ledger_quiet s)
    (xl : xlator_t) (env : wb_env) (hs : wb_inode_create xl env s = some s1) :
    wb_ledger_inv s1 [] [] [] [] := by
  unfold wb_inode_create at hs
  rcases h with h | h
  · rw [if_neg (by simp [h.1])] at hs
    split at hs
    · cases hs
    · cases hs
      exact wb_ledger_inv.led_created xl s h.2.1 h.2.2.2.2.2.1
  · rw [if_pos h.ref.ctx] at hs
    cases hs
    exact h

theorem wb_ledger_quiet.ledq_same {s s1 : wb_state} (h : wb_ledger_quiet s)
    (hs : wb_same_queue s s1) : wb_ledger_quiet s1 := by
  rcases h with h | h
  · left
    rw [hs.ctx, hs.inflight, hs.all, hs.todo, hs.temptation, hs.mem, hs.transit]
    exact h
  · exact Or.inr (h.led_frame
      (h.ref.ref_frame hs.ctx hs.all hs.todo hs.temptation hs.next hs.inflight
        (fun a => by rw [hs.mem]; exact ⟨rfl, rfl⟩))
      hs.todo hs.temptation hs.inflight hs.transit
      (fun a => by rw [hs.mem]; exact wb_req_kept.kept_same _))

theorem wb_ledger_quiet.ledq_unwind {s : wb_state} (h : wb_ledger_quiet s)
    (fop : glusterfs_fop_t) (frame : Nat) (e : Int) :
    wb_ledger_quiet (wb_unwind s fop frame e) :=
  h.ledq_same ⟨rfl, rfl, rfl, rfl, rfl, rfl, rfl, rfl, rfl, rfl, rfl, rfl⟩

theorem wb_ledger_quiet.ledq_queue_if_ctx {s : wb_state} (h : wb_ledger_quiet s)
    (xl : xlator_t) (env : wb_env) (stub : call_stub_t) :
    wb_ledger_quiet (wb_queue_if_ctx xl env s stub) := by
  unfold wb_queue_if_ctx
  split
  · exact h.ledq_same ⟨rfl, rfl, rfl, rfl, rfl, rfl, rfl, rfl, rfl, rfl, rfl, rfl⟩
  · rename_i hctx
    split
    · exact h.ledq_unwind _ _ _
    · have h1 : wb_ledger_inv s [] [] [] [] := by
        rcases h with h | h
        · rw [h.1] at hctx
          exact absurd rfl hctx
        · exact h
      simp only
      split
      · exact wb_ledger_quiet.ledq_unwind (Or.inr (h1.led_enqueue env stub false)) _ _ _
      · exact Or.inr ((h1.led_enqueue env stub false).led_process_queue xl env)

theorem wb_ledger_quiet.ledq_queue_create_ctx {s : wb_state} (h : wb_ledger_quiet s)
    (xl : xlator_t) (env : wb_env) (stub : call_stub_t) :
    wb_ledger_quiet (wb_queue_create_ctx xl env s stub) := by
  unfold wb_queue_create_ctx
  split
  · exact h.ledq_unwind _ _ _
  · rename_i s1 hs
    have h1 := h.ledq_inode_create xl env hs
    split
    · exact wb_ledger_quiet.ledq_unwind (Or.inr h1) _ _ _
    · simp only
      split
      · exact wb_ledger_quiet.ledq_unwind (Or.inr (h1.led_enqueue env stub false)) _ _ _
      · exact Or.inr ((h1.led_enqueue env stub false).led_process_queue xl env)

theorem wb_ledger_quiet.ledq_writev {s : wb_state} (h : wb_ledger_quiet s) (xl : xlator_t)
    (env : wb_env) (frame lk_owner : Nat) (fd : fd_t)
    (vector : List iovec) (offset : Int) (flags : Nat) :
    wb_ledger_quiet (wb_writev xl env s frame lk_owner fd vector offset flags) := by
  unfold wb_writev
  split
  · exact h.ledq_unwind _ _ _
  · rename_i s1 hs
    have h1 := h.ledq_inode_create xl env hs
    have h2 : wb_ledger_inv { s1 with inode := { s1.inode with op_ret := 0 } } [] [] [] [] :=
      h1.led_frame (h1.ref.ref_frame rfl rfl rfl rfl rfl rfl (fun _ => ⟨rfl, rfl⟩))
        rfl rfl rfl rfl (fun _ => wb_req_kept.kept_same _)
    have hsr : ∀ (d : Bool) (stub : call_stub_t), wb_ledger_inv
        (if d = true then wb_enqueue env { s1 with inode := { s1.inode with op_ret := 0 } } stub
          else wb_enqueue_tempted env
            { s1 with inode := { s1.inode with op_ret := 0 } } stub).1 [] [] [] [] := by
      intro d stub
      split
      · exact h2.led_enqueue env _ false
      · exact h2.led_enqueue env _ true
    simp only
    apply ite_ind wb_ledger_quiet
    · exact wb_ledger_quiet.ledq_unwind (Or.inr h2) _ _ _
    · apply ite_ind wb_ledger_quiet
      · exact wb_ledger_quiet.ledq_unwind (Or.inr h2) _ _ _
      · apply ite_ind wb_ledger_quiet
        · exact wb_ledger_quiet.ledq_unwind (Or.inr (hsr _ _)) _ _ _
        · exact Or.inr ((hsr _ _).led_process_queue xl env)

theorem wb_ledger_quiet.ledq_step {s : wb_state} (h : wb_ledger_quiet s) (xl : xlator_t)
    (env : wb_env) (c : wb_call) (hok : wb_call_ok s c) :
    wb_ledger_quiet (wb_step xl env s c) := by
  cases c with
  | writev frame lk_owner fd vector offset flags => exact h.ledq_writev xl env _ _ _ _ _ _
  | readv frame lk_owner fd size offset flags => exact h.ledq_queue_if_ctx xl env _
  | flush frame lk_owner fd => exact h.ledq_queue_if_ctx xl env _
  | fsync frame lk_owner fd => exact h.ledq_queue_if_ctx xl env _
  | stat frame lk_owner => exact h.ledq_queue_if_ctx xl env _
  | fstat frame lk_owner fd => exact h.ledq_queue_if_ctx xl env _
  | truncate frame lk_owner offset => exact h.ledq_queue_create_ctx xl env _
  | ftruncate frame lk_owner fd offset => exact h.ledq_queue_create_ctx xl env _
  | setattr frame lk_owner => exact h.ledq_queue_if_ctx xl env _
  | fsetattr frame lk_owner fd => exact h.ledq_queue_if_ctx xl env _
  | fulfill_cbk head op_ret op_errno =>
    have hh : head ∈ s.inflight := hok
    rcases h with h | h
    · rw [h.2.1] at hh
      cases hh
    · exact Or.inr (h.led_fulfill_cbk xl env head hh op_ret op_errno)

/-- The ledger holds in every reachable state. -/
theorem wb_ledger_quiet.ledq_reachable (xl : xlator_t) (s : wb_state) (h : Reachable xl s) :
    wb_ledger_quiet s := by
  induction h with
  | init => exact Or.inl ⟨rfl, rfl, rfl, rfl, rfl, fun _ => rfl, rfl⟩
  | step env s c _ hok ih => exact ih.ledq_step xl env c hok


/-- Between calls `transit` is the sum of `total_size` over the batch heads in
flight. -/
theorem wb_ledger_quiet.transit_eq {s : wb_state} (h : wb_ledger_quiet s) :
    s.inode.transit = sum_over (fun r => (r.total_size : Int)) s.mem s.inflight := by
  rcases h with h | h
  · rw [h.2.2.2.2.2.2, h.2.1]
    rfl
  · rw [h.transit, sum_over_nil]
    ring

theorem sum_over_total_nonneg (mem : Nat → wb_request) (l : List Nat) :
    0 ≤ sum_over (fun r => (r.total_size : Int)) mem l := by
  unfold sum_over
  apply List.sum_nonneg
  intro x hx
  obtain ⟨a, _, rfl⟩ := List.mem_map.1 hx
  exact Int.natCast_nonneg _

/-- C35: in every reachable state `transit` is the sum of `total_size` over the
batch heads in flight (submitted by `wb_fulfill_head`, completion not yet
received by `wb_fulfill_cbk`); it is never negative, and it is 0 when no batch
is in flight.  This holds whatever the allocation outcomes and the results of
the writevs were. -/
theorem C35_transit_is_in_flight (xl : xlator_t) (s : wb_state) (h : Reachable xl s) :
    s.inode.transit = sum_over (fun r => (r.total_size : Int)) s.mem s.inflight
    ∧ 0 ≤ s.inode.transit
    ∧ (s.inflight = [] → s.inode.transit = 0) := by
  have e := (wb_ledger_quiet.ledq_reachable xl s h).transit_eq
  refine ⟨e, ?_, ?_⟩
  · rw [e]
    exact sum_over_total_nonneg _ _
  · intro h0
    rw [e, h0]
    rfl

/-- Witness of C35: in `state_read_waiting` the batches of the writes 2 and 3
are in flight with 20 and 4 bytes and `transit` is 24; in `state_noframe`,
reached through a failed frame allocation, only write 1 is in flight and
`transit` is 20; in `state_latched` nothing is in flight and `transit` is 0. -/
theorem C35_transit_is_in_flight_witness :
    Reachable xl_window16 state_read_waiting
    ∧ state_read_waiting.inflight = [2, 3]
    ∧ (state_read_waiting.mem 2).total_size = 20
    ∧ (state_read_waiting.mem 3).total_size = 4
    ∧ state_read_waiting.inode.transit = 24
    ∧ state_read_waiting.inode.transit
        = sum_over (fun r => (r.total_size : Int)) state_read_waiting.mem
            state_read_waiting.inflight
    ∧ Reachable xl_window16 state_noframe
    ∧ state_noframe.inflight = [1]
    ∧ state_noframe.inode.transit
        = sum_over (fun r => (r.total_size : Int)) state_noframe.mem state_noframe.inflight
    ∧ state_noframe.inode.transit = 20
    ∧ Reachable xl_default state_latched
    ∧ state_latched.inflight = []
    ∧ state_latched.inode.transit = 0 :=
  ⟨Reachable.run _ _ _ Reachable.init (by decide!), by decide!, by decide!, by decide!,
    by decide!,
    (C35_transit_is_in_flight xl_window16 state_read_waiting
      (Reachable.run _ _ _ Reachable.init (by decide!))).1,
    Reachable.run _ _ _ Reachable.init (by decide!), by decide!,
    (C35_transit_is_in_flight xl_window16 state_noframe
      (Reachable.run _ _ _ Reachable.init (by decide!))).1,
    by decide!,
    Reachable.run _ _ _ Reachable.init (by decide!), by decide!,
    (C35_transit_is_in_flight xl_default state_latched
      (Reachable.run _ _ _ Reachable.init (by decide!))).2.2 (by decide!)⟩

/-- Between calls every attached request holds its wind reference exactly
while it is not fulfilled, and then it waits on todo or is part of a batch in
flight; it holds its unwind reference exactly while it is on temptation, where
only tempted requests are. -/
theorem wb_ledger_quiet.slots {s : wb_state} (h : wb_ledger_quiet s) (a : Nat)
    (ha : a ∈ s.inode.all) :
    (s.mem a).refcount
      = (if (s.mem a).ordering.fulfilled then 0 else 1)
        + (if a ∈ s.inode.temptation then 1 else 0)
    ∧ ((s.mem a).ordering.fulfilled = false ↔ a ∈ wb_wind_list s [] [] [])
    ∧ (a ∈ s.inode.temptation → (s.mem a).ordering.tempted = true)
    ∧ ((s.mem a).ordering.fulfilled = true → a ∈ s.inode.temptation) := by
  rcases h with h | h
  · rw [h.2.2.1] at ha
    cases ha
  · have hr := h.ref.core.refs a
    have hall := (h.ref.core.all_iff a).1 ha
    rw [List.append_nil] at hr hall
    have hW : (s.mem a).ordering.fulfilled = false ↔ a ∈ wb_wind_list s [] [] [] := by
      constructor
      · intro hf
        by_contra hc
        have hT : a ∈ s.inode.temptation ++ [] := by
          rw [List.append_nil]
          exact hall.resolve_left hc
        rw [h.ful a hT hc] at hf
        cases hf
      · exact h.unful a
    refine ⟨?_, hW, ?_, ?_⟩
    · rw [hr]
      by_cases hw : a ∈ wb_wind_list s [] [] []
      · rw [if_pos hw, hW.2 hw]
        rfl
      · rw [if_neg hw]
        have hf : (s.mem a).ordering.fulfilled = true := by
          cases hq : (s.mem a).ordering.fulfilled
          · exact absurd (hW.1 hq) hw
          · rfl
        rw [hf]
        rfl
    · intro ht
      exact h.tempted a (by rw [List.append_nil]; exact ht)
    · intro hf
      rcases hall with h1 | h1
      · rw [h.unful a h1] at hf
        cases hf
      · exact h1

/-- C37: in every reachable state the reference count of an attached request
is the number of its outstanding slots: 1 for the wind slot while the request
is not fulfilled (it then waits on todo or is part of a batch in flight; a
resumed task is no longer attached), plus 1 for the unwind slot while the
request is on temptation, which only a tempted request whose caller has not
been answered is.  Hence the count of an attached request is 1 or 2, a
fulfilled attached request is still on temptation, and a request is attached
exactly while its count is positive: it is destroyed when both slots are
released. -/
theorem C37_refcount_counts_slots (xl : xlator_t) (s : wb_state) (h : Reachable xl s) (a : Nat) :
    (a ∈ s.inode.all →
      (s.mem a).refcount
        = (if (s.mem a).ordering.fulfilled then 0 else 1)
          + (if a ∈ s.inode.temptation then 1 else 0)
      ∧ ((s.mem a).ordering.fulfilled = false ↔ a ∈ wb_wind_list s [] [] [])
      ∧ (a ∈ s.inode.temptation → (s.mem a).ordering.tempted = true)
      ∧ ((s.mem a).ordering.fulfilled = true → a ∈ s.inode.temptation)
      ∧ (1 ≤ (s.mem a).refcount ∧ (s.mem a).refcount ≤ 2))
    ∧ (a ∉ s.inode.all ↔ (s.mem a).refcount = 0)
    ∧ (a ∈ s.inode.temptation → a ∈ s.inode.all) := by
  have hq := wb_ledger_quiet.ledq_reachable xl s h
  have hc := (wb_ref_quiet.refq_reachable xl s h).on_all_iff a
  refine ⟨fun ha => ?_, ?_, ?_⟩
  · obtain ⟨h1, h2, h3, h4⟩ := hq.slots a ha
    have h5 := hc.1.1 ha
    exact ⟨h1, h2, h3, h4, by omega, hc.2.2⟩
  · rw [hc.1]
    have := hc.2.1
    constructor <;> intro h1 <;> omega
  · intro ht
    rcases hq with h0 | h0
    · rw [h0.2.2.2.2.1] at ht
      cases ht
    · exact (h0.ref.core.all_iff a).2 (Or.inr (List.mem_append_left _ ht))

/-- Witness of C37 on `state_noframe`: write 1 (in flight, answered) holds the
wind slot only, write 2 (fulfilled without a frame, still on temptation) holds
the unwind slot only, write 3 (on todo and on temptation) holds both. -/
theorem C37_refcount_counts_slots_witness :
    Reachable xl_window16 state_noframe
    ∧ state_noframe.inode.all = [1, 2, 3]
    ∧ state_noframe.inode.todo = [3]
    ∧ state_noframe.inode.temptation = [2, 3]
    ∧ state_noframe.inflight = [1]
    ∧ (state_noframe.mem 1).refcount = 1
    ∧ (state_noframe.mem 2).refcount = 1
    ∧ (state_noframe.mem 2).ordering.fulfilled = true
    ∧ (state_noframe.mem 3).refcount = 2
    ∧ (state_noframe.mem 3).refcount
        = (if (state_noframe.mem 3).ordering.fulfilled then 0 else 1)
          + (if 3 ∈ state_noframe.inode.temptation then 1 else 0)
    ∧ (4 ∉ state_noframe.inode.all ↔ (state_noframe.mem 4).refcount = 0) :=
  ⟨Reachable.run _ _ _ Reachable.init (by decide!), by decide!, by decide!, by decide!,
    by decide!, by decide!, by decide!, by decide!, by decide!,
    ((C37_refcount_counts_slots xl_window16 state_noframe
      (Reachable.run _ _ _ Reachable.init (by decide!)) 3).1 (by decide!)).1,
    (C37_refcount_counts_slots xl_window16 state_noframe
      (Reachable.run _ _ _ Reachable.init (by decide!)) 4).2.1⟩

/-! ## The sizes of coalesced writes -/

end WriteBehind
